import Mathlib

/-!
# ntagtool: tag layouts, TLV / NDEF codecs and tag encryption

A shallow embedding of the tag-format model of ntagtool (`TLV.cpp`, `ndef.cpp`,
`TagV0.cpp`, `TagV2.cpp`, `TagEncryption.cpp`, `crypto.cpp`) together with theorems
about it.

Conventions of the embedding:

* a `std::byte` / `std::uint8_t` is a `Byte = Fin 256`; wider machine integers are
  natural numbers, reduced `% 2^w` at every narrowing conversion;
* `std::vector`, `std::span` and `std::array` are lists; an array of fixed size is a
  list together with a length fact where one is needed;
* the stateful stream classes are records that are passed along explicitly, and a
  `while` loop is a recursion on a fuel, started with more fuel than it has iterations;
* a function that returns a `std::optional` or a null pointer returns an `Option`; a
  member function that returns `bool` and writes to the object returns the flag together
  with the new state; an assertion that fails and a read past the end of a vector are
  `none`;
* the mbedtls primitives are parameters (`Primitives`).

The definitions of the program come first, then the predicates and auxiliary functions
the statements and proofs use, then the theorems.
-/

namespace Ntag

/-! ## Bytes and buffers -/

/-- One `std::byte` (equally `std::uint8_t`). -/
abbrev Byte := Fin 256

/-- The conversion `std::uint8_t(n)` of a wider unsigned integer. -/
def u8 (n : Nat) : Byte := ⟨n % 256, Nat.mod_lt _ (by decide)⟩

/-- A vector or array of `n` value-initialised (zero) bytes. -/
def zeros (n : Nat) : List Byte := List.replicate n 0

/-- The `n` elements of `l` starting at `off`: `std::span(l).subspan(off, n)`. -/
def slice {α : Type} (l : List α) (off n : Nat) : List α := (l.drop off).take n

/-- The effect of `std::copy(src.begin(), src.end(), dst.begin() + off)` on `dst`. -/
def copyTo {α : Type} (src : List α) (dst : List α) (off : Nat) : List α :=
  dst.take off ++ src ++ dst.drop (off + src.length)

/-- The effect of `std::copy_n(src.begin() + srcOff, n, dst.begin() + dstOff)` on `dst`. -/
def copy_n {α : Type} (src : List α) (srcOff n : Nat) (dst : List α) (dstOff : Nat) : List α :=
  copyTo (slice src srcOff n) dst dstOff

/-! ## Streams (stream.hpp) -/

/-- Modelled from the spec: the class `SpanStream` of stream.hpp, which is not among the
sources. It is a read cursor over a byte span with a sticky error state: "any read past
the available input" fails. A failed read sets the error, hands back zero bytes and
leaves the position where it was; a read that fits hands back the bytes and advances. -/
structure SpanStream where
  mSpan : List Byte
  mPosition : Nat
  mError : Bool
deriving DecidableEq, Repr

namespace SpanStream

/-- A stream over `data`, positioned at its start, with `GetError() == ERROR_OK`. -/
def new (data : List Byte) : SpanStream := { mSpan := data, mPosition := 0, mError := false }

/-- `GetRemaining()`. -/
def GetRemaining (s : SpanStream) : Nat := s.mSpan.length - s.mPosition

/-- `Read(data)` for a destination of `n` bytes. -/
def Read (s : SpanStream) (n : Nat) : List Byte × SpanStream :=
  if n > s.GetRemaining then (zeros n, { s with mError := true })
  else (slice s.mSpan s.mPosition n, { s with mPosition := s.mPosition + n })

/-- `stream >> byte` for a `std::uint8_t`. -/
def readU8 (s : SpanStream) : Byte × SpanStream :=
  let r := s.Read 1
  (r.1.getD 0 0, r.2)

/-- `stream >> length` for a `std::uint16_t` on a big-endian stream. -/
def readU16 (s : SpanStream) : Nat × SpanStream :=
  let r := s.Read 2
  ((r.1.getD 0 0).val * 256 + (r.1.getD 1 0).val, r.2)

/-- `stream >> len` for a `std::uint32_t` on a big-endian stream. -/
def readU32 (s : SpanStream) : Nat × SpanStream :=
  let r := s.Read 4
  ((r.1.getD 0 0).val * 16777216 + (r.1.getD 1 0).val * 65536 + (r.1.getD 2 0).val * 256
    + (r.1.getD 3 0).val, r.2)

end SpanStream

/-- `stream << std::uint16_t(n)` on a big-endian `VectorStream`: the two bytes appended. -/
def writeU16 (n : Nat) : List Byte := [u8 (n % 65536 / 256), u8 (n % 65536)]

/-- `stream << std::uint32_t(n)` on a big-endian `VectorStream`: the four bytes appended. -/
def writeU32 (n : Nat) : List Byte :=
  [u8 (n % 4294967296 / 16777216), u8 (n % 4294967296 / 65536), u8 (n % 4294967296 / 256),
   u8 (n % 4294967296)]

/-! ## TLV (TLV.cpp) -/

/-- The class `TLV`: a tag (the enumeration `TLV::Tag`, one byte) and a value. -/
structure TLV where
  mTag : Byte
  mValue : List Byte
deriving DecidableEq, Repr

namespace TLV

/-- Modelled from the spec: the enumerators of `TLV::Tag` (TLV.hpp is not among the
sources), with the values the NFC Forum Type 2 Tag specification gives them. -/
def TAG_NULL : Byte := 0x00
/-- Modelled from the spec: an enumerator of `TLV::Tag`, see `TAG_NULL`. -/
def TAG_LOCK_CTRL : Byte := 0x01
/-- Modelled from the spec: an enumerator of `TLV::Tag`, see `TAG_NULL`. -/
def TAG_MEM_CTRL : Byte := 0x02
/-- Modelled from the spec: an enumerator of `TLV::Tag`, see `TAG_NULL`. -/
def TAG_NDEF : Byte := 0x03
/-- Modelled from the spec: an enumerator of `TLV::Tag`, see `TAG_NULL`. -/
def TAG_PROPRIETARY : Byte := 0xFD
/-- Modelled from the spec: an enumerator of `TLV::Tag`, see `TAG_NULL`. -/
def TAG_TERMINATOR : Byte := 0xFE

/-- One iteration of the `while` loop of `TLV::FromBytes`, from the read of the tag up
to (not including) the error check: the new stream, `hasTerminator` and `tlvs`. -/
def FromBytes.body (stream : SpanStream) (hasTerminator : Bool) (tlvs : List TLV) :
    SpanStream × Bool × List TLV :=
  -- Read the tag
  let r := stream.readU8
  let tag := r.1
  let stream := r.2
  if tag = TAG_NULL then
    -- Don't need to do anything for NULL tags
    (stream, hasTerminator, tlvs)
  else if tag = TAG_TERMINATOR then
    (stream, true, tlvs ++ [{ mTag := tag, mValue := [] }])
  else
    -- Read the length
    let r := stream.readU8
    let length := r.1.val
    let stream := r.2
    -- If the length is 0xff, 2 bytes with length follow
    let r := if length = 0xff then stream.readU16 else (length, stream)
    let length := r.1
    let stream := r.2
    let r := stream.Read length
    (r.2, hasTerminator, tlvs ++ [{ mTag := tag, mValue := r.1 }])

/-- The `while` loop of `TLV::FromBytes`; `fuel` bounds the number of iterations. -/
def FromBytes.loop : Nat → SpanStream → Bool → List TLV → List TLV
  | 0, _, _, tlvs => tlvs
  | fuel + 1, stream, hasTerminator, tlvs =>
    if stream.GetRemaining > 0 ∧ hasTerminator = false then
      let r := FromBytes.body stream hasTerminator tlvs
      if r.1.mError then
        -- Clear tlvs to prevent further havoc while parsing ndef data
        []
      else
        FromBytes.loop fuel r.1 r.2.1 r.2.2
    else
      tlvs

/-- `TLV::FromBytes`. Every iteration consumes at least the tag byte, so the loop runs at
most `data.length` times. -/
def FromBytes (data : List Byte) : List TLV :=
  FromBytes.loop (data.length + 1) (SpanStream.new data) false []

/-- `TLV::ToBytes`. -/
def ToBytes (t : TLV) : List Byte :=
  -- Write tag
  let bytes := [t.mTag]
  if t.mTag = TAG_NULL ∨ t.mTag = TAG_TERMINATOR then
    -- Nothing to do here
    bytes
  else
    -- Write length (decide if as a 8-bit or 16-bit value)
    let bytes :=
      if t.mValue.length ≥ 0xff then bytes ++ [u8 0xff] ++ writeU16 t.mValue.length
      else bytes ++ [u8 t.mValue.length]
    -- Write value
    bytes ++ t.mValue

/-- `TLV::SetValue`; the `assert(value.size() < 0x10000)` is the `none` case. -/
def SetValue (t : TLV) (value : List Byte) : Option TLV :=
  if value.length < 0x10000 then some { t with mValue := value } else none

end TLV

namespace TLV

/-- The concatenation of the encodings of a sequence of TLVs, in order, as the loop over
`tlvs` in `TagV0::ToBytes` appends them to the data area. -/
def encodeAll : List TLV → List Byte
  | [] => []
  | t :: ts => ToBytes t ++ encodeAll ts

end TLV

/-! ## NDEF (ndef.cpp) -/

/-- The complement `~b` of a byte, kept to 8 bits. -/
def compl8 (b : Byte) : Byte := 255 - b

namespace ndef

/-- Modelled from the spec: the header flags of `ndef::Record` (ndef.hpp is not among
the sources), with the values the NFC Forum NDEF specification gives them: ID-length
present. -/
def NDEF_IL : Byte := 0x08
/-- Modelled from the spec: header flag, see `NDEF_IL`: short record. -/
def NDEF_SR : Byte := 0x10
/-- Modelled from the spec: header flag, see `NDEF_IL`: chunk. -/
def NDEF_CF : Byte := 0x20
/-- Modelled from the spec: header flag, see `NDEF_IL`: message end. -/
def NDEF_ME : Byte := 0x40
/-- Modelled from the spec: header flag, see `NDEF_IL`: message begin. -/
def NDEF_MB : Byte := 0x80
/-- Modelled from the spec: the type-name-format is the low 3 bits of the header. -/
def NDEF_TNF_MASK : Byte := 0x07
/-- Modelled from the spec: the enumerator `NDEF_TNF_UNKNOWN` of `TypeNameFormat`, with
the value of the NFC Forum NDEF specification. -/
def NDEF_TNF_UNKNOWN : Byte := 0x05

/-- The class `ndef::Record`. -/
structure Record where
  mFlags : Byte
  mTNF : Byte
  mID : List Byte
  mType : List Byte
  mPayload : List Byte
deriving DecidableEq, Repr

namespace Record

/-- `Record::IsLast`. -/
def IsLast (r : Record) : Bool := decide (r.mFlags &&& NDEF_ME ≠ 0)

/-- `Record::IsShort`. -/
def IsShort (r : Record) : Bool := decide (r.mFlags &&& NDEF_SR ≠ 0)

/-- `Record::GetTNF`. -/
def GetTNF (r : Record) : Byte := r.mTNF

/-- `Record::GetPayload`. -/
def GetPayload (r : Record) : List Byte := r.mPayload

/-- `Record::FromStream`: the record, if any, and the stream afterwards. -/
def FromStream (stream : SpanStream) : Option Record × SpanStream :=
  -- Read record header
  let r := stream.readU8
  let recHdr := r.1
  let stream := r.2
  let mFlags := recHdr &&& compl8 NDEF_TNF_MASK
  let mTNF := recHdr &&& NDEF_TNF_MASK
  -- Type length
  let r := stream.readU8
  let typeLen := r.1.val
  let stream := r.2
  -- Payload length
  let r := if recHdr &&& NDEF_SR ≠ 0 then
      let r := stream.readU8
      (r.1.val, r.2)
    else stream.readU32
  let payloadLen := r.1
  let stream := r.2
  -- Some sane limits for the payload size
  if payloadLen > 2 * 1024 * 1024 then
    (none, stream)
  else
    -- ID length
    let r := if recHdr &&& NDEF_IL ≠ 0 then
        let r := stream.readU8
        (r.1.val, r.2)
      else (0, stream)
    let idLen := r.1
    let stream := r.2
    -- Make sure we didn't read past the end of the stream yet
    if stream.mError then
      (none, stream)
    else
      -- Type
      let r := stream.Read typeLen
      let mType := r.1
      let stream := r.2
      -- ID
      let r := stream.Read idLen
      let mID := r.1
      let stream := r.2
      -- Payload
      let r := stream.Read payloadLen
      let mPayload := r.1
      let stream := r.2
      -- Make sure we didn't read past the end of the stream again
      if stream.mError then
        (none, stream)
      else
        (some { mFlags := mFlags, mTNF := mTNF, mID := mID, mType := mType,
                mPayload := mPayload }, stream)

/-- `Record::ToBytes`. -/
def ToBytes (r : Record) (flags : Byte) : List Byte :=
  -- Combine flags (clear message begin and end flags)
  let finalFlags := (r.mFlags &&& compl8 (NDEF_MB ||| NDEF_ME)) ||| flags
  -- Write flags + tnf
  let bytes := [finalFlags ||| r.mTNF]
  -- Type length
  let bytes := bytes ++ [u8 r.mType.length]
  -- Payload length
  let bytes :=
    if r.IsShort then bytes ++ [u8 r.mPayload.length] else bytes ++ writeU32 r.mPayload.length
  -- ID length
  let bytes := if r.mFlags &&& NDEF_IL ≠ 0 then bytes ++ [u8 r.mID.length] else bytes
  -- Type, ID, Payload
  bytes ++ r.mType ++ r.mID ++ r.mPayload

/-- `Record::SetPayload`. -/
def SetPayload (r : Record) (payload : List Byte) : Record :=
  -- Update short record flag
  let mFlags :=
    if payload.length < 0xff then r.mFlags ||| NDEF_SR else r.mFlags &&& compl8 NDEF_SR
  { r with mFlags := mFlags, mPayload := payload }

/-- `Record::SetID`; the `assert(id.size() < 0x100)` is the `none` case. -/
def SetID (r : Record) (id : List Byte) : Option Record :=
  if id.length < 0x100 then
    let mFlags := if id.length > 0 then r.mFlags ||| NDEF_IL else r.mFlags &&& compl8 NDEF_IL
    some { r with mFlags := mFlags, mID := id }
  else none

end Record

/-- The class `ndef::Message`: its records. -/
structure Message where
  mRecords : List Record
deriving DecidableEq, Repr

namespace Message

/-- The `while` loop of `Message::FromBytes`: the records collected when it ends;
`fuel` bounds the number of iterations. -/
def FromBytes.loop : Nat → SpanStream → List Record → List Record
  | 0, _, recs => recs
  | fuel + 1, stream, recs =>
    if stream.GetRemaining > 0 then
      let r := Record.FromStream stream
      match r.1 with
      | none => recs
      | some rec =>
        let recs := recs ++ [rec]
        if rec.IsLast ∧ r.2.GetRemaining > 0 then recs
        else FromBytes.loop fuel r.2 recs
    else recs

/-- `Message::FromBytes`. Every record read consumes at least its header byte, so the
loop runs at most `data.length` times. -/
def FromBytes (data : List Byte) : Option Message :=
  let recs := FromBytes.loop (data.length + 1) (SpanStream.new data) []
  match recs.getLast? with
  | none => none
  | some last => if ¬ last.IsLast then none else some { mRecords := recs }

/-- The loop of `Message::ToBytes` from index `i` on, for a message of `n` records. -/
def ToBytes.go (n : Nat) : Nat → List Record → List Byte
  | _, [] => []
  | i, r :: rs =>
    -- Add message begin flag to first record
    let flags : Byte := if i = 0 then NDEF_MB else 0
    -- Add message end flag to last record
    let flags : Byte := if i = n - 1 then flags ||| NDEF_ME else flags
    r.ToBytes flags ++ ToBytes.go n (i + 1) rs

/-- `Message::ToBytes`. -/
def ToBytes (m : Message) : List Byte := ToBytes.go m.mRecords.length 0 m.mRecords

end Message

end ndef

/-! ## Tag (Tag.hpp / Tag.cpp) -/

/-- The data members of the abstract base class `Tag`: the is-ciphertext flag and the
540-byte canonical buffer. -/
structure Tag where
  mIsEncrypted : Bool
  mData : List Byte
deriving DecidableEq, Repr

/-- The constructor `Tag::Tag() : mData()`: the buffer is zero-initialised. The source
leaves `mIsEncrypted` unset until `SetEncrypted` is called; it is `false` here. -/
def Tag.new : Tag := { mIsEncrypted := false, mData := zeros 540 }

/-- `Tag::IsEncrypted`. -/
def Tag.IsEncrypted (t : Tag) : Bool := t.mIsEncrypted

/-- `Tag::SetEncrypted`. -/
def Tag.SetEncrypted (t : Tag) (encrypted : Bool) : Tag := { t with mIsEncrypted := encrypted }

/-- `Tag::GetData(offset, count)`. -/
def Tag.GetData (t : Tag) (offset count : Nat) : List Byte := slice t.mData offset count

/-- The eleven virtual layout accessors of `Tag`, as one record of their results. -/
structure Layout where
  GetVersion : Nat
  GetDataSize : Nat
  GetSeedOffset : Nat
  GetKeyGenSaltOffset : Nat
  GetUidOffset : Nat
  GetUnfixedInfosOffset : Nat
  GetUnfixedInfosSize : Nat
  GetLockedSecretOffset : Nat
  GetLockedSecretSize : Nat
  GetUnfixedInfosHmacOffset : Nat
  GetLockedSecretHmacOffset : Nat
deriving DecidableEq, Repr

/-! ## TagV0 (TagV0.cpp) -/

/-- An 8-byte block, `TagV0::Block`. -/
abbrev Block := List Byte

/-- A `std::map<std::uint8_t, Block>`: the block stored under each key, if any. A
range-for over the map visits the keys in ascending order. -/
abbrev BlockMap := Nat → Option Block

namespace BlockMap

/-- The empty map. -/
def empty : BlockMap := fun _ => none

/-- `map.emplace(key, value)`: inserts unless the key is already there. -/
def emplace (m : BlockMap) (key : Nat) (value : Block) : BlockMap :=
  fun k => if k = key then (match m key with | some v => some v | none => some value) else m k

/-- `map.contains(key)`. -/
def contains (m : BlockMap) (key : Nat) : Bool := (m key).isSome

/-- The entries of the map in the order a range-for visits them (keys are
`std::uint8_t`, so below 256). -/
def entries (m : BlockMap) : List (Nat × Block) :=
  (List.range 256).filterMap fun k => (m k).map fun v => (k, v)

end BlockMap

/-- The class `TagV0`. -/
structure TagV0 extends Tag where
  mLockedOrReservedBlocks : BlockMap
  mLockedBlocks : BlockMap
  mCapabilityContainer : List Byte
  mTLVs : List TLV
  mNdefMessage : ndef.Message

namespace TagV0

def kTagSize : Nat := 512
/-- `kTagSize / sizeof(TagV0::Block)`. -/
def kMaxBlockCount : Nat := kTagSize / 8

def kLockbyteBlock0 : Nat := 0xe
def kLockbytesStart0 : Nat := 0x0
def kLockbytesEnd0 : Nat := 0x2
def kLockbyteBlock1 : Nat := 0xf
def kLockbytesStart1 : Nat := 0x2
def kLockbytesEnd1 : Nat := 0x8

def kNDEFMagicNumber : Byte := 0xe1

/-- The overrides of the layout accessors in `TagV0`. -/
def layout : Layout where
  GetVersion := 0
  GetDataSize := 0x1c8
  GetSeedOffset := 0x25
  GetKeyGenSaltOffset := 0x1a8
  GetUidOffset := 0x198
  GetUnfixedInfosOffset := 0x28
  GetUnfixedInfosSize := 0x120
  GetLockedSecretOffset := 0x168
  GetLockedSecretSize := 0x30
  GetUnfixedInfosHmacOffset := 0x0
  GetLockedSecretHmacOffset := 0x148

/-- These blocks are not put into the locked area by the nfc.rpl: block 0 is the UID,
block 0xd is reserved, blocks 0xe and 0xf contain lock / reserved bytes. -/
def IsBlockLockedOrReserved (blockIdx : Nat) : Bool :=
  if blockIdx = 0x0 then true
  else if blockIdx = 0xd then true
  else if blockIdx = 0xe ∨ blockIdx = 0xf then true
  else false

/-- The constructor `TagV0::TagV0()`: empty maps and containers, a zero canonical
buffer. -/
def new : TagV0 :=
  { toTag := Tag.new, mLockedOrReservedBlocks := BlockMap.empty, mLockedBlocks := BlockMap.empty,
    mCapabilityContainer := zeros 4, mTLVs := [], mNdefMessage := { mRecords := [] } }

/-- The state of the loops of `TagV0::ParseLockedArea`: the block counter and the tag
with its two maps. -/
structure LockScan where
  currentBlock : Nat
  tag : TagV0

/-- One iteration of the inner loop of `ParseLockedArea` (bit `j` of `lockByte`). -/
def ParseLockedArea.bit (data : List Byte) (lockByte : Byte) (st : LockScan) (j : Nat) :
    LockScan :=
  let tag :=
    -- Is block locked?
    if lockByte.val &&& (1 <<< j) ≠ 0 then
      let blk := slice data (st.currentBlock * 8) 8
      -- The lock bytes themselves are not part of the locked area
      if ¬ IsBlockLockedOrReserved st.currentBlock then
        { st.tag with mLockedBlocks := st.tag.mLockedBlocks.emplace st.currentBlock blk }
      else
        { st.tag with
          mLockedOrReservedBlocks := st.tag.mLockedOrReservedBlocks.emplace st.currentBlock blk }
    else st.tag
  { currentBlock := st.currentBlock + 1, tag := tag }

/-- One iteration of an outer loop of `ParseLockedArea`: the lock byte at offset `off`
of the dump, bit by bit. -/
def ParseLockedArea.byte (data : List Byte) (st : LockScan) (off : Nat) : LockScan :=
  (List.range 8).foldl (ParseLockedArea.bit data (data.getD off 0)) st

/-- `TagV0::ParseLockedArea` (it always returns true): the tag with its maps filled. -/
def ParseLockedArea (t : TagV0) (data : List Byte) : TagV0 :=
  let st : LockScan := { currentBlock := 0, tag := t }
  -- Start by parsing the first set of lock bytes
  let st := ((List.range' kLockbytesStart0 (kLockbytesEnd0 - kLockbytesStart0)).map
    (fun i => kLockbyteBlock0 * 8 + i)).foldl (ParseLockedArea.byte data) st
  -- Parse the second set of lock bytes
  let st := ((List.range' kLockbytesStart1 (kLockbytesEnd1 - kLockbytesStart1)).map
    (fun i => kLockbyteBlock1 * 8 + i)).foldl (ParseLockedArea.byte data) st
  st.tag

/-- `TagV0::IsBlockLocked`. -/
def IsBlockLocked (t : TagV0) (blockIdx : Nat) : Bool :=
  t.mLockedBlocks.contains blockIdx || IsBlockLockedOrReserved blockIdx

/-- `TagV0::ParseDataArea` (it always returns true): the data area. -/
def ParseDataArea (t : TagV0) (data : List Byte) : List Byte :=
  (List.range kMaxBlockCount).foldl
    (fun dataArea currentBlock =>
      -- All blocks which aren't locked make up the dataArea
      if ¬ t.IsBlockLocked currentBlock then dataArea ++ slice data (8 * currentBlock) 8
      else dataArea)
    []

/-- `TagV0::ValidateCapabilityContainer`. -/
def ValidateCapabilityContainer (t : TagV0) : Bool :=
  let nmn := t.mCapabilityContainer.getD 0 0
  let vno := t.mCapabilityContainer.getD 1 0
  let tms := t.mCapabilityContainer.getD 2 0
  if nmn ≠ kNDEFMagicNumber then false
  else if vno.val >>> 4 ≠ 1 then false
  else if 8 * (tms.val + 1) < kTagSize then false
  else true

/-- The first TLV with the NDEF tag, which the loop in `TagV0::FromBytes` looks for. -/
def findNdefTlv : List TLV → Option TLV
  | [] => none
  | t :: ts => if t.mTag = TLV.TAG_NDEF then some t else findNdefTlv ts

/-- The first record whose type-name-format is Unknown, the loop over the message in
`TagV0::FromBytes` and `TagV0::ToBytes`. -/
def findUnknownRecord : List ndef.Record → Option ndef.Record
  | [] => none
  | r :: rs => if r.GetTNF = ndef.NDEF_TNF_UNKNOWN then some r else findUnknownRecord rs

/-- The loop "Append locked data" of `TagV0::FromBytes`: the canonical buffer after the
blocks `entries` have been copied to `off`, `off + 8`, and so on. -/
def appendLocked : List (Nat × Block) → List Byte → Nat → List Byte
  | [], data, _ => data
  | (_, value) :: rest, data, off => appendLocked rest (copyTo value data off) (off + 8)

/-- What a call of `TagV0::FromBytes` does: it returns a tag, it returns no tag
(`return {}`), or its behaviour is undefined. -/
inductive Outcome where
  | tag (t : TagV0)
  | rejected
  | undefined

/-- The tag of an outcome, if it has one. -/
def Outcome.toOption : Outcome → Option TagV0
  | Outcome.tag t => some t
  | Outcome.rejected => none
  | Outcome.undefined => none

/-- Whether the outcome is the clean `return {}`. -/
def Outcome.isRejected : Outcome → Bool
  | Outcome.rejected => true
  | _ => false

/-- Whether the outcome is undefined behaviour. -/
def Outcome.isUndefined : Outcome → Bool
  | Outcome.undefined => true
  | _ => false

/-- `TagV0::FromBytes`, statement by statement. The capability container is filled by
`std::copy_n(dataArea.begin(), 4, ...)` with no check of `dataArea.size()`: on a data
area of fewer than 4 bytes the copy reads past the end of the vector and the behaviour
is undefined. -/
def FromBytes.outcome (data : List Byte) : Outcome :=
  -- Version 0 tags need at least 512 bytes
  if data.length ≠ kTagSize then Outcome.rejected
  else
    -- Parse the locked area before continuing
    let tag := ParseLockedArea TagV0.new data
    -- Now that the locked area is known, parse the data area
    let dataArea := tag.ParseDataArea data
    -- The first few bytes in the dataArea make up the capability container
    if dataArea.length < 4 then Outcome.undefined
    else
      let tag := { tag with mCapabilityContainer := copy_n dataArea 0 4 tag.mCapabilityContainer 0 }
      if ¬ tag.ValidateCapabilityContainer then Outcome.rejected
      else
        -- The rest of the dataArea contains the TLVs
        let tag := { tag with mTLVs := TLV.FromBytes (dataArea.drop 4) }
        if tag.mTLVs.isEmpty then Outcome.rejected
        else
          -- Look for the NDEF tlv
          match findNdefTlv tag.mTLVs with
          | none => Outcome.rejected
          | some ndefTlv =>
            -- Parse the NDEF message
            match ndef.Message.FromBytes ndefTlv.mValue with
            | none => Outcome.rejected
            | some ndefMessage =>
              let tag := { tag with mNdefMessage := ndefMessage }
              -- Look for the unknown record which contains the data ntag cares about
              let payload :=
                match findUnknownRecord tag.mNdefMessage.mRecords with
                | none => []
                | some rec => rec.GetPayload
              let payloadSize := payload.length
              let tag := { tag with mData := copyTo payload tag.mData 0 }
              if payloadSize = 0 then Outcome.rejected
              else
                -- Append locked data
                let tag :=
                  { tag with
                      mData := appendLocked tag.mLockedBlocks.entries tag.mData payloadSize }
                -- Verify the noftMagic
                if slice tag.mData 0x20 4 ≠ [0x4e, 0x4f, 0x46, 0x54] then Outcome.rejected
                else Outcome.tag tag

/-- The tag that `TagV0::FromBytes` returns, when the call returns one: `none` both when
it returns no tag and when its behaviour is undefined, which `FromBytes.outcome` tells
apart. -/
def FromBytes (data : List Byte) : Option TagV0 := (FromBytes.outcome data).toOption

/-- The loop over the message in `TagV0::ToBytes`: the payload of the first record
whose type-name-format is Unknown is replaced by the first bytes of the canonical
buffer, as many as it had. -/
def updatePayload (mData : List Byte) : List ndef.Record → List ndef.Record
  | [] => []
  | r :: rs =>
    if r.GetTNF = ndef.NDEF_TNF_UNKNOWN then
      r.SetPayload (slice mData 0 r.GetPayload.length) :: rs
    else r :: updatePayload mData rs

/-- The loop over the TLVs in `TagV0::ToBytes`: the value of the first TLV with the NDEF
tag is replaced; `none` when the assertion of `TLV::SetValue` fails. -/
def updateNdefTlv (value : List Byte) : List TLV → Option (List TLV)
  | [] => some []
  | t :: ts =>
    if t.mTag = TLV.TAG_NDEF then (t.SetValue value).map (fun t' => t' :: ts)
    else (updateNdefTlv value ts).map (fun ts' => t :: ts')

/-- The data area `TagV0::ToBytes` packs: the capability container and the encodings of
the TLVs, resized to a multiple of the block size. -/
def packDataArea (cc : List Byte) (tlvs : List TLV) : List Byte :=
  let dataArea := cc ++ TLV.encodeAll tlvs
  -- Make sure the dataArea is block size aligned
  let size := (dataArea.length + 7) / 8 * 8
  dataArea ++ zeros (size - dataArea.length)

/-- The loop "Insert locked or reserved blocks" of `TagV0::ToBytes`. -/
def insertBlocks : List (Nat × Block) → List Byte → List Byte
  | [], bytes => bytes
  | (key, value) :: rest, bytes => insertBlocks rest (copyTo value bytes (key * 8))

/-- The loop "Insert locked area" of `TagV0::ToBytes`: block after block is read from
the canonical buffer, starting at `off`. -/
def insertLocked (mData : List Byte) : List (Nat × Block) → Nat → List Byte → List Byte
  | [], _, bytes => bytes
  | (key, _) :: rest, off, bytes =>
    insertLocked mData rest (off + 8) (copy_n mData off 8 bytes (key * 8))

/-- The last loop of `TagV0::ToBytes`: the blocks that are not locked are filled from
the data area, read block after block from `off`; `none` when a read would go past the
end of the data area. -/
def insertDataArea (t : TagV0) (dataArea : List Byte) :
    List Nat → Nat → List Byte → Option (List Byte)
  | [], _, bytes => some bytes
  | currentBlock :: rest, off, bytes =>
    -- All blocks which aren't locked make up the dataArea
    if ¬ t.IsBlockLocked currentBlock then
      if off + 8 ≤ dataArea.length then
        insertDataArea t dataArea rest (off + 8) (copy_n dataArea off 8 bytes (currentBlock * 8))
      else none
    else insertDataArea t dataArea rest off bytes

/-- `TagV0::ToBytes`; `none` when the assertion of `TLV::SetValue` fails or when the
data area is read past its end. -/
def ToBytes (t : TagV0) : Option (List Byte) :=
  -- Create a copy of the ndef message, update the unknown record payload
  let payloadSize :=
    match findUnknownRecord t.mNdefMessage.mRecords with
    | none => 0
    | some rec => rec.GetPayload.length
  let ndefMessage : ndef.Message := { mRecords := updatePayload t.mData t.mNdefMessage.mRecords }
  -- Create a copy of the TLVs, update the ndef value
  match updateNdefTlv ndefMessage.ToBytes t.mTLVs with
  | none => none
  | some tlvs =>
    let bytes := zeros kTagSize
    -- Insert locked or reserved blocks
    let bytes := insertBlocks t.mLockedOrReservedBlocks.entries bytes
    -- Insert locked area
    let bytes := insertLocked t.mData t.mLockedBlocks.entries payloadSize bytes
    -- Pack the dataArea into a linear buffer
    let dataArea := packDataArea t.mCapabilityContainer tlvs
    -- The rest will be the data area
    insertDataArea t dataArea (List.range kMaxBlockCount) 0 bytes

end TagV0

/-! ## TagV2 (TagV2.cpp) -/

namespace TagV2

/-- Excluding pwd and reserved data. -/
def kTagSize0 : Nat := 0x214
/-- Including pwd and reserved data. -/
def kTagSize1 : Nat := 0x21c
/-- Amiibo magic. -/
def kTagMagic : Byte := 0xa5

/-- The overrides of the layout accessors in `TagV2`. -/
def layout : Layout where
  GetVersion := 2
  GetDataSize := 0x208
  GetSeedOffset := 0x29
  GetKeyGenSaltOffset := 0x1e8
  GetUidOffset := 0x1d4
  GetUnfixedInfosOffset := 0x2c
  GetUnfixedInfosSize := 0x188
  GetLockedSecretOffset := 0x1dc
  GetLockedSecretSize := 0x0
  GetUnfixedInfosHmacOffset := 0x8
  GetLockedSecretHmacOffset := 0x1b4

end TagV2

/-- The class `TagV2`: the base `Tag` plus the size of the dump it was read from. -/
structure TagV2 extends Tag where
  mOriginalFileSize : Nat
deriving DecidableEq, Repr

namespace TagV2

/-- `TagV2::FromBytes`. -/
def FromBytes (data : List Byte) : Option TagV2 :=
  if data.length ≠ kTagSize0 ∧ data.length ≠ kTagSize1 then
    none
  -- Check for the amiibo magic
  else if data.getD 0x10 0 ≠ kTagMagic then
    none
  else
    let m := Tag.new.mData
    -- Convert data to internal layout
    let m := copy_n data 0 8 m layout.GetUidOffset
    let m := copy_n data 8 8 m 0
    let m := copy_n data 0x10 4 m 0x28
    let m := copy_n data 0x14 0x20 m layout.GetUnfixedInfosOffset
    let m := copy_n data 0x34 0x20 m layout.GetLockedSecretHmacOffset
    let m := copy_n data 0x54 0xc m layout.GetLockedSecretOffset
    let m := copy_n data 0x60 0x20 m layout.GetKeyGenSaltOffset
    let m := copy_n data 0x80 0x20 m layout.GetUnfixedInfosHmacOffset
    let m := copy_n data 0xa0 0x168 m (layout.GetUnfixedInfosOffset + 0x20)
    let m :=
      if data.length = kTagSize1 then copy_n data 0x208 0x14 m 0x208
      else copy_n data 0x208 0xc m 0x208
    some { mIsEncrypted := Tag.new.mIsEncrypted, mData := m, mOriginalFileSize := data.length }

/-- `TagV2::ToBytes`. -/
def ToBytes (t : TagV2) : List Byte :=
  let bytes := zeros t.mOriginalFileSize
  -- Convert internal layout back to tag data
  let bytes := copy_n t.mData 0 8 bytes 8
  let bytes := copy_n t.mData layout.GetUnfixedInfosHmacOffset 0x20 bytes 0x80
  let bytes := copy_n t.mData 0x28 4 bytes 0x10
  let bytes := copy_n t.mData layout.GetUnfixedInfosOffset 0x20 bytes 0x14
  let bytes := copy_n t.mData (layout.GetUnfixedInfosOffset + 0x20) 0x168 bytes 0xa0
  let bytes := copy_n t.mData layout.GetLockedSecretHmacOffset 0x20 bytes 0x34
  let bytes := copy_n t.mData layout.GetUidOffset 8 bytes 0
  let bytes := copy_n t.mData layout.GetLockedSecretOffset 0xc bytes 0x54
  let bytes := copy_n t.mData layout.GetKeyGenSaltOffset 0x20 bytes 0x60
  if t.mOriginalFileSize = kTagSize1 then copy_n t.mData 0x208 0x14 bytes 0x208
  else copy_n t.mData 0x208 0xc bytes 0x208

end TagV2


/-! ## Crypto primitives (crypto.cpp) -/

/-- The two mbedtls primitives that `crypto.cpp` wraps and that the tag engine uses, taken
as parameters. `aes_crypt_ctr key nonce input` stands for `mbedtls_aes_setkey_enc`
followed by `mbedtls_aes_crypt_ctr` from a zero stream offset, `md_hmac key input` for
`mbedtls_md_hmac` with SHA-256; `none` is a non-zero return code. AES-CTR writes as many
bytes as it reads, and HMAC-SHA-256 writes 32 bytes. -/
structure Primitives where
  aes_crypt_ctr : List Byte → List Byte → List Byte → Option (List Byte)
  md_hmac : List Byte → List Byte → Option (List Byte)
  aes_crypt_ctr_length : ∀ key nonce i o, aes_crypt_ctr key nonce i = some o → o.length = i.length
  md_hmac_length : ∀ key i o, md_hmac key i = some o → o.length = 0x20

namespace crypto

/-- `crypto::CryptAesCTR`: the success flag and the contents of `outData` afterwards
(left as they were when the call fails). -/
def CryptAesCTR (P : Primitives) (key nonce inData outData : List Byte) : Bool × List Byte :=
  if inData.length ≠ outData.length then
    (false, outData)
  else
    match P.aes_crypt_ctr key nonce inData with
    | none => (false, outData)
    | some o => (true, o)

/-- `crypto::GenerateHMAC`: the success flag and the contents of `outData` afterwards. -/
def GenerateHMAC (P : Primitives) (key inData outData : List Byte) : Bool × List Byte :=
  match P.md_hmac key inData with
  | none => (false, outData)
  | some o => (true, o)

end crypto

/-! ## Keys (Keys.hpp) -/

/-- The data members of the class `Keys`. -/
structure Keys where
  mNfcKey : List Byte
  mNfcNonce : List Byte
  mNfcXorPad : List Byte
  mUnfixedInfosString : List Byte
  mUnfixedInfosMagicBytes : List Byte
  mUnfixedInfosHmacKey : List Byte
  mLockedSecretString : List Byte
  mLockedSecretMagicBytes : List Byte
  mLockedSecretHmacKey : List Byte
deriving DecidableEq, Repr

namespace Keys

/-- The constructor `Keys::Keys() : mNfcKey()`: the NFC key is zero-initialised. The
source leaves the other arrays unset until `FromBins` fills them; they are zero arrays
of their sizes here. -/
def new : Keys where
  mNfcKey := zeros 0x10
  mNfcNonce := zeros 0x10
  mNfcXorPad := zeros 0x20
  mUnfixedInfosString := zeros 0xe
  mUnfixedInfosMagicBytes := zeros 0xe
  mUnfixedInfosHmacKey := zeros 0x40
  mLockedSecretString := zeros 0xe
  mLockedSecretMagicBytes := zeros 0x10
  mLockedSecretHmacKey := zeros 0x40

/-- `Keys::FromBins` on two 80-byte halves (the spans have static extent 80); `none` is
the empty pointer. -/
def FromBins (unfixedInfo lockedSecret : List Byte) : Option Keys :=
  let keys := Keys.new
  -- HMAC key (only the first 0x10 bytes are used, the rest is zero padded)
  let keys := { keys with
    mUnfixedInfosHmacKey := copy_n unfixedInfo 0 0x10 keys.mUnfixedInfosHmacKey 0 }
  let keys := { keys with
    mUnfixedInfosHmacKey := copyTo (zeros 0x30) keys.mUnfixedInfosHmacKey 0x10 }
  -- String
  let keys := { keys with
    mUnfixedInfosString := copy_n unfixedInfo 0x10 0xe keys.mUnfixedInfosString 0 }
  -- Magic bytes
  let keys := { keys with
    mUnfixedInfosMagicBytes := copy_n unfixedInfo 0x20 0xe keys.mUnfixedInfosMagicBytes 0 }
  -- XOR pad
  let keys := { keys with mNfcXorPad := copy_n unfixedInfo 0x30 0x20 keys.mNfcXorPad 0 }
  -- HMAC key (only the first 0x10 bytes are used, the rest is zero padded)
  let keys := { keys with
    mLockedSecretHmacKey := copy_n lockedSecret 0 0x10 keys.mLockedSecretHmacKey 0 }
  let keys := { keys with
    mLockedSecretHmacKey := copyTo (zeros 0x30) keys.mLockedSecretHmacKey 0x10 }
  -- String
  let keys := { keys with
    mLockedSecretString := copy_n lockedSecret 0x10 0xe keys.mLockedSecretString 0 }
  -- Magic bytes
  let keys := { keys with
    mLockedSecretMagicBytes := copy_n lockedSecret 0x20 0x10 keys.mLockedSecretMagicBytes 0 }
  -- XOR pad (this should be the same as the unfixedInfo one)
  if ¬ (keys.mNfcXorPad = slice lockedSecret 0x30 keys.mNfcXorPad.length) then
    none
  else
    some keys

/-- `Keys::FromKeyset` on a 160-byte keyset (the span has static extent 160). -/
def FromKeyset (keyset : List Byte) : Option Keys :=
  FromBins (slice keyset 0 80) (slice keyset 80 80)

/-- `Keys::HasNfcKey`. -/
def HasNfcKey (keys : Keys) : Bool := decide (keys.mNfcKey.getD 0 0 ≠ 0)

end Keys

/-! ## TagEncryption (TagEncryption.hpp / TagEncryption.cpp) -/

/-- A tag as `TagEncryption` sees it through `std::shared_ptr<Tag>`: the data members of
the base class and the results of the virtual layout accessors of its dynamic type. -/
structure TagRef extends Tag where
  layout : Layout
deriving DecidableEq, Repr

/-- A `TagV2` seen through the base class. -/
def TagV2.toTagRef (t : TagV2) : TagRef := { toTag := t.toTag, layout := TagV2.layout }

/-- The arithmetic of `std::uint32_t`: the difference `a - b`. -/
def sub32 (a b : Nat) : Nat := (a + 4294967296 - b % 4294967296) % 4294967296

/-- The arithmetic of `std::uint32_t`: the sum `a + b`. -/
def add32 (a b : Nat) : Nat := (a + b) % 4294967296

/-- The data members of the class `TagEncryption`. The tag is shared with the caller and
changed in place, so every operation that writes hands back the new state. -/
structure TagEncryption where
  mTag : TagRef
  mKeys : Keys
  mKeyGenSalt : List Byte
  mLockedSecretKey : List Byte
  mLockedSecretNonce : List Byte
  mLockedSecretDerivedHmacKey : List Byte
  mUnfixedInfosKey : List Byte
  mUnfixedInfosNonce : List Byte
  mUnfixedInfosDerivedHmacKey : List Byte
deriving DecidableEq, Repr

/-- The `while` loop of `GenerateKey` (TagEncryption.cpp): the result, the contents of
`outData` and the value of `counter` when it ends. `fuel` bounds the number of
iterations. -/
def GenerateKey.loop (P : Primitives) (key : List Byte) :
    Nat → List Byte → Nat → Nat → Nat → List Byte → Bool × List Byte × Nat
  | 0, _, counter, _, _, outData => (false, outData, counter)
  | fuel + 1, buffer, counter, offset, remaining, outData =>
    if remaining > 0 then
      -- Set counter bytes and increment counter
      let buffer := buffer.set 0 (u8 ((counter >>> 8) &&& 0xff))
      let buffer := buffer.set 1 (u8 (counter &&& 0xff))
      let counter := (counter + 1) % 65536
      let r := crypto.GenerateHMAC P key buffer (slice outData offset 0x20)
      let outData := copyTo r.2 outData offset
      if r.1 = false then
        (false, outData, counter)
      else
        GenerateKey.loop P key fuel buffer counter (offset + 0x20) (remaining - 0x20) outData
    else
      (true, outData, counter)

/-- The buffer `GenerateKey` feeds to the HMAC, before the counter bytes are set: two
zero bytes, the key name and the key data. -/
def GenerateKey.buffer (name inData : List Byte) : List Byte :=
  let buffer := zeros 0x50
  let buffer := copyTo name buffer 2
  copyTo inData buffer (name.length + 2)

/-- The function `GenerateKey` of TagEncryption.cpp (the ccr_nfc way of generating
internal keys): the result and the contents of `outData` afterwards. Every iteration
takes 0x20 from `remaining`, so the loop runs at most `outData.length` times. -/
def GenerateKey (P : Primitives) (key name inData outData : List Byte) : Bool × List Byte :=
  let r := GenerateKey.loop P key (outData.length + 1) (GenerateKey.buffer name inData) 0 0
    outData.length outData
  (r.1, r.2.1)

namespace TagEncryption

/-- `TagEncryption::GenerateLockedSecretHMAC`: the success flag and the contents of `hmac`
afterwards. -/
def GenerateLockedSecretHMAC (P : Primitives) (te : TagEncryption) (hmac : List Byte) :
    Bool × List Byte :=
  if te.mTag.IsEncrypted then
    (false, hmac)
  else
    crypto.GenerateHMAC P te.mLockedSecretDerivedHmacKey
      (te.mTag.GetData (add32 te.mTag.layout.GetLockedSecretHmacOffset 0x20)
        (sub32 (sub32 te.mTag.layout.GetDataSize te.mTag.layout.GetLockedSecretHmacOffset) 0x20))
      hmac

/-- `TagEncryption::GenerateUnfixedInfosHMAC`: the success flag and the contents of `hmac`
afterwards. -/
def GenerateUnfixedInfosHMAC (P : Primitives) (te : TagEncryption) (hmac : List Byte) :
    Bool × List Byte :=
  if te.mTag.IsEncrypted then
    (false, hmac)
  else
    let offset :=
      if te.mTag.layout.GetVersion = 0 then add32 te.mTag.layout.GetUnfixedInfosHmacOffset 0x20
      else add32 te.mTag.layout.GetUnfixedInfosHmacOffset 0x21
    let size :=
      if te.mTag.layout.GetVersion = 0 then
        sub32 (sub32 te.mTag.layout.GetDataSize te.mTag.layout.GetUnfixedInfosHmacOffset) 0x20
      else
        sub32 (sub32 te.mTag.layout.GetDataSize te.mTag.layout.GetUnfixedInfosHmacOffset) 0x21
    crypto.GenerateHMAC P te.mUnfixedInfosDerivedHmacKey (te.mTag.GetData offset size) hmac

/-- `TagEncryption::ValidateLockedSecretHMAC`. It writes nothing to the tag. -/
def ValidateLockedSecretHMAC (P : Primitives) (te : TagEncryption) : Bool :=
  if te.mTag.IsEncrypted then
    false
  else
    -- Generate HMAC
    let r := GenerateLockedSecretHMAC P te (zeros 0x20)
    if r.1 = false then
      false
    else
      -- Validate
      decide (r.2 = slice te.mTag.mData te.mTag.layout.GetLockedSecretHmacOffset r.2.length)

/-- `TagEncryption::ValidateUnfixedInfosHMAC`. It writes nothing to the tag. -/
def ValidateUnfixedInfosHMAC (P : Primitives) (te : TagEncryption) : Bool :=
  if te.mTag.IsEncrypted then
    false
  else
    -- Generate HMAC
    let r := GenerateUnfixedInfosHMAC P te (zeros 0x20)
    if r.1 = false then
      false
    else
      -- Validate
      decide (r.2 = slice te.mTag.mData te.mTag.layout.GetUnfixedInfosHmacOffset r.2.length)

/-- The tag of `te` with its canonical buffer replaced. -/
def setData (te : TagEncryption) (data : List Byte) : TagEncryption :=
  { te with mTag := { te.mTag with mData := data } }

/-- `TagEncryption::UpdateLockedSecretHMAC`: the result and the state afterwards. -/
def UpdateLockedSecretHMAC (P : Primitives) (te : TagEncryption) : Bool × TagEncryption :=
  if te.mTag.IsEncrypted then
    (false, te)
  else
    -- Generate HMAC
    let r := GenerateLockedSecretHMAC P te (zeros 0x20)
    if r.1 = false then
      (false, te)
    else
      -- Update HMAC
      (true, te.setData (copyTo r.2 te.mTag.mData te.mTag.layout.GetLockedSecretHmacOffset))

/-- `TagEncryption::UpdateUnfixedInfosHMAC`: the result and the state afterwards. -/
def UpdateUnfixedInfosHMAC (P : Primitives) (te : TagEncryption) : Bool × TagEncryption :=
  if te.mTag.IsEncrypted then
    (false, te)
  else
    -- Generate HMAC
    let r := GenerateUnfixedInfosHMAC P te (zeros 0x20)
    if r.1 = false then
      (false, te)
    else
      -- Update HMAC
      (true, te.setData (copyTo r.2 te.mTag.mData te.mTag.layout.GetUnfixedInfosHmacOffset))

/-- `TagEncryption::CryptTag`: the result and the state afterwards. -/
def CryptTag (P : Primitives) (te : TagEncryption) : Bool × TagEncryption :=
  let L := te.mTag.layout
  -- Version 0 tags have an encrypted locked secret area
  let r1 :=
    if L.GetVersion = 0 then
      crypto.CryptAesCTR P te.mLockedSecretKey te.mLockedSecretNonce
        (te.mTag.GetData L.GetLockedSecretOffset L.GetLockedSecretSize)
        (zeros L.GetLockedSecretSize)
    else (true, [])
  if r1.1 = false then
    (false, te)
  else
    let cryptedLockedSecret := r1.2
    -- Crypt unfixed infos
    let r2 := crypto.CryptAesCTR P te.mUnfixedInfosKey te.mUnfixedInfosNonce
      (te.mTag.GetData L.GetUnfixedInfosOffset L.GetUnfixedInfosSize)
      (zeros L.GetUnfixedInfosSize)
    if r2.1 = false then
      (false, te)
    else
      let cryptedUnfixedInfos := r2.2
      -- Update tag data
      let data := te.mTag.mData
      let data :=
        if L.GetVersion = 0 then copyTo cryptedLockedSecret data L.GetLockedSecretOffset
        else data
      let data := copyTo cryptedUnfixedInfos data L.GetUnfixedInfosOffset
      (true, te.setData data)

/-- The tag of `te` after `mTag->SetEncrypted(encrypted)`. -/
def setEncrypted (te : TagEncryption) (encrypted : Bool) : TagEncryption :=
  { te with mTag := { te.mTag with mIsEncrypted := encrypted } }

/-- `TagEncryption::EncryptTag`: the result and the state afterwards. -/
def EncryptTag (P : Primitives) (te : TagEncryption) : Bool × TagEncryption :=
  if te.mTag.IsEncrypted then
    (false, te)
  else
    let r := CryptTag P te
    if r.1 = false then
      (false, r.2)
    else
      -- Tag now contains encrypted data
      (true, r.2.setEncrypted true)

/-- `TagEncryption::DecryptTag`: the result and the state afterwards. -/
def DecryptTag (P : Primitives) (te : TagEncryption) : Bool × TagEncryption :=
  if ¬ te.mTag.IsEncrypted then
    (false, te)
  else
    let r := CryptTag P te
    if r.1 = false then
      (false, r.2)
    else
      -- Tag now contains decrypted data
      (true, r.2.setEncrypted false)

/-- `TagEncryption::GenerateKeyGenSalt`: the result and the state afterwards. -/
def GenerateKeyGenSalt (P : Primitives) (te : TagEncryption) : Bool × TagEncryption :=
  -- If we have the Nfc Key we can just decrypt using AES-CTR
  if te.mKeys.HasNfcKey then
    let r := crypto.CryptAesCTR P te.mKeys.mNfcKey te.mKeys.mNfcNonce
      (te.mTag.GetData te.mTag.layout.GetKeyGenSaltOffset 0x20) te.mKeyGenSalt
    (r.1, { te with mKeyGenSalt := r.2 })
  else
    -- Perform XOR with Xor pad
    let xored := List.zipWith (fun a b => a ^^^ b) te.mKeys.mNfcXorPad
      (te.mTag.GetData te.mTag.layout.GetKeyGenSaltOffset 0x20)
    (true, { te with mKeyGenSalt := copyTo xored te.mKeyGenSalt 0 })

/-- The part of `TagEncryption::GenerateInternalKeys` that both buffers share: the
format info (version 0) or the UID (version 2) at offset 0x10 and the key generation
salt at offset 0x20; `none` for any other version. -/
def GenerateInternalKeys.fillUidAndSalt (te : TagEncryption) (buffer : List Byte) :
    Option (List Byte) :=
  if te.mTag.layout.GetVersion = 0 then
    -- For Version 0 this is the 16-byte Format Info
    let buffer := copy_n te.mTag.mData te.mTag.layout.GetUidOffset 0x10 buffer 0x10
    some (copyTo te.mKeyGenSalt buffer 0x20)
  else if te.mTag.layout.GetVersion = 2 then
    -- For Version 2 this is 2 times the 7-byte UID + 1 check byte
    let buffer := copy_n te.mTag.mData te.mTag.layout.GetUidOffset 8 buffer 0x10
    let buffer := copy_n te.mTag.mData te.mTag.layout.GetUidOffset 8 buffer 0x18
    some (copyTo te.mKeyGenSalt buffer 0x20)
  else
    none

/-- The `lockedSecretBuffer` that `TagEncryption::GenerateInternalKeys` fills. -/
def GenerateInternalKeys.lockedSecretBuffer (te : TagEncryption) : Option (List Byte) :=
  let lockedSecretBuffer := zeros 0x40
  -- Fill the locked secret buffer
  let lockedSecretBuffer := copyTo te.mKeys.mLockedSecretMagicBytes lockedSecretBuffer 0
  GenerateInternalKeys.fillUidAndSalt te lockedSecretBuffer

/-- The `unfixedInfosBuffer` that `TagEncryption::GenerateInternalKeys` fills. -/
def GenerateInternalKeys.unfixedInfosBuffer (te : TagEncryption) : Option (List Byte) :=
  let unfixedInfosBuffer := zeros 0x40
  -- Fill the unfixed infos buffer
  let unfixedInfosBuffer :=
    copy_n te.mTag.mData te.mTag.layout.GetSeedOffset 2 unfixedInfosBuffer 0
  let unfixedInfosBuffer := copy_n te.mKeys.mUnfixedInfosMagicBytes 0 0xe unfixedInfosBuffer 2
  GenerateInternalKeys.fillUidAndSalt te unfixedInfosBuffer

/-- `TagEncryption::GenerateInternalKeys`: the result and the state afterwards. -/
def GenerateInternalKeys (P : Primitives) (te : TagEncryption) : Bool × TagEncryption :=
  let outBuffer := zeros 0x40
  match GenerateInternalKeys.lockedSecretBuffer te with
  | none => (false, te)
  | some lockedSecretBuffer =>
    -- Generate the key output
    let r := GenerateKey P te.mKeys.mLockedSecretHmacKey te.mKeys.mLockedSecretString
      lockedSecretBuffer outBuffer
    let outBuffer := r.2
    if r.1 = false then
      (false, te)
    else
      -- First 0x10 bytes of the generated output is the locked secret key
      let te := { te with mLockedSecretKey := copy_n outBuffer 0 0x10 te.mLockedSecretKey 0 }
      -- Nonce follows
      let te := { te with
        mLockedSecretNonce := copy_n outBuffer 0x10 0x10 te.mLockedSecretNonce 0 }
      -- The first 0x10 bytes of the hmac key follows, the other 0x30 are zero padded
      let te := { te with
        mLockedSecretDerivedHmacKey :=
          copy_n outBuffer 0x20 0x10 te.mLockedSecretDerivedHmacKey 0 }
      let te := { te with
        mLockedSecretDerivedHmacKey := copyTo (zeros 0x30) te.mLockedSecretDerivedHmacKey 0x10 }
      match GenerateInternalKeys.unfixedInfosBuffer te with
      | none => (false, te)
      | some unfixedInfosBuffer =>
        -- Generate the key output
        let r := GenerateKey P te.mKeys.mUnfixedInfosHmacKey te.mKeys.mUnfixedInfosString
          unfixedInfosBuffer outBuffer
        let outBuffer := r.2
        if r.1 = false then
          (false, te)
        else
          -- First 0x10 bytes of the generated output is the unfixed infos key
          let te := { te with mUnfixedInfosKey := copy_n outBuffer 0 0x10 te.mUnfixedInfosKey 0 }
          -- Nonce follows
          let te := { te with
            mUnfixedInfosNonce := copy_n outBuffer 0x10 0x10 te.mUnfixedInfosNonce 0 }
          -- The first 0x10 bytes of the hmac key follows, the other 0x30 are zero padded
          let te := { te with
            mUnfixedInfosDerivedHmacKey :=
              copy_n outBuffer 0x20 0x10 te.mUnfixedInfosDerivedHmacKey 0 }
          let te := { te with
            mUnfixedInfosDerivedHmacKey :=
              copyTo (zeros 0x30) te.mUnfixedInfosDerivedHmacKey 0x10 }
          (true, te)

/-- `TagEncryption::InitializeInternalKeys`: the result and the state afterwards. -/
def InitializeInternalKeys (P : Primitives) (te : TagEncryption) : Bool × TagEncryption :=
  -- Check for the supported tag versions
  if te.mTag.layout.GetVersion ≠ 0 ∧ te.mTag.layout.GetVersion ≠ 2 then
    (false, te)
  else
    let r := GenerateKeyGenSalt P te
    if r.1 = false then
      (false, r.2)
    else
      let r := GenerateInternalKeys P r.2
      if r.1 = false then
        (false, r.2)
      else
        (true, r.2)

end TagEncryption

/-! ## Specification-side predicates and proof devices -/

/-- A sequence of `copy_n` calls from one source buffer, given as (source offset, count,
destination offset) triples, applied in order. -/
def applyChunks {α : Type} (src : List α) : List (Nat × Nat × Nat) → List α → List α
  | [], dst => dst
  | (so, n, d) :: cs, dst => applyChunks src cs (copy_n src so n dst d)

/-- The source index whose element ends up at destination index `i` after `applyChunks`
(the last chunk that covers `i` wins), or `none` when no chunk covers `i`. -/
def chunkSource : List (Nat × Nat × Nat) → Nat → Option Nat
  | [], _ => none
  | (so, n, d) :: cs, i =>
    match chunkSource cs i with
    | some j => some j
    | none => if d ≤ i ∧ i < d + n then some (so + (i - d)) else none

/-- Every chunk reads inside the source and writes inside the destination. -/
def chunksValid (srcLen dstLen : Nat) (cs : List (Nat × Nat × Nat)) : Bool :=
  cs.all fun c => decide (c.1 + c.2.1 ≤ srcLen) && decide (c.2.2 + c.2.1 ≤ dstLen)

/-- The chunks of `TagV2::FromBytes` for a dump with `tail` trailing bytes. -/
def TagV2.chunksIn (tail : Nat) : List (Nat × Nat × Nat) :=
  [(0, 8, 0x1d4), (8, 8, 0), (0x10, 4, 0x28), (0x14, 0x20, 0x2c), (0x34, 0x20, 0x1b4),
   (0x54, 0xc, 0x1dc), (0x60, 0x20, 0x1e8), (0x80, 0x20, 0x8), (0xa0, 0x168, 0x4c),
   (0x208, tail, 0x208)]

/-- The chunks of `TagV2::ToBytes` for a dump with `tail` trailing bytes. -/
def TagV2.chunksOut (tail : Nat) : List (Nat × Nat × Nat) :=
  [(0, 8, 8), (0x8, 0x20, 0x80), (0x28, 4, 0x10), (0x2c, 0x20, 0x14), (0x4c, 0x168, 0xa0),
   (0x1b4, 0x20, 0x34), (0x1d4, 8, 0), (0x1dc, 0xc, 0x54), (0x1e8, 0x20, 0x60),
   (0x208, tail, 0x208)]

namespace TLV

/-- List-level description of `TLV::FromBytes` on the unread rest of the input: the TLVs
still to come, or `none` when a read runs past the end of the input. -/
def decodeL : List Byte → Option (List TLV)
  | [] => some []
  | tag :: r =>
    if tag = TAG_NULL then decodeL r
    else if tag = TAG_TERMINATOR then some [{ mTag := tag, mValue := [] }]
    else
      match r with
      | [] => none
      | len :: r1 =>
        if len.val = 0xff then
          match r1 with
          | hi :: lo :: r2 =>
            if hi.val * 256 + lo.val ≤ r2.length then
              (decodeL (r2.drop (hi.val * 256 + lo.val))).map
                (fun ts => { mTag := tag, mValue := r2.take (hi.val * 256 + lo.val) } :: ts)
            else none
          | _ => none
        else if len.val ≤ r1.length then
          (decodeL (r1.drop len.val)).map (fun ts => { mTag := tag, mValue := r1.take len.val } :: ts)
        else none
termination_by l => l.length
decreasing_by
  all_goals simp_wf
  all_goals omega

end TLV

namespace TLV

/-- A well-formed length field `hdr` announcing `n` value bytes: one byte other than
0xFF, or 0xFF followed by a 2-byte big-endian number. -/
def IsLenField (hdr : List Byte) (n : Nat) : Prop :=
  (∃ len : Byte, hdr = [len] ∧ len.val ≠ 255 ∧ n = len.val) ∨
  (∃ hi lo : Byte, hdr = [255, hi, lo] ∧ n = hi.val * 256 + lo.val)

end TLV

namespace TLV

/-- The bytes `tr` are the beginning of a TLV that is neither NULL nor TERMINATOR and
that is cut off: its length byte, its extended 2-byte length or part of its value is
missing. -/
def isTruncated : List Byte → Bool
  | [] => false
  | tag :: r =>
    decide (tag ≠ TAG_NULL) && decide (tag ≠ TAG_TERMINATOR) &&
      match r with
      | [] => true
      | len :: r1 =>
        if len.val = 0xff then
          match r1 with
          | hi :: lo :: r2 => decide (r2.length < hi.val * 256 + lo.val)
          | _ => true
        else decide (r1.length < len.val)

end TLV

namespace TagV0

/-- The lock byte of the dump that holds the lock bit of block `b`: the two bytes at the
start of block 0xe for blocks 0 to 15, the six bytes from byte 2 of block 0xf on for
blocks 16 to 63. -/
def lockByteOf (d : List Byte) (b : Nat) : Byte :=
  if b < 16 then d.getD (0x70 + b / 8) 0 else d.getD (0x7a + (b - 16) / 8) 0

/-- The lock bit of block `b` in the dump, least-significant bit first. -/
def lockBit (d : List Byte) (b : Nat) : Bool :=
  decide ((lockByteOf d b).val &&& (1 <<< (b % 8)) ≠ 0)

/-- The state of `ParseLockedArea` after the lock bits of the blocks below `c`. -/
def LockInv (d : List Byte) (c : Nat) (st : LockScan) : Prop :=
  st.currentBlock = c ∧
  (∀ k, st.tag.mLockedBlocks k =
    if k < c ∧ lockBit d k = true ∧ IsBlockLockedOrReserved k = false then
      some (slice d (k * 8) 8) else none) ∧
  (∀ k, st.tag.mLockedOrReservedBlocks k =
    if k < c ∧ lockBit d k = true ∧ IsBlockLockedOrReserved k = true then
      some (slice d (k * 8) 8) else none) ∧
  st.tag.toTag = Tag.new ∧ st.tag.mCapabilityContainer = zeros 4 ∧ st.tag.mTLVs = [] ∧
  st.tag.mNdefMessage = { mRecords := [] }

end TagV0

namespace TagV0

/-- The data area of a dump as `TagV0::FromBytes` forms it: the blocks that are not
locked, in ascending order. -/
def dataAreaOf (d : List Byte) : List Byte := (ParseLockedArea TagV0.new d).ParseDataArea d

/-- The data area `TagV0::ToBytes` rebuilds from a tag: the capability container, the
TLVs with the re-encoded NDEF message in the NDEF TLV, zero padding to a block boundary;
`none` when the assertion of `TLV::SetValue` fails. -/
def rebuiltDataArea (t : TagV0) : Option (List Byte) :=
  (updateNdefTlv (ndef.Message.ToBytes { mRecords := updatePayload t.mData t.mNdefMessage.mRecords })
    t.mTLVs).map (packDataArea t.mCapabilityContainer)

end TagV0

namespace TagV0

/-- The buffer `out` has the size of a dump and holds the blocks of `d` at the block
positions in `S`. -/
def AgreesOn (d out : List Byte) (S : Nat → Prop) : Prop :=
  out.length = 512 ∧ ∀ k, k < 64 → S k → slice out (k * 8) 8 = slice d (k * 8) 8

/-- The blocks of `bs` that are not locked, concatenated: what `ParseDataArea` collects
from them. -/
def gather (t : TagV0) (d : List Byte) : List Nat → List Byte
  | [] => []
  | b :: bs => (if ¬ t.IsBlockLocked b then slice d (8 * b) 8 else []) ++ gather t d bs

/-- The blocks of `bs` that are not locked, each with its contents in `d`. -/
def freeEntries (t : TagV0) (d : List Byte) : List Nat → List (Nat × Block)
  | [] => []
  | b :: bs =>
    if ¬ t.IsBlockLocked b then (b, slice d (8 * b) 8) :: freeEntries t d bs
    else freeEntries t d bs

end TagV0

/-- The encodings of the records that the loop of `Message::ToBytes` appends one after
the other, from index `i` on, for a message of `n` records. -/
def ndef.Message.ToBytes.chunks (n : Nat) : Nat → List ndef.Record → List (List Byte)
  | _, [] => []
  | i, r :: rs =>
    r.ToBytes (if i = n - 1 then (if i = 0 then ndef.NDEF_MB else 0) ||| ndef.NDEF_ME
               else (if i = 0 then ndef.NDEF_MB else 0)) ::
      ndef.Message.ToBytes.chunks n (i + 1) rs

namespace ndef.Record

/-- The end of `Record::FromStream`, from the first check of the stream error on: the
type, the ID and the payload are read. -/
def FromStream.readFields (mFlags mTNF : Byte) (typeLen idLen payloadLen : Nat)
    (stream : SpanStream) : Option Record × SpanStream :=
  if stream.mError then
    (none, stream)
  else
    let r := stream.Read typeLen
    let mType := r.1
    let stream := r.2
    let r := stream.Read idLen
    let mID := r.1
    let stream := r.2
    let r := stream.Read payloadLen
    let mPayload := r.1
    let stream := r.2
    if stream.mError then
      (none, stream)
    else
      (some { mFlags := mFlags, mTNF := mTNF, mID := mID, mType := mType,
              mPayload := mPayload }, stream)

/-- The part of `Record::FromStream` after the payload length has been read. -/
def FromStream.afterPayloadLength (recHdr : Byte) (typeLen payloadLen : Nat)
    (stream : SpanStream) : Option Record × SpanStream :=
  if payloadLen > 2 * 1024 * 1024 then
    (none, stream)
  else
    let r := if recHdr &&& NDEF_IL ≠ 0 then
        let r := stream.readU8
        (r.1.val, r.2)
      else (0, stream)
    FromStream.readFields (recHdr &&& compl8 NDEF_TNF_MASK) (recHdr &&& NDEF_TNF_MASK) typeLen
      r.1 payloadLen r.2

/-- The fields of a record as the specification lays them out in the bytes `l` that
follow the length bytes: `typeLen` type bytes, `idLen` ID bytes and `payloadLen` payload
bytes; `consumed` counts the header and length bytes before them. -/
def parse.fields (hdr : Byte) (typeLen idLen payloadLen : Nat) (l : List Byte)
    (consumed : Nat) : Option (Record × Nat) :=
  if l.length < typeLen + idLen + payloadLen then none
  else
    some ({ mFlags := hdr &&& 0xf8, mTNF := hdr &&& 0x07, mType := l.take typeLen,
            mID := (l.drop typeLen).take idLen,
            mPayload := (l.drop (typeLen + idLen)).take payloadLen },
          consumed + typeLen + idLen + payloadLen)

/-- The specification's record after the payload length: the bound of 2 MiB, then the
ID-length byte only if the ID-length-present flag is set (otherwise ID length 0). -/
def parse.idLength (hdr : Byte) (typeLen payloadLen : Nat) (l : List Byte) (consumed : Nat) :
    Option (Record × Nat) :=
  if payloadLen > 2 * 1024 * 1024 then none
  else if hdr &&& NDEF_IL ≠ 0 then
    match l with
    | [] => none
    | idLen :: l => parse.fields hdr typeLen idLen.val payloadLen l (consumed + 1)
  else parse.fields hdr typeLen 0 payloadLen l consumed

/-- The record at the start of the bytes `l` as the specification describes it, with the
number of bytes it takes: the header byte (flags in the high 5 bits, type-name-format in
the low 3 bits), the type-length byte, the payload length (1 byte if the short-record
flag is set, otherwise a 4-byte big-endian number), then the rest; `none` when the
payload length exceeds 2 MiB or the bytes run out. -/
def parse (l : List Byte) : Option (Record × Nat) :=
  match l with
  | hdr :: typeLen :: l =>
    if hdr &&& NDEF_SR ≠ 0 then
      match l with
      | payloadLen :: l => parse.idLength hdr typeLen.val payloadLen.val l 3
      | _ => none
    else
      match l with
      | b0 :: b1 :: b2 :: b3 :: l =>
        parse.idLength hdr typeLen.val
          (b0.val * 16777216 + b1.val * 65536 + b2.val * 256 + b3.val) l 6
      | _ => none
  | _ => none

end ndef.Record

namespace TagEncryption

/-- The tag object `te` with the canonical buffer and the is-ciphertext flag of its tag
replaced. -/
def withBuffer (te : TagEncryption) (data : List Byte) (flag : Bool) : TagEncryption :=
  { te with mTag := { te.mTag with mData := data, mIsEncrypted := flag } }

/-- The body of `GenerateInternalKeys` with the two KDF input buffers given. -/
def GenerateInternalKeys.withBuffers (P : Primitives) (te : TagEncryption)
    (bL bU : Option (List Byte)) : Bool × TagEncryption :=
  let outBuffer := zeros 0x40
  match bL with
  | none => (false, te)
  | some lockedSecretBuffer =>
    let r := GenerateKey P te.mKeys.mLockedSecretHmacKey te.mKeys.mLockedSecretString
      lockedSecretBuffer outBuffer
    let outBuffer := r.2
    if r.1 = false then
      (false, te)
    else
      let te := { te with mLockedSecretKey := copy_n outBuffer 0 0x10 te.mLockedSecretKey 0 }
      let te := { te with
        mLockedSecretNonce := copy_n outBuffer 0x10 0x10 te.mLockedSecretNonce 0 }
      let te := { te with
        mLockedSecretDerivedHmacKey :=
          copy_n outBuffer 0x20 0x10 te.mLockedSecretDerivedHmacKey 0 }
      let te := { te with
        mLockedSecretDerivedHmacKey := copyTo (zeros 0x30) te.mLockedSecretDerivedHmacKey 0x10 }
      match bU with
      | none => (false, te)
      | some unfixedInfosBuffer =>
        let r := GenerateKey P te.mKeys.mUnfixedInfosHmacKey te.mKeys.mUnfixedInfosString
          unfixedInfosBuffer outBuffer
        let outBuffer := r.2
        if r.1 = false then
          (false, te)
        else
          let te := { te with mUnfixedInfosKey := copy_n outBuffer 0 0x10 te.mUnfixedInfosKey 0 }
          let te := { te with
            mUnfixedInfosNonce := copy_n outBuffer 0x10 0x10 te.mUnfixedInfosNonce 0 }
          let te := { te with
            mUnfixedInfosDerivedHmacKey :=
              copy_n outBuffer 0x20 0x10 te.mUnfixedInfosDerivedHmacKey 0 }
          let te := { te with
            mUnfixedInfosDerivedHmacKey :=
              copyTo (zeros 0x30) te.mUnfixedInfosDerivedHmacKey 0x10 }
          (true, te)

end TagEncryption

namespace ndef.Record

/-- The invariant on the lengths of a record: a record marked short has a payload of at
most 255 bytes, and a record without the ID-length-present flag has an empty ID. -/
def lengthsFit (r : Record) : Prop :=
  (r.IsShort = true → r.mPayload.length ≤ 255) ∧ (r.mFlags &&& NDEF_IL = 0 → r.mID = [])

/-- The number in the payload-length field of the encoding `bytes` of the record `r`:
the byte at offset 2 for a short record, otherwise the big-endian number in the four
bytes from offset 2 on. -/
def payloadLengthField (r : Record) (bytes : List Byte) : Nat :=
  if r.IsShort then (bytes.getD 2 0).val
  else (bytes.getD 2 0).val * 16777216 + (bytes.getD 3 0).val * 65536 +
    (bytes.getD 4 0).val * 256 + (bytes.getD 5 0).val

end ndef.Record

namespace ndef.Message

/-- The `while` loop of `Message::FromBytes` with a record of how it ended: the records
collected, the stream when the loop ends, and whether it ended because
`Record::FromStream` failed (the `break` after the warning "Failed to parse NDEF
Record"). The records are those of `FromBytes.loop`. -/
def FromBytes.trace : Nat → SpanStream → List Record → List Record × SpanStream × Bool
  | 0, stream, recs => (recs, stream, false)
  | fuel + 1, stream, recs =>
    if stream.GetRemaining > 0 then
      let r := Record.FromStream stream
      match r.1 with
      | none => (recs, r.2, true)
      | some rec =>
        let recs := recs ++ [rec]
        if rec.IsLast ∧ r.2.GetRemaining > 0 then (recs, r.2, false)
        else FromBytes.trace fuel r.2 recs
    else (recs, stream, false)

/-- The records `rs` each written by `Record::ToBytes` with the MB and ME bits their own
flags carry. -/
def encodeAsStored (rs : List Record) : List Byte :=
  (rs.map (fun r => r.ToBytes (r.mFlags &&& (NDEF_MB ||| NDEF_ME)))).flatten

end ndef.Message

/-- The ranges, given as (offset, count) pairs, tile the indices below `len`: none
reaches beyond `len` and every index below `len` lies in exactly one of them. -/
def tilesRange (ranges : List (Nat × Nat)) (len : Nat) : Bool :=
  ranges.all (fun r => decide (r.1 + r.2 ≤ len)) &&
  (List.range len).all (fun i =>
    decide ((ranges.filter (fun r => decide (r.1 ≤ i ∧ i < r.1 + r.2))).length = 1))

/-- The source ranges of a list of chunks. -/
def chunkSources (cs : List (Nat × Nat × Nat)) : List (Nat × Nat) :=
  cs.map (fun c => (c.1, c.2.1))

/-- The destination ranges of a list of chunks. -/
def chunkDestinations (cs : List (Nat × Nat × Nat)) : List (Nat × Nat) :=
  cs.map (fun c => (c.2.2, c.2.1))

namespace TLV

/-- The bytes are a sequence of complete frames, none of them a TERMINATOR, that carry
the given TLVs: each frame is a NULL byte, which carries nothing, or a tag byte other
than NULL and TERMINATOR followed by a well-formed length field (one byte other than
0xFF, or 0xFF and a 2-byte number) and as many value bytes. After such bytes the decoder
reads the next byte as a tag. -/
inductive Frames : List Byte → List TLV → Prop where
  | nil : Frames [] []
  | null (r : List Byte) (ts : List TLV) : Frames r ts → Frames (TAG_NULL :: r) ts
  | frame (tag : Byte) (hdr v rest : List Byte) (ts : List TLV) :
      tag ≠ TAG_NULL → tag ≠ TAG_TERMINATOR → IsLenField hdr v.length → Frames rest ts →
      Frames (tag :: (hdr ++ v ++ rest)) ({ mTag := tag, mValue := v } :: ts)

end TLV

/-! ## Example inputs -/

/-- A toy instance of the primitives for concrete instances of the theorems: the
"cipher" complements every byte and the "MAC" is the first 32 bytes of key and input,
zero padded. -/
def toyPrimitives : Primitives where
  aes_crypt_ctr := fun _ _ i => some (i.map (fun b => 255 - b))
  md_hmac := fun key i => some ((key ++ i ++ zeros 0x20).take 0x20)
  aes_crypt_ctr_length := by
    intro key nonce i o h
    rw [← Option.some.inj h, List.length_map]
  md_hmac_length := by
    intro key i o h
    rw [← Option.some.inj h]
    simp [zeros]
    omega

/-- A cleartext version-0 tag object with a zero canonical buffer and empty keys. -/
def exampleTagEncryptionV0 : TagEncryption where
  mTag := { mIsEncrypted := false, mData := zeros 540, layout := TagV0.layout }
  mKeys := { mNfcKey := [], mNfcNonce := [], mNfcXorPad := [], mUnfixedInfosString := [],
             mUnfixedInfosMagicBytes := [], mUnfixedInfosHmacKey := [],
             mLockedSecretString := [], mLockedSecretMagicBytes := [],
             mLockedSecretHmacKey := [] }
  mKeyGenSalt := []
  mLockedSecretKey := []
  mLockedSecretNonce := []
  mLockedSecretDerivedHmacKey := []
  mUnfixedInfosKey := []
  mUnfixedInfosNonce := []
  mUnfixedInfosDerivedHmacKey := []

/-- A version-2 dump of 0x214 bytes: all zero except the magic at offset 0x10. -/
def exampleDumpV2 : List Byte := zeros 0x10 ++ [0xa5] ++ zeros 0x203

/-- A sequence of TLVs ending in a TERMINATOR. -/
def exampleTLVs : List TLV :=
  [{ mTag := TLV.TAG_LOCK_CTRL, mValue := [1, 2, 3] }, { mTag := TLV.TAG_NDEF, mValue := [9] },
   { mTag := TLV.TAG_TERMINATOR, mValue := [] }]

/-- A version-0 dump in which blocks 1 to 6 are free and hold the capability container,
one NDEF TLV with a single short Unknown record of 36 payload bytes ("NOFT" at payload
offset 0x20), a TERMINATOR and two more bytes, the second of them `pad`; every other
block has its lock bit set, except that the lock byte at 0x70 is `lock0`. -/
def exampleDumpV0 (lock0 pad : Byte) : List Byte :=
  -- block 0: UID
  [4, 1, 2, 3, 4, 5, 6, 7] ++
  -- blocks 1..6: data area
  [0xe1, 0x10, 0x3f, 0x00, 0x03, 0x27, 0xd5, 0x00, 0x24] ++ List.replicate 32 0x11 ++
  [0x4e, 0x4f, 0x46, 0x54, 0xfe, 0x00, pad] ++
  -- blocks 7..12: locked
  List.replicate 48 0x22 ++
  -- block 13: reserved
  List.replicate 8 0x33 ++
  -- block 14: two lock bytes, then reserved bytes
  [lock0, 0xff, 0, 0, 0, 0, 0, 0] ++
  -- block 15: two reserved bytes, then six lock bytes
  [0, 0, 0xff, 0xff, 0xff, 0xff, 0xff, 0xff] ++
  -- blocks 16..63: locked
  List.replicate 384 0x44

/-- An Unknown record with the given flags and with empty type, ID and payload. -/
def exampleRecord (flags : Byte) : ndef.Record :=
  { mFlags := flags, mTNF := ndef.NDEF_TNF_UNKNOWN, mID := [], mType := [], mPayload := [] }

/-- An 80-byte key file half whose byte at offset `i` has the value `i`. -/
def exampleHalf : List Byte := (List.range 80).map u8

/-- A message of three records whose stored flags all carry MB and ME. -/
def exampleMessage : ndef.Message :=
  { mRecords := [exampleRecord 0xd0, exampleRecord 0xd0, exampleRecord 0xd0] }

/-- A 512-byte dump that is all zero except for the capability container `E1 10 3F 00`
at offset 8, followed by a single TERMINATOR. -/
def exampleDumpNoNdef : List Byte := zeros 8 ++ [0xe1, 0x10, 0x3f, 0x00, 0xfe] ++ zeros 499

/-- A cleartext tag object of the given layout whose canonical byte at offset `i` is
`i mod 256`, with the keys of `exampleHalf` and a key generation salt of 32 bytes
`0x55`. -/
def exampleTagEncryption (layout : Layout) : TagEncryption where
  mTag := { mIsEncrypted := false, mData := (List.range 540).map u8, layout := layout }
  mKeys := { mNfcKey := zeros 0x10, mNfcNonce := zeros 0x10,
             mNfcXorPad := slice exampleHalf 0x30 0x20,
             mUnfixedInfosString := slice exampleHalf 0x10 0xe,
             mUnfixedInfosMagicBytes := slice exampleHalf 0x20 0xe,
             mUnfixedInfosHmacKey := slice exampleHalf 0 0x10 ++ zeros 0x30,
             mLockedSecretString := slice exampleHalf 0x10 0xe,
             mLockedSecretMagicBytes := slice exampleHalf 0x20 0x10,
             mLockedSecretHmacKey := slice exampleHalf 0 0x10 ++ zeros 0x30 }
  mKeyGenSalt := List.replicate 0x20 0x55
  mLockedSecretKey := zeros 0x10
  mLockedSecretNonce := zeros 0x10
  mLockedSecretDerivedHmacKey := zeros 0x40
  mUnfixedInfosKey := zeros 0x10
  mUnfixedInfosNonce := zeros 0x10
  mUnfixedInfosDerivedHmacKey := zeros 0x40

/-- The bytes of a short record with an ID: header `1d` (SR, IL, Unknown), type length 1,
payload length 2, ID length 1, the type byte `aa`, the ID byte `bb`, the payload `cc dd`;
then one more byte. -/
def exampleRecordBytes : List Byte := [0x1d, 0x01, 0x02, 0x01, 0xaa, 0xbb, 0xcc, 0xdd, 0xee]

/-- The dump `exampleDumpV0 0x81 0` with the lock byte at 0x71 set to 0xBF: the lock bit
of block 14, which holds the lock bytes 0x70 and 0x71, is clear. -/
def exampleDumpUnlocked14 : List Byte := (exampleDumpV0 0x81 0).set 0x71 0xbf

/-- An instance of the primitives in which every call fails. -/
def failingPrimitives : Primitives where
  aes_crypt_ctr := fun _ _ _ => none
  md_hmac := fun _ _ => none
  aes_crypt_ctr_length := by
    intro key nonce i o h
    cases h
  md_hmac_length := by
    intro key i o h
    cases h

/-- The canonical buffer that `TagV2::FromBytes` gives for `exampleDumpV2`: all zero
except for the magic at offset 0x28. -/
def exampleCanonicalV2 : List Byte := zeros 0x28 ++ [0xa5] ++ zeros 0x1f3

/-- An edit of the first 0x208 canonical bytes that keeps the magic at offset 0x28. -/
def exampleEditV2 : List Byte :=
  List.replicate 0x28 0x77 ++ [0xa5] ++ List.replicate 0x1df 0x88

/-- A 512-byte dump in which every lock bit is set: no block is free and the data area
is empty. -/
def exampleDumpNoFreeBlock : List Byte :=
  zeros 0x70 ++ [0xff, 0xff] ++ zeros 8 ++ List.replicate 6 0xff ++ zeros 384

/-- The Unknown record of `exampleDumpV0`: a short record with MB and ME whose payload
is 32 bytes 0x11 and `NOFT`. -/
def exampleRecordV0 : ndef.Record :=
  ndef.Record.mk 0xd0 5 [] [] (List.replicate 32 0x11 ++ [0x4e, 0x4f, 0x46, 0x54])

/-- The NDEF TLV of `exampleDumpV0`: its value is the header `D5 00 24` and the payload
of `exampleRecordV0`. -/
def exampleNdefTlvV0 : TLV :=
  TLV.mk TLV.TAG_NDEF ([0xd5, 0x00, 0x24] ++ exampleRecordV0.mPayload)

/-- The data area of `exampleDumpShort255`: the capability container, an NDEF TLV with
a 3-byte length field whose value is one short Unknown record (`D5 00 FF`) with a
payload of 255 bytes (`NOFT` at payload offset 0x20), a TERMINATOR and five zero
bytes: 272 bytes, 34 blocks. -/
def exampleDataAreaShort255 : List Byte :=
  [0xe1, 0x10, 0x3f, 0x00, 0x03, 0xff, 0x01, 0x02, 0xd5, 0x00, 0xff] ++
  List.replicate 32 0x11 ++ [0x4e, 0x4f, 0x46, 0x54] ++ List.replicate 219 0x11 ++
  [0xfe, 0x00, 0x00, 0x00, 0x00, 0x00]

/-- A version-0 dump whose free blocks 1 to 12 and 16 to 37 hold
`exampleDataAreaShort255`; the lock bits of all other blocks are set. -/
def exampleDumpShort255 : List Byte :=
  -- block 0: UID
  [4, 1, 2, 3, 4, 5, 6, 7] ++
  -- blocks 1..12: data area
  exampleDataAreaShort255.take 96 ++
  -- block 13: reserved
  List.replicate 8 0x33 ++
  -- block 14: two lock bytes, then reserved bytes
  [0x01, 0xe0, 0, 0, 0, 0, 0, 0] ++
  -- block 15: two reserved bytes, then six lock bytes
  [0, 0, 0x00, 0x00, 0xc0, 0xff, 0xff, 0xff] ++
  -- blocks 16..37: data area
  exampleDataAreaShort255.drop 96 ++
  -- blocks 38..63: locked
  List.replicate 208 0x44

/-! # Theorems -/

/-! ## Buffer lemmas -/

theorem length_zeros (n : Nat) : (zeros n).length = n := by simp [zeros]

theorem length_slice {α : Type} (l : List α) (off n : Nat) (h : off + n ≤ l.length) :
    (slice l off n).length = n := by
  simp [slice]; omega

theorem getElem?_slice {α : Type} (l : List α) (off n i : Nat) :
    (slice l off n)[i]? = if i < n then l[off + i]? else none := by
  simp [slice, List.getElem?_take]

theorem length_copyTo {α : Type} (src dst : List α) (off : Nat)
    (h : off + src.length ≤ dst.length) : (copyTo src dst off).length = dst.length := by
  simp [copyTo]; omega

theorem getElem?_copyTo {α : Type} (src dst : List α) (off i : Nat)
    (h : off + src.length ≤ dst.length) :
    (copyTo src dst off)[i]? =
      if off ≤ i ∧ i < off + src.length then src[i - off]? else dst[i]? := by
  unfold copyTo
  by_cases h1 : i < off
  · have : ¬ (off ≤ i ∧ i < off + src.length) := by omega
    rw [if_neg this, List.append_assoc, List.getElem?_append_left (by simp; omega)]
    simp [List.getElem?_take, h1]
  · by_cases h2 : i < off + src.length
    · have : off ≤ i ∧ i < off + src.length := by omega
      rw [if_pos this, List.getElem?_append_left (by simp; omega),
        List.getElem?_append_right (by simp; omega)]
      simp
      congr 1
      omega
    · have : ¬ (off ≤ i ∧ i < off + src.length) := by omega
      rw [if_neg this, List.getElem?_append_right (by simp; omega)]
      simp
      congr 1
      omega

theorem length_copy_n {α : Type} (src : List α) (so n : Nat) (dst : List α) (d : Nat)
    (hs : so + n ≤ src.length) (hd : d + n ≤ dst.length) :
    (copy_n src so n dst d).length = dst.length := by
  unfold copy_n
  rw [length_copyTo]
  rw [length_slice _ _ _ hs]; exact hd

theorem getElem?_copy_n {α : Type} (src : List α) (so n : Nat) (dst : List α) (d i : Nat)
    (hs : so + n ≤ src.length) (hd : d + n ≤ dst.length) :
    (copy_n src so n dst d)[i]? =
      if d ≤ i ∧ i < d + n then src[so + (i - d)]? else dst[i]? := by
  unfold copy_n
  rw [getElem?_copyTo _ _ _ _ (by rw [length_slice _ _ _ hs]; exact hd),
    length_slice _ _ _ hs, getElem?_slice]
  by_cases h : d ≤ i ∧ i < d + n
  · rw [if_pos h, if_pos h, if_pos (by omega)]
  · rw [if_neg h, if_neg h]

theorem getElem?_zeros (n i : Nat) : (zeros n)[i]? = if i < n then some 0 else none := by
  unfold zeros
  by_cases h : i < n
  · simp [h, List.getElem?_replicate]
  · simp [h, List.getElem?_replicate]

theorem applyChunks_spec {α : Type} (src : List α) (cs : List (Nat × Nat × Nat)) :
    ∀ dst : List α, chunksValid src.length dst.length cs = true →
      (applyChunks src cs dst).length = dst.length ∧
      ∀ i, (applyChunks src cs dst)[i]? =
        match chunkSource cs i with
        | some j => src[j]?
        | none => dst[i]? := by
  induction cs with
  | nil => intro dst _; exact ⟨rfl, fun i => rfl⟩
  | cons c cs ih =>
    obtain ⟨so, n, d⟩ := c
    intro dst hv
    simp only [chunksValid, List.all_cons, Bool.and_eq_true, decide_eq_true_eq] at hv
    obtain ⟨⟨hs, hd⟩, hrest⟩ := hv
    have hlen := length_copy_n src so n dst d hs hd
    have hv' : chunksValid src.length (copy_n src so n dst d).length cs = true := by
      rw [hlen]; exact hrest
    obtain ⟨ihl, ihg⟩ := ih _ hv'
    refine ⟨by rw [applyChunks, ihl, hlen], fun i => ?_⟩
    rw [applyChunks, ihg i, chunkSource]
    cases chunkSource cs i with
    | some j => rfl
    | none =>
      simp only
      rw [getElem?_copy_n src so n dst d i hs hd]
      by_cases h : d ≤ i ∧ i < d + n
      · rw [if_pos h, if_pos h]
      · rw [if_neg h, if_neg h]

theorem TagV2.FromBytes_eq (d : List Byte) (hlen : d.length = 0x214 ∨ d.length = 0x21c)
    (hmagic : d.getD 0x10 0 = 0xa5) :
    TagV2.FromBytes d = some
      { mIsEncrypted := false
        mData := applyChunks d (TagV2.chunksIn (d.length - 0x208)) (zeros 540)
        mOriginalFileSize := d.length } := by
  have h1 : ¬ (d.length ≠ TagV2.kTagSize0 ∧ d.length ≠ TagV2.kTagSize1) := by
    simp only [TagV2.kTagSize0, TagV2.kTagSize1]; omega
  have h2 : ¬ (d.getD 0x10 0 ≠ TagV2.kTagMagic) := by
    rw [hmagic]; exact fun h => h rfl
  rw [TagV2.FromBytes, if_neg h1, if_neg h2]
  rcases hlen with h | h
  · simp only [h, TagV2.kTagSize1, Nat.reduceEqDiff, if_false]; rfl
  · simp only [h, TagV2.kTagSize1, if_true]; rfl

theorem TagV2.ToBytes_eq (t : TagV2) (h : t.mOriginalFileSize = 0x214 ∨ t.mOriginalFileSize = 0x21c) :
    TagV2.ToBytes t =
      applyChunks t.mData (TagV2.chunksOut (t.mOriginalFileSize - 0x208))
        (zeros t.mOriginalFileSize) := by
  rw [TagV2.ToBytes]
  rcases h with h | h
  · simp only [h, TagV2.kTagSize1]; rfl
  · simp only [h, TagV2.kTagSize1]; rfl

theorem TagV2.chunks_inverse :
    ∀ tail, (tail = 0xc ∨ tail = 0x14) → ∀ i, i < 0x208 + tail →
      (chunkSource (TagV2.chunksOut tail) i).bind (chunkSource (TagV2.chunksIn tail)) = some i := by
  intro tail h
  rcases h with h | h <;> subst h <;> decide!

theorem TagV2_roundtrip (d : List Byte) (hlen : d.length = 0x214 ∨ d.length = 0x21c)
    (hmagic : d.getD 0x10 0 = 0xa5) :
    ∃ t, TagV2.FromBytes d = some t ∧ TagV2.ToBytes t = d := by
  refine ⟨_, TagV2.FromBytes_eq d hlen hmagic, ?_⟩
  rw [TagV2.ToBytes_eq _ hlen]
  dsimp only
  have htail : d.length - 0x208 = 0xc ∨ d.length - 0x208 = 0x14 := by omega
  have hvin : chunksValid d.length (zeros 540).length (TagV2.chunksIn (d.length - 0x208)) = true := by
    rw [length_zeros]
    rcases hlen with h | h <;> rw [h] <;> decide
  obtain ⟨hMlen, hMget⟩ := applyChunks_spec d _ _ hvin
  rw [length_zeros] at hMlen
  have hvout : chunksValid (applyChunks d (TagV2.chunksIn (d.length - 0x208)) (zeros 540)).length
      (zeros d.length).length (TagV2.chunksOut (d.length - 0x208)) = true := by
    rw [hMlen, length_zeros]
    rcases hlen with h | h <;> rw [h] <;> decide
  obtain ⟨hOlen, hOget⟩ := applyChunks_spec _ _ _ hvout
  rw [length_zeros] at hOlen
  apply List.ext_getElem?
  intro i
  by_cases hi : i < d.length
  · have key := TagV2.chunks_inverse _ htail i (by omega)
    rw [hOget i]
    cases h1 : chunkSource (TagV2.chunksOut (d.length - 0x208)) i with
    | none => rw [h1] at key; cases key
    | some j =>
      rw [h1] at key
      simp only [Option.bind_some, Option.some_bind] at key
      simp only
      rw [hMget j, key]
  · have e1 : d[i]? = none := List.getElem?_eq_none (by omega)
    rw [e1]
    exact List.getElem?_eq_none (by rw [hOlen]; omega)
/-! ## TLV: the loop against its list-level description -/

namespace SpanStream

theorem Read_ok (data : List Byte) (pos n : Nat) (e : Bool) (h : n ≤ (data.drop pos).length) :
    Read { mSpan := data, mPosition := pos, mError := e } n =
      ((data.drop pos).take n, { mSpan := data, mPosition := pos + n, mError := e }) := by
  have h' : ¬ n > data.length - pos := by simpa using h
  simp only [Read, GetRemaining, if_neg h', slice]

theorem Read_fail (data : List Byte) (pos n : Nat) (e : Bool) (h : (data.drop pos).length < n) :
    Read { mSpan := data, mPosition := pos, mError := e } n =
      (zeros n, { mSpan := data, mPosition := pos, mError := true }) := by
  have h' : n > data.length - pos := by simpa using h
  simp only [Read, GetRemaining, if_pos h']

theorem Read_mError (s : SpanStream) (n : Nat) (h : s.mError = true) :
    (s.Read n).2.mError = true := by
  unfold Read
  split_ifs <;> simp [h]

theorem readU8_cons (data : List Byte) (pos : Nat) (e : Bool) (b : Byte) (r : List Byte)
    (h : data.drop pos = b :: r) :
    readU8 { mSpan := data, mPosition := pos, mError := e } =
      (b, { mSpan := data, mPosition := pos + 1, mError := e }) := by
  rw [readU8, Read_ok _ _ _ _ (by rw [h]; simp), h]
  rfl

theorem readU8_nil (data : List Byte) (pos : Nat) (e : Bool) (h : data.drop pos = []) :
    readU8 { mSpan := data, mPosition := pos, mError := e } =
      (0, { mSpan := data, mPosition := pos, mError := true }) := by
  rw [readU8, Read_fail _ _ _ _ (by rw [h]; simp)]
  rfl

theorem readU16_cons (data : List Byte) (pos : Nat) (e : Bool) (hi lo : Byte) (r : List Byte)
    (h : data.drop pos = hi :: lo :: r) :
    readU16 { mSpan := data, mPosition := pos, mError := e } =
      (hi.val * 256 + lo.val, { mSpan := data, mPosition := pos + 2, mError := e }) := by
  rw [readU16, Read_ok _ _ _ _ (by rw [h]; simp), h]
  rfl

theorem readU16_fail (data : List Byte) (pos : Nat) (e : Bool) (h : (data.drop pos).length < 2) :
    readU16 { mSpan := data, mPosition := pos, mError := e } =
      (0, { mSpan := data, mPosition := pos, mError := true }) := by
  rw [readU16, Read_fail _ _ _ _ h]
  simp [zeros]

theorem drop_succ_of_drop_cons {α : Type} (data : List α) (pos : Nat) (b : α) (r : List α)
    (h : data.drop pos = b :: r) : data.drop (pos + 1) = r := by
  have : data.drop (pos + 1) = (data.drop pos).drop 1 := by rw [List.drop_drop]
  rw [this, h]; rfl

end SpanStream

namespace TLV

theorem loop_hasTerminator (fuel : Nat) (s : SpanStream) (tlvs : List TLV) :
    FromBytes.loop fuel s true tlvs = tlvs := by
  cases fuel with
  | zero => rfl
  | succ n => simp [FromBytes.loop]


/-- The loop body on a stream whose unread rest is `tag :: r`, in terms of that rest: the
outcome is either a read past the end, or the number of bytes consumed together with the
new `hasTerminator` and `tlvs`. -/
theorem body_eq (data : List Byte) (pos : Nat) (ht : Bool) (tlvs : List TLV) (tag : Byte)
    (r : List Byte) (hrest : data.drop pos = tag :: r) :
    FromBytes.body { mSpan := data, mPosition := pos, mError := false } ht tlvs =
      if tag = TAG_NULL then
        ({ mSpan := data, mPosition := pos + 1, mError := false }, ht, tlvs)
      else if tag = TAG_TERMINATOR then
        ({ mSpan := data, mPosition := pos + 1, mError := false }, true,
          tlvs ++ [{ mTag := tag, mValue := [] }])
      else
        match r with
        | [] => ({ mSpan := data, mPosition := pos + 1, mError := true }, ht,
            tlvs ++ [{ mTag := tag, mValue := [] }])
        | len :: r1 =>
          if len.val = 0xff then
            match r1 with
            | hi :: lo :: r2 =>
              if hi.val * 256 + lo.val ≤ r2.length then
                ({ mSpan := data, mPosition := pos + 1 + 1 + 2 + (hi.val * 256 + lo.val),
                   mError := false }, ht,
                  tlvs ++ [{ mTag := tag, mValue := r2.take (hi.val * 256 + lo.val) }])
              else
                ({ mSpan := data, mPosition := pos + 1 + 1 + 2, mError := true }, ht,
                  tlvs ++ [{ mTag := tag, mValue := zeros (hi.val * 256 + lo.val) }])
            | _ => ({ mSpan := data, mPosition := pos + 1 + 1, mError := true }, ht,
                tlvs ++ [{ mTag := tag, mValue := [] }])
          else if len.val ≤ r1.length then
            ({ mSpan := data, mPosition := pos + 1 + 1 + len.val, mError := false }, ht,
              tlvs ++ [{ mTag := tag, mValue := r1.take len.val }])
          else
            ({ mSpan := data, mPosition := pos + 1 + 1, mError := true }, ht,
              tlvs ++ [{ mTag := tag, mValue := zeros len.val }]) := by
  have hr : data.drop (pos + 1) = r := SpanStream.drop_succ_of_drop_cons _ _ _ _ hrest
  simp only [FromBytes.body, SpanStream.readU8_cons _ _ _ _ _ hrest]
  by_cases hnull : tag = TAG_NULL
  · simp only [if_pos hnull]
  · by_cases hterm : tag = TAG_TERMINATOR
    · simp only [if_neg hnull, if_pos hterm]
    · simp only [if_neg hnull, if_neg hterm]
      cases r with
      | nil =>
        have h0 : ¬ ((0 : Byte).val = 255) := by decide
        simp only [SpanStream.readU8_nil _ _ _ hr, if_neg h0]
        rw [SpanStream.Read_ok _ _ _ _ (by simp)]
        simp
      | cons len r1 =>
        have hr1 : data.drop (pos + 1 + 1) = r1 := SpanStream.drop_succ_of_drop_cons _ _ _ _ hr
        simp only [SpanStream.readU8_cons _ _ _ _ _ hr]
        by_cases hff : len.val = 255
        · simp only [if_pos hff]
          match r1, hr1 with
          | [], hr1 =>
            rw [SpanStream.readU16_fail _ _ _ (by rw [hr1]; simp)]
            rw [SpanStream.Read_ok _ _ _ _ (by simp)]
            simp
          | [hi], hr1 =>
            rw [SpanStream.readU16_fail _ _ _ (by rw [hr1]; simp)]
            rw [SpanStream.Read_ok _ _ _ _ (by simp)]
            simp
          | hi :: lo :: r2, hr1 =>
            have hr2 : data.drop (pos + 1 + 1 + 2) = r2 := by
              rw [← List.drop_drop, hr1]; rfl
            rw [SpanStream.readU16_cons _ _ _ _ _ _ hr1]
            by_cases hfit : hi.val * 256 + lo.val ≤ r2.length
            · simp only []
              rw [SpanStream.Read_ok _ _ _ _ (by rw [hr2]; exact hfit), if_pos hfit, hr2]
            · simp only []
              rw [SpanStream.Read_fail _ _ _ _ (by rw [hr2]; omega), if_neg hfit]
        · simp only [if_neg hff]
          by_cases hfit : len.val ≤ r1.length
          · rw [SpanStream.Read_ok _ _ _ _ (by rw [hr1]; exact hfit), if_pos hfit, hr1]
          · rw [SpanStream.Read_fail _ _ _ _ (by rw [hr1]; omega), if_neg hfit]
theorem decodeL_nil : decodeL [] = some [] := by rw [decodeL]

theorem decodeL_cons (tag : Byte) (r : List Byte) :
    decodeL (tag :: r) =
      if tag = TAG_NULL then decodeL r
      else if tag = TAG_TERMINATOR then some [{ mTag := tag, mValue := [] }]
      else
        match r with
        | [] => none
        | len :: r1 =>
          if len.val = 0xff then
            match r1 with
            | hi :: lo :: r2 =>
              if hi.val * 256 + lo.val ≤ r2.length then
                (decodeL (r2.drop (hi.val * 256 + lo.val))).map
                  (fun ts => { mTag := tag, mValue := r2.take (hi.val * 256 + lo.val) } :: ts)
              else none
            | _ => none
          else if len.val ≤ r1.length then
            (decodeL (r1.drop len.val)).map
              (fun ts => { mTag := tag, mValue := r1.take len.val } :: ts)
          else none := by
  rw [decodeL.eq_def]

theorem loop_eq_decodeL (fuel : Nat) :
    ∀ (data : List Byte) (pos : Nat) (acc : List TLV),
      (data.drop pos).length < fuel →
      FromBytes.loop fuel { mSpan := data, mPosition := pos, mError := false } false acc =
        match decodeL (data.drop pos) with
        | some ts => acc ++ ts
        | none => [] := by
  induction fuel with
  | zero => intro data pos acc h; omega
  | succ fuel ih =>
    intro data pos acc hfuel
    have hlen : (data.drop pos).length = data.length - pos := List.length_drop _ _
    cases hrest : data.drop pos with
    | nil =>
      have hrem : ¬ ((SpanStream.GetRemaining { mSpan := data, mPosition := pos, mError := false }) > 0
          ∧ false = false) := by
        rw [hrest] at hlen
        simp only [SpanStream.GetRemaining, List.length_nil] at hlen ⊢
        omega
      rw [FromBytes.loop, if_neg hrem, decodeL_nil]
      simp
    | cons tag r =>
      have hrem : (SpanStream.GetRemaining { mSpan := data, mPosition := pos, mError := false }) > 0
          ∧ false = false := by
        rw [hrest] at hlen
        simp only [SpanStream.GetRemaining, List.length_cons] at hlen ⊢
        exact ⟨by omega, trivial⟩
      have hr : data.drop (pos + 1) = r := SpanStream.drop_succ_of_drop_cons _ _ _ _ hrest
      have hrl : r.length < fuel := by
        rw [hrest] at hfuel; simp at hfuel; omega
      rw [FromBytes.loop, if_pos hrem, decodeL_cons]
      rw [body_eq _ _ _ _ _ _ hrest]
      by_cases hnull : tag = TAG_NULL
      · simp only [if_pos hnull]
        rw [ih data (pos + 1) acc (by rw [hr]; exact hrl), hr]
        simp
      · simp only [if_neg hnull]
        by_cases hterm : tag = TAG_TERMINATOR
        · simp only [if_pos hterm, loop_hasTerminator]
          simp
        · simp only [if_neg hterm]
          match r, hr, hrl with
          | [], hr, hrl => simp
          | len :: r1, hr, hrl =>
            have hr1 : data.drop (pos + 1 + 1) = r1 := SpanStream.drop_succ_of_drop_cons _ _ _ _ hr
            simp only
            by_cases hff : len.val = 255
            · simp only [if_pos hff]
              match r1, hr1, hrl with
              | [], hr1, hrl => simp
              | [hi], hr1, hrl => simp
              | hi :: lo :: r2, hr1, hrl =>
                have hr2 : data.drop (pos + 1 + 1 + 2) = r2 := by
                  rw [← List.drop_drop, hr1]; rfl
                simp only
                by_cases hfit : hi.val * 256 + lo.val ≤ r2.length
                · simp only [if_pos hfit, Bool.false_eq_true, if_false]
                  rw [ih _ _ _ (by
                    rw [← List.drop_drop, hr2, List.length_drop]
                    simp only [List.length_cons] at hrl; omega)]
                  rw [← List.drop_drop, hr2]
                  cases decodeL (List.drop (hi.val * 256 + lo.val) r2) <;> simp
                · simp only [if_neg hfit, if_true]
            · simp only [if_neg hff]
              by_cases hfit : len.val ≤ r1.length
              · simp only [if_pos hfit, Bool.false_eq_true, if_false]
                rw [ih _ _ _ (by
                  rw [← List.drop_drop, hr1, List.length_drop]
                  simp only [List.length_cons] at hrl; omega)]
                rw [← List.drop_drop, hr1]
                cases decodeL (List.drop len.val r1) <;> simp
              · simp only [if_neg hfit, if_true]

theorem FromBytes_eq_decodeL (data : List Byte) : FromBytes data = (decodeL data).getD [] := by
  rw [FromBytes, SpanStream.new, loop_eq_decodeL _ _ _ _ (by simp)]
  simp only [List.drop_zero]
  cases decodeL data <;> simp

end TLV

namespace TLV

theorem decodeL_frame (tag : Byte) (hdr v rest : List Byte) (hn : tag ≠ TAG_NULL)
    (ht : tag ≠ TAG_TERMINATOR) (h : IsLenField hdr v.length) :
    decodeL (tag :: (hdr ++ v ++ rest)) =
      (decodeL rest).map (fun ts => { mTag := tag, mValue := v } :: ts) := by
  rw [decodeL_cons, if_neg hn, if_neg ht]
  rcases h with ⟨len, rfl, hne, hlen⟩ | ⟨hi, lo, rfl, hlen⟩
  · simp only [List.singleton_append, List.cons_append, List.nil_append, List.append_assoc]
    rw [if_neg hne, if_pos (by simp; omega), ← hlen]
    simp
  · have h255 : ((255 : Byte).val = 255) := by decide
    simp only [List.singleton_append, List.cons_append, List.nil_append, List.append_assoc]
    rw [if_pos h255, if_pos (by simp; omega), ← hlen]
    simp

theorem decodeL_some_cases (l : List Byte) (ts : List TLV) (h : decodeL l = some ts) :
    (l = [] ∧ ts = []) ∨
    (∃ r, l = TAG_NULL :: r ∧ decodeL r = some ts) ∨
    (∃ r, l = TAG_TERMINATOR :: r ∧ ts = [{ mTag := TAG_TERMINATOR, mValue := [] }]) ∨
    (∃ tag hdr v rest ts', l = tag :: (hdr ++ v ++ rest) ∧ tag ≠ TAG_NULL ∧
      tag ≠ TAG_TERMINATOR ∧ IsLenField hdr v.length ∧ decodeL rest = some ts' ∧
      ts = { mTag := tag, mValue := v } :: ts') := by
  cases l with
  | nil =>
    rw [decodeL_nil] at h
    left; exact ⟨rfl, (Option.some.inj h).symm⟩
  | cons tag r =>
    right
    rw [decodeL_cons] at h
    by_cases hn : tag = TAG_NULL
    · rw [if_pos hn] at h
      left; exact ⟨r, by rw [hn], h⟩
    · rw [if_neg hn] at h
      right
      by_cases ht : tag = TAG_TERMINATOR
      · rw [if_pos ht] at h
        left; exact ⟨r, by rw [ht], by rw [← Option.some.inj h, ht]⟩
      · rw [if_neg ht] at h
        right
        match r, h with
        | len :: r1, h =>
          simp only at h
          by_cases hff : len.val = 255
          · rw [if_pos hff] at h
            match r1, h with
            | hi :: lo :: r2, h =>
              simp only at h
              by_cases hfit : hi.val * 256 + lo.val ≤ r2.length
              · rw [if_pos hfit] at h
                cases hd : decodeL (List.drop (hi.val * 256 + lo.val) r2) with
                | none => rw [hd] at h; cases h
                | some ts' =>
                  rw [hd] at h
                  refine ⟨tag, [255, hi, lo], r2.take (hi.val * 256 + lo.val),
                    r2.drop (hi.val * 256 + lo.val), ts', ?_, hn, ht, ?_, hd,
                    (Option.some.inj h).symm⟩
                  · have : len = 255 := Fin.ext hff
                    rw [this]
                    simp
                  · right
                    exact ⟨hi, lo, rfl, by simp; omega⟩
              · rw [if_neg hfit] at h; cases h
          · rw [if_neg hff] at h
            by_cases hfit : len.val ≤ r1.length
            · rw [if_pos hfit] at h
              cases hd : decodeL (List.drop len.val r1) with
              | none => rw [hd] at h; cases h
              | some ts' =>
                rw [hd] at h
                refine ⟨tag, [len], r1.take len.val, r1.drop len.val, ts', ?_, hn, ht, ?_, hd,
                  (Option.some.inj h).symm⟩
                · simp
                · left
                  exact ⟨len, rfl, hff, by simp; omega⟩
            · rw [if_neg hfit] at h; cases h

end TLV

namespace TLV

theorem val_u8 (n : Nat) : (u8 n).val = n % 256 := rfl

theorem ToBytes_short (t : TLV) (hn : t.mTag ≠ TAG_NULL) (ht : t.mTag ≠ TAG_TERMINATOR)
    (hs : t.mValue.length < 255) :
    ToBytes t = t.mTag :: u8 t.mValue.length :: t.mValue := by
  have h1 : ¬ (t.mTag = TAG_NULL ∨ t.mTag = TAG_TERMINATOR) := by
    rintro (h | h)
    · exact hn h
    · exact ht h
  have h2 : ¬ (t.mValue.length ≥ 0xff) := by omega
  simp only [ToBytes, if_neg h1, if_neg h2, List.singleton_append, List.cons_append,
    List.nil_append]

theorem ToBytes_long (t : TLV) (hn : t.mTag ≠ TAG_NULL) (ht : t.mTag ≠ TAG_TERMINATOR)
    (hs : 255 ≤ t.mValue.length) :
    ToBytes t = t.mTag :: 0xFF :: u8 (t.mValue.length % 65536 / 256) ::
      u8 (t.mValue.length % 65536) :: t.mValue := by
  have h1 : ¬ (t.mTag = TAG_NULL ∨ t.mTag = TAG_TERMINATOR) := by
    rintro (h | h)
    · exact hn h
    · exact ht h
  have h2 : t.mValue.length ≥ 0xff := hs
  simp only [ToBytes, if_neg h1, if_pos h2, writeU16, List.singleton_append, List.cons_append,
    List.nil_append, List.append_assoc]
  rfl

theorem ToBytes_null_or_terminator (t : TLV) (h : t.mTag = TAG_NULL ∨ t.mTag = TAG_TERMINATOR) :
    ToBytes t = [t.mTag] := by
  simp only [ToBytes, if_pos h]

theorem u16_bytes (n : Nat) :
    (u8 (n % 65536 / 256)).val * 256 + (u8 (n % 65536)).val = n % 65536 := by
  simp only [val_u8]
  omega

theorem ToBytes_frame (t : TLV) (hn : t.mTag ≠ TAG_NULL) (ht : t.mTag ≠ TAG_TERMINATOR)
    (hs : t.mValue.length < 65536) :
    ∃ hdr, ToBytes t = t.mTag :: (hdr ++ t.mValue ++ []) ∧ IsLenField hdr t.mValue.length := by
  by_cases h : t.mValue.length < 255
  · refine ⟨[u8 t.mValue.length], ?_, Or.inl ⟨_, rfl, ?_, ?_⟩⟩
    · rw [ToBytes_short t hn ht h]; simp
    · rw [val_u8]; omega
    · rw [val_u8]; omega
  · refine ⟨[255, u8 (t.mValue.length % 65536 / 256), u8 (t.mValue.length % 65536)], ?_,
      Or.inr ⟨_, _, rfl, ?_⟩⟩
    · rw [ToBytes_long t hn ht (by omega)]; simp
    · rw [u16_bytes]; omega

theorem decodeL_ToBytes_append (t : TLV) (rest : List Byte) (hn : t.mTag ≠ TAG_NULL)
    (ht : t.mTag ≠ TAG_TERMINATOR) (hs : t.mValue.length < 65536) :
    decodeL (ToBytes t ++ rest) = (decodeL rest).map (fun ts => t :: ts) := by
  obtain ⟨hdr, he, hf⟩ := ToBytes_frame t hn ht hs
  rw [he]
  simp only [List.append_nil, List.cons_append]
  have := decodeL_frame t.mTag hdr t.mValue rest hn ht hf
  simp only [List.append_assoc] at this ⊢
  rw [this]

end TLV

/-- **C7.** `TLV::ToBytes` of a TLV whose tag is neither NULL nor TERMINATOR writes the tag
byte, then one length byte when the value is shorter than 255 bytes and otherwise 0xFF
and the length as a 2-byte big-endian number (`std::uint16_t(size)`, which is the length
itself below 65536), then the value. A value of exactly 255 bytes gets the length field
FF 00 FF, and `TLV::FromBytes` of that encoding is the one TLV again. -/
theorem TLV_ToBytes_length_escape (t : TLV) (hn : t.mTag ≠ TLV.TAG_NULL)
    (ht : t.mTag ≠ TLV.TAG_TERMINATOR) :
    (t.mValue.length < 255 →
      ∃ len : Byte, TLV.ToBytes t = t.mTag :: len :: t.mValue ∧ len.val = t.mValue.length) ∧
    (255 ≤ t.mValue.length →
      ∃ hi lo : Byte, TLV.ToBytes t = t.mTag :: 0xFF :: hi :: lo :: t.mValue ∧
        hi.val * 256 + lo.val = t.mValue.length % 65536 ∧
        (t.mValue.length < 65536 → hi.val * 256 + lo.val = t.mValue.length)) ∧
    (t.mValue.length = 255 →
      TLV.ToBytes t = t.mTag :: 0xFF :: 0x00 :: 0xFF :: t.mValue ∧
      TLV.FromBytes (TLV.ToBytes t) = [t]) := by
  refine ⟨fun h => ⟨u8 t.mValue.length, TLV.ToBytes_short t hn ht h, ?_⟩,
    fun h => ⟨_, _, TLV.ToBytes_long t hn ht h, TLV.u16_bytes _, fun h' => ?_⟩, fun h => ⟨?_, ?_⟩⟩
  · rw [TLV.val_u8]; omega
  · rw [TLV.u16_bytes]; omega
  · rw [TLV.ToBytes_long t hn ht (by omega), h]; rfl
  · rw [TLV.FromBytes_eq_decodeL]
    have := TLV.decodeL_ToBytes_append t [] hn ht (by omega)
    rw [List.append_nil] at this
    rw [this, TLV.decodeL_nil]
    rfl

/-- Witness for C7: the NDEF TLV with a value of 255 bytes. -/
theorem TLV_ToBytes_length_escape_witness :
    TLV.ToBytes { mTag := TLV.TAG_NDEF, mValue := List.replicate 255 7 } =
        TLV.TAG_NDEF :: 0xFF :: 0x00 :: 0xFF :: List.replicate 255 7 ∧
      TLV.FromBytes (TLV.ToBytes { mTag := TLV.TAG_NDEF, mValue := List.replicate 255 7 }) =
        [{ mTag := TLV.TAG_NDEF, mValue := List.replicate 255 7 }] :=
  (TLV_ToBytes_length_escape { mTag := TLV.TAG_NDEF, mValue := List.replicate 255 7 }
    (by decide) (by decide)).2.2 (List.length_replicate _ _)

namespace TLV

theorem decodeL_encodeAll (ts : List TLV) :
    (∀ t ∈ ts, t.mTag ≠ TAG_NULL) → (∀ t ∈ ts, t.mValue.length < 65536) →
    (∀ pre t post, ts = pre ++ t :: post → t.mTag = TAG_TERMINATOR → post = [] ∧ t.mValue = []) →
    decodeL (encodeAll ts) = some ts := by
  induction ts with
  | nil => intro _ _ _; exact decodeL_nil
  | cons t ts ih =>
    intro hnull hlen hterm
    have hn : t.mTag ≠ TAG_NULL := hnull t (List.mem_cons_self _ _)
    by_cases ht : t.mTag = TAG_TERMINATOR
    · obtain ⟨hpost, hval⟩ := hterm [] t ts rfl ht
      subst hpost
      rw [encodeAll, encodeAll, List.append_nil, ToBytes_null_or_terminator t (Or.inr ht),
        decodeL_cons, if_neg hn, if_pos ht]
      cases t with
      | mk tag value =>
        simp only at hval
        rw [hval]
    · rw [encodeAll, decodeL_ToBytes_append t _ hn ht (hlen t (List.mem_cons_self _ _)),
        ih (fun x hx => hnull x (List.mem_cons_of_mem _ hx))
          (fun x hx => hlen x (List.mem_cons_of_mem _ hx))
          (fun pre x post he hx => hterm (t :: pre) x post (by rw [he]; rfl) hx)]
      rfl

theorem decodeL_isTruncated (tr : List Byte) (h : isTruncated tr = true) : decodeL tr = none := by
  match tr, h with
  | tag :: r, h =>
    simp only [isTruncated, Bool.and_eq_true, decide_eq_true_eq] at h
    obtain ⟨⟨hn, ht⟩, h⟩ := h
    rw [decodeL_cons, if_neg hn, if_neg ht]
    match r, h with
    | [], _ => rfl
    | len :: r1, h =>
      simp only at h ⊢
      by_cases hff : len.val = 255
      · rw [if_pos hff] at h ⊢
        match r1, h with
        | [], _ => rfl
        | [_], _ => rfl
        | hi :: lo :: r2, h =>
          simp only [decide_eq_true_eq] at h ⊢
          rw [if_neg (by omega)]
      · rw [if_neg hff] at h ⊢
        simp only [decide_eq_true_eq] at h
        rw [if_neg (by omega)]

theorem decodeL_encodeAll_append_none (ts : List TLV) (tr : List Byte)
    (htr : decodeL tr = none) :
    (∀ t ∈ ts, t.mTag ≠ TAG_TERMINATOR ∧ t.mValue.length < 65536) →
    decodeL (encodeAll ts ++ tr) = none := by
  induction ts with
  | nil => intro _; exact htr
  | cons t ts ih =>
    intro h
    obtain ⟨ht, hl⟩ := h t (List.mem_cons_self _ _)
    have ih' := ih (fun x hx => h x (List.mem_cons_of_mem _ hx))
    rw [encodeAll, List.append_assoc]
    by_cases hn : t.mTag = TAG_NULL
    · rw [ToBytes_null_or_terminator t (Or.inl hn), List.singleton_append, decodeL_cons,
        if_pos hn]
      exact ih'
    · rw [decodeL_ToBytes_append t _ hn ht hl, ih']
      rfl

end TLV

/-- **C8.** `TLV::FromBytes` inverts `TLV::ToBytes` on sequences: for a list of TLVs in
which no element has the NULL tag, every value is shorter than 65536 bytes, and a
TERMINATOR element occurs only as the last element and with an empty value, decoding the
concatenation of the elements' encodings returns exactly that list. -/
theorem TLV_FromBytes_encodeAll (ts : List TLV)
    (hnull : ∀ t ∈ ts, t.mTag ≠ TLV.TAG_NULL)
    (hlen : ∀ t ∈ ts, t.mValue.length < 65536)
    (hterm : ∀ pre t post, ts = pre ++ t :: post → t.mTag = TLV.TAG_TERMINATOR →
      post = [] ∧ t.mValue = []) :
    TLV.FromBytes (TLV.encodeAll ts) = ts := by
  rw [TLV.FromBytes_eq_decodeL, TLV.decodeL_encodeAll ts hnull hlen hterm]
  rfl

namespace TLV

/-- Induction along a successful decode: the input is empty, or starts with a NULL byte,
or with a TERMINATOR byte, or with a complete frame followed by a decodable rest. -/
theorem decodeL_induction {P : List Byte → List TLV → Prop}
    (hnil : P [] [])
    (hnull : ∀ r ts, decodeL r = some ts → P r ts → P (TAG_NULL :: r) ts)
    (hterm : ∀ r, P (TAG_TERMINATOR :: r) [{ mTag := TAG_TERMINATOR, mValue := [] }])
    (hframe : ∀ tag hdr v rest ts', tag ≠ TAG_NULL → tag ≠ TAG_TERMINATOR →
      IsLenField hdr v.length → decodeL rest = some ts' → P rest ts' →
      P (tag :: (hdr ++ v ++ rest)) ({ mTag := tag, mValue := v } :: ts')) :
    ∀ l ts, decodeL l = some ts → P l ts := by
  suffices H : ∀ n, ∀ l : List Byte, l.length = n → ∀ ts, decodeL l = some ts → P l ts from
    fun l => H _ l rfl
  intro n
  induction n using Nat.strong_induction_on with
  | _ n ih =>
    intro l hl ts h
    rcases decodeL_some_cases l ts h with ⟨rfl, rfl⟩ | ⟨r, rfl, hr⟩ | ⟨r, rfl, rfl⟩ |
      ⟨tag, hdr, v, rest, ts', rfl, hn, ht, hf, hr, rfl⟩
    · exact hnil
    · exact hnull r ts hr (ih r.length (by rw [← hl]; simp) r rfl ts hr)
    · exact hterm r
    · exact hframe tag hdr v rest ts' hn ht hf hr
        (ih rest.length (by rw [← hl]; simp; omega) rest rfl ts' hr)

theorem decodeL_no_null (l : List Byte) (ts : List TLV) (h : decodeL l = some ts) :
    ∀ t ∈ ts, t.mTag ≠ TAG_NULL := by
  refine decodeL_induction (P := fun _ ts => ∀ t ∈ ts, t.mTag ≠ TAG_NULL) ?_ ?_ ?_ ?_ l ts h
  · intro t ht; cases ht
  · intro r ts _ ih; exact ih
  · intro r t ht
    rw [List.mem_singleton] at ht
    rw [ht]; decide
  · intro tag hdr v rest ts' hn _ _ _ ih t ht
    rcases List.mem_cons.mp ht with rfl | h'
    · exact hn
    · exact ih t h'

theorem decodeL_terminator_last (l : List Byte) (ts : List TLV) (h : decodeL l = some ts) :
    ∀ pre t post, ts = pre ++ t :: post → t.mTag = TAG_TERMINATOR → post = [] ∧ t.mValue = [] := by
  refine decodeL_induction (P := fun _ ts => ∀ pre t post, ts = pre ++ t :: post →
    t.mTag = TAG_TERMINATOR → post = [] ∧ t.mValue = []) ?_ ?_ ?_ ?_ l ts h
  · intro pre t post he _
    cases pre <;> cases he
  · intro r ts _ ih; exact ih
  · intro r pre t post he _
    cases pre with
    | nil =>
      simp only [List.nil_append, List.cons.injEq] at he
      obtain ⟨h1, h2⟩ := he
      exact ⟨h2.symm, by rw [← h1]⟩
    | cons x pre =>
      simp only [List.cons_append, List.cons.injEq] at he
      obtain ⟨_, h2⟩ := he
      cases pre <;> cases h2
  · intro tag hdr v rest ts' _ ht _ _ ih pre t post he htt
    cases pre with
    | nil =>
      simp only [List.nil_append, List.cons.injEq] at he
      obtain ⟨h1, _⟩ := he
      rw [← h1] at htt
      exact absurd htt ht
    | cons x pre =>
      simp only [List.cons_append, List.cons.injEq] at he
      exact ih pre t post he.2 htt

theorem decodeL_terminator_prefix (l : List Byte) (ts : List TLV) (h : decodeL l = some ts) :
    (∃ t ∈ ts, t.mTag = TAG_TERMINATOR) →
    ∃ q s, l = q ++ TAG_TERMINATOR :: s ∧
      ∀ s', decodeL (q ++ TAG_TERMINATOR :: s') = some ts := by
  refine decodeL_induction (P := fun l ts => (∃ t ∈ ts, t.mTag = TAG_TERMINATOR) →
    ∃ q s, l = q ++ TAG_TERMINATOR :: s ∧
      ∀ s', decodeL (q ++ TAG_TERMINATOR :: s') = some ts) ?_ ?_ ?_ ?_ l ts h
  · rintro ⟨t, ht, _⟩; cases ht
  · intro r ts _ ih hex
    obtain ⟨q, s, he, hq⟩ := ih hex
    refine ⟨TAG_NULL :: q, s, by rw [he]; rfl, fun s' => ?_⟩
    rw [List.cons_append, decodeL_cons, if_pos rfl]
    exact hq s'
  · intro r _
    refine ⟨[], r, rfl, fun s' => ?_⟩
    rw [List.nil_append, decodeL_cons, if_neg (by decide), if_pos rfl]
  · intro tag hdr v rest ts' hn ht hf _ ih hex
    have hex' : ∃ t ∈ ts', t.mTag = TAG_TERMINATOR := by
      obtain ⟨t, hmem, htt⟩ := hex
      rcases List.mem_cons.mp hmem with rfl | h'
      · exact absurd htt ht
      · exact ⟨t, h', htt⟩
    obtain ⟨q, s, he, hq⟩ := ih hex'
    refine ⟨tag :: (hdr ++ v ++ q), s, by rw [he]; simp, fun s' => ?_⟩
    have := decodeL_frame tag hdr v (q ++ TAG_TERMINATOR :: s') hn ht hf
    simp only [List.cons_append, List.append_assoc] at this ⊢
    rw [this, hq s']
    rfl

end TLV

/-! ## TagEncryption -/

namespace TagEncryption

theorem CryptAesCTR_eq (P : Primitives) (key nonce inData : List Byte) (n : Nat)
    (h : inData.length = n) :
    crypto.CryptAesCTR P key nonce inData (zeros n) =
      match P.aes_crypt_ctr key nonce inData with
      | none => (false, zeros n)
      | some o => (true, o) := by
  have : ¬ (inData.length ≠ (zeros n).length) := by rw [length_zeros, h]; exact fun h => h rfl
  rw [crypto.CryptAesCTR, if_neg this]

/-- `CryptTag` on a version-0 tag, in terms of the two AES-CTR results. -/
theorem CryptTag_v0 (P : Primitives) (te : TagEncryption) (hL : te.mTag.layout = TagV0.layout)
    (hlen : te.mTag.mData.length = 540) :
    CryptTag P te =
      match P.aes_crypt_ctr te.mLockedSecretKey te.mLockedSecretNonce
          (slice te.mTag.mData 0x168 0x30),
        P.aes_crypt_ctr te.mUnfixedInfosKey te.mUnfixedInfosNonce
          (slice te.mTag.mData 0x28 0x120) with
      | some y1, some y2 =>
        (true, te.setData (copyTo y2 (copyTo y1 te.mTag.mData 0x168) 0x28))
      | _, _ => (false, te) := by
  have h1 : (slice te.mTag.mData 0x168 0x30).length = 0x30 := length_slice _ _ _ (by omega)
  have h2 : (slice te.mTag.mData 0x28 0x120).length = 0x120 := length_slice _ _ _ (by omega)
  simp only [CryptTag, hL, TagV0.layout, Tag.GetData, if_true, CryptAesCTR_eq _ _ _ _ _ h1,
    CryptAesCTR_eq _ _ _ _ _ h2]
  cases P.aes_crypt_ctr te.mLockedSecretKey te.mLockedSecretNonce
      (slice te.mTag.mData 0x168 0x30) with
  | none => simp
  | some y1 =>
    cases P.aes_crypt_ctr te.mUnfixedInfosKey te.mUnfixedInfosNonce
        (slice te.mTag.mData 0x28 0x120) with
    | none => simp
    | some y2 => simp

/-- `CryptTag` on a version-2 tag, in terms of the AES-CTR result. -/
theorem CryptTag_v2 (P : Primitives) (te : TagEncryption) (hL : te.mTag.layout = TagV2.layout)
    (hlen : te.mTag.mData.length = 540) :
    CryptTag P te =
      match P.aes_crypt_ctr te.mUnfixedInfosKey te.mUnfixedInfosNonce
          (slice te.mTag.mData 0x2c 0x188) with
      | some y2 => (true, te.setData (copyTo y2 te.mTag.mData 0x2c))
      | none => (false, te) := by
  have h2 : (slice te.mTag.mData 0x2c 0x188).length = 0x188 := length_slice _ _ _ (by omega)
  have hv : ¬ ((2 : Nat) = 0) := by decide
  simp only [CryptTag, hL, TagV2.layout, Tag.GetData, if_neg hv, CryptAesCTR_eq _ _ _ _ _ h2]
  cases P.aes_crypt_ctr te.mUnfixedInfosKey te.mUnfixedInfosNonce
      (slice te.mTag.mData 0x2c 0x188) with
  | none => simp
  | some y2 => simp

end TagEncryption

/-! ## More buffer lemmas -/

theorem slice_copyTo_self {α : Type} (src dst : List α) (off : Nat)
    (h : off + src.length ≤ dst.length) : slice (copyTo src dst off) off src.length = src := by
  apply List.ext_getElem?
  intro i
  rw [getElem?_slice, getElem?_copyTo _ _ _ _ h]
  by_cases hi : i < src.length
  · rw [if_pos hi, if_pos (by omega)]
    congr 1
    omega
  · rw [if_neg hi, List.getElem?_eq_none (by omega)]

theorem slice_copyTo_disjoint {α : Type} (src dst : List α) (off o n : Nat)
    (h : off + src.length ≤ dst.length) (hd : o + n ≤ off ∨ off + src.length ≤ o) :
    slice (copyTo src dst off) o n = slice dst o n := by
  apply List.ext_getElem?
  intro i
  rw [getElem?_slice, getElem?_slice, getElem?_copyTo _ _ _ _ h]
  by_cases hi : i < n
  · rw [if_pos hi, if_pos hi, if_neg (by omega)]
  · rw [if_neg hi, if_neg hi]

theorem copyTo_slice_self {α : Type} (d : List α) (off n : Nat) (h : off + n ≤ d.length) :
    copyTo (slice d off n) d off = d := by
  have hl : (slice d off n).length = n := length_slice _ _ _ h
  apply List.ext_getElem?
  intro i
  rw [getElem?_copyTo _ _ _ _ (by rw [hl]; exact h), hl, getElem?_slice]
  by_cases hi : off ≤ i ∧ i < off + n
  · rw [if_pos hi, if_pos (by omega)]
    congr 1
    omega
  · rw [if_neg hi]

theorem copyTo_copyTo_same {α : Type} (a b d : List α) (off : Nat) (hab : a.length = b.length)
    (h : off + b.length ≤ d.length) : copyTo a (copyTo b d off) off = copyTo a d off := by
  have hl : (copyTo b d off).length = d.length := length_copyTo _ _ _ h
  apply List.ext_getElem?
  intro i
  rw [getElem?_copyTo a (copyTo b d off) off i (by rw [hl, hab]; exact h),
    getElem?_copyTo a d off i (by rw [hab]; exact h), getElem?_copyTo b d off i h]
  by_cases hi : off ≤ i ∧ i < off + a.length
  · rw [if_pos hi, if_pos hi]
  · rw [if_neg hi, if_neg hi, if_neg (by omega)]

theorem copyTo_comm {α : Type} (a b d : List α) (oa ob : Nat) (ha : oa + a.length ≤ d.length)
    (hb : ob + b.length ≤ d.length) (hd : oa + a.length ≤ ob ∨ ob + b.length ≤ oa) :
    copyTo a (copyTo b d ob) oa = copyTo b (copyTo a d oa) ob := by
  have hlb : (copyTo b d ob).length = d.length := length_copyTo _ _ _ hb
  have hla : (copyTo a d oa).length = d.length := length_copyTo _ _ _ ha
  apply List.ext_getElem?
  intro i
  rw [getElem?_copyTo a (copyTo b d ob) oa i (by rw [hlb]; exact ha),
    getElem?_copyTo b (copyTo a d oa) ob i (by rw [hla]; exact hb), getElem?_copyTo b d ob i hb,
    getElem?_copyTo a d oa i ha]
  by_cases hia : oa ≤ i ∧ i < oa + a.length
  · rw [if_pos hia, if_neg (by omega), if_pos hia]
  · rw [if_neg hia, if_neg hia]

namespace TagEncryption

/-- Writing the transforms of two disjoint regions and then, at the same places, the
regions themselves, gives the buffer back. -/
theorem crypt_twice_two {α : Type} (d y1 y2 : List α) (o1 n1 o2 n2 : Nat)
    (h1 : o1 + n1 ≤ d.length) (h2 : o2 + n2 ≤ d.length)
    (hd : o2 + n2 ≤ o1 ∨ o1 + n1 ≤ o2) (hy1 : y1.length = n1) (hy2 : y2.length = n2) :
    slice (copyTo y2 (copyTo y1 d o1) o2) o1 n1 = y1 ∧
    slice (copyTo y2 (copyTo y1 d o1) o2) o2 n2 = y2 ∧
    copyTo (slice d o2 n2) (copyTo (slice d o1 n1) (copyTo y2 (copyTo y1 d o1) o2) o1) o2 = d := by
  have hl1 : (copyTo y1 d o1).length = d.length := length_copyTo _ _ _ (by rw [hy1]; exact h1)
  have hs1 : (slice d o1 n1).length = n1 := length_slice _ _ _ h1
  have hs2 : (slice d o2 n2).length = n2 := length_slice _ _ _ h2
  refine ⟨?_, ?_, ?_⟩
  · rw [slice_copyTo_disjoint _ _ _ _ _ (by rw [hl1, hy2]; exact h2) (by rw [hy2]; omega)]
    rw [← hy1]
    exact slice_copyTo_self _ _ _ (by rw [hy1]; exact h1)
  · rw [← hy2]
    exact slice_copyTo_self _ _ _ (by rw [hl1, hy2]; exact h2)
  · rw [copyTo_comm y2 y1 d o2 o1 (by rw [hy2]; exact h2) (by rw [hy1]; exact h1)
        (by rw [hy1, hy2]; omega)]
    have hl2 : (copyTo y2 d o2).length = d.length := length_copyTo _ _ _ (by rw [hy2]; exact h2)
    rw [copyTo_copyTo_same _ _ _ _ (by rw [hs1, hy1]) (by rw [hl2, hy1]; exact h1)]
    rw [copyTo_comm (slice d o1 n1) y2 d o1 o2 (by rw [hs1]; exact h1) (by rw [hy2]; exact h2)
        (by rw [hs1, hy2]; omega)]
    have hl3 : (copyTo (slice d o1 n1) d o1).length = d.length :=
      length_copyTo _ _ _ (by rw [hs1]; exact h1)
    rw [copyTo_copyTo_same _ _ _ _ (by rw [hs2, hy2]) (by rw [hl3, hy2]; exact h2)]
    rw [copyTo_slice_self d o1 n1 h1, copyTo_slice_self d o2 n2 h2]

/-- Writing the transform of one region and then the region itself gives the buffer back. -/
theorem crypt_twice_one {α : Type} (d y : List α) (o n : Nat) (h : o + n ≤ d.length)
    (hy : y.length = n) :
    slice (copyTo y d o) o n = y ∧ copyTo (slice d o n) (copyTo y d o) o = d := by
  have hs : (slice d o n).length = n := length_slice _ _ _ h
  refine ⟨?_, ?_⟩
  · rw [← hy]
    exact slice_copyTo_self _ _ _ (by rw [hy]; exact h)
  · rw [copyTo_copyTo_same _ _ _ _ (by rw [hs, hy]) (by rw [hy]; exact h),
      copyTo_slice_self d o n h]

end TagEncryption

theorem toyPrimitives_involution (key nonce x : List Byte) :
    ∃ y, toyPrimitives.aes_crypt_ctr key nonce x = some y ∧
      toyPrimitives.aes_crypt_ctr key nonce y = some x := by
  refine ⟨_, rfl, ?_⟩
  simp only [toyPrimitives, List.map_map, Option.some.injEq]
  have : ((fun b : Byte => 255 - b) ∘ fun b => 255 - b) = id := by
    funext b
    revert b
    decide!
  rw [this, List.map_id]

/-- **C4.** Assume the AES-CTR primitive, for a fixed key and nonce, always succeeds and
is self-inverse (it is same-length by `Primitives.aes_crypt_ctr_length`). Then for a
cleartext tag of version 0 or 2, whatever the derived session keys, `EncryptTag` succeeds
and marks the tag ciphertext, `DecryptTag` after it succeeds, and the state is the
original one again: the 540-byte canonical buffer is equal to the original and the tag
is cleartext. -/
theorem EncryptTag_DecryptTag_restores (P : Primitives)
    (hinv : ∀ key nonce x, ∃ y, P.aes_crypt_ctr key nonce x = some y ∧
      P.aes_crypt_ctr key nonce y = some x)
    (te : TagEncryption)
    (hL : te.mTag.layout = TagV0.layout ∨ te.mTag.layout = TagV2.layout)
    (hlen : te.mTag.mData.length = 540)
    (hclear : te.mTag.mIsEncrypted = false) :
    (TagEncryption.EncryptTag P te).1 = true ∧
    (TagEncryption.EncryptTag P te).2.mTag.mIsEncrypted = true ∧
    (TagEncryption.DecryptTag P (TagEncryption.EncryptTag P te).2).1 = true ∧
    (TagEncryption.DecryptTag P (TagEncryption.EncryptTag P te).2).2.mTag.mData = te.mTag.mData ∧
    (TagEncryption.DecryptTag P (TagEncryption.EncryptTag P te).2).2.mTag.mIsEncrypted = false ∧
    (TagEncryption.DecryptTag P (TagEncryption.EncryptTag P te).2).2 = te := by
  have hclear' : te.mTag.IsEncrypted = false := hclear
  rcases hL with hL | hL
  · obtain ⟨y1, hy1, hx1⟩ := hinv te.mLockedSecretKey te.mLockedSecretNonce
      (slice te.mTag.mData 0x168 0x30)
    obtain ⟨y2, hy2, hx2⟩ := hinv te.mUnfixedInfosKey te.mUnfixedInfosNonce
      (slice te.mTag.mData 0x28 0x120)
    have hl1 : y1.length = 0x30 := by
      rw [P.aes_crypt_ctr_length _ _ _ _ hy1]; exact length_slice _ _ _ (by omega)
    have hl2 : y2.length = 0x120 := by
      rw [P.aes_crypt_ctr_length _ _ _ _ hy2]; exact length_slice _ _ _ (by omega)
    obtain ⟨hs1, hs2, hback⟩ := TagEncryption.crypt_twice_two te.mTag.mData y1 y2 0x168 0x30
      0x28 0x120 (by omega) (by omega) (by omega) hl1 hl2
    have hE : TagEncryption.EncryptTag P te =
        (true, (te.setData (copyTo y2 (copyTo y1 te.mTag.mData 0x168) 0x28)).setEncrypted true) := by
      simp [TagEncryption.EncryptTag, hclear', TagEncryption.CryptTag_v0 P te hL hlen, hy1, hy2]
    have hlen' : (copyTo y2 (copyTo y1 te.mTag.mData 0x168) 0x28).length = 540 := by
      rw [length_copyTo _ _ _ (by rw [length_copyTo _ _ _ (by omega)]; omega),
        length_copyTo _ _ _ (by omega), hlen]
    have hD : TagEncryption.DecryptTag P
        ((te.setData (copyTo y2 (copyTo y1 te.mTag.mData 0x168) 0x28)).setEncrypted true) = (true, te) := by
      have hC := TagEncryption.CryptTag_v0 P
        ((te.setData (copyTo y2 (copyTo y1 te.mTag.mData 0x168) 0x28)).setEncrypted true) hL hlen'
      simp only [TagEncryption.setData, TagEncryption.setEncrypted] at hC ⊢
      simp only [hs1, hs2, hx1, hx2, hback] at hC
      simp only [TagEncryption.DecryptTag, Tag.IsEncrypted, hC, TagEncryption.setEncrypted]
      simp
      cases te with
      | mk mTag =>
        cases mTag with
        | mk toTag layout =>
          cases toTag
          simp only at hclear
          simp [TagEncryption.setData, hclear]
    rw [hE]
    dsimp only
    rw [hD]
    exact ⟨rfl, rfl, rfl, rfl, hclear, rfl⟩
  · obtain ⟨y2, hy2, hx2⟩ := hinv te.mUnfixedInfosKey te.mUnfixedInfosNonce
      (slice te.mTag.mData 0x2c 0x188)
    have hl2 : y2.length = 0x188 := by
      rw [P.aes_crypt_ctr_length _ _ _ _ hy2]; exact length_slice _ _ _ (by omega)
    obtain ⟨hs2, hback⟩ := TagEncryption.crypt_twice_one te.mTag.mData y2 0x2c 0x188
      (by omega) hl2
    have hE : TagEncryption.EncryptTag P te =
        (true, (te.setData (copyTo y2 te.mTag.mData 0x2c)).setEncrypted true) := by
      simp [TagEncryption.EncryptTag, hclear', TagEncryption.CryptTag_v2 P te hL hlen, hy2]
    have hlen' : (copyTo y2 te.mTag.mData 0x2c).length = 540 := by
      rw [length_copyTo _ _ _ (by omega), hlen]
    have hD : TagEncryption.DecryptTag P
        ((te.setData (copyTo y2 te.mTag.mData 0x2c)).setEncrypted true) = (true, te) := by
      have hC := TagEncryption.CryptTag_v2 P
        ((te.setData (copyTo y2 te.mTag.mData 0x2c)).setEncrypted true) hL hlen'
      simp only [TagEncryption.setData, TagEncryption.setEncrypted] at hC ⊢
      simp only [hs2, hx2, hback] at hC
      simp only [TagEncryption.DecryptTag, Tag.IsEncrypted, hC, TagEncryption.setEncrypted]
      simp
      cases te with
      | mk mTag =>
        cases mTag with
        | mk toTag layout =>
          cases toTag
          simp only at hclear
          simp [TagEncryption.setData, hclear]
    rw [hE]
    dsimp only
    rw [hD]
    exact ⟨rfl, rfl, rfl, rfl, hclear, rfl⟩

/-- Witness for C4: the toy primitives and a cleartext version-0 tag. -/
theorem EncryptTag_DecryptTag_restores_witness :
    (TagEncryption.EncryptTag toyPrimitives exampleTagEncryptionV0).1 = true ∧
    (TagEncryption.DecryptTag toyPrimitives
      (TagEncryption.EncryptTag toyPrimitives exampleTagEncryptionV0).2).2 =
        exampleTagEncryptionV0 :=
  have h := EncryptTag_DecryptTag_restores toyPrimitives toyPrimitives_involution
    exampleTagEncryptionV0 (Or.inl rfl) (length_zeros 540) rfl
  ⟨h.1, h.2.2.2.2.2⟩

namespace TagEncryption

theorem GenerateHMAC_eq (P : Primitives) (key inData outData : List Byte) :
    crypto.GenerateHMAC P key inData outData =
      match P.md_hmac key inData with
      | none => (false, outData)
      | some o => (true, o) := rfl

/-- The range `GenerateLockedSecretHMAC` covers, for the two tag versions. -/
theorem GenerateLockedSecretHMAC_eq (P : Primitives) (te : TagEncryption)
    (hL : te.mTag.layout = TagV0.layout ∨ te.mTag.layout = TagV2.layout) (hmac : List Byte) :
    GenerateLockedSecretHMAC P te hmac =
      if te.mTag.mIsEncrypted then (false, hmac)
      else crypto.GenerateHMAC P te.mLockedSecretDerivedHmacKey
        (slice te.mTag.mData (te.mTag.layout.GetLockedSecretHmacOffset + 0x20)
          (te.mTag.layout.GetDataSize - te.mTag.layout.GetLockedSecretHmacOffset - 0x20)) hmac := by
  rcases hL with hL | hL <;>
    simp only [GenerateLockedSecretHMAC, hL, Tag.IsEncrypted, Tag.GetData] <;> rfl

/-- The range `GenerateUnfixedInfosHMAC` covers, for the two tag versions. -/
theorem GenerateUnfixedInfosHMAC_eq (P : Primitives) (te : TagEncryption)
    (hL : te.mTag.layout = TagV0.layout ∨ te.mTag.layout = TagV2.layout) (hmac : List Byte) :
    GenerateUnfixedInfosHMAC P te hmac =
      if te.mTag.mIsEncrypted then (false, hmac)
      else crypto.GenerateHMAC P te.mUnfixedInfosDerivedHmacKey
        (slice te.mTag.mData
          (te.mTag.layout.GetUnfixedInfosHmacOffset +
            (if te.mTag.layout.GetVersion = 0 then 0x20 else 0x21))
          (te.mTag.layout.GetDataSize - te.mTag.layout.GetUnfixedInfosHmacOffset -
            (if te.mTag.layout.GetVersion = 0 then 0x20 else 0x21))) hmac := by
  rcases hL with hL | hL <;>
    simp only [GenerateUnfixedInfosHMAC, hL, Tag.IsEncrypted, Tag.GetData] <;> rfl

end TagEncryption

/-- **C6.** An operation called in the wrong state fails and changes nothing: on a tag
marked ciphertext `EncryptTag`, `UpdateLockedSecretHMAC` and `UpdateUnfixedInfosHMAC`
return false with the state (canonical buffer and is-ciphertext flag included) as it
was, and `ValidateLockedSecretHMAC` and `ValidateUnfixedInfosHMAC`, which never write,
return false; on a tag marked cleartext `DecryptTag` returns false with the state as it
was. -/
theorem wrong_state_fails_unchanged (P : Primitives) (te : TagEncryption) :
    (te.mTag.mIsEncrypted = true →
      TagEncryption.EncryptTag P te = (false, te) ∧
      TagEncryption.ValidateLockedSecretHMAC P te = false ∧
      TagEncryption.ValidateUnfixedInfosHMAC P te = false ∧
      TagEncryption.UpdateLockedSecretHMAC P te = (false, te) ∧
      TagEncryption.UpdateUnfixedInfosHMAC P te = (false, te)) ∧
    (te.mTag.mIsEncrypted = false →
      TagEncryption.DecryptTag P te = (false, te)) := by
  constructor
  · intro h
    have h' : te.mTag.IsEncrypted = true := h
    simp [TagEncryption.EncryptTag, TagEncryption.ValidateLockedSecretHMAC,
      TagEncryption.ValidateUnfixedInfosHMAC, TagEncryption.UpdateLockedSecretHMAC,
      TagEncryption.UpdateUnfixedInfosHMAC, h']
  · intro h
    have h' : te.mTag.IsEncrypted = false := h
    simp [TagEncryption.DecryptTag, h']

/-- **C1.** For every version-2 dump of length 0x214 or 0x21c whose byte at offset 0x10 is
0xA5, `TagV2::FromBytes` succeeds and `TagV2::ToBytes` of the resulting tag is the dump
again, byte for byte and in length. -/
theorem TagV2_FromBytes_ToBytes (d : List Byte) (hlen : d.length = 0x214 ∨ d.length = 0x21c)
    (hmagic : d.getD 0x10 0 = 0xa5) :
    ∃ t, TagV2.FromBytes d = some t ∧ TagV2.ToBytes t = d ∧
      (TagV2.ToBytes t).length = d.length := by
  obtain ⟨t, h1, h2⟩ := TagV2_roundtrip d hlen hmagic
  exact ⟨t, h1, h2, by rw [h2]⟩

/-- Witness for C1: a 0x214-byte dump with the magic in place. -/
theorem TagV2_FromBytes_ToBytes_witness :
    ∃ t, TagV2.FromBytes exampleDumpV2 = some t ∧ TagV2.ToBytes t = exampleDumpV2 ∧
      (TagV2.ToBytes t).length = exampleDumpV2.length :=
  TagV2_FromBytes_ToBytes exampleDumpV2 (Or.inl (by decide!)) (by decide!)

/-- Witness for C8: two TLVs and a final TERMINATOR. -/
theorem TLV_FromBytes_encodeAll_witness :
    TLV.FromBytes (TLV.encodeAll exampleTLVs) = exampleTLVs :=
  TLV_FromBytes_encodeAll exampleTLVs (by decide) (by decide) (by
    intro pre t post he ht
    rcases pre with _ | ⟨a, _ | ⟨b, _ | ⟨c, pre⟩⟩⟩
    · simp only [exampleTLVs, List.nil_append, List.cons.injEq] at he
      rw [← he.1] at ht
      exact absurd ht (by decide)
    · simp only [exampleTLVs, List.cons_append, List.nil_append, List.cons.injEq] at he
      rw [← he.2.1] at ht
      exact absurd ht (by decide)
    · simp only [exampleTLVs, List.cons_append, List.nil_append, List.cons.injEq] at he
      exact ⟨he.2.2.2.symm, by rw [← he.2.2.1]⟩
    · simp [exampleTLVs] at he)





/-! ## TagV0: the lock-bit scan -/

namespace TagV0

theorem LockInv_bit (d : List Byte) (c j : Nat) (st : LockScan) (lockByte : Byte)
    (h : LockInv d c st) (hb : lockByte = lockByteOf d c) (hj : j = c % 8) :
    LockInv d (c + 1) (ParseLockedArea.bit d lockByte st j) := by
  obtain ⟨hc, hL, hR, h1, h2, h3, h4⟩ := h
  have hbit : (lockByte.val &&& (1 <<< j) ≠ 0) ↔ lockBit d c = true := by
    simp only [lockBit, hb, hj, decide_eq_true_eq]
  by_cases hset : lockByte.val &&& (1 <<< j) ≠ 0
  · have hlb : lockBit d c = true := hbit.mp hset
    cases hres : IsBlockLockedOrReserved c with
    | false =>
      have hne : ¬ (IsBlockLockedOrReserved st.currentBlock = true) := by rw [hc, hres]; simp
      simp only [ParseLockedArea.bit, if_pos hset, hc, hres, Bool.false_eq_true, not_false_eq_true,
        if_true]
      refine ⟨rfl, fun k => ?_, fun k => ?_, h1, h2, h3, h4⟩
      · simp only [BlockMap.emplace]
        by_cases hk : k = c
        · subst hk
          rw [if_pos rfl, hL k, if_neg (by omega), if_pos ⟨by omega, hlb, hres⟩]
        · rw [if_neg hk, hL k]
          by_cases hkc : k < c
          · simp only [hkc, true_and, show k < c + 1 by omega]
          · rw [if_neg (by omega), if_neg (by omega)]
      · rw [hR k]
        by_cases hk : k = c
        · subst hk
          rw [if_neg (by omega), if_neg (by rw [hres]; simp)]
        · by_cases hkc : k < c
          · simp only [hkc, true_and, show k < c + 1 by omega]
          · rw [if_neg (by omega), if_neg (by omega)]
    | true =>
      simp only [ParseLockedArea.bit, if_pos hset, hc, hres, not_true_eq_false, if_false]
      refine ⟨rfl, fun k => ?_, fun k => ?_, h1, h2, h3, h4⟩
      · rw [hL k]
        by_cases hk : k = c
        · subst hk
          rw [if_neg (by omega), if_neg (by rw [hres]; simp)]
        · by_cases hkc : k < c
          · simp only [hkc, true_and, show k < c + 1 by omega]
          · rw [if_neg (by omega), if_neg (by omega)]
      · simp only [BlockMap.emplace]
        by_cases hk : k = c
        · subst hk
          rw [if_pos rfl, hR k, if_neg (by omega), if_pos ⟨by omega, hlb, hres⟩]
        · rw [if_neg hk, hR k]
          by_cases hkc : k < c
          · simp only [hkc, true_and, show k < c + 1 by omega]
          · rw [if_neg (by omega), if_neg (by omega)]
  · have hlb : ¬ (lockBit d c = true) := fun h => hset (hbit.mpr h)
    simp only [ParseLockedArea.bit, if_neg hset, hc]
    refine ⟨rfl, fun k => ?_, fun k => ?_, h1, h2, h3, h4⟩
    · rw [hL k]
      by_cases hk : k = c
      · subst hk
        rw [if_neg (by omega), if_neg (fun h => hlb h.2.1)]
      · by_cases hkc : k < c
        · simp only [hkc, true_and, show k < c + 1 by omega]
        · rw [if_neg (by omega), if_neg (by omega)]
    · rw [hR k]
      by_cases hk : k = c
      · subst hk
        rw [if_neg (by omega), if_neg (fun h => hlb h.2.1)]
      · by_cases hkc : k < c
        · simp only [hkc, true_and, show k < c + 1 by omega]
        · rw [if_neg (by omega), if_neg (by omega)]

end TagV0

namespace TagV0

theorem LockInv_byte (d : List Byte) (c off : Nat) (st : LockScan) (h : LockInv d c st)
    (hc : c % 8 = 0) (hoff : ∀ j, j < 8 → lockByteOf d (c + j) = d.getD off 0) :
    LockInv d (c + 8) (ParseLockedArea.byte d st off) := by
  have hr : List.range 8 = [0, 1, 2, 3, 4, 5, 6, 7] := by decide
  simp only [ParseLockedArea.byte, hr, List.foldl]
  have s0 := LockInv_bit d c 0 st _ h (hoff 0 (by omega)).symm (by omega)
  have s1 := LockInv_bit d (c + 1) 1 _ _ s0 (hoff 1 (by omega)).symm (by omega)
  have s2 := LockInv_bit d (c + 1 + 1) 2 _ _ s1 (hoff 2 (by omega)).symm (by omega)
  have s3 := LockInv_bit d (c + 1 + 1 + 1) 3 _ _ s2 (hoff 3 (by omega)).symm (by omega)
  have s4 := LockInv_bit d (c + 1 + 1 + 1 + 1) 4 _ _ s3 (hoff 4 (by omega)).symm (by omega)
  have s5 := LockInv_bit d (c + 1 + 1 + 1 + 1 + 1) 5 _ _ s4 (hoff 5 (by omega)).symm (by omega)
  have s6 := LockInv_bit d (c + 1 + 1 + 1 + 1 + 1 + 1) 6 _ _ s5 (hoff 6 (by omega)).symm
    (by omega)
  have s7 := LockInv_bit d (c + 1 + 1 + 1 + 1 + 1 + 1 + 1) 7 _ _ s6 (hoff 7 (by omega)).symm
    (by omega)
  exact s7

theorem LockInv_new (d : List Byte) : LockInv d 0 { currentBlock := 0, tag := TagV0.new } := by
  unfold LockInv
  refine ⟨rfl, fun k => ?_, fun k => ?_, ?_, ?_, ?_, ?_⟩
  · rw [if_neg (fun h => Nat.not_lt_zero _ h.1)]
    simp only [TagV0.new, BlockMap.empty]
  · rw [if_neg (fun h => Nat.not_lt_zero _ h.1)]
    simp only [TagV0.new, BlockMap.empty]
  all_goals simp only [TagV0.new]

theorem LockInv_ParseLockedArea (d : List Byte) :
    LockInv d 64 { currentBlock := 64, tag := ParseLockedArea TagV0.new d } := by
  have e0 : (List.range' kLockbytesStart0 (kLockbytesEnd0 - kLockbytesStart0)).map
      (fun i => kLockbyteBlock0 * 8 + i) = [0x70, 0x71] := by decide
  have e1 : (List.range' kLockbytesStart1 (kLockbytesEnd1 - kLockbytesStart1)).map
      (fun i => kLockbyteBlock1 * 8 + i) = [0x7a, 0x7b, 0x7c, 0x7d, 0x7e, 0x7f] := by decide
  have hlb : ∀ c off, (c < 16 → off = 0x70 + c / 8) → (16 ≤ c → off = 0x7a + (c - 16) / 8) →
      c % 8 = 0 → ∀ j, j < 8 → lockByteOf d (c + j) = d.getD off 0 := by
    intro c off h1 h2 hc j hj
    unfold lockByteOf
    by_cases h : c < 16
    · rw [if_pos (by omega), h1 h]
      congr 1
      omega
    · rw [if_neg (by omega), h2 (by omega)]
      congr 1
      omega
  rw [ParseLockedArea, e0, e1]
  simp only [List.foldl]
  have s0 := LockInv_byte d 0 0x70 _ (LockInv_new d) (by decide)
    (hlb 0 0x70 (fun _ => by decide) (fun h => by omega) (by decide))
  have s1 := LockInv_byte d 8 0x71 _ s0 (by decide)
    (hlb 8 0x71 (fun _ => by decide) (fun h => by omega) (by decide))
  have s2 := LockInv_byte d 16 0x7a _ s1 (by decide)
    (hlb 16 0x7a (fun h => by omega) (fun _ => by decide) (by decide))
  have s3 := LockInv_byte d 24 0x7b _ s2 (by decide)
    (hlb 24 0x7b (fun h => by omega) (fun _ => by decide) (by decide))
  have s4 := LockInv_byte d 32 0x7c _ s3 (by decide)
    (hlb 32 0x7c (fun h => by omega) (fun _ => by decide) (by decide))
  have s5 := LockInv_byte d 40 0x7d _ s4 (by decide)
    (hlb 40 0x7d (fun h => by omega) (fun _ => by decide) (by decide))
  have s6 := LockInv_byte d 48 0x7e _ s5 (by decide)
    (hlb 48 0x7e (fun h => by omega) (fun _ => by decide) (by decide))
  have s7 := LockInv_byte d 56 0x7f _ s6 (by decide)
    (hlb 56 0x7f (fun h => by omega) (fun _ => by decide) (by decide))
  obtain ⟨_, hL, hR, h1, h2, h3, h4⟩ := s7
  exact ⟨rfl, hL, hR, h1, h2, h3, h4⟩

end TagV0

namespace TagV0

theorem ParseLockedArea_mLockedBlocks (d : List Byte) (k : Nat) :
    (ParseLockedArea TagV0.new d).mLockedBlocks k =
      if k < 64 ∧ lockBit d k = true ∧ IsBlockLockedOrReserved k = false then
        some (slice d (k * 8) 8) else none :=
  (LockInv_ParseLockedArea d).2.1 k

theorem ParseLockedArea_mLockedOrReservedBlocks (d : List Byte) (k : Nat) :
    (ParseLockedArea TagV0.new d).mLockedOrReservedBlocks k =
      if k < 64 ∧ lockBit d k = true ∧ IsBlockLockedOrReserved k = true then
        some (slice d (k * 8) 8) else none :=
  (LockInv_ParseLockedArea d).2.2.1 k

theorem ParseLockedArea_toTag (d : List Byte) : (ParseLockedArea TagV0.new d).toTag = Tag.new :=
  (LockInv_ParseLockedArea d).2.2.2.1

theorem ParseLockedArea_mCapabilityContainer (d : List Byte) :
    (ParseLockedArea TagV0.new d).mCapabilityContainer = zeros 4 :=
  (LockInv_ParseLockedArea d).2.2.2.2.1

/-- What a call of `TagV0::FromBytes` that returns a tag went through, and the tag it
returns. -/
theorem outcome_tag (d : List Byte) (t : TagV0) (h : FromBytes.outcome d = Outcome.tag t) :
    4 ≤ (dataAreaOf d).length ∧
    d.length = 512 ∧
    ∃ ndefTlv msg rec,
      t.mCapabilityContainer = copy_n (dataAreaOf d) 0 4 (zeros 4) 0 ∧
      t.ValidateCapabilityContainer = true ∧
      t.mTLVs = TLV.FromBytes ((dataAreaOf d).drop 4) ∧
      t.mTLVs ≠ [] ∧
      findNdefTlv t.mTLVs = some ndefTlv ∧
      ndef.Message.FromBytes ndefTlv.mValue = some msg ∧
      t.mNdefMessage = msg ∧
      findUnknownRecord msg.mRecords = some rec ∧
      rec.mPayload.length ≠ 0 ∧
      t.mLockedBlocks = (ParseLockedArea TagV0.new d).mLockedBlocks ∧
      t.mLockedOrReservedBlocks = (ParseLockedArea TagV0.new d).mLockedOrReservedBlocks ∧
      t.mIsEncrypted = false ∧
      t.mData = appendLocked (ParseLockedArea TagV0.new d).mLockedBlocks.entries
        (copyTo rec.mPayload (zeros 540) 0) rec.mPayload.length ∧
      slice t.mData 0x20 4 = [0x4e, 0x4f, 0x46, 0x54] := by
  by_cases hlen : d.length ≠ kTagSize
  · rw [FromBytes.outcome, if_pos hlen] at h
    cases h
  rw [FromBytes.outcome, if_neg hlen] at h
  have hda : dataAreaOf d = (ParseLockedArea TagV0.new d).ParseDataArea d := rfl
  have hcc0 := ParseLockedArea_mCapabilityContainer d
  have htag0 := ParseLockedArea_toTag d
  generalize ParseLockedArea TagV0.new d = T0 at h hda hcc0 htag0 ⊢
  obtain ⟨⟨enc0, data0⟩, R0, L0, cc0, tlvs0, msg0⟩ := T0
  simp only at hcc0 htag0
  subst hcc0
  have hd0 : data0 = zeros 540 := by
    have := congrArg Tag.mData htag0
    exact this
  have he0 : enc0 = false := by
    have := congrArg Tag.mIsEncrypted htag0
    exact this
  subst hd0 he0
  have hda' : (TagV0.ParseDataArea
      { toTag := { mIsEncrypted := false, mData := zeros 540 }, mLockedOrReservedBlocks := R0,
        mLockedBlocks := L0, mCapabilityContainer := zeros 4, mTLVs := tlvs0,
        mNdefMessage := msg0 } d) = dataAreaOf d := hda.symm
  simp only [hda'] at h
  generalize dataAreaOf d = dataArea at h ⊢
  split at h
  · cases h
  rename_i hfour
  refine ⟨by omega, by simpa [kTagSize] using hlen, ?_⟩
  split at h
  · cases h
  rename_i hcc
  split at h
  · cases h
  rename_i hempty
  split at h
  · cases h
  rename_i ndefTlv hndef
  split at h
  · cases h
  rename_i msg hmsg
  cases hrec : findUnknownRecord msg.mRecords with
  | none =>
    rw [hrec] at h
    simp at h
  | some rec =>
    rw [hrec] at h
    simp only [ndef.Record.GetPayload] at h
    split at h
    · cases h
    rename_i hsize
    split at h
    · cases h
    rename_i hnoft
    have ht := Outcome.tag.inj h
    subst ht
    refine ⟨ndefTlv, msg, rec, rfl, by simpa using hcc, rfl, ?_, hndef, hmsg, rfl, hrec, hsize,
      rfl, rfl, rfl, rfl, by simpa using hnoft⟩
    simp only
    intro hnil
    rw [hnil] at hempty
    exact hempty rfl

/-- What a successful `TagV0::FromBytes` went through, and the tag it returns. -/
theorem FromBytes_some (d : List Byte) (t : TagV0) (h : FromBytes d = some t) :
    d.length = 512 ∧
    ∃ ndefTlv msg rec,
      t.mCapabilityContainer = copy_n (dataAreaOf d) 0 4 (zeros 4) 0 ∧
      t.ValidateCapabilityContainer = true ∧
      t.mTLVs = TLV.FromBytes ((dataAreaOf d).drop 4) ∧
      t.mTLVs ≠ [] ∧
      findNdefTlv t.mTLVs = some ndefTlv ∧
      ndef.Message.FromBytes ndefTlv.mValue = some msg ∧
      t.mNdefMessage = msg ∧
      findUnknownRecord msg.mRecords = some rec ∧
      rec.mPayload.length ≠ 0 ∧
      t.mLockedBlocks = (ParseLockedArea TagV0.new d).mLockedBlocks ∧
      t.mLockedOrReservedBlocks = (ParseLockedArea TagV0.new d).mLockedOrReservedBlocks ∧
      t.mIsEncrypted = false ∧
      t.mData = appendLocked (ParseLockedArea TagV0.new d).mLockedBlocks.entries
        (copyTo rec.mPayload (zeros 540) 0) rec.mPayload.length ∧
      slice t.mData 0x20 4 = [0x4e, 0x4f, 0x46, 0x54] := by
  unfold FromBytes at h
  cases ho : FromBytes.outcome d with
  | tag t' =>
    rw [ho] at h
    have ht : t' = t := Option.some.inj h
    rw [ht] at ho
    exact (outcome_tag d t ho).2
  | rejected => rw [ho] at h; cases h
  | undefined => rw [ho] at h; cases h

end TagV0

/-! ## TagV0: blocks -/

theorem slice_copyTo_at {α : Type} (src dst : List α) (off : Nat) (h : off ≤ dst.length) :
    slice (copyTo src dst off) off src.length = src := by
  have h1 : (dst.take off).length = off := by simp; omega
  unfold slice copyTo
  rw [List.append_assoc, List.drop_left' h1, List.take_left' rfl]

theorem slice_copyTo_before {α : Type} (src dst : List α) (off o n : Nat) (h : off ≤ dst.length)
    (hb : o + n ≤ off) : slice (copyTo src dst off) o n = slice dst o n := by
  have h1 : (dst.take off).length = off := by simp; omega
  unfold slice copyTo
  rw [List.append_assoc, List.drop_append_of_le_length (by omega),
    List.take_append_of_le_length (by simp; omega)]
  rw [List.drop_take, List.take_take]
  have : min n (off - o) = n := by omega
  rw [this]

theorem length_copyTo_ge {α : Type} (src dst : List α) (off : Nat) (h : off ≤ dst.length) :
    off + src.length ≤ (copyTo src dst off).length := by
  simp [copyTo]
  omega

namespace TagV0

theorem length_slice_block (d : List Byte) (k : Nat) (hd : d.length = 512) (hk : k < 64) :
    (slice d (k * 8) 8).length = 8 := length_slice _ _ _ (by omega)

theorem AgreesOn_copyTo (d out : List Byte) (S : Nat → Prop) (k : Nat) (hd : d.length = 512)
    (hk : k < 64) (h : AgreesOn d out S) :
    AgreesOn d (copyTo (slice d (k * 8) 8) out (k * 8)) (fun x => S x ∨ x = k) := by
  obtain ⟨hl, ha⟩ := h
  have hb := length_slice_block d k hd hk
  have hin : k * 8 + (slice d (k * 8) 8).length ≤ out.length := by rw [hb, hl]; omega
  refine ⟨by rw [length_copyTo _ _ _ hin, hl], fun x hx hS => ?_⟩
  by_cases hxk : x = k
  · subst hxk
    have := slice_copyTo_self (slice d (x * 8) 8) out (x * 8) hin
    rw [hb] at this
    exact this
  · rw [slice_copyTo_disjoint _ _ _ _ _ hin (by rw [hb]; omega)]
    rcases hS with hS | hS
    · exact ha x hx hS
    · exact absurd hS hxk

theorem AgreesOn_insertBlocks (d : List Byte) (hd : d.length = 512) (entries : List (Nat × Block)) :
    ∀ (out : List Byte) (S : Nat → Prop),
      (∀ e ∈ entries, e.1 < 64 ∧ e.2 = slice d (e.1 * 8) 8) → AgreesOn d out S →
      AgreesOn d (insertBlocks entries out) (fun x => S x ∨ ∃ e ∈ entries, e.1 = x) := by
  induction entries with
  | nil =>
    intro out S _ h
    exact ⟨h.1, fun k hk hS => h.2 k hk (by
      rcases hS with hS | ⟨e, he, _⟩
      · exact hS
      · cases he)⟩
  | cons e rest ih =>
    intro out S he h
    obtain ⟨key, value⟩ := e
    obtain ⟨hk, hv⟩ := he (key, value) (List.mem_cons_self _ _)
    simp only at hk hv
    rw [insertBlocks, hv]
    have h1 := AgreesOn_copyTo d out S key hd hk h
    have h2 := ih _ _ (fun e' he' => he e' (List.mem_cons_of_mem _ he')) h1
    refine ⟨h2.1, fun k hk' hS => h2.2 k hk' ?_⟩
    rcases hS with hS | ⟨e', he', hx⟩
    · exact Or.inl (Or.inl hS)
    · rcases List.mem_cons.mp he' with rfl | hr
      · exact Or.inl (Or.inr hx.symm)
      · exact Or.inr ⟨e', hr, hx⟩

theorem blocks_ext (a b : List Byte) (ha : a.length = 512) (hb : b.length = 512)
    (h : ∀ k, k < 64 → slice a (k * 8) 8 = slice b (k * 8) 8) : a = b := by
  apply List.ext_getElem?
  intro i
  by_cases hi : i < 512
  · have := congrArg (fun l => l[i % 8]?) (h (i / 8) (by omega))
    simp only [getElem?_slice] at this
    rw [if_pos (by omega), if_pos (by omega)] at this
    have e : i / 8 * 8 + i % 8 = i := by omega
    rw [e] at this
    exact this
  · rw [List.getElem?_eq_none (by omega), List.getElem?_eq_none (by omega)]

end TagV0

namespace TagV0

theorem appendLocked_before (entries : List (Nat × Block)) :
    ∀ (data : List Byte) (off o n : Nat), off ≤ data.length → o + n ≤ off →
      (∀ e ∈ entries, e.2.length = 8) →
      slice (appendLocked entries data off) o n = slice data o n := by
  induction entries with
  | nil => intro data off o n _ _ _; rfl
  | cons e rest ih =>
    intro data off o n h hb hlen
    obtain ⟨key, value⟩ := e
    have hv : value.length = 8 := hlen (key, value) (List.mem_cons_self _ _)
    rw [appendLocked, ih _ _ _ _ (by have := length_copyTo_ge value data off h; omega) (by omega)
      (fun e he => hlen e (List.mem_cons_of_mem _ he)),
      slice_copyTo_before _ _ _ _ _ h hb]

theorem appendLocked_at (entries : List (Nat × Block)) :
    ∀ (data : List Byte) (off : Nat), off ≤ data.length → (∀ e ∈ entries, e.2.length = 8) →
      ∀ j (hj : j < entries.length),
        slice (appendLocked entries data off) (off + 8 * j) 8 = (entries.get ⟨j, hj⟩).2 := by
  induction entries with
  | nil => intro data off _ _ j hj; exact absurd hj (by simp)
  | cons e rest ih =>
    intro data off h hlen j hj
    obtain ⟨key, value⟩ := e
    have hv : value.length = 8 := hlen (key, value) (List.mem_cons_self _ _)
    have hge := length_copyTo_ge value data off h
    rw [appendLocked]
    cases j with
    | zero =>
      rw [appendLocked_before _ _ _ _ _ (by omega) (by omega)
        (fun e he => hlen e (List.mem_cons_of_mem _ he))]
      have := slice_copyTo_at value data off h
      rw [hv] at this
      exact this
    | succ j =>
      have := ih (copyTo value data off) (off + 8) (by omega)
        (fun e he => hlen e (List.mem_cons_of_mem _ he)) j (by simpa using hj)
      have e : off + 8 * (j + 1) = off + 8 + 8 * j := by omega
      rw [e, this]
      rfl

theorem insertLocked_eq_insertBlocks (mData : List Byte) (entries : List (Nat × Block)) :
    ∀ (off : Nat) (bytes : List Byte),
      (∀ j (hj : j < entries.length), slice mData (off + 8 * j) 8 = (entries.get ⟨j, hj⟩).2) →
      insertLocked mData entries off bytes = insertBlocks entries bytes := by
  induction entries with
  | nil => intro off bytes _; rfl
  | cons e rest ih =>
    intro off bytes h
    obtain ⟨key, value⟩ := e
    have h0 := h 0 (by simp)
    simp only [Nat.mul_zero, Nat.add_zero, List.get_eq_getElem, List.getElem_cons_zero] at h0
    rw [insertLocked, insertBlocks, copy_n, h0]
    apply ih
    intro j hj
    have := h (j + 1) (by simpa using hj)
    have e : off + 8 * (j + 1) = off + 8 + 8 * j := by omega
    rw [e] at this
    rw [this]
    rfl

theorem ParseDataArea_eq_gather (t : TagV0) (d : List Byte) :
    t.ParseDataArea d = gather t d (List.range kMaxBlockCount) := by
  have key : ∀ bs acc, List.foldl (fun dataArea currentBlock =>
      if ¬ t.IsBlockLocked currentBlock then dataArea ++ slice d (8 * currentBlock) 8
      else dataArea) acc bs = acc ++ gather t d bs := by
    intro bs
    induction bs with
    | nil => intro acc; simp [gather]
    | cons b bs ih =>
      intro acc
      rw [List.foldl, ih, gather]
      by_cases hb : ¬ t.IsBlockLocked b
      · rw [if_pos hb, if_pos hb, List.append_assoc]
      · rw [if_neg hb, if_neg hb, List.nil_append]
  rw [ParseDataArea, key, List.nil_append]

theorem insertDataArea_gather (t : TagV0) (d dataArea : List Byte) (hd : d.length = 512)
    (bs : List Nat) :
    ∀ (pre bytes : List Byte), dataArea = pre ++ gather t d bs → (∀ b ∈ bs, b < 64) →
      insertDataArea t dataArea bs pre.length bytes =
        some (insertBlocks (freeEntries t d bs) bytes) := by
  induction bs with
  | nil => intro pre bytes _ _; rfl
  | cons b bs ih =>
    intro pre bytes hda hbs
    have hb : b < 64 := hbs b (List.mem_cons_self _ _)
    have hbl : (slice d (8 * b) 8).length = 8 := length_slice _ _ _ (by omega)
    rw [insertDataArea, freeEntries]
    by_cases hfree : ¬ t.IsBlockLocked b
    · rw [if_pos hfree, if_pos hfree]
      rw [gather, if_pos hfree] at hda
      have hlen : pre.length + 8 ≤ dataArea.length := by
        rw [hda]; simp only [List.length_append, hbl]; omega
      rw [if_pos hlen, insertBlocks]
      have hs : slice dataArea pre.length 8 = slice d (8 * b) 8 := by
        rw [hda, slice, List.drop_left' rfl, List.take_left' hbl]
      have := ih (pre ++ slice d (8 * b) 8) (copy_n dataArea pre.length 8 bytes (b * 8))
        (by rw [hda, List.append_assoc]) (fun x hx => hbs x (List.mem_cons_of_mem _ hx))
      rw [List.length_append, hbl] at this
      rw [this, copy_n, hs]
    · rw [if_neg hfree, if_neg hfree]
      rw [gather, if_neg hfree, List.nil_append] at hda
      exact ih pre bytes hda (fun x hx => hbs x (List.mem_cons_of_mem _ hx))

theorem mem_freeEntries (t : TagV0) (d : List Byte) (bs : List Nat) (e : Nat × Block) :
    e ∈ freeEntries t d bs ↔ e.1 ∈ bs ∧ t.IsBlockLocked e.1 = false ∧ e.2 = slice d (8 * e.1) 8 := by
  induction bs with
  | nil => simp [freeEntries]
  | cons b bs ih =>
    rw [freeEntries]
    by_cases hfree : ¬ t.IsBlockLocked b
    · rw [if_pos hfree, List.mem_cons, ih, List.mem_cons]
      constructor
      · rintro (rfl | ⟨h1, h2, h3⟩)
        · exact ⟨Or.inl rfl, by simpa using hfree, rfl⟩
        · exact ⟨Or.inr h1, h2, h3⟩
      · rintro ⟨h1 | h1, h2, h3⟩
        · left
          obtain ⟨k, v⟩ := e
          simp only at h1 h3
          rw [h1, h3, h1]
        · exact Or.inr ⟨h1, h2, h3⟩
    · rw [if_neg hfree, ih, List.mem_cons]
      constructor
      · rintro ⟨h1, h2, h3⟩
        exact ⟨Or.inr h1, h2, h3⟩
      · rintro ⟨h1 | h1, h2, h3⟩
        · rw [h1] at h2
          exact absurd h2 (by simpa using hfree)
        · exact ⟨h1, h2, h3⟩

theorem mem_entries (m : BlockMap) (e : Nat × Block) :
    e ∈ m.entries ↔ e.1 < 256 ∧ m e.1 = some e.2 := by
  obtain ⟨k, v⟩ := e
  simp only [BlockMap.entries, List.mem_filterMap, List.mem_range, Option.map_eq_some']
  constructor
  · rintro ⟨a, ha, b, hb, he⟩
    simp only [Prod.mk.injEq] at he
    obtain ⟨rfl, rfl⟩ := he
    exact ⟨ha, hb⟩
  · rintro ⟨h1, h2⟩
    exact ⟨k, h1, v, h2, rfl⟩

end TagV0

namespace TagV0

theorem gather_congr (t t' : TagV0) (d : List Byte) (h : ∀ b, t.IsBlockLocked b = t'.IsBlockLocked b)
    (bs : List Nat) : gather t d bs = gather t' d bs := by
  induction bs with
  | nil => rfl
  | cons b bs ih => rw [gather, gather, ih, h b]

theorem IsBlockLockedOrReserved_iff (k : Nat) :
    IsBlockLockedOrReserved k = true ↔ k = 0 ∨ k = 13 ∨ k = 14 ∨ k = 15 := by
  unfold IsBlockLockedOrReserved
  split_ifs with h1 h2 h3
  · simp [h1]
  · simp [h2]
  · rcases h3 with h3 | h3 <;> simp [h3]
  · simp only [Bool.false_eq_true, false_iff]
    omega

theorem lockBit_reserved (d : List Byte)
    (hres : (d.getD 0x70 0).val &&& 0x01 ≠ 0 ∧ (d.getD 0x71 0).val &&& 0x20 ≠ 0 ∧
      (d.getD 0x71 0).val &&& 0x40 ≠ 0 ∧ (d.getD 0x71 0).val &&& 0x80 ≠ 0)
    (k : Nat) (hk : IsBlockLockedOrReserved k = true) : lockBit d k = true := by
  obtain ⟨h0, h13, h14, h15⟩ := hres
  rcases (IsBlockLockedOrReserved_iff k).mp hk with rfl | rfl | rfl | rfl
  · simpa [lockBit, lockByteOf] using h0
  · simpa [lockBit, lockByteOf] using h13
  · simpa [lockBit, lockByteOf] using h14
  · simpa [lockBit, lockByteOf] using h15

/-- Encode after Decode, when the rebuilt data area is the dump's and the lock bits of
the reserved blocks are set. -/
theorem ToBytes_FromBytes_of_canonical (d : List Byte) (t : TagV0)
    (hdec : FromBytes d = some t)
    (hres : (d.getD 0x70 0).val &&& 0x01 ≠ 0 ∧ (d.getD 0x71 0).val &&& 0x20 ≠ 0 ∧
      (d.getD 0x71 0).val &&& 0x40 ≠ 0 ∧ (d.getD 0x71 0).val &&& 0x80 ≠ 0)
    (hcanon : rebuiltDataArea t = some (dataAreaOf d)) :
    ToBytes t = some d := by
  obtain ⟨hlen, ndefTlv, msg, rec, hcc, hval, htlvs, hne, hndef, hmsg, hmsgeq, hrec, hP, hL, hR,
    henc, hdata, hnoft⟩ := FromBytes_some d t hdec
  -- the entries of the two maps are blocks of the dump
  have hLent : ∀ e ∈ t.mLockedBlocks.entries, e.1 < 64 ∧ e.2 = slice d (e.1 * 8) 8 := by
    intro e he
    have := ((mem_entries _ e).mp he).2
    rw [hL, ParseLockedArea_mLockedBlocks] at this
    split_ifs at this with hc
    exact ⟨hc.1, (Option.some.inj this).symm⟩
  have hRent : ∀ e ∈ t.mLockedOrReservedBlocks.entries, e.1 < 64 ∧ e.2 = slice d (e.1 * 8) 8 := by
    intro e he
    have := ((mem_entries _ e).mp he).2
    rw [hR, ParseLockedArea_mLockedOrReservedBlocks] at this
    split_ifs at this with hc
    exact ⟨hc.1, (Option.some.inj this).symm⟩
  have hLlen : ∀ e ∈ t.mLockedBlocks.entries, e.2.length = 8 := by
    intro e he
    obtain ⟨h1, h2⟩ := hLent e he
    rw [h2]
    exact length_slice_block d e.1 hlen h1
  -- the data area
  have hlocked : ∀ b, t.IsBlockLocked b = (ParseLockedArea TagV0.new d).IsBlockLocked b := by
    intro b
    simp only [IsBlockLocked, BlockMap.contains, hL]
  have hda : dataAreaOf d = [] ++ gather t d (List.range kMaxBlockCount) := by
    rw [dataAreaOf, ParseDataArea_eq_gather, List.nil_append]
    exact (gather_congr _ _ _ hlocked _).symm
  -- unfold Encode
  simp only [rebuiltDataArea, Option.map_eq_some'] at hcanon
  obtain ⟨tlvs', htlvs', hpack⟩ := hcanon
  rw [ToBytes, htlvs']
  simp only [hmsgeq, hrec, hpack, ndef.Record.GetPayload]
  have hins := insertDataArea_gather t d (dataAreaOf d) hlen (List.range kMaxBlockCount) []
    (insertLocked t.mData t.mLockedBlocks.entries rec.mPayload.length
      (insertBlocks t.mLockedOrReservedBlocks.entries (zeros kTagSize)))
    hda (fun b hb => by simpa [kMaxBlockCount, kTagSize] using hb)
  rw [List.length_nil] at hins
  rw [hins]
  have hat : ∀ j (hj : j < t.mLockedBlocks.entries.length),
      slice t.mData (rec.mPayload.length + 8 * j) 8 = (t.mLockedBlocks.entries.get ⟨j, hj⟩).2 := by
    intro j hj
    have h0 : rec.mPayload.length ≤ (copyTo rec.mPayload (zeros 540) 0).length := by
      have := length_copyTo_ge rec.mPayload (zeros 540) 0 (Nat.zero_le _)
      omega
    have := appendLocked_at t.mLockedBlocks.entries _ _ h0 hLlen j hj
    rw [hdata, ← hL]
    exact this
  rw [insertLocked_eq_insertBlocks _ _ _ _ hat]
  -- the three loops write blocks of the dump, and every block is written
  have a0 : AgreesOn d (zeros kTagSize) (fun _ => False) :=
    ⟨by rw [length_zeros]; rfl, fun _ _ h => absurd h id⟩
  have a1 := AgreesOn_insertBlocks d hlen _ _ _ hRent a0
  have a2 := AgreesOn_insertBlocks d hlen _ _ _ hLent a1
  have hFent : ∀ e ∈ freeEntries t d (List.range kMaxBlockCount),
      e.1 < 64 ∧ e.2 = slice d (e.1 * 8) 8 := by
    intro e he
    obtain ⟨h1, _, h3⟩ := (mem_freeEntries t d _ e).mp he
    refine ⟨by simpa [kMaxBlockCount, kTagSize] using h1, ?_⟩
    rw [h3, Nat.mul_comm]
  have a3 := AgreesOn_insertBlocks d hlen _ _ _ hFent a2
  congr 1
  apply blocks_ext _ _ a3.1 hlen
  intro k hk
  apply a3.2 k hk
  cases hfree : t.IsBlockLocked k with
  | false =>
    right
    exact ⟨(k, slice d (8 * k) 8), (mem_freeEntries t d _ _).mpr
      ⟨by simpa [kMaxBlockCount, kTagSize] using hk, hfree, rfl⟩, rfl⟩
  | true =>
    left
    simp only [IsBlockLocked, Bool.or_eq_true] at hfree
    cases hL' : t.mLockedBlocks k with
    | some v =>
      right
      exact ⟨(k, v), (mem_entries _ _).mpr ⟨by omega, hL'⟩, rfl⟩
    | none =>
      left; right
      have hresk : IsBlockLockedOrReserved k = true := by
        rcases hfree with h | h
        · simp [BlockMap.contains, hL'] at h
        · exact h
      have hRk : t.mLockedOrReservedBlocks k = some (slice d (k * 8) 8) := by
        rw [hR, ParseLockedArea_mLockedOrReservedBlocks,
          if_pos ⟨hk, lockBit_reserved d hres k hresk, hresk⟩]
      exact ⟨(k, slice d (k * 8) 8), (mem_entries _ _).mpr ⟨by omega, hRk⟩, rfl⟩

end TagV0

/-- Counterexample to C2: a 512-byte dump that `TagV0::FromBytes` accepts (the lock bits
of the reserved blocks are set, the data area is read inside its bounds) and whose
re-encoding differs from it: the byte 0x55 after the TERMINATOR TLV comes back as 0. -/
theorem TagV0_FromBytes_ToBytes_counterexample :
    (exampleDumpV0 0x81 0x55).length = 512 ∧
    (TagV0.FromBytes (exampleDumpV0 0x81 0x55)).isSome = true ∧
    (TagV0.FromBytes (exampleDumpV0 0x81 0x55)).bind TagV0.ToBytes =
      some (exampleDumpV0 0x81 0) ∧
    (TagV0.FromBytes (exampleDumpV0 0x81 0x55)).bind TagV0.ToBytes ≠
      some (exampleDumpV0 0x81 0x55) := by
  decide!

/-- **C3 (failing input).** A 512-byte dump that `TagV0::FromBytes` accepts and in which
the lock bit of block 0 is clear: `TagV0::ToBytes` returns the dump with block 0 (the
UID, offsets 0x00 to 0x07) replaced by zero bytes. -/
theorem TagV0_unlocked_reserved_block_lost :
    (TagV0.FromBytes (exampleDumpV0 0x80 0)).isSome = true ∧
    (TagV0.FromBytes (exampleDumpV0 0x80 0)).bind TagV0.ToBytes =
      some (zeros 8 ++ (exampleDumpV0 0x80 0).drop 8) ∧
    slice (exampleDumpV0 0x80 0) 0 8 = [4, 1, 2, 3, 4, 5, 6, 7] := by
  decide!

namespace TLV

theorem decodeL_append_none (l : List Byte) (ts : List TLV) (h : decodeL l = some ts) :
    (∀ t ∈ ts, t.mTag ≠ TAG_TERMINATOR) → ∀ tr, decodeL tr = none → decodeL (l ++ tr) = none := by
  refine decodeL_induction (P := fun l ts => (∀ t ∈ ts, t.mTag ≠ TAG_TERMINATOR) →
    ∀ tr, decodeL tr = none → decodeL (l ++ tr) = none) ?_ ?_ ?_ ?_ l ts h
  · intro _ tr htr
    exact htr
  · intro r ts _ ih hts tr htr
    rw [List.cons_append, decodeL_cons, if_pos rfl]
    exact ih hts tr htr
  · intro r hts
    exact absurd rfl (hts _ (List.mem_singleton.mpr rfl))
  · intro tag hdr v rest ts' hn ht hf _ ih hts tr htr
    have := decodeL_frame tag hdr v (rest ++ tr) hn ht hf
    simp only [List.cons_append, List.append_assoc] at this ⊢
    rw [this, ih (fun t ht' => hts t (List.mem_cons_of_mem _ ht')) tr htr]
    rfl

end TLV

/-- **C9.** `TLV::FromBytes` returns the empty sequence, not a partial one, when the
input is a prefix that is consumed completely without a TERMINATOR (the encodings of
complete TLVs, or any bytes from which TLVs and no TERMINATOR are decoded), followed by
a TLV, neither NULL nor TERMINATOR, whose length byte, extended 2-byte length or value
runs past the end of the input. -/
theorem TLV_FromBytes_truncated (pre tr : List Byte)
    (hpre : (∃ ts : List TLV, pre = TLV.encodeAll ts ∧
        ∀ t ∈ ts, t.mTag ≠ TLV.TAG_TERMINATOR ∧ t.mValue.length < 65536) ∨
      (TLV.FromBytes pre ≠ [] ∧ ∀ t ∈ TLV.FromBytes pre, t.mTag ≠ TLV.TAG_TERMINATOR))
    (htr : TLV.isTruncated tr = true) :
    TLV.FromBytes (pre ++ tr) = [] := by
  have hnone := TLV.decodeL_isTruncated tr htr
  rw [TLV.FromBytes_eq_decodeL]
  rcases hpre with ⟨ts, rfl, hts⟩ | ⟨hne, hts⟩
  · rw [TLV.decodeL_encodeAll_append_none ts tr hnone hts]
    rfl
  · rw [TLV.FromBytes_eq_decodeL] at hne hts
    cases hd : TLV.decodeL pre with
    | none => rw [hd] at hne; exact absurd rfl hne
    | some ts =>
      rw [hd] at hts
      rw [TLV.decodeL_append_none pre ts hd hts tr hnone]
      rfl

/-- Witness for C9: a complete TLV is decoded from the first three bytes, and the TLV
after it announces five value bytes and has one. -/
theorem TLV_FromBytes_truncated_witness :
    TLV.FromBytes [3, 1, 9] = [{ mTag := 3, mValue := [9] }] ∧
      TLV.FromBytes ([3, 1, 9] ++ [3, 5, 1]) = [] :=
  ⟨by decide, TLV_FromBytes_truncated [3, 1, 9] [3, 5, 1] (Or.inr (by decide)) (by decide)⟩

/-! ## TagV2: acceptance -/

/-- **C17.** `TagV2::FromBytes` returns a tag exactly when the input is 0x214 or 0x21c
bytes long and its byte at offset 0x10 is the magic 0xA5. -/
theorem TagV2_FromBytes_isSome_iff (data : List Byte) :
    (TagV2.FromBytes data).isSome = true ↔
      (data.length = 0x214 ∨ data.length = 0x21c) ∧ data[0x10]? = some 0xa5 := by
  unfold TagV2.FromBytes
  by_cases hlen : data.length ≠ TagV2.kTagSize0 ∧ data.length ≠ TagV2.kTagSize1
  · rw [if_pos hlen]
    simp only [TagV2.kTagSize0, TagV2.kTagSize1] at hlen
    constructor
    · intro h; cases h
    · rintro ⟨h | h, -⟩
      · exact absurd h hlen.1
      · exact absurd h hlen.2
  · rw [if_neg hlen]
    have hl : data.length = 0x214 ∨ data.length = 0x21c := by
      simp only [TagV2.kTagSize0, TagV2.kTagSize1] at hlen
      omega
    have h16 : 0x10 < data.length := by omega
    have hget : data.getD 0x10 0 = data[0x10] := by
      rw [List.getD_eq_getElem?_getD, List.getElem?_eq_getElem h16]; rfl
    have hopt : data[0x10]? = some data[0x10] := List.getElem?_eq_getElem h16
    by_cases hm : data.getD 0x10 0 ≠ TagV2.kTagMagic
    · rw [if_pos hm]
      constructor
      · intro h; cases h
      · rintro ⟨-, h⟩
        rw [hopt] at h
        rw [hget, Option.some.inj h] at hm
        exact absurd rfl hm
    · rw [if_neg hm]
      refine ⟨fun _ => ⟨hl, ?_⟩, fun _ => rfl⟩
      rw [hopt, ← hget]
      exact congrArg some (not_not.mp hm)

/-! ## NDEF messages -/

/-- **C12 (as stated, refuted).** The three bytes `55 00 00` (a short Unknown record
with ME set and MB clear, empty type and payload) are accepted by `Message::FromBytes`,
and the first record of the message returned does not carry the message-begin flag. -/
theorem Message_FromBytes_first_without_MB :
    ndef.Message.FromBytes [0x55, 0x00, 0x00] = some { mRecords := [exampleRecord 0x50] } ∧
      ([exampleRecord 0x50].head?.map fun r => decide (r.mFlags &&& ndef.NDEF_MB ≠ 0))
        = some false := by
  decide

/-- **C12 (amended).** Every message returned by `Message::FromBytes` has at least one
record, and its last record carries the message-end flag; the message-begin flag of the
first record is not examined. -/
theorem Message_FromBytes_last_has_ME (data : List Byte) (m : ndef.Message)
    (h : ndef.Message.FromBytes data = some m) :
    m.mRecords ≠ [] ∧
      ∃ last, m.mRecords.getLast? = some last ∧ last.mFlags &&& ndef.NDEF_ME ≠ 0 := by
  unfold ndef.Message.FromBytes at h
  dsimp only at h
  split at h
  · cases h
  · rename_i last hlast
    split at h
    · cases h
    · rename_i hIsLast
      have hm := Option.some.inj h
      subst hm
      dsimp only
      refine ⟨?_, last, hlast, ?_⟩
      · intro hnil
        rw [hnil] at hlast
        cases hlast
      · have : last.IsLast = true := by simpa using hIsLast
        simpa [ndef.Record.IsLast] using this

theorem Message_FromBytes_last_has_ME_witness :
    ndef.Message.FromBytes [0xd5, 0x00, 0x00] = some { mRecords := [exampleRecord 0xd0] } ∧
      [exampleRecord 0xd0] ≠ [] ∧
      ∃ last, [exampleRecord 0xd0].getLast? = some last ∧ last.mFlags &&& ndef.NDEF_ME ≠ 0 :=
  ⟨by decide, Message_FromBytes_last_has_ME [0xd5, 0x00, 0x00] _ (by decide)⟩

/-! ## Keys -/

theorem copyTo_zero_full {α : Type} (src dst : List α) (h : dst.length ≤ src.length) :
    copyTo src dst 0 = src := by
  simp [copyTo, List.drop_eq_nil_of_le h]

theorem slice_slice {α : Type} (l : List α) (a n b m : Nat) (h : b + m ≤ n) :
    slice (slice l a n) b m = slice l (a + b) m := by
  apply List.ext_getElem?
  intro i
  rw [getElem?_slice, getElem?_slice, getElem?_slice]
  by_cases hi : i < m
  · rw [if_pos hi, if_pos hi, if_pos (by omega), Nat.add_assoc]
  · rw [if_neg hi, if_neg hi]

theorem copyTo_hmacKey (s : List Byte) (hs : s.length = 0x10) :
    copyTo (zeros 0x30) (copyTo s (zeros 0x40) 0) 0x10 = s ++ zeros 0x30 := by
  have h1 : copyTo s (zeros 0x40) 0 = s ++ zeros 0x30 := by
    simp [copyTo, zeros, hs]
  rw [h1]
  have h2 : (s ++ zeros 0x30).take 0x10 = s := by
    rw [List.take_left' hs]
  have h3 : (s ++ zeros 0x30).drop (0x10 + (zeros 0x30).length) = [] := by
    apply List.drop_eq_nil_of_le
    simp [zeros, hs]
  rw [copyTo, h2, h3, List.append_nil]

namespace Keys

/-- `Keys::FromBins` in closed form: it fails exactly when the two XOR pads differ, and
otherwise every member is a slice of one of the halves. -/
theorem FromBins_eq (unfixedInfo lockedSecret : List Byte) (hu : unfixedInfo.length = 80)
    (hl : lockedSecret.length = 80) :
    FromBins unfixedInfo lockedSecret =
      if slice unfixedInfo 0x30 0x20 = slice lockedSecret 0x30 0x20 then
        some { mNfcKey := zeros 0x10
               mNfcNonce := zeros 0x10
               mNfcXorPad := slice unfixedInfo 0x30 0x20
               mUnfixedInfosString := slice unfixedInfo 0x10 0xe
               mUnfixedInfosMagicBytes := slice unfixedInfo 0x20 0xe
               mUnfixedInfosHmacKey := slice unfixedInfo 0 0x10 ++ zeros 0x30
               mLockedSecretString := slice lockedSecret 0x10 0xe
               mLockedSecretMagicBytes := slice lockedSecret 0x20 0x10
               mLockedSecretHmacKey := slice lockedSecret 0 0x10 ++ zeros 0x30 }
      else none := by
  have e1 : copy_n unfixedInfo 0x30 0x20 (zeros 0x20) 0 = slice unfixedInfo 0x30 0x20 :=
    copyTo_zero_full _ _ (by rw [length_slice _ _ _ (by omega)]; simp [zeros])
  have e2 : copy_n unfixedInfo 0x10 0xe (zeros 0xe) 0 = slice unfixedInfo 0x10 0xe :=
    copyTo_zero_full _ _ (by rw [length_slice _ _ _ (by omega)]; simp [zeros])
  have e3 : copy_n unfixedInfo 0x20 0xe (zeros 0xe) 0 = slice unfixedInfo 0x20 0xe :=
    copyTo_zero_full _ _ (by rw [length_slice _ _ _ (by omega)]; simp [zeros])
  have e4 : copy_n lockedSecret 0x10 0xe (zeros 0xe) 0 = slice lockedSecret 0x10 0xe :=
    copyTo_zero_full _ _ (by rw [length_slice _ _ _ (by omega)]; simp [zeros])
  have e5 : copy_n lockedSecret 0x20 0x10 (zeros 0x10) 0 = slice lockedSecret 0x20 0x10 :=
    copyTo_zero_full _ _ (by rw [length_slice _ _ _ (by omega)]; simp [zeros])
  have e6 : copyTo (zeros 0x30) (copy_n unfixedInfo 0 0x10 (zeros 0x40) 0) 0x10 =
      slice unfixedInfo 0 0x10 ++ zeros 0x30 :=
    copyTo_hmacKey _ (length_slice _ _ _ (by omega))
  have e7 : copyTo (zeros 0x30) (copy_n lockedSecret 0 0x10 (zeros 0x40) 0) 0x10 =
      slice lockedSecret 0 0x10 ++ zeros 0x30 :=
    copyTo_hmacKey _ (length_slice _ _ _ (by omega))
  have e8 : (slice unfixedInfo 0x30 0x20).length = 0x20 := length_slice _ _ _ (by omega)
  unfold FromBins Keys.new
  dsimp only
  rw [e1, e2, e3, e4, e5, e6, e7, e8]
  by_cases h : slice unfixedInfo 0x30 0x20 = slice lockedSecret 0x30 0x20
  · rw [if_pos h, if_neg (not_not.mpr h)]
  · rw [if_neg h, if_pos h]

end Keys

/-- **C13.** On a 160-byte keyset `Keys::FromKeyset` returns no Keys exactly when bytes
[128, 160) differ from bytes [48, 80); when they are equal it returns Keys whose XOR pad
is bytes [48, 80). -/
theorem Keys_FromKeyset_pad_check (keyset : List Byte) (h : keyset.length = 160) :
    (Keys.FromKeyset keyset = none ↔ slice keyset 128 32 ≠ slice keyset 48 32) ∧
      (slice keyset 128 32 = slice keyset 48 32 →
        ∃ keys, Keys.FromKeyset keyset = some keys ∧ keys.mNfcXorPad = slice keyset 48 32) := by
  have hu : (slice keyset 0 80).length = 80 := length_slice _ _ _ (by omega)
  have hl : (slice keyset 80 80).length = 80 := length_slice _ _ _ (by omega)
  have e1 : slice (slice keyset 0 80) 0x30 0x20 = slice keyset 48 32 :=
    slice_slice _ _ _ _ _ (by omega)
  have e2 : slice (slice keyset 80 80) 0x30 0x20 = slice keyset 128 32 :=
    slice_slice _ _ _ _ _ (by omega)
  rw [Keys.FromKeyset, Keys.FromBins_eq _ _ hu hl, e1, e2]
  constructor
  · constructor
    · intro hn heq
      rw [if_pos heq.symm] at hn
      cases hn
    · intro hne
      rw [if_neg (fun heq => hne heq.symm)]
  · intro heq
    rw [if_pos heq.symm]
    exact ⟨_, rfl, rfl⟩

theorem Keys_FromKeyset_pad_check_witness :
    (exampleHalf ++ exampleHalf).length = 160 ∧
      ((Keys.FromKeyset (exampleHalf ++ exampleHalf) = none ↔
          slice (exampleHalf ++ exampleHalf) 128 32 ≠ slice (exampleHalf ++ exampleHalf) 48 32) ∧
        (slice (exampleHalf ++ exampleHalf) 128 32 = slice (exampleHalf ++ exampleHalf) 48 32 →
          ∃ keys, Keys.FromKeyset (exampleHalf ++ exampleHalf) = some keys ∧
            keys.mNfcXorPad = slice (exampleHalf ++ exampleHalf) 48 32)) :=
  ⟨by simp [exampleHalf], Keys_FromKeyset_pad_check (exampleHalf ++ exampleHalf) (by simp [exampleHalf])⟩

/-- **C14 (as stated, refuted).** For the half whose byte at offset `i` is `i`, the magic
bytes that `Keys::FromBins` stores are the 14 bytes from offset 0x20, not the 14 bytes
that follow the label (offset 0x1e), and the XOR pad is the 32 bytes from offset 0x30,
not the 32 bytes that follow a 14-byte magic (offset 0x2c). -/
theorem Keys_FromBins_fields_not_consecutive :
    (Keys.FromBins exampleHalf exampleHalf).map (fun k => k.mUnfixedInfosMagicBytes)
        = some (slice exampleHalf 0x20 0xe) ∧
      slice exampleHalf 0x20 0xe ≠ slice exampleHalf (0x10 + 0xe) 0xe ∧
      (Keys.FromBins exampleHalf exampleHalf).map (fun k => k.mNfcXorPad)
        = some (slice exampleHalf 0x30 0x20) ∧
      slice exampleHalf 0x30 0x20 ≠ slice exampleHalf (0x10 + 0xe + 0xe) 0x20 := by
  decide!

/-- **C14 (amended).** `Keys::FromBins` reads each 80-byte half at fixed offsets: the
0x10-byte HMAC key at 0x00, the 0x0e-byte label at 0x10, the magic bytes at 0x20 (0x0e
bytes for unfixed-infos, 0x10 bytes for locked-secret) and the 0x20-byte XOR pad at 0x30;
bytes 0x1e and 0x1f of each half and bytes 0x2e and 0x2f of the unfixed-infos half are
not read. It returns Keys exactly when the two XOR pads are equal, and each stored HMAC
key is the 16 key bytes followed by 48 zero bytes. -/
theorem Keys_FromBins_layout (unfixedInfo lockedSecret : List Byte)
    (hu : unfixedInfo.length = 80) (hl : lockedSecret.length = 80) (keys : Keys) :
    Keys.FromBins unfixedInfo lockedSecret = some keys ↔
      slice unfixedInfo 0x30 0x20 = slice lockedSecret 0x30 0x20 ∧
      keys.mUnfixedInfosHmacKey = slice unfixedInfo 0 0x10 ++ zeros 0x30 ∧
      keys.mUnfixedInfosString = slice unfixedInfo 0x10 0xe ∧
      keys.mUnfixedInfosMagicBytes = slice unfixedInfo 0x20 0xe ∧
      keys.mNfcXorPad = slice unfixedInfo 0x30 0x20 ∧
      keys.mLockedSecretHmacKey = slice lockedSecret 0 0x10 ++ zeros 0x30 ∧
      keys.mLockedSecretString = slice lockedSecret 0x10 0xe ∧
      keys.mLockedSecretMagicBytes = slice lockedSecret 0x20 0x10 ∧
      keys.mNfcKey = zeros 0x10 ∧ keys.mNfcNonce = zeros 0x10 := by
  rw [Keys.FromBins_eq _ _ hu hl]
  constructor
  · intro h
    split at h
    · rename_i heq
      have hk := Option.some.inj h
      subst hk
      exact ⟨heq, rfl, rfl, rfl, rfl, rfl, rfl, rfl, rfl, rfl⟩
    · cases h
  · rintro ⟨heq, h1, h2, h3, h4, h5, h6, h7, h8, h9⟩
    rw [if_pos heq]
    obtain ⟨a, b, c, d, e, f, g, i, j⟩ := keys
    simp only at h1 h2 h3 h4 h5 h6 h7 h8 h9
    subst h1 h2 h3 h4 h5 h6 h7 h8 h9
    rfl

theorem Keys_FromBins_layout_witness :
    exampleHalf.length = 80 ∧ exampleHalf.length = 80 ∧
      (Keys.FromBins exampleHalf exampleHalf = some
          { mNfcKey := zeros 0x10, mNfcNonce := zeros 0x10,
            mNfcXorPad := slice exampleHalf 0x30 0x20,
            mUnfixedInfosString := slice exampleHalf 0x10 0xe,
            mUnfixedInfosMagicBytes := slice exampleHalf 0x20 0xe,
            mUnfixedInfosHmacKey := slice exampleHalf 0 0x10 ++ zeros 0x30,
            mLockedSecretString := slice exampleHalf 0x10 0xe,
            mLockedSecretMagicBytes := slice exampleHalf 0x20 0x10,
            mLockedSecretHmacKey := slice exampleHalf 0 0x10 ++ zeros 0x30 } ↔
        slice exampleHalf 0x30 0x20 = slice exampleHalf 0x30 0x20 ∧
        slice exampleHalf 0 0x10 ++ zeros 0x30 = slice exampleHalf 0 0x10 ++ zeros 0x30 ∧
        slice exampleHalf 0x10 0xe = slice exampleHalf 0x10 0xe ∧
        slice exampleHalf 0x20 0xe = slice exampleHalf 0x20 0xe ∧
        slice exampleHalf 0x30 0x20 = slice exampleHalf 0x30 0x20 ∧
        slice exampleHalf 0 0x10 ++ zeros 0x30 = slice exampleHalf 0 0x10 ++ zeros 0x30 ∧
        slice exampleHalf 0x10 0xe = slice exampleHalf 0x10 0xe ∧
        slice exampleHalf 0x20 0x10 = slice exampleHalf 0x20 0x10 ∧
        zeros 0x10 = zeros 0x10 ∧ zeros 0x10 = zeros 0x10) :=
  ⟨by simp [exampleHalf], by simp [exampleHalf],
    Keys_FromBins_layout exampleHalf exampleHalf (by simp [exampleHalf]) (by simp [exampleHalf]) _⟩

namespace ndef

/-- The header byte that `Record::ToBytes` writes carries MB and ME exactly as the
`flags` argument built by `Message::ToBytes` says, whatever the stored flags are. -/
theorem header_bits : ∀ (mf : Byte) (t : Fin 8) (first last : Bool),
    ((((mf &&& compl8 (NDEF_MB ||| NDEF_ME)) |||
          (if last = true then (if first = true then NDEF_MB else 0) ||| NDEF_ME
           else (if first = true then NDEF_MB else 0))) ||| u8 t.val) &&& NDEF_MB ≠ 0
        ↔ first = true) ∧
    ((((mf &&& compl8 (NDEF_MB ||| NDEF_ME)) |||
          (if last = true then (if first = true then NDEF_MB else 0) ||| NDEF_ME
           else (if first = true then NDEF_MB else 0))) ||| u8 t.val) &&& NDEF_ME ≠ 0
        ↔ last = true) := by
  decide!

theorem Record.ToBytes_header (r : Record) (flags : Byte) :
    ∃ rest, r.ToBytes flags =
      (((r.mFlags &&& compl8 (NDEF_MB ||| NDEF_ME)) ||| flags) ||| r.mTNF) :: rest := by
  unfold Record.ToBytes
  dsimp only
  split <;> split <;> simp

namespace Message

theorem ToBytes_go_eq_chunks (n : Nat) (rs : List Record) :
    ∀ i, ToBytes.go n i rs = (ToBytes.chunks n i rs).flatten := by
  induction rs with
  | nil => intro i; rfl
  | cons r rs ih =>
    intro i
    rw [ToBytes.go, ToBytes.chunks, ih (i + 1)]
    rfl

theorem length_chunks (n : Nat) (rs : List Record) :
    ∀ i, (ToBytes.chunks n i rs).length = rs.length := by
  induction rs with
  | nil => intro i; rfl
  | cons r rs ih => intro i; rw [ToBytes.chunks, List.length_cons, ih (i + 1), List.length_cons]

theorem getElem?_chunks (n : Nat) (rs : List Record) :
    ∀ i j : Nat, (ToBytes.chunks n i rs)[j]? =
      rs[j]?.map (fun r : Record => r.ToBytes
        (if i + j = n - 1 then (if i + j = 0 then NDEF_MB else 0) ||| NDEF_ME
         else (if i + j = 0 then NDEF_MB else 0))) := by
  induction rs with
  | nil => intro i j; rfl
  | cons r rs ih =>
    intro i j
    cases j with
    | zero => rw [ToBytes.chunks]; simp only [List.getElem?_cons_zero, Option.map_some', Nat.add_zero]
    | succ j =>
      rw [ToBytes.chunks, List.getElem?_cons_succ, List.getElem?_cons_succ, ih (i + 1) j]
      have e : i + 1 + j = i + (j + 1) := by omega
      rw [e]

end Message

end ndef

/-- **C11.** The output of `Message::ToBytes` is the concatenation of one encoding per
record, in order. When every stored type-name-format is a 3-bit value, the header byte
of the encoding at index `i` has message-begin set exactly when `i` is the first index
and message-end set exactly when `i` is the last index, whatever the stored flags are:
with two or more records the first header has MB set and ME clear, the last has ME set
and MB clear and those in between have both clear; with one record the single header
carries both. -/
theorem Message_ToBytes_boundary_flags (m : ndef.Message)
    (htnf : ∀ r ∈ m.mRecords, r.mTNF.val ≤ 7) :
    ∃ chunks : List (List Byte),
      m.ToBytes = chunks.flatten ∧ chunks.length = m.mRecords.length ∧
      ∀ i r, m.mRecords[i]? = some r → ∃ flags hdr rest,
        chunks[i]? = some (hdr :: rest) ∧ r.ToBytes flags = hdr :: rest ∧
        (hdr &&& ndef.NDEF_MB ≠ 0 ↔ i = 0) ∧
        (hdr &&& ndef.NDEF_ME ≠ 0 ↔ i + 1 = m.mRecords.length) := by
  refine ⟨ndef.Message.ToBytes.chunks m.mRecords.length 0 m.mRecords,
    ndef.Message.ToBytes_go_eq_chunks _ _ 0, ndef.Message.length_chunks _ _ 0, ?_⟩
  intro i r hr
  have hi : i < m.mRecords.length := by
    rcases Nat.lt_or_ge i m.mRecords.length with h | h
    · exact h
    · rw [List.getElem?_eq_none h] at hr; cases hr
  have hmem : r ∈ m.mRecords := List.mem_iff_getElem?.mpr ⟨i, hr⟩
  have ht := htnf r hmem
  obtain ⟨rest, hrest⟩ := ndef.Record.ToBytes_header r
    (if i = m.mRecords.length - 1 then (if i = 0 then ndef.NDEF_MB else 0) ||| ndef.NDEF_ME
     else (if i = 0 then ndef.NDEF_MB else 0))
  refine ⟨_, _, rest, ?_, hrest, ?_⟩
  · rw [ndef.Message.getElem?_chunks, hr, Nat.zero_add, Option.map_some', hrest]
  · have hb := ndef.header_bits r.mFlags ⟨r.mTNF.val, by omega⟩ (decide (i = 0))
      (decide (i = m.mRecords.length - 1))
    have hu : u8 r.mTNF.val = r.mTNF := by
      apply Fin.ext
      simp [u8]
    simp only [hu, decide_eq_true_eq] at hb
    refine ⟨hb.1, hb.2.trans ?_⟩
    omega

theorem Message_ToBytes_boundary_flags_witness :
    (∀ r ∈ exampleMessage.mRecords, r.mTNF.val ≤ 7) ∧
      ∃ chunks : List (List Byte),
        exampleMessage.ToBytes = chunks.flatten ∧
        chunks.length = exampleMessage.mRecords.length ∧
        ∀ i r, exampleMessage.mRecords[i]? = some r → ∃ flags hdr rest,
          chunks[i]? = some (hdr :: rest) ∧ r.ToBytes flags = hdr :: rest ∧
          (hdr &&& ndef.NDEF_MB ≠ 0 ↔ i = 0) ∧
          (hdr &&& ndef.NDEF_ME ≠ 0 ↔ i + 1 = exampleMessage.mRecords.length) :=
  ⟨by decide, Message_ToBytes_boundary_flags exampleMessage (by decide)⟩

/-! ## TagV0: the checks of the decoder -/

namespace TagV0

/-- The capability container `TagV0::FromBytes` copies holds the first four bytes of the
data area (zero where the data area is shorter). -/
theorem getD_capabilityContainer (dataArea : List Byte) (i : Nat) (hi : i < 4) :
    (copy_n dataArea 0 4 (zeros 4) 0).getD i 0 = dataArea.getD i 0 := by
  have hlen : (slice dataArea 0 4).length ≤ 4 := by simp [slice]
  rw [List.getD_eq_getElem?_getD, List.getD_eq_getElem?_getD, copy_n,
    getElem?_copyTo _ _ _ _ (by simpa [zeros] using hlen)]
  by_cases h : i < (slice dataArea 0 4).length
  · rw [if_pos ⟨Nat.zero_le _, by omega⟩, Nat.sub_zero, getElem?_slice, if_pos hi, Nat.zero_add]
  · rw [if_neg (by omega), getElem?_zeros, if_pos hi]
    have hge : dataArea.length ≤ i := by
      simp only [slice, List.drop_zero, List.length_take] at h
      omega
    rw [List.getElem?_eq_none hge]
    rfl

theorem ValidateCapabilityContainer_iff (t : TagV0) :
    t.ValidateCapabilityContainer = true ↔
      t.mCapabilityContainer.getD 0 0 = 0xe1 ∧
      (t.mCapabilityContainer.getD 1 0).val / 16 = 1 ∧
      ¬ 8 * ((t.mCapabilityContainer.getD 2 0).val + 1) < 512 := by
  unfold ValidateCapabilityContainer
  simp only [kNDEFMagicNumber, kTagSize, Nat.shiftRight_eq_div_pow]
  split
  · rename_i h
    simp only [Bool.false_eq_true, false_iff, not_and]
    intro h0
    exact absurd h0 h
  · rename_i h
    split
    · rename_i h2
      simp only [Bool.false_eq_true, false_iff, not_and]
      intro _ h3
      exact absurd h3 h2
    · rename_i h2
      split
      · rename_i h3
        simp only [Bool.false_eq_true, false_iff, not_and, not_not]
        intro _ _
        exact h3
      · rename_i h3
        simp only [true_iff]
        exact ⟨not_not.mp h, not_not.mp h2, h3⟩

end TagV0

/-! ## Key derivation -/

theorem GenerateKey.buffer_eq (name inData : List Byte) (hn : name.length = 0xe)
    (hi : inData.length = 0x40) :
    GenerateKey.buffer name inData = [0, 0] ++ name ++ inData := by
  have h1 : copyTo name (zeros 0x50) 2 = [0, 0] ++ name ++ zeros 0x40 := by
    simp [copyTo, zeros, hn]
  have h2 : ([0, 0] ++ name ++ zeros 0x40).take (name.length + 2) = [0, 0] ++ name := by
    rw [List.take_left' (by simp [hn])]
  have h3 : ([0, 0] ++ name ++ zeros 0x40).drop (name.length + 2 + inData.length) = [] := by
    apply List.drop_eq_nil_of_le
    simp [zeros, hn, hi]
  unfold GenerateKey.buffer
  dsimp only
  rw [h1, copyTo, h2, h3, List.append_nil]

theorem GenerateKey.loop_eq (P : Primitives) (key name inData outData : List Byte)
    (hn : name.length = 0xe) (hi : inData.length = 0x40) (ho : outData.length = 0x40) :
    GenerateKey.loop P key (outData.length + 1) (GenerateKey.buffer name inData) 0 0
        outData.length outData =
      match P.md_hmac key ([0, 0] ++ name ++ inData) with
      | none => (false, outData, 1)
      | some h0 =>
        match P.md_hmac key ([0, 1] ++ name ++ inData) with
        | none => (false, h0 ++ outData.drop 0x20, 2)
        | some h1 => (true, h0 ++ h1, 2) := by
  rw [GenerateKey.buffer_eq name inData hn hi, ho]
  have hb0 : (([0, 0] ++ name ++ inData).set 0 (u8 ((0 >>> 8) &&& 0xff))).set 1
      (u8 (0 &&& 0xff)) = [0, 0] ++ name ++ inData := rfl
  have hb1 : (([0, 0] ++ name ++ inData).set 0 (u8 ((1 >>> 8) &&& 0xff))).set 1
      (u8 (1 &&& 0xff)) = [0, 1] ++ name ++ inData := rfl
  rw [GenerateKey.loop]
  simp only [show (0x40 : Nat) > 0 from by decide, if_true, hb0, crypto.GenerateHMAC]
  cases h0 : P.md_hmac key ([0, 0] ++ name ++ inData) with
  | none =>
    simp only [if_true]
    rw [copyTo_slice_self _ _ _ (by omega)]
  | some o0 =>
    have hl0 := P.md_hmac_length _ _ _ h0
    simp only [Bool.true_eq_false, if_false]
    have e0 : copyTo o0 outData 0 = o0 ++ outData.drop 0x20 := by
      simp [copyTo, hl0]
    rw [e0, GenerateKey.loop]
    simp only [show (0x40 - 0x20 : Nat) > 0 from by decide, if_true, crypto.GenerateHMAC]
    have hc1 : (0 + 1) % 65536 = 1 := rfl
    have hc2 : (1 + 1) % 65536 = 2 := rfl
    simp only [hc1, hc2, hb1]
    cases h1 : P.md_hmac key ([0, 1] ++ name ++ inData) with
    | none =>
      simp only [if_true]
      rw [copyTo_slice_self _ _ _ (by simp [hl0, ho])]
    | some o1 =>
      have hl1 := P.md_hmac_length _ _ _ h1
      simp only [Bool.true_eq_false, if_false]
      have e1 : copyTo o1 (o0 ++ outData.drop 0x20) (0 + 0x20) = o0 ++ o1 := by
        rw [copyTo, Nat.zero_add, List.take_left' hl0, List.drop_eq_nil_of_le, List.append_nil]
        simp [hl0, hl1, ho]
      rw [e1, GenerateKey.loop]
      rfl
/-- **C18.** For a 14-byte label and a 64-byte input, `GenerateKey` makes two HMAC
evaluations, over the 0x50-byte messages `00 00 ‖ label ‖ in` and `00 01 ‖ label ‖ in`,
which differ only in their 2-byte big-endian counter. When both succeed it returns true,
its counter ends at 2 and the 64-byte output is the first MAC followed by the second,
whatever `outData` held before; when one of them fails it returns false. -/
theorem GenerateKey_two_hmacs (P : Primitives) (key name inData outData : List Byte)
    (hn : name.length = 0xe) (hi : inData.length = 0x40) (ho : outData.length = 0x40) :
    ([0, 0] ++ name ++ inData).length = 0x50 ∧ ([0, 1] ++ name ++ inData).length = 0x50 ∧
    (∀ h0 h1, P.md_hmac key ([0, 0] ++ name ++ inData) = some h0 →
      P.md_hmac key ([0, 1] ++ name ++ inData) = some h1 →
        GenerateKey P key name inData outData = (true, h0 ++ h1) ∧
        (h0 ++ h1).length = 0x40 ∧
        (GenerateKey.loop P key (outData.length + 1) (GenerateKey.buffer name inData) 0 0
          outData.length outData).2.2 = 2) ∧
    ((P.md_hmac key ([0, 0] ++ name ++ inData) = none ∨
        P.md_hmac key ([0, 1] ++ name ++ inData) = none) →
      (GenerateKey P key name inData outData).1 = false) := by
  have hloop := GenerateKey.loop_eq P key name inData outData hn hi ho
  refine ⟨by simp [hn, hi], by simp [hn, hi], ?_, ?_⟩
  · intro h0 h1 e0 e1
    rw [e0, e1] at hloop
    refine ⟨?_, ?_, ?_⟩
    · rw [GenerateKey, hloop]
    · rw [List.length_append, P.md_hmac_length _ _ _ e0, P.md_hmac_length _ _ _ e1]
    · rw [hloop]
  · intro hfail
    rw [GenerateKey]
    dsimp only
    rw [hloop]
    cases e0 : P.md_hmac key ([0, 0] ++ name ++ inData) with
    | none => rfl
    | some o0 =>
      rcases hfail with h | h
      · rw [e0] at h
        cases h
      · rw [h]

theorem GenerateKey_two_hmacs_witness :
    (zeros 0xe).length = 0xe ∧ (zeros 0x40).length = 0x40 ∧ (zeros 0x40).length = 0x40 ∧
    (([0, 0] ++ zeros 0xe ++ zeros 0x40).length = 0x50 ∧
      ([0, 1] ++ zeros 0xe ++ zeros 0x40).length = 0x50 ∧
      (∀ h0 h1, toyPrimitives.md_hmac [7] ([0, 0] ++ zeros 0xe ++ zeros 0x40) = some h0 →
        toyPrimitives.md_hmac [7] ([0, 1] ++ zeros 0xe ++ zeros 0x40) = some h1 →
          GenerateKey toyPrimitives [7] (zeros 0xe) (zeros 0x40) (zeros 0x40) =
            (true, h0 ++ h1) ∧
          (h0 ++ h1).length = 0x40 ∧
          (GenerateKey.loop toyPrimitives [7] ((zeros 0x40).length + 1)
            (GenerateKey.buffer (zeros 0xe) (zeros 0x40)) 0 0 (zeros 0x40).length
            (zeros 0x40)).2.2 = 2) ∧
      ((toyPrimitives.md_hmac [7] ([0, 0] ++ zeros 0xe ++ zeros 0x40) = none ∨
          toyPrimitives.md_hmac [7] ([0, 1] ++ zeros 0xe ++ zeros 0x40) = none) →
        (GenerateKey toyPrimitives [7] (zeros 0xe) (zeros 0x40) (zeros 0x40)).1 = false)) :=
  ⟨by decide, by decide, by decide,
    GenerateKey_two_hmacs toyPrimitives [7] (zeros 0xe) (zeros 0x40) (zeros 0x40) (by decide)
      (by decide) (by decide)⟩

theorem copyTo_mid {α : Type} (pre mid post src : List α) (off : Nat) (h1 : pre.length = off)
    (h2 : src.length = mid.length) :
    copyTo src (pre ++ (mid ++ post)) off = pre ++ (src ++ post) := by
  have h3 : (pre ++ mid).length = off + src.length := by
    rw [List.length_append, h1, h2]
  rw [copyTo, List.take_left' h1, ← List.append_assoc pre mid post, List.drop_left' h3,
    List.append_assoc]

namespace TagEncryption

theorem fillUidAndSalt_v0 (te : TagEncryption) (h : List Byte) (hv : te.mTag.layout.GetVersion = 0)
    (hh : h.length = 0x10) (hsalt : te.mKeyGenSalt.length = 0x20)
    (huid : te.mTag.layout.GetUidOffset + 0x10 ≤ te.mTag.mData.length) :
    GenerateInternalKeys.fillUidAndSalt te (h ++ zeros 0x30) =
      some (h ++ slice te.mTag.mData te.mTag.layout.GetUidOffset 0x10 ++ te.mKeyGenSalt) := by
  have hz : zeros 0x30 = zeros 0x10 ++ (zeros 0x20 ++ []) := by decide
  have hu := length_slice te.mTag.mData te.mTag.layout.GetUidOffset 0x10 huid
  rw [GenerateInternalKeys.fillUidAndSalt, if_pos hv]
  dsimp only
  rw [hz, copy_n, copyTo_mid h _ _ _ 0x10 hh (by rw [hu]; rfl),
    ← List.append_assoc h, copyTo_mid _ _ _ _ 0x20 (by rw [List.length_append, hh, hu])
      (by rw [hsalt]; rfl), List.append_nil]

theorem fillUidAndSalt_v2 (te : TagEncryption) (h : List Byte) (hv : te.mTag.layout.GetVersion = 2)
    (hh : h.length = 0x10) (hsalt : te.mKeyGenSalt.length = 0x20)
    (huid : te.mTag.layout.GetUidOffset + 8 ≤ te.mTag.mData.length) :
    GenerateInternalKeys.fillUidAndSalt te (h ++ zeros 0x30) =
      some (h ++ slice te.mTag.mData te.mTag.layout.GetUidOffset 8 ++
        slice te.mTag.mData te.mTag.layout.GetUidOffset 8 ++ te.mKeyGenSalt) := by
  have hz : zeros 0x30 = zeros 8 ++ (zeros 8 ++ (zeros 0x20 ++ [])) := by decide
  have hu := length_slice te.mTag.mData te.mTag.layout.GetUidOffset 8 huid
  rw [GenerateInternalKeys.fillUidAndSalt, if_neg (by omega), if_pos hv]
  dsimp only
  rw [hz, copy_n, copy_n, copyTo_mid h _ _ _ 0x10 hh (by rw [hu]; rfl),
    ← List.append_assoc h, copyTo_mid _ _ _ _ 0x18 (by rw [List.length_append, hh, hu])
      (by rw [hu]; rfl),
    ← List.append_assoc (h ++ _), copyTo_mid _ _ _ _ 0x20
      (by rw [List.length_append, List.length_append, hh, hu]) (by rw [hsalt]; rfl),
    List.append_nil]

theorem lockedSecretBuffer_head (te : TagEncryption)
    (hmag : te.mKeys.mLockedSecretMagicBytes.length = 0x10) :
    copyTo te.mKeys.mLockedSecretMagicBytes (zeros 0x40) 0 =
      te.mKeys.mLockedSecretMagicBytes ++ zeros 0x30 := by
  have hz : zeros 0x40 = [] ++ (zeros 0x10 ++ zeros 0x30) := by decide
  rw [hz, copyTo_mid [] _ _ _ 0 rfl (by rw [hmag]; rfl), List.nil_append]

theorem unfixedInfosBuffer_head (te : TagEncryption)
    (hmag : te.mKeys.mUnfixedInfosMagicBytes.length = 0xe)
    (hseed : te.mTag.layout.GetSeedOffset + 2 ≤ te.mTag.mData.length) :
    copy_n te.mKeys.mUnfixedInfosMagicBytes 0 0xe
        (copy_n te.mTag.mData te.mTag.layout.GetSeedOffset 2 (zeros 0x40) 0) 2 =
      (slice te.mTag.mData te.mTag.layout.GetSeedOffset 2 ++
        te.mKeys.mUnfixedInfosMagicBytes) ++ zeros 0x30 := by
  have hz : zeros 0x40 = [] ++ (zeros 2 ++ (zeros 0xe ++ zeros 0x30)) := by decide
  have hs := length_slice te.mTag.mData te.mTag.layout.GetSeedOffset 2 hseed
  have hm : slice te.mKeys.mUnfixedInfosMagicBytes 0 0xe = te.mKeys.mUnfixedInfosMagicBytes := by
    rw [slice, List.drop_zero, List.take_of_length_le (by omega)]
  rw [copy_n, copy_n, hm, hz, copyTo_mid [] _ _ _ 0 rfl (by rw [hs]; rfl), List.nil_append,
    copyTo_mid _ _ _ _ 2 hs (by rw [hmag]; rfl), List.append_assoc]

end TagEncryption

/-- **C19.** The 64-byte buffers that `GenerateInternalKeys` feeds to the KDF: for the
locked-secret domain the 16 locked-secret magic bytes, the 16-byte UID field and the
32-byte key generation salt; for the unfixed-infos domain the 2 canonical bytes at the
seed offset, the 14 unfixed-infos magic bytes, the same UID field and the salt. The UID
field is the 16 canonical bytes at the UID offset for version 0 and the 8 canonical bytes
at the UID offset, twice, for version 2. -/
theorem GenerateInternalKeys_buffers (te : TagEncryption)
    (hL : te.mTag.layout = TagV0.layout ∨ te.mTag.layout = TagV2.layout)
    (hdata : te.mTag.mData.length = 540)
    (hlocked : te.mKeys.mLockedSecretMagicBytes.length = 0x10)
    (hunfixed : te.mKeys.mUnfixedInfosMagicBytes.length = 0xe)
    (hsalt : te.mKeyGenSalt.length = 0x20) :
    (te.mTag.layout.GetVersion = 0 →
      TagEncryption.GenerateInternalKeys.lockedSecretBuffer te =
        some (te.mKeys.mLockedSecretMagicBytes ++
          slice te.mTag.mData te.mTag.layout.GetUidOffset 0x10 ++ te.mKeyGenSalt) ∧
      TagEncryption.GenerateInternalKeys.unfixedInfosBuffer te =
        some (slice te.mTag.mData te.mTag.layout.GetSeedOffset 2 ++
          te.mKeys.mUnfixedInfosMagicBytes ++
          slice te.mTag.mData te.mTag.layout.GetUidOffset 0x10 ++ te.mKeyGenSalt)) ∧
    (te.mTag.layout.GetVersion = 2 →
      TagEncryption.GenerateInternalKeys.lockedSecretBuffer te =
        some (te.mKeys.mLockedSecretMagicBytes ++
          slice te.mTag.mData te.mTag.layout.GetUidOffset 8 ++
          slice te.mTag.mData te.mTag.layout.GetUidOffset 8 ++ te.mKeyGenSalt) ∧
      TagEncryption.GenerateInternalKeys.unfixedInfosBuffer te =
        some (slice te.mTag.mData te.mTag.layout.GetSeedOffset 2 ++
          te.mKeys.mUnfixedInfosMagicBytes ++
          slice te.mTag.mData te.mTag.layout.GetUidOffset 8 ++
          slice te.mTag.mData te.mTag.layout.GetUidOffset 8 ++ te.mKeyGenSalt)) ∧
    (∀ b, TagEncryption.GenerateInternalKeys.lockedSecretBuffer te = some b ∨
        TagEncryption.GenerateInternalKeys.unfixedInfosBuffer te = some b → b.length = 0x40) ∧
    (te.mTag.layout.GetVersion = 0 ∨ te.mTag.layout.GetVersion = 2) := by
  have huid : te.mTag.layout.GetUidOffset + 0x10 ≤ te.mTag.mData.length := by
    rcases hL with h | h <;> rw [h, hdata] <;> decide
  have hseed : te.mTag.layout.GetSeedOffset + 2 ≤ te.mTag.mData.length := by
    rcases hL with h | h <;> rw [h, hdata] <;> decide
  have hver : te.mTag.layout.GetVersion = 0 ∨ te.mTag.layout.GetVersion = 2 := by
    rcases hL with h | h <;> rw [h]
    · exact Or.inl rfl
    · exact Or.inr rfl
  have hs2 := length_slice te.mTag.mData te.mTag.layout.GetSeedOffset 2 hseed
  have hu16 := length_slice te.mTag.mData te.mTag.layout.GetUidOffset 0x10 huid
  have hu8 := length_slice te.mTag.mData te.mTag.layout.GetUidOffset 8 (by omega)
  have hhead : (slice te.mTag.mData te.mTag.layout.GetSeedOffset 2 ++
      te.mKeys.mUnfixedInfosMagicBytes).length = 0x10 := by
    rw [List.length_append, hs2, hunfixed]
  have h0 : te.mTag.layout.GetVersion = 0 →
      TagEncryption.GenerateInternalKeys.lockedSecretBuffer te =
        some (te.mKeys.mLockedSecretMagicBytes ++
          slice te.mTag.mData te.mTag.layout.GetUidOffset 0x10 ++ te.mKeyGenSalt) ∧
      TagEncryption.GenerateInternalKeys.unfixedInfosBuffer te =
        some (slice te.mTag.mData te.mTag.layout.GetSeedOffset 2 ++
          te.mKeys.mUnfixedInfosMagicBytes ++
          slice te.mTag.mData te.mTag.layout.GetUidOffset 0x10 ++ te.mKeyGenSalt) := by
    intro hv
    constructor
    · rw [TagEncryption.GenerateInternalKeys.lockedSecretBuffer]
      rw [TagEncryption.lockedSecretBuffer_head te hlocked,
        TagEncryption.fillUidAndSalt_v0 te _ hv hlocked hsalt huid]
    · rw [TagEncryption.GenerateInternalKeys.unfixedInfosBuffer]
      rw [TagEncryption.unfixedInfosBuffer_head te hunfixed hseed,
        TagEncryption.fillUidAndSalt_v0 te _ hv hhead hsalt huid]
  have h2 : te.mTag.layout.GetVersion = 2 →
      TagEncryption.GenerateInternalKeys.lockedSecretBuffer te =
        some (te.mKeys.mLockedSecretMagicBytes ++
          slice te.mTag.mData te.mTag.layout.GetUidOffset 8 ++
          slice te.mTag.mData te.mTag.layout.GetUidOffset 8 ++ te.mKeyGenSalt) ∧
      TagEncryption.GenerateInternalKeys.unfixedInfosBuffer te =
        some (slice te.mTag.mData te.mTag.layout.GetSeedOffset 2 ++
          te.mKeys.mUnfixedInfosMagicBytes ++
          slice te.mTag.mData te.mTag.layout.GetUidOffset 8 ++
          slice te.mTag.mData te.mTag.layout.GetUidOffset 8 ++ te.mKeyGenSalt) := by
    intro hv
    constructor
    · rw [TagEncryption.GenerateInternalKeys.lockedSecretBuffer]
      rw [TagEncryption.lockedSecretBuffer_head te hlocked,
        TagEncryption.fillUidAndSalt_v2 te _ hv hlocked hsalt (by omega)]
    · rw [TagEncryption.GenerateInternalKeys.unfixedInfosBuffer]
      rw [TagEncryption.unfixedInfosBuffer_head te hunfixed hseed,
        TagEncryption.fillUidAndSalt_v2 te _ hv hhead hsalt (by omega)]
  refine ⟨h0, h2, ?_, hver⟩
  intro b hb
  rcases hver with hv | hv
  · obtain ⟨e1, e2⟩ := h0 hv
    rw [e1, e2] at hb
    rcases hb with hb | hb <;> rw [← Option.some.inj hb] <;>
      simp only [List.length_append, hlocked, hunfixed, hs2, hu16, hsalt]
  · obtain ⟨e1, e2⟩ := h2 hv
    rw [e1, e2] at hb
    rcases hb with hb | hb <;> rw [← Option.some.inj hb] <;>
      simp only [List.length_append, hlocked, hunfixed, hs2, hu8, hsalt]

theorem GenerateInternalKeys_buffers_witness :
    ((exampleTagEncryption TagV0.layout).mTag.layout = TagV0.layout ∨ (exampleTagEncryption TagV0.layout).mTag.layout = TagV2.layout) ∧
    (exampleTagEncryption TagV0.layout).mTag.mData.length = 540 ∧
    (exampleTagEncryption TagV0.layout).mKeys.mLockedSecretMagicBytes.length = 0x10 ∧
    (exampleTagEncryption TagV0.layout).mKeys.mUnfixedInfosMagicBytes.length = 0xe ∧
    (exampleTagEncryption TagV0.layout).mKeyGenSalt.length = 0x20 ∧
    (((exampleTagEncryption TagV0.layout).mTag.layout.GetVersion = 0 →
       TagEncryption.GenerateInternalKeys.lockedSecretBuffer (exampleTagEncryption TagV0.layout) =
         some ((exampleTagEncryption TagV0.layout).mKeys.mLockedSecretMagicBytes ++
           slice (exampleTagEncryption TagV0.layout).mTag.mData (exampleTagEncryption TagV0.layout).mTag.layout.GetUidOffset 0x10 ++ (exampleTagEncryption TagV0.layout).mKeyGenSalt) ∧
       TagEncryption.GenerateInternalKeys.unfixedInfosBuffer (exampleTagEncryption TagV0.layout) =
         some (slice (exampleTagEncryption TagV0.layout).mTag.mData (exampleTagEncryption TagV0.layout).mTag.layout.GetSeedOffset 2 ++
           (exampleTagEncryption TagV0.layout).mKeys.mUnfixedInfosMagicBytes ++
           slice (exampleTagEncryption TagV0.layout).mTag.mData (exampleTagEncryption TagV0.layout).mTag.layout.GetUidOffset 0x10 ++ (exampleTagEncryption TagV0.layout).mKeyGenSalt)) ∧
     ((exampleTagEncryption TagV0.layout).mTag.layout.GetVersion = 2 →
       TagEncryption.GenerateInternalKeys.lockedSecretBuffer (exampleTagEncryption TagV0.layout) =
         some ((exampleTagEncryption TagV0.layout).mKeys.mLockedSecretMagicBytes ++
           slice (exampleTagEncryption TagV0.layout).mTag.mData (exampleTagEncryption TagV0.layout).mTag.layout.GetUidOffset 8 ++
           slice (exampleTagEncryption TagV0.layout).mTag.mData (exampleTagEncryption TagV0.layout).mTag.layout.GetUidOffset 8 ++ (exampleTagEncryption TagV0.layout).mKeyGenSalt) ∧
       TagEncryption.GenerateInternalKeys.unfixedInfosBuffer (exampleTagEncryption TagV0.layout) =
         some (slice (exampleTagEncryption TagV0.layout).mTag.mData (exampleTagEncryption TagV0.layout).mTag.layout.GetSeedOffset 2 ++
           (exampleTagEncryption TagV0.layout).mKeys.mUnfixedInfosMagicBytes ++
           slice (exampleTagEncryption TagV0.layout).mTag.mData (exampleTagEncryption TagV0.layout).mTag.layout.GetUidOffset 8 ++
           slice (exampleTagEncryption TagV0.layout).mTag.mData (exampleTagEncryption TagV0.layout).mTag.layout.GetUidOffset 8 ++ (exampleTagEncryption TagV0.layout).mKeyGenSalt)) ∧
     (∀ b, TagEncryption.GenerateInternalKeys.lockedSecretBuffer (exampleTagEncryption TagV0.layout) = some b ∨
         TagEncryption.GenerateInternalKeys.unfixedInfosBuffer (exampleTagEncryption TagV0.layout) = some b → b.length = 0x40) ∧
     ((exampleTagEncryption TagV0.layout).mTag.layout.GetVersion = 0 ∨ (exampleTagEncryption TagV0.layout).mTag.layout.GetVersion = 2)) :=
  ⟨Or.inl rfl, by simp [exampleTagEncryption], by decide!, by decide!, by decide,
    GenerateInternalKeys_buffers (exampleTagEncryption TagV0.layout) (Or.inl rfl)
      (by simp [exampleTagEncryption]) (by decide!) (by decide!) (by decide)⟩

namespace Keys

/-- Keys made by `Keys::FromBins` keep the zero NFC key of the constructor, and their XOR
pad has 32 bytes. -/
theorem FromBins_mNfcKey (unfixedInfo lockedSecret : List Byte) (keys : Keys)
    (h : FromBins unfixedInfo lockedSecret = some keys) :
    keys.mNfcKey = zeros 0x10 ∧ keys.mNfcXorPad.length = 0x20 := by
  unfold FromBins Keys.new at h
  dsimp only at h
  split at h
  · cases h
  · have hk := Option.some.inj h
    subst hk
    refine ⟨rfl, ?_⟩
    simp only [copy_n, copyTo, slice, zeros, List.take_zero, List.nil_append,
      List.length_append, List.length_take, List.length_drop, List.length_replicate,
      Nat.zero_add]
    omega

end Keys

theorem xor_comm_byte (a b : Byte) : a ^^^ b = b ^^^ a := by
  apply Fin.ext
  show (Fin.xor a b).val = (Fin.xor b a).val
  simp only [Fin.xor]
  exact congrArg (· % 256) (Nat.xor_comm a.val b.val)

namespace TagEncryption

theorem GenerateInternalKeys_mKeyGenSalt (P : Primitives) (te : TagEncryption) :
    (GenerateInternalKeys P te).2.mKeyGenSalt = te.mKeyGenSalt := by
  unfold GenerateInternalKeys
  dsimp only
  split
  · rfl
  · split
    · rfl
    · split
      · rfl
      · split
        · rfl
        · rfl

end TagEncryption

/-- **C20.** Keys made by `Keys::FromBins` or `Keys::FromKeyset` report no NFC key, so
for a tag of either version `GenerateKeyGenSalt` succeeds without consulting AES-CTR and
byte `i` of the key generation salt is byte `i` of the 32-byte salt region of the tag XOR
byte `i` of the XOR pad, for every `i < 32`; `InitializeInternalKeys` leaves that salt in
place. -/
theorem FromBins_keys_salt_is_xor (P : Primitives) (unfixedInfo lockedSecret keyset : List Byte)
    (keys : Keys) (te : TagEncryption)
    (hk : Keys.FromBins unfixedInfo lockedSecret = some keys ∨
      Keys.FromKeyset keyset = some keys)
    (hte : te.mKeys = keys)
    (hL : te.mTag.layout = TagV0.layout ∨ te.mTag.layout = TagV2.layout)
    (hdata : te.mTag.mData.length = 540) (hsalt : te.mKeyGenSalt.length = 0x20) :
    keys.HasNfcKey = false ∧
    (TagEncryption.GenerateKeyGenSalt P te).1 = true ∧
    (∀ P2, TagEncryption.GenerateKeyGenSalt P2 te = TagEncryption.GenerateKeyGenSalt P te) ∧
    (TagEncryption.GenerateKeyGenSalt P te).2.mKeyGenSalt.length = 0x20 ∧
    (∀ i, i < 32 → ∃ r p,
      (te.mTag.GetData te.mTag.layout.GetKeyGenSaltOffset 0x20)[i]? = some r ∧
      keys.mNfcXorPad[i]? = some p ∧
      (TagEncryption.GenerateKeyGenSalt P te).2.mKeyGenSalt[i]? = some (r ^^^ p)) ∧
    (TagEncryption.InitializeInternalKeys P te).2.mKeyGenSalt =
      (TagEncryption.GenerateKeyGenSalt P te).2.mKeyGenSalt := by
  have hkey : keys.mNfcKey = zeros 0x10 ∧ keys.mNfcXorPad.length = 0x20 := by
    rcases hk with h | h
    · exact Keys.FromBins_mNfcKey _ _ _ h
    · exact Keys.FromBins_mNfcKey _ _ _ h
  have hHas : keys.HasNfcKey = false := by
    rw [Keys.HasNfcKey, hkey.1]
    decide
  have hver : ¬ (te.mTag.layout.GetVersion ≠ 0 ∧ te.mTag.layout.GetVersion ≠ 2) := by
    rcases hL with h | h <;> rw [h] <;> decide
  have hreg : (te.mTag.GetData te.mTag.layout.GetKeyGenSaltOffset 0x20).length = 0x20 := by
    rw [Tag.GetData]
    apply length_slice
    rcases hL with h | h <;> rw [h, hdata] <;> decide
  have hgen : ∀ Q : Primitives, TagEncryption.GenerateKeyGenSalt Q te =
      (true, { te with
        mKeyGenSalt :=
          copyTo (List.zipWith (fun a b => a ^^^ b) te.mKeys.mNfcXorPad
            (te.mTag.GetData te.mTag.layout.GetKeyGenSaltOffset 0x20)) te.mKeyGenSalt 0 }) := by
    intro Q
    rw [TagEncryption.GenerateKeyGenSalt, hte, hHas]
    rfl
  have hxl : (List.zipWith (fun a b => a ^^^ b) te.mKeys.mNfcXorPad
      (te.mTag.GetData te.mTag.layout.GetKeyGenSaltOffset 0x20)).length = 0x20 := by
    rw [List.length_zipWith, hreg, hte, hkey.2]
    rfl
  have hcopy : copyTo (List.zipWith (fun a b => a ^^^ b) te.mKeys.mNfcXorPad
      (te.mTag.GetData te.mTag.layout.GetKeyGenSaltOffset 0x20)) te.mKeyGenSalt 0 =
      List.zipWith (fun a b => a ^^^ b) te.mKeys.mNfcXorPad
        (te.mTag.GetData te.mTag.layout.GetKeyGenSaltOffset 0x20) :=
    copyTo_zero_full _ _ (by rw [hxl, hsalt])
  refine ⟨hHas, by rw [hgen P], fun P2 => by rw [hgen P2, hgen P], ?_, ?_, ?_⟩
  · rw [hgen P]
    dsimp only
    rw [hcopy, hxl]
  · intro i hi
    have hi1 : i < (te.mTag.GetData te.mTag.layout.GetKeyGenSaltOffset 0x20).length := by
      rw [hreg]; exact hi
    have hi2 : i < keys.mNfcXorPad.length := by rw [hkey.2]; exact hi
    refine ⟨(te.mTag.GetData te.mTag.layout.GetKeyGenSaltOffset 0x20)[i], keys.mNfcXorPad[i],
      List.getElem?_eq_getElem hi1, List.getElem?_eq_getElem hi2, ?_⟩
    rw [hgen P]
    dsimp only
    rw [hcopy, hte, List.getElem?_eq_getElem (by rw [List.length_zipWith]; omega),
      List.getElem_zipWith, xor_comm_byte]
  · rw [TagEncryption.InitializeInternalKeys, if_neg hver]
    dsimp only
    rw [hgen P]
    dsimp only
    split
    · rfl
    · split
      · exact TagEncryption.GenerateInternalKeys_mKeyGenSalt P _
      · exact TagEncryption.GenerateInternalKeys_mKeyGenSalt P _

theorem FromBins_keys_salt_is_xor_witness :
    (Keys.FromBins exampleHalf exampleHalf = some (exampleTagEncryption TagV0.layout).mKeys ∨
      Keys.FromKeyset [] = some (exampleTagEncryption TagV0.layout).mKeys) ∧
    (exampleTagEncryption TagV0.layout).mKeys = (exampleTagEncryption TagV0.layout).mKeys ∧
    ((exampleTagEncryption TagV0.layout).mTag.layout = TagV0.layout ∨ (exampleTagEncryption TagV0.layout).mTag.layout = TagV2.layout) ∧
    (exampleTagEncryption TagV0.layout).mTag.mData.length = 540 ∧
    (exampleTagEncryption TagV0.layout).mKeyGenSalt.length = 0x20 ∧
    ((exampleTagEncryption TagV0.layout).mKeys.HasNfcKey = false ∧
     (TagEncryption.GenerateKeyGenSalt toyPrimitives (exampleTagEncryption TagV0.layout)).1 = true ∧
     (∀ P2, TagEncryption.GenerateKeyGenSalt P2 (exampleTagEncryption TagV0.layout) = TagEncryption.GenerateKeyGenSalt toyPrimitives (exampleTagEncryption TagV0.layout)) ∧
     (TagEncryption.GenerateKeyGenSalt toyPrimitives (exampleTagEncryption TagV0.layout)).2.mKeyGenSalt.length = 0x20 ∧
     (∀ i, i < 32 → ∃ r p,
       ((exampleTagEncryption TagV0.layout).mTag.GetData (exampleTagEncryption TagV0.layout).mTag.layout.GetKeyGenSaltOffset 0x20)[i]? = some r ∧
       (exampleTagEncryption TagV0.layout).mKeys.mNfcXorPad[i]? = some p ∧
       (TagEncryption.GenerateKeyGenSalt toyPrimitives (exampleTagEncryption TagV0.layout)).2.mKeyGenSalt[i]? = some (r ^^^ p)) ∧
     (TagEncryption.InitializeInternalKeys toyPrimitives (exampleTagEncryption TagV0.layout)).2.mKeyGenSalt =
       (TagEncryption.GenerateKeyGenSalt toyPrimitives (exampleTagEncryption TagV0.layout)).2.mKeyGenSalt) :=
  ⟨Or.inl (by decide!), rfl, Or.inl rfl, by simp [exampleTagEncryption], by decide,
    FromBins_keys_salt_is_xor toyPrimitives exampleHalf exampleHalf []
      (exampleTagEncryption TagV0.layout).mKeys (exampleTagEncryption TagV0.layout)
      (Or.inl (by decide!)) rfl (Or.inl rfl) (by simp [exampleTagEncryption]) (by decide)⟩

/-! ## Layout constants and the HMAC slots -/

/-- **C23.** The eleven layout accessors of `TagV0` and of `TagV2` return the tabulated
constants. -/
theorem layout_constants :
    TagV0.layout =
      { GetVersion := 0, GetDataSize := 0x1c8, GetSeedOffset := 0x25,
        GetKeyGenSaltOffset := 0x1a8, GetUidOffset := 0x198, GetUnfixedInfosOffset := 0x28,
        GetUnfixedInfosSize := 0x120, GetLockedSecretOffset := 0x168,
        GetLockedSecretSize := 0x30, GetUnfixedInfosHmacOffset := 0x0,
        GetLockedSecretHmacOffset := 0x148 } ∧
    TagV2.layout =
      { GetVersion := 2, GetDataSize := 0x208, GetSeedOffset := 0x29,
        GetKeyGenSaltOffset := 0x1e8, GetUidOffset := 0x1d4, GetUnfixedInfosOffset := 0x2c,
        GetUnfixedInfosSize := 0x188, GetLockedSecretOffset := 0x1dc,
        GetLockedSecretSize := 0x0, GetUnfixedInfosHmacOffset := 0x8,
        GetLockedSecretHmacOffset := 0x1b4 } :=
  ⟨rfl, rfl⟩

namespace TagEncryption

theorem ValidateLockedSecretHMAC_eq (P : Primitives) (te : TagEncryption)
    (hL : te.mTag.layout = TagV0.layout ∨ te.mTag.layout = TagV2.layout)
    (hclear : te.mTag.mIsEncrypted = false) :
    ValidateLockedSecretHMAC P te =
      match P.md_hmac te.mLockedSecretDerivedHmacKey
          (slice te.mTag.mData (te.mTag.layout.GetLockedSecretHmacOffset + 0x20)
            (te.mTag.layout.GetDataSize - te.mTag.layout.GetLockedSecretHmacOffset - 0x20)) with
      | none => false
      | some h => decide (h = slice te.mTag.mData te.mTag.layout.GetLockedSecretHmacOffset 0x20) := by
  have hG := GenerateLockedSecretHMAC_eq P te hL (zeros 0x20)
  rw [hclear] at hG
  simp only [Bool.false_eq_true, if_false, GenerateHMAC_eq] at hG
  rw [ValidateLockedSecretHMAC, Tag.IsEncrypted, hclear, hG]
  cases hm : P.md_hmac te.mLockedSecretDerivedHmacKey
      (slice te.mTag.mData (te.mTag.layout.GetLockedSecretHmacOffset + 0x20)
        (te.mTag.layout.GetDataSize - te.mTag.layout.GetLockedSecretHmacOffset - 0x20)) with
  | none => simp
  | some h => simp [P.md_hmac_length _ _ _ hm]

theorem ValidateUnfixedInfosHMAC_eq (P : Primitives) (te : TagEncryption)
    (hL : te.mTag.layout = TagV0.layout ∨ te.mTag.layout = TagV2.layout)
    (hclear : te.mTag.mIsEncrypted = false) :
    ValidateUnfixedInfosHMAC P te =
      match P.md_hmac te.mUnfixedInfosDerivedHmacKey
          (slice te.mTag.mData
            (te.mTag.layout.GetUnfixedInfosHmacOffset +
              (if te.mTag.layout.GetVersion = 0 then 0x20 else 0x21))
            (te.mTag.layout.GetDataSize - te.mTag.layout.GetUnfixedInfosHmacOffset -
              (if te.mTag.layout.GetVersion = 0 then 0x20 else 0x21))) with
      | none => false
      | some h =>
        decide (h = slice te.mTag.mData te.mTag.layout.GetUnfixedInfosHmacOffset 0x20) := by
  have hG := GenerateUnfixedInfosHMAC_eq P te hL (zeros 0x20)
  rw [hclear] at hG
  simp only [Bool.false_eq_true, if_false, GenerateHMAC_eq] at hG
  rw [ValidateUnfixedInfosHMAC, Tag.IsEncrypted, hclear, hG]
  cases hm : P.md_hmac te.mUnfixedInfosDerivedHmacKey
      (slice te.mTag.mData
        (te.mTag.layout.GetUnfixedInfosHmacOffset +
          (if te.mTag.layout.GetVersion = 0 then 0x20 else 0x21))
        (te.mTag.layout.GetDataSize - te.mTag.layout.GetUnfixedInfosHmacOffset -
          (if te.mTag.layout.GetVersion = 0 then 0x20 else 0x21))) with
  | none => simp
  | some h => simp [P.md_hmac_length _ _ _ hm]

theorem UpdateLockedSecretHMAC_eq (P : Primitives) (te : TagEncryption)
    (hL : te.mTag.layout = TagV0.layout ∨ te.mTag.layout = TagV2.layout)
    (hclear : te.mTag.mIsEncrypted = false) :
    UpdateLockedSecretHMAC P te =
      match P.md_hmac te.mLockedSecretDerivedHmacKey
          (slice te.mTag.mData (te.mTag.layout.GetLockedSecretHmacOffset + 0x20)
            (te.mTag.layout.GetDataSize - te.mTag.layout.GetLockedSecretHmacOffset - 0x20)) with
      | none => (false, te)
      | some h =>
        (true, te.setData (copyTo h te.mTag.mData te.mTag.layout.GetLockedSecretHmacOffset)) := by
  have hG := GenerateLockedSecretHMAC_eq P te hL (zeros 0x20)
  rw [hclear] at hG
  simp only [Bool.false_eq_true, if_false, GenerateHMAC_eq] at hG
  rw [UpdateLockedSecretHMAC, Tag.IsEncrypted, hclear, hG]
  cases hm : P.md_hmac te.mLockedSecretDerivedHmacKey
      (slice te.mTag.mData (te.mTag.layout.GetLockedSecretHmacOffset + 0x20)
        (te.mTag.layout.GetDataSize - te.mTag.layout.GetLockedSecretHmacOffset - 0x20)) with
  | none => simp
  | some h => simp

theorem UpdateUnfixedInfosHMAC_eq (P : Primitives) (te : TagEncryption)
    (hL : te.mTag.layout = TagV0.layout ∨ te.mTag.layout = TagV2.layout)
    (hclear : te.mTag.mIsEncrypted = false) :
    UpdateUnfixedInfosHMAC P te =
      match P.md_hmac te.mUnfixedInfosDerivedHmacKey
          (slice te.mTag.mData
            (te.mTag.layout.GetUnfixedInfosHmacOffset +
              (if te.mTag.layout.GetVersion = 0 then 0x20 else 0x21))
            (te.mTag.layout.GetDataSize - te.mTag.layout.GetUnfixedInfosHmacOffset -
              (if te.mTag.layout.GetVersion = 0 then 0x20 else 0x21))) with
      | none => (false, te)
      | some h =>
        (true, te.setData (copyTo h te.mTag.mData te.mTag.layout.GetUnfixedInfosHmacOffset)) := by
  have hG := GenerateUnfixedInfosHMAC_eq P te hL (zeros 0x20)
  rw [hclear] at hG
  simp only [Bool.false_eq_true, if_false, GenerateHMAC_eq] at hG
  rw [UpdateUnfixedInfosHMAC, Tag.IsEncrypted, hclear, hG]
  cases hm : P.md_hmac te.mUnfixedInfosDerivedHmacKey
      (slice te.mTag.mData
        (te.mTag.layout.GetUnfixedInfosHmacOffset +
          (if te.mTag.layout.GetVersion = 0 then 0x20 else 0x21))
        (te.mTag.layout.GetDataSize - te.mTag.layout.GetUnfixedInfosHmacOffset -
          (if te.mTag.layout.GetVersion = 0 then 0x20 else 0x21))) with
  | none => simp
  | some h => simp

end TagEncryption

/-- **C21.** On a cleartext tag of version 0 or 2, `ValidateLockedSecretHMAC` returns
true exactly when the HMAC of the canonical bytes `[hmacOffset + 0x20, dataSize)` under
the derived locked-secret HMAC key is the 32 bytes stored at the locked-secret HMAC
offset, and `ValidateUnfixedInfosHMAC` exactly when the HMAC of the canonical bytes
`[hmacOffset + d, dataSize)` under the derived unfixed-infos HMAC key is the 32 bytes
stored at the unfixed-infos HMAC offset, with `d = 0x20` for version 0 and `d = 0x21`
for version 2. When the HMAC is computed, Update succeeds and writes exactly that value
into the slot, leaving every other byte as it was. -/
theorem HMAC_validate_and_update (P : Primitives) (te : TagEncryption)
    (hL : te.mTag.layout = TagV0.layout ∨ te.mTag.layout = TagV2.layout)
    (hlen : te.mTag.mData.length = 540) (hclear : te.mTag.mIsEncrypted = false) :
    (TagEncryption.ValidateLockedSecretHMAC P te = true ↔
      P.md_hmac te.mLockedSecretDerivedHmacKey
          (slice te.mTag.mData (te.mTag.layout.GetLockedSecretHmacOffset + 0x20)
            (te.mTag.layout.GetDataSize - te.mTag.layout.GetLockedSecretHmacOffset - 0x20)) =
        some (slice te.mTag.mData te.mTag.layout.GetLockedSecretHmacOffset 0x20)) ∧
    (TagEncryption.ValidateUnfixedInfosHMAC P te = true ↔
      P.md_hmac te.mUnfixedInfosDerivedHmacKey
          (slice te.mTag.mData
            (te.mTag.layout.GetUnfixedInfosHmacOffset +
              (if te.mTag.layout.GetVersion = 0 then 0x20 else 0x21))
            (te.mTag.layout.GetDataSize - te.mTag.layout.GetUnfixedInfosHmacOffset -
              (if te.mTag.layout.GetVersion = 0 then 0x20 else 0x21))) =
        some (slice te.mTag.mData te.mTag.layout.GetUnfixedInfosHmacOffset 0x20)) ∧
    (∀ h,
      P.md_hmac te.mLockedSecretDerivedHmacKey
          (slice te.mTag.mData (te.mTag.layout.GetLockedSecretHmacOffset + 0x20)
            (te.mTag.layout.GetDataSize - te.mTag.layout.GetLockedSecretHmacOffset - 0x20)) =
        some h →
      (TagEncryption.UpdateLockedSecretHMAC P te).1 = true ∧
      slice (TagEncryption.UpdateLockedSecretHMAC P te).2.mTag.mData
        te.mTag.layout.GetLockedSecretHmacOffset 0x20 = h ∧
      ∀ i, ¬ (te.mTag.layout.GetLockedSecretHmacOffset ≤ i ∧
          i < te.mTag.layout.GetLockedSecretHmacOffset + 0x20) →
        (TagEncryption.UpdateLockedSecretHMAC P te).2.mTag.mData[i]? = te.mTag.mData[i]?) ∧
    (∀ h,
      P.md_hmac te.mUnfixedInfosDerivedHmacKey
          (slice te.mTag.mData
            (te.mTag.layout.GetUnfixedInfosHmacOffset +
              (if te.mTag.layout.GetVersion = 0 then 0x20 else 0x21))
            (te.mTag.layout.GetDataSize - te.mTag.layout.GetUnfixedInfosHmacOffset -
              (if te.mTag.layout.GetVersion = 0 then 0x20 else 0x21))) =
        some h →
      (TagEncryption.UpdateUnfixedInfosHMAC P te).1 = true ∧
      slice (TagEncryption.UpdateUnfixedInfosHMAC P te).2.mTag.mData
        te.mTag.layout.GetUnfixedInfosHmacOffset 0x20 = h ∧
      ∀ i, ¬ (te.mTag.layout.GetUnfixedInfosHmacOffset ≤ i ∧
          i < te.mTag.layout.GetUnfixedInfosHmacOffset + 0x20) →
        (TagEncryption.UpdateUnfixedInfosHMAC P te).2.mTag.mData[i]? = te.mTag.mData[i]?) := by
  have hLoff : te.mTag.layout.GetLockedSecretHmacOffset + 0x20 ≤ te.mTag.mData.length := by
    rcases hL with h | h <;> rw [h, hlen] <;> decide
  have hUoff : te.mTag.layout.GetUnfixedInfosHmacOffset + 0x20 ≤ te.mTag.mData.length := by
    rcases hL with h | h <;> rw [h, hlen] <;> decide
  refine ⟨?_, ?_, ?_, ?_⟩
  · rw [TagEncryption.ValidateLockedSecretHMAC_eq P te hL hclear]
    split
    · rename_i hm
      rw [hm]
      simp
    · rename_i h hm
      rw [hm]
      simp
  · rw [TagEncryption.ValidateUnfixedInfosHMAC_eq P te hL hclear]
    split
    · rename_i hm
      rw [hm]
      simp
    · rename_i h hm
      rw [hm]
      simp
  · intro h hm
    have hl := P.md_hmac_length _ _ _ hm
    rw [TagEncryption.UpdateLockedSecretHMAC_eq P te hL hclear, hm]
    refine ⟨rfl, ?_, ?_⟩
    · show slice (copyTo h te.mTag.mData te.mTag.layout.GetLockedSecretHmacOffset)
        te.mTag.layout.GetLockedSecretHmacOffset 0x20 = h
      rw [← hl]
      exact slice_copyTo_at _ _ _ (by omega)
    · intro i hi
      show (copyTo h te.mTag.mData te.mTag.layout.GetLockedSecretHmacOffset)[i]? = _
      rw [getElem?_copyTo _ _ _ _ (by omega), hl, if_neg hi]
  · intro h hm
    have hl := P.md_hmac_length _ _ _ hm
    rw [TagEncryption.UpdateUnfixedInfosHMAC_eq P te hL hclear, hm]
    refine ⟨rfl, ?_, ?_⟩
    · show slice (copyTo h te.mTag.mData te.mTag.layout.GetUnfixedInfosHmacOffset)
        te.mTag.layout.GetUnfixedInfosHmacOffset 0x20 = h
      rw [← hl]
      exact slice_copyTo_at _ _ _ (by omega)
    · intro i hi
      show (copyTo h te.mTag.mData te.mTag.layout.GetUnfixedInfosHmacOffset)[i]? = _
      rw [getElem?_copyTo _ _ _ _ (by omega), hl, if_neg hi]

theorem HMAC_validate_and_update_witness :
    ((exampleTagEncryption TagV0.layout).mTag.layout = TagV0.layout ∨ (exampleTagEncryption TagV0.layout).mTag.layout = TagV2.layout) ∧
    (exampleTagEncryption TagV0.layout).mTag.mData.length = 540 ∧
    (exampleTagEncryption TagV0.layout).mTag.mIsEncrypted = false ∧
    ((TagEncryption.ValidateLockedSecretHMAC toyPrimitives (exampleTagEncryption TagV0.layout) = true ↔
       toyPrimitives.md_hmac (exampleTagEncryption TagV0.layout).mLockedSecretDerivedHmacKey
           (slice (exampleTagEncryption TagV0.layout).mTag.mData ((exampleTagEncryption TagV0.layout).mTag.layout.GetLockedSecretHmacOffset + 0x20)
             ((exampleTagEncryption TagV0.layout).mTag.layout.GetDataSize - (exampleTagEncryption TagV0.layout).mTag.layout.GetLockedSecretHmacOffset - 0x20)) =
         some (slice (exampleTagEncryption TagV0.layout).mTag.mData (exampleTagEncryption TagV0.layout).mTag.layout.GetLockedSecretHmacOffset 0x20)) ∧
     (TagEncryption.ValidateUnfixedInfosHMAC toyPrimitives (exampleTagEncryption TagV0.layout) = true ↔
       toyPrimitives.md_hmac (exampleTagEncryption TagV0.layout).mUnfixedInfosDerivedHmacKey
           (slice (exampleTagEncryption TagV0.layout).mTag.mData
             ((exampleTagEncryption TagV0.layout).mTag.layout.GetUnfixedInfosHmacOffset +
               (if (exampleTagEncryption TagV0.layout).mTag.layout.GetVersion = 0 then 0x20 else 0x21))
             ((exampleTagEncryption TagV0.layout).mTag.layout.GetDataSize - (exampleTagEncryption TagV0.layout).mTag.layout.GetUnfixedInfosHmacOffset -
               (if (exampleTagEncryption TagV0.layout).mTag.layout.GetVersion = 0 then 0x20 else 0x21))) =
         some (slice (exampleTagEncryption TagV0.layout).mTag.mData (exampleTagEncryption TagV0.layout).mTag.layout.GetUnfixedInfosHmacOffset 0x20)) ∧
     (∀ h,
       toyPrimitives.md_hmac (exampleTagEncryption TagV0.layout).mLockedSecretDerivedHmacKey
           (slice (exampleTagEncryption TagV0.layout).mTag.mData ((exampleTagEncryption TagV0.layout).mTag.layout.GetLockedSecretHmacOffset + 0x20)
             ((exampleTagEncryption TagV0.layout).mTag.layout.GetDataSize - (exampleTagEncryption TagV0.layout).mTag.layout.GetLockedSecretHmacOffset - 0x20)) =
         some h →
       (TagEncryption.UpdateLockedSecretHMAC toyPrimitives (exampleTagEncryption TagV0.layout)).1 = true ∧
       slice (TagEncryption.UpdateLockedSecretHMAC toyPrimitives (exampleTagEncryption TagV0.layout)).2.mTag.mData
         (exampleTagEncryption TagV0.layout).mTag.layout.GetLockedSecretHmacOffset 0x20 = h ∧
       ∀ i, ¬ ((exampleTagEncryption TagV0.layout).mTag.layout.GetLockedSecretHmacOffset ≤ i ∧
           i < (exampleTagEncryption TagV0.layout).mTag.layout.GetLockedSecretHmacOffset + 0x20) →
         (TagEncryption.UpdateLockedSecretHMAC toyPrimitives (exampleTagEncryption TagV0.layout)).2.mTag.mData[i]? = (exampleTagEncryption TagV0.layout).mTag.mData[i]?) ∧
     (∀ h,
       toyPrimitives.md_hmac (exampleTagEncryption TagV0.layout).mUnfixedInfosDerivedHmacKey
           (slice (exampleTagEncryption TagV0.layout).mTag.mData
             ((exampleTagEncryption TagV0.layout).mTag.layout.GetUnfixedInfosHmacOffset +
               (if (exampleTagEncryption TagV0.layout).mTag.layout.GetVersion = 0 then 0x20 else 0x21))
             ((exampleTagEncryption TagV0.layout).mTag.layout.GetDataSize - (exampleTagEncryption TagV0.layout).mTag.layout.GetUnfixedInfosHmacOffset -
               (if (exampleTagEncryption TagV0.layout).mTag.layout.GetVersion = 0 then 0x20 else 0x21))) =
         some h →
       (TagEncryption.UpdateUnfixedInfosHMAC toyPrimitives (exampleTagEncryption TagV0.layout)).1 = true ∧
       slice (TagEncryption.UpdateUnfixedInfosHMAC toyPrimitives (exampleTagEncryption TagV0.layout)).2.mTag.mData
         (exampleTagEncryption TagV0.layout).mTag.layout.GetUnfixedInfosHmacOffset 0x20 = h ∧
       ∀ i, ¬ ((exampleTagEncryption TagV0.layout).mTag.layout.GetUnfixedInfosHmacOffset ≤ i ∧
           i < (exampleTagEncryption TagV0.layout).mTag.layout.GetUnfixedInfosHmacOffset + 0x20) →
         (TagEncryption.UpdateUnfixedInfosHMAC toyPrimitives (exampleTagEncryption TagV0.layout)).2.mTag.mData[i]? = (exampleTagEncryption TagV0.layout).mTag.mData[i]?)) :=
  ⟨Or.inl rfl, by simp [exampleTagEncryption], rfl,
    HMAC_validate_and_update toyPrimitives (exampleTagEncryption TagV0.layout)
      (Or.inl rfl) (by simp [exampleTagEncryption]) (rfl)⟩

/-! ## The effect of EncryptTag and DecryptTag -/

namespace TagEncryption

/-- A successful `EncryptTag` or `DecryptTag` is a successful `CryptTag` followed by the
flip of the flag. -/
theorem crypt_success (P : Primitives) (te te' : TagEncryption)
    (h : EncryptTag P te = (true, te') ∨ DecryptTag P te = (true, te')) :
    (CryptTag P te).1 = true ∧ te' = (CryptTag P te).2.setEncrypted (!te.mTag.mIsEncrypted) := by
  rcases h with h | h
  · unfold EncryptTag at h
    cases henc : te.mTag.mIsEncrypted with
    | true =>
      rw [Tag.IsEncrypted, henc, if_pos rfl] at h
      cases h
    | false =>
      rw [Tag.IsEncrypted, henc] at h
      simp only [Bool.false_eq_true, if_false] at h
      split at h
      · cases h
      · rename_i hc
        have hc' : (CryptTag P te).1 = true := by simpa using hc
        exact ⟨hc', (congrArg Prod.snd h).symm⟩
  · unfold DecryptTag at h
    cases henc : te.mTag.mIsEncrypted with
    | false =>
      rw [Tag.IsEncrypted, henc] at h
      simp only [Bool.false_eq_true, not_false_eq_true, if_true] at h
      cases h
    | true =>
      rw [Tag.IsEncrypted, henc] at h
      simp only [not_true_eq_false, if_false] at h
      split at h
      · cases h
      · rename_i hc
        have hc' : (CryptTag P te).1 = true := by simpa using hc
        exact ⟨hc', (congrArg Prod.snd h).symm⟩

end TagEncryption

/-- **C22.** A successful `EncryptTag` (on a cleartext tag) or `DecryptTag` (on a
ciphertext tag) of a tag of version 0 or 2 replaces the unfixed-infos region by its
AES-CTR transform under the derived unfixed-infos key and nonce and, for version 0, the
locked-secret region by its AES-CTR transform under the derived locked-secret key and
nonce; it flips the is-ciphertext flag and leaves every canonical byte outside those
regions as it was, which on a version-2 tag includes the locked-secret bytes. -/
theorem EncryptTag_DecryptTag_effect (P : Primitives) (te te' : TagEncryption)
    (hL : te.mTag.layout = TagV0.layout ∨ te.mTag.layout = TagV2.layout)
    (hlen : te.mTag.mData.length = 540)
    (h : TagEncryption.EncryptTag P te = (true, te') ∨
      TagEncryption.DecryptTag P te = (true, te')) :
    (TagEncryption.EncryptTag P te = (true, te') → te.mTag.mIsEncrypted = false) ∧
    (TagEncryption.DecryptTag P te = (true, te') → te.mTag.mIsEncrypted = true) ∧
    te'.mTag.mIsEncrypted = (!te.mTag.mIsEncrypted) ∧
    te'.mTag.mData.length = 540 ∧
    P.aes_crypt_ctr te.mUnfixedInfosKey te.mUnfixedInfosNonce
        (slice te.mTag.mData te.mTag.layout.GetUnfixedInfosOffset
          te.mTag.layout.GetUnfixedInfosSize) =
      some (slice te'.mTag.mData te.mTag.layout.GetUnfixedInfosOffset
        te.mTag.layout.GetUnfixedInfosSize) ∧
    (te.mTag.layout.GetVersion = 0 →
      P.aes_crypt_ctr te.mLockedSecretKey te.mLockedSecretNonce
          (slice te.mTag.mData te.mTag.layout.GetLockedSecretOffset
            te.mTag.layout.GetLockedSecretSize) =
        some (slice te'.mTag.mData te.mTag.layout.GetLockedSecretOffset
          te.mTag.layout.GetLockedSecretSize)) ∧
    (∀ i,
      ¬ (te.mTag.layout.GetUnfixedInfosOffset ≤ i ∧
        i < te.mTag.layout.GetUnfixedInfosOffset + te.mTag.layout.GetUnfixedInfosSize) →
      ¬ (te.mTag.layout.GetVersion = 0 ∧ te.mTag.layout.GetLockedSecretOffset ≤ i ∧
        i < te.mTag.layout.GetLockedSecretOffset + te.mTag.layout.GetLockedSecretSize) →
      te'.mTag.mData[i]? = te.mTag.mData[i]?) := by
  obtain ⟨hc, hte'⟩ := TagEncryption.crypt_success P te te' h
  have hE : TagEncryption.EncryptTag P te = (true, te') → te.mTag.mIsEncrypted = false := by
    intro hE
    cases henc : te.mTag.mIsEncrypted with
    | false => rfl
    | true =>
      rw [TagEncryption.EncryptTag, Tag.IsEncrypted, henc, if_pos rfl] at hE
      cases hE
  have hD : TagEncryption.DecryptTag P te = (true, te') → te.mTag.mIsEncrypted = true := by
    intro hD
    cases henc : te.mTag.mIsEncrypted with
    | true => rfl
    | false =>
      rw [TagEncryption.DecryptTag, Tag.IsEncrypted, henc] at hD
      simp only [Bool.false_eq_true, not_false_eq_true, if_true] at hD
      cases hD
  refine ⟨hE, hD, ?_⟩
  rcases hL with hL | hL
  · rw [TagEncryption.CryptTag_v0 P te hL hlen] at hc hte'
    cases hy1 : P.aes_crypt_ctr te.mLockedSecretKey te.mLockedSecretNonce
        (slice te.mTag.mData 0x168 0x30) with
    | none => rw [hy1] at hc; cases hc
    | some y1 =>
      cases hy2 : P.aes_crypt_ctr te.mUnfixedInfosKey te.mUnfixedInfosNonce
          (slice te.mTag.mData 0x28 0x120) with
      | none => rw [hy1, hy2] at hc; cases hc
      | some y2 =>
        rw [hy1, hy2] at hte'
        have hl1 : y1.length = 0x30 := by
          rw [P.aes_crypt_ctr_length _ _ _ _ hy1]; exact length_slice _ _ _ (by omega)
        have hl2 : y2.length = 0x120 := by
          rw [P.aes_crypt_ctr_length _ _ _ _ hy2]; exact length_slice _ _ _ (by omega)
        have hlen1 : (copyTo y1 te.mTag.mData 0x168).length = 540 := by
          rw [length_copyTo _ _ _ (by omega), hlen]
        have hd : te'.mTag.mData = copyTo y2 (copyTo y1 te.mTag.mData 0x168) 0x28 := by
          rw [hte']; rfl
        have hf : te'.mTag.mIsEncrypted = (!te.mTag.mIsEncrypted) := by
          rw [hte']; rfl
        rw [hd, hL]
        dsimp only [TagV0.layout]
        refine ⟨hf, ?_, ?_, ?_, ?_⟩
        · rw [length_copyTo _ _ _ (by omega), hlen1]
        · rw [hy2, ← hl2, slice_copyTo_self _ _ _ (by omega)]
        · intro _
          rw [hy1, slice_copyTo_disjoint _ _ _ _ _ (by omega) (Or.inr (by omega)), ← hl1,
            slice_copyTo_self _ _ _ (by omega)]
        · intro i h1 h2
          have h1' : ¬ (0x28 ≤ i ∧ i < 0x28 + 0x120) := h1
          have h2' : ¬ (0x168 ≤ i ∧ i < 0x168 + 0x30) := fun hh => h2 ⟨rfl, hh⟩
          rw [getElem?_copyTo _ _ _ _ (by omega), hl2, if_neg h1',
            getElem?_copyTo _ _ _ _ (by omega), hl1, if_neg h2']
  · rw [TagEncryption.CryptTag_v2 P te hL hlen] at hc hte'
    cases hy2 : P.aes_crypt_ctr te.mUnfixedInfosKey te.mUnfixedInfosNonce
        (slice te.mTag.mData 0x2c 0x188) with
    | none => rw [hy2] at hc; cases hc
    | some y2 =>
      rw [hy2] at hte'
      have hl2 : y2.length = 0x188 := by
        rw [P.aes_crypt_ctr_length _ _ _ _ hy2]; exact length_slice _ _ _ (by omega)
      have hd : te'.mTag.mData = copyTo y2 te.mTag.mData 0x2c := by
        rw [hte']; rfl
      have hf : te'.mTag.mIsEncrypted = (!te.mTag.mIsEncrypted) := by
        rw [hte']; rfl
      rw [hd, hL]
      dsimp only [TagV2.layout]
      refine ⟨hf, ?_, ?_, ?_, ?_⟩
      · rw [length_copyTo _ _ _ (by omega), hlen]
      · rw [hy2, ← hl2, slice_copyTo_self _ _ _ (by omega)]
      · intro hv
        cases hv
      · intro i h1 _
        have h1' : ¬ (0x2c ≤ i ∧ i < 0x2c + 0x188) := h1
        rw [getElem?_copyTo _ _ _ _ (by omega), hl2, if_neg h1']

theorem EncryptTag_DecryptTag_effect_witness :
    ((exampleTagEncryption TagV0.layout).mTag.layout = TagV0.layout ∨ (exampleTagEncryption TagV0.layout).mTag.layout = TagV2.layout) ∧
    (exampleTagEncryption TagV0.layout).mTag.mData.length = 540 ∧
    (TagEncryption.EncryptTag toyPrimitives (exampleTagEncryption TagV0.layout) = (true, (TagEncryption.EncryptTag toyPrimitives (exampleTagEncryption TagV0.layout)).2) ∨
      TagEncryption.DecryptTag toyPrimitives (exampleTagEncryption TagV0.layout) = (true, (TagEncryption.EncryptTag toyPrimitives (exampleTagEncryption TagV0.layout)).2)) ∧
    ((TagEncryption.EncryptTag toyPrimitives (exampleTagEncryption TagV0.layout) = (true, (TagEncryption.EncryptTag toyPrimitives (exampleTagEncryption TagV0.layout)).2) → (exampleTagEncryption TagV0.layout).mTag.mIsEncrypted = false) ∧
     (TagEncryption.DecryptTag toyPrimitives (exampleTagEncryption TagV0.layout) = (true, (TagEncryption.EncryptTag toyPrimitives (exampleTagEncryption TagV0.layout)).2) → (exampleTagEncryption TagV0.layout).mTag.mIsEncrypted = true) ∧
     (TagEncryption.EncryptTag toyPrimitives (exampleTagEncryption TagV0.layout)).2.mTag.mIsEncrypted = (!(exampleTagEncryption TagV0.layout).mTag.mIsEncrypted) ∧
     (TagEncryption.EncryptTag toyPrimitives (exampleTagEncryption TagV0.layout)).2.mTag.mData.length = 540 ∧
     toyPrimitives.aes_crypt_ctr (exampleTagEncryption TagV0.layout).mUnfixedInfosKey (exampleTagEncryption TagV0.layout).mUnfixedInfosNonce
         (slice (exampleTagEncryption TagV0.layout).mTag.mData (exampleTagEncryption TagV0.layout).mTag.layout.GetUnfixedInfosOffset
           (exampleTagEncryption TagV0.layout).mTag.layout.GetUnfixedInfosSize) =
       some (slice (TagEncryption.EncryptTag toyPrimitives (exampleTagEncryption TagV0.layout)).2.mTag.mData (exampleTagEncryption TagV0.layout).mTag.layout.GetUnfixedInfosOffset
         (exampleTagEncryption TagV0.layout).mTag.layout.GetUnfixedInfosSize) ∧
     ((exampleTagEncryption TagV0.layout).mTag.layout.GetVersion = 0 →
       toyPrimitives.aes_crypt_ctr (exampleTagEncryption TagV0.layout).mLockedSecretKey (exampleTagEncryption TagV0.layout).mLockedSecretNonce
           (slice (exampleTagEncryption TagV0.layout).mTag.mData (exampleTagEncryption TagV0.layout).mTag.layout.GetLockedSecretOffset
             (exampleTagEncryption TagV0.layout).mTag.layout.GetLockedSecretSize) =
         some (slice (TagEncryption.EncryptTag toyPrimitives (exampleTagEncryption TagV0.layout)).2.mTag.mData (exampleTagEncryption TagV0.layout).mTag.layout.GetLockedSecretOffset
           (exampleTagEncryption TagV0.layout).mTag.layout.GetLockedSecretSize)) ∧
     (∀ i,
       ¬ ((exampleTagEncryption TagV0.layout).mTag.layout.GetUnfixedInfosOffset ≤ i ∧
         i < (exampleTagEncryption TagV0.layout).mTag.layout.GetUnfixedInfosOffset + (exampleTagEncryption TagV0.layout).mTag.layout.GetUnfixedInfosSize) →
       ¬ ((exampleTagEncryption TagV0.layout).mTag.layout.GetVersion = 0 ∧ (exampleTagEncryption TagV0.layout).mTag.layout.GetLockedSecretOffset ≤ i ∧
         i < (exampleTagEncryption TagV0.layout).mTag.layout.GetLockedSecretOffset + (exampleTagEncryption TagV0.layout).mTag.layout.GetLockedSecretSize) →
       (TagEncryption.EncryptTag toyPrimitives (exampleTagEncryption TagV0.layout)).2.mTag.mData[i]? = (exampleTagEncryption TagV0.layout).mTag.mData[i]?)) :=
  ⟨Or.inl rfl, by simp [exampleTagEncryption], Or.inl (by decide!),
    EncryptTag_DecryptTag_effect toyPrimitives (exampleTagEncryption TagV0.layout) _
      (Or.inl rfl) (by simp [exampleTagEncryption]) (Or.inl (by decide!))⟩

/-! ## The derived keys -/

/-- The loop of `GenerateKey` on a 0x40-byte output, whatever the buffer holds: two
iterations. -/
theorem GenerateKey.loop_two (P : Primitives) (key buffer outData : List Byte)
    (ho : outData.length = 0x40) :
    GenerateKey.loop P key (outData.length + 1) buffer 0 0 outData.length outData =
      match P.md_hmac key ((buffer.set 0 (u8 ((0 >>> 8) &&& 0xff))).set 1 (u8 (0 &&& 0xff))) with
      | none => (false, outData, 1)
      | some h0 =>
        match P.md_hmac key
          ((((buffer.set 0 (u8 ((0 >>> 8) &&& 0xff))).set 1 (u8 (0 &&& 0xff))).set 0
            (u8 ((1 >>> 8) &&& 0xff))).set 1 (u8 (1 &&& 0xff))) with
        | none => (false, h0 ++ outData.drop 0x20, 2)
        | some h1 => (true, h0 ++ h1, 2) := by
  rw [ho, GenerateKey.loop]
  simp only [show (0x40 : Nat) > 0 from by decide, if_true, crypto.GenerateHMAC]
  cases h0 : P.md_hmac key ((buffer.set 0 (u8 ((0 >>> 8) &&& 0xff))).set 1 (u8 (0 &&& 0xff))) with
  | none =>
    simp only [if_true]
    rw [copyTo_slice_self _ _ _ (by omega)]
  | some o0 =>
    have hl0 := P.md_hmac_length _ _ _ h0
    simp only [Bool.true_eq_false, if_false]
    have e0 : copyTo o0 outData 0 = o0 ++ outData.drop 0x20 := by
      simp [copyTo, hl0]
    rw [e0, GenerateKey.loop]
    simp only [show (0x40 - 0x20 : Nat) > 0 from by decide, if_true, crypto.GenerateHMAC]
    have hc1 : (0 + 1) % 65536 = 1 := rfl
    have hc2 : (1 + 1) % 65536 = 2 := rfl
    simp only [hc1, hc2]
    cases h1 : P.md_hmac key
        ((((buffer.set 0 (u8 ((0 >>> 8) &&& 0xff))).set 1 (u8 (0 &&& 0xff))).set 0
          (u8 ((1 >>> 8) &&& 0xff))).set 1 (u8 (1 &&& 0xff))) with
    | none =>
      simp only [if_true]
      rw [copyTo_slice_self _ _ _ (by simp [hl0, ho])]
    | some o1 =>
      have hl1 := P.md_hmac_length _ _ _ h1
      simp only [Bool.true_eq_false, if_false]
      have e1 : copyTo o1 (o0 ++ outData.drop 0x20) (0 + 0x20) = o0 ++ o1 := by
        rw [copyTo, Nat.zero_add, List.take_left' hl0, List.drop_eq_nil_of_le, List.append_nil]
        simp [hl0, hl1, ho]
      rw [e1, GenerateKey.loop]
      rfl

/-- A successful `GenerateKey` on a 0x40-byte output leaves 0x40 bytes there. -/
theorem GenerateKey_length (P : Primitives) (key name inData outData out : List Byte)
    (ho : outData.length = 0x40) (h : GenerateKey P key name inData outData = (true, out)) :
    out.length = 0x40 := by
  rw [GenerateKey, GenerateKey.loop_two P key _ outData ho] at h
  cases e0 : P.md_hmac key (((GenerateKey.buffer name inData).set 0 (u8 ((0 >>> 8) &&& 0xff))).set 1
      (u8 (0 &&& 0xff))) with
  | none =>
    rw [e0] at h
    cases h
  | some h0 =>
    rw [e0] at h
    dsimp only at h
    cases e1 : P.md_hmac key
        (((((GenerateKey.buffer name inData).set 0 (u8 ((0 >>> 8) &&& 0xff))).set 1
          (u8 (0 &&& 0xff))).set 0 (u8 ((1 >>> 8) &&& 0xff))).set 1 (u8 (1 &&& 0xff))) with
    | none =>
      rw [e1] at h
      cases h
    | some h1 =>
      rw [e1] at h
      have := congrArg Prod.snd h
      dsimp only at this
      rw [← this, List.length_append, P.md_hmac_length _ _ _ e0, P.md_hmac_length _ _ _ e1]

namespace TagEncryption

/-- What a successful `GenerateInternalKeys` went through and what it stored. -/
theorem GenerateInternalKeys_success (P : Primitives) (te te' : TagEncryption)
    (h : GenerateInternalKeys P te = (true, te')) :
    ∃ bL bU outL outU,
      GenerateInternalKeys.lockedSecretBuffer te = some bL ∧
      GenerateInternalKeys.unfixedInfosBuffer te = some bU ∧
      GenerateKey P te.mKeys.mLockedSecretHmacKey te.mKeys.mLockedSecretString bL (zeros 0x40) =
        (true, outL) ∧
      GenerateKey P te.mKeys.mUnfixedInfosHmacKey te.mKeys.mUnfixedInfosString bU outL =
        (true, outU) ∧
      te'.mLockedSecretKey = copy_n outL 0 0x10 te.mLockedSecretKey 0 ∧
      te'.mLockedSecretNonce = copy_n outL 0x10 0x10 te.mLockedSecretNonce 0 ∧
      te'.mLockedSecretDerivedHmacKey =
        copyTo (zeros 0x30) (copy_n outL 0x20 0x10 te.mLockedSecretDerivedHmacKey 0) 0x10 ∧
      te'.mUnfixedInfosKey = copy_n outU 0 0x10 te.mUnfixedInfosKey 0 ∧
      te'.mUnfixedInfosNonce = copy_n outU 0x10 0x10 te.mUnfixedInfosNonce 0 ∧
      te'.mUnfixedInfosDerivedHmacKey =
        copyTo (zeros 0x30) (copy_n outU 0x20 0x10 te.mUnfixedInfosDerivedHmacKey 0) 0x10 ∧
      te'.mTag = te.mTag ∧ te'.mKeys = te.mKeys ∧ te'.mKeyGenSalt = te.mKeyGenSalt := by
  unfold GenerateInternalKeys at h
  dsimp only at h
  split at h
  · cases h
  · rename_i bL hbL
    split at h
    · cases h
    · rename_i hr1
      split at h
      · cases h
      · rename_i bU hbU
        split at h
        · cases h
        · rename_i hr2
          have hte := (congrArg Prod.snd h).symm
          dsimp only at hte
          refine ⟨bL, bU,
            (GenerateKey P te.mKeys.mLockedSecretHmacKey te.mKeys.mLockedSecretString bL
              (zeros 0x40)).2,
            (GenerateKey P te.mKeys.mUnfixedInfosHmacKey te.mKeys.mUnfixedInfosString bU
              (GenerateKey P te.mKeys.mLockedSecretHmacKey te.mKeys.mLockedSecretString bL
                (zeros 0x40)).2).2, hbL, hbU, ?_, ?_, ?_⟩
          · apply Prod.ext
            · simpa using hr1
            · rfl
          · apply Prod.ext
            · simpa using hr2
            · rfl
          · rw [hte]
            exact ⟨rfl, rfl, rfl, rfl, rfl, rfl, rfl, rfl, rfl⟩

theorem GenerateKeyGenSalt_fields (P : Primitives) (te : TagEncryption) :
    (GenerateKeyGenSalt P te).2.mTag = te.mTag ∧ (GenerateKeyGenSalt P te).2.mKeys = te.mKeys ∧
    (GenerateKeyGenSalt P te).2.mLockedSecretKey = te.mLockedSecretKey ∧
    (GenerateKeyGenSalt P te).2.mLockedSecretNonce = te.mLockedSecretNonce ∧
    (GenerateKeyGenSalt P te).2.mLockedSecretDerivedHmacKey = te.mLockedSecretDerivedHmacKey ∧
    (GenerateKeyGenSalt P te).2.mUnfixedInfosKey = te.mUnfixedInfosKey ∧
    (GenerateKeyGenSalt P te).2.mUnfixedInfosNonce = te.mUnfixedInfosNonce ∧
    (GenerateKeyGenSalt P te).2.mUnfixedInfosDerivedHmacKey = te.mUnfixedInfosDerivedHmacKey := by
  unfold GenerateKeyGenSalt
  split <;> exact ⟨rfl, rfl, rfl, rfl, rfl, rfl, rfl, rfl⟩

theorem InitializeInternalKeys_success (P : Primitives) (te te' : TagEncryption)
    (h : InitializeInternalKeys P te = (true, te')) :
    (te.mTag.layout.GetVersion = 0 ∨ te.mTag.layout.GetVersion = 2) ∧
    (GenerateKeyGenSalt P te).1 = true ∧
    GenerateInternalKeys P (GenerateKeyGenSalt P te).2 = (true, te') := by
  unfold InitializeInternalKeys at h
  split at h
  · cases h
  · rename_i hv
    dsimp only at h
    split at h
    · cases h
    · rename_i hs
      split at h
      · cases h
      · rename_i hg
        refine ⟨by omega, by simpa using hs, ?_⟩
        apply Prod.ext
        · simpa using hg
        · have := congrArg Prod.snd h
          exact this

end TagEncryption

theorem copyTo_derivedKey (s derived : List Byte) (hs : s.length = 0x10)
    (hd : derived.length = 0x40) :
    copyTo (zeros 0x30) (copyTo s derived 0) 0x10 = s ++ zeros 0x30 := by
  have h1 : copyTo s derived 0 = s ++ derived.drop 0x10 := by
    simp [copyTo, hs]
  have h3 : (s ++ derived.drop 0x10).drop (0x10 + (zeros 0x30).length) = [] := by
    apply List.drop_eq_nil_of_le
    simp [zeros, hs, hd]
  rw [h1, copyTo, List.take_left' hs, h3, List.append_nil]

/-- **C30.** After a successful `InitializeInternalKeys`, for each domain the cipher key
is bytes [0, 16) of the 64-byte output of `GenerateKey` for that domain (its HMAC key,
its label and its KDF input buffer), the cipher nonce is bytes [16, 32) and the derived
HMAC key is bytes [32, 48) followed by 48 zero bytes; bytes [48, 64) of the output go
into no derived key. -/
theorem InitializeInternalKeys_derived_keys (P : Primitives) (te te' : TagEncryption)
    (hLK : te.mLockedSecretKey.length = 0x10) (hLN : te.mLockedSecretNonce.length = 0x10)
    (hLH : te.mLockedSecretDerivedHmacKey.length = 0x40)
    (hUK : te.mUnfixedInfosKey.length = 0x10) (hUN : te.mUnfixedInfosNonce.length = 0x10)
    (hUH : te.mUnfixedInfosDerivedHmacKey.length = 0x40)
    (h : TagEncryption.InitializeInternalKeys P te = (true, te')) :
    ∃ bL bU outL outU,
      TagEncryption.GenerateInternalKeys.lockedSecretBuffer
        (TagEncryption.GenerateKeyGenSalt P te).2 = some bL ∧
      TagEncryption.GenerateInternalKeys.unfixedInfosBuffer
        (TagEncryption.GenerateKeyGenSalt P te).2 = some bU ∧
      GenerateKey P te.mKeys.mLockedSecretHmacKey te.mKeys.mLockedSecretString bL (zeros 0x40) =
        (true, outL) ∧
      GenerateKey P te.mKeys.mUnfixedInfosHmacKey te.mKeys.mUnfixedInfosString bU outL =
        (true, outU) ∧
      outL.length = 0x40 ∧ outU.length = 0x40 ∧
      te'.mLockedSecretKey = slice outL 0 0x10 ∧
      te'.mLockedSecretNonce = slice outL 0x10 0x10 ∧
      te'.mLockedSecretDerivedHmacKey = slice outL 0x20 0x10 ++ zeros 0x30 ∧
      te'.mUnfixedInfosKey = slice outU 0 0x10 ∧
      te'.mUnfixedInfosNonce = slice outU 0x10 0x10 ∧
      te'.mUnfixedInfosDerivedHmacKey = slice outU 0x20 0x10 ++ zeros 0x30 := by
  obtain ⟨-, -, hg⟩ := TagEncryption.InitializeInternalKeys_success P te te' h
  obtain ⟨f1, f2, f3, f4, f5, f6, f7, f8⟩ := TagEncryption.GenerateKeyGenSalt_fields P te
  obtain ⟨bL, bU, outL, outU, hbL, hbU, hgL, hgU, e1, e2, e3, e4, e5, e6, -⟩ :=
    TagEncryption.GenerateInternalKeys_success P _ te' hg
  rw [f2] at hgL hgU
  rw [f3] at e1
  rw [f4] at e2
  rw [f5] at e3
  rw [f6] at e4
  rw [f7] at e5
  rw [f8] at e6
  have hoL : outL.length = 0x40 := GenerateKey_length P _ _ _ _ _ (by simp [zeros]) hgL
  have hoU : outU.length = 0x40 := GenerateKey_length P _ _ _ _ _ hoL hgU
  have hs : ∀ (out : List Byte) (a : Nat), out.length = 0x40 → a + 0x10 ≤ 0x40 →
      (slice out a 0x10).length = 0x10 := fun out a ho ha => length_slice _ _ _ (by omega)
  refine ⟨bL, bU, outL, outU, hbL, hbU, hgL, hgU, hoL, hoU, ?_, ?_, ?_, ?_, ?_, ?_⟩
  · rw [e1, copy_n, copyTo_zero_full _ _ (by rw [hs outL 0 hoL (by omega), hLK])]
  · rw [e2, copy_n, copyTo_zero_full _ _ (by rw [hs outL 0x10 hoL (by omega), hLN])]
  · rw [e3, copy_n, copyTo_derivedKey _ _ (hs outL 0x20 hoL (by omega)) hLH]
  · rw [e4, copy_n, copyTo_zero_full _ _ (by rw [hs outU 0 hoU (by omega), hUK])]
  · rw [e5, copy_n, copyTo_zero_full _ _ (by rw [hs outU 0x10 hoU (by omega), hUN])]
  · rw [e6, copy_n, copyTo_derivedKey _ _ (hs outU 0x20 hoU (by omega)) hUH]

theorem InitializeInternalKeys_derived_keys_witness :
    (exampleTagEncryption TagV0.layout).mLockedSecretKey.length = 0x10 ∧
    (exampleTagEncryption TagV0.layout).mLockedSecretNonce.length = 0x10 ∧
    (exampleTagEncryption TagV0.layout).mLockedSecretDerivedHmacKey.length = 0x40 ∧
    (exampleTagEncryption TagV0.layout).mUnfixedInfosKey.length = 0x10 ∧
    (exampleTagEncryption TagV0.layout).mUnfixedInfosNonce.length = 0x10 ∧
    (exampleTagEncryption TagV0.layout).mUnfixedInfosDerivedHmacKey.length = 0x40 ∧
    TagEncryption.InitializeInternalKeys toyPrimitives (exampleTagEncryption TagV0.layout) = (true, (TagEncryption.InitializeInternalKeys toyPrimitives (exampleTagEncryption TagV0.layout)).2) ∧
    (∃ bL bU outL outU,
       TagEncryption.GenerateInternalKeys.lockedSecretBuffer
         (TagEncryption.GenerateKeyGenSalt toyPrimitives (exampleTagEncryption TagV0.layout)).2 = some bL ∧
       TagEncryption.GenerateInternalKeys.unfixedInfosBuffer
         (TagEncryption.GenerateKeyGenSalt toyPrimitives (exampleTagEncryption TagV0.layout)).2 = some bU ∧
       GenerateKey toyPrimitives (exampleTagEncryption TagV0.layout).mKeys.mLockedSecretHmacKey (exampleTagEncryption TagV0.layout).mKeys.mLockedSecretString bL (zeros 0x40) =
         (true, outL) ∧
       GenerateKey toyPrimitives (exampleTagEncryption TagV0.layout).mKeys.mUnfixedInfosHmacKey (exampleTagEncryption TagV0.layout).mKeys.mUnfixedInfosString bU outL =
         (true, outU) ∧
       outL.length = 0x40 ∧ outU.length = 0x40 ∧
       (TagEncryption.InitializeInternalKeys toyPrimitives (exampleTagEncryption TagV0.layout)).2.mLockedSecretKey = slice outL 0 0x10 ∧
       (TagEncryption.InitializeInternalKeys toyPrimitives (exampleTagEncryption TagV0.layout)).2.mLockedSecretNonce = slice outL 0x10 0x10 ∧
       (TagEncryption.InitializeInternalKeys toyPrimitives (exampleTagEncryption TagV0.layout)).2.mLockedSecretDerivedHmacKey = slice outL 0x20 0x10 ++ zeros 0x30 ∧
       (TagEncryption.InitializeInternalKeys toyPrimitives (exampleTagEncryption TagV0.layout)).2.mUnfixedInfosKey = slice outU 0 0x10 ∧
       (TagEncryption.InitializeInternalKeys toyPrimitives (exampleTagEncryption TagV0.layout)).2.mUnfixedInfosNonce = slice outU 0x10 0x10 ∧
       (TagEncryption.InitializeInternalKeys toyPrimitives (exampleTagEncryption TagV0.layout)).2.mUnfixedInfosDerivedHmacKey = slice outU 0x20 0x10 ++ zeros 0x30) :=
  ⟨by decide, by decide, by decide, by decide, by decide, by decide, by decide!,
    InitializeInternalKeys_derived_keys toyPrimitives (exampleTagEncryption TagV0.layout) _
      (by decide) (by decide) (by decide) (by decide) (by decide) (by decide) (by decide!)⟩

/-! ## NDEF records: the reads of the decoder -/

namespace SpanStream

theorem readU8_mError (s : SpanStream) (h : s.mError = true) : s.readU8.2.mError = true :=
  Read_mError s 1 h

theorem readU32_mError (s : SpanStream) (h : s.mError = true) : s.readU32.2.mError = true :=
  Read_mError s 4 h

theorem readU32_cons (data : List Byte) (pos : Nat) (e : Bool) (b0 b1 b2 b3 : Byte)
    (r : List Byte) (h : data.drop pos = b0 :: b1 :: b2 :: b3 :: r) :
    readU32 { mSpan := data, mPosition := pos, mError := e } =
      (b0.val * 16777216 + b1.val * 65536 + b2.val * 256 + b3.val,
        { mSpan := data, mPosition := pos + 4, mError := e }) := by
  rw [readU32, Read_ok _ _ _ _ (by rw [h]; simp), h]
  rfl

theorem readU32_fail (data : List Byte) (pos : Nat) (e : Bool) (h : (data.drop pos).length < 4) :
    readU32 { mSpan := data, mPosition := pos, mError := e } =
      (0, { mSpan := data, mPosition := pos, mError := true }) := by
  rw [readU32, Read_fail _ _ _ _ h]
  simp [zeros]

theorem drop_add_of_drop_eq {α : Type} (data : List α) (pos n : Nat) (pre r : List α)
    (h : data.drop pos = pre ++ r) (hn : pre.length = n) : data.drop (pos + n) = r := by
  have : data.drop (pos + n) = (data.drop pos).drop n := by rw [List.drop_drop, Nat.add_comm]
  rw [this, h, List.drop_left' hn]

end SpanStream

namespace ndef.Record

theorem FromStream_eq (stream : SpanStream) :
    FromStream stream =
      FromStream.afterPayloadLength stream.readU8.1 stream.readU8.2.readU8.1.val
        (if stream.readU8.1 &&& NDEF_SR ≠ 0 then
          (stream.readU8.2.readU8.2.readU8.1.val, stream.readU8.2.readU8.2.readU8.2)
         else stream.readU8.2.readU8.2.readU32).1
        (if stream.readU8.1 &&& NDEF_SR ≠ 0 then
          (stream.readU8.2.readU8.2.readU8.1.val, stream.readU8.2.readU8.2.readU8.2)
         else stream.readU8.2.readU8.2.readU32).2 := by
  unfold FromStream FromStream.afterPayloadLength FromStream.readFields
  rfl

theorem readFields_mError (mFlags mTNF : Byte) (typeLen idLen payloadLen : Nat)
    (stream : SpanStream) (h : stream.mError = true) :
    (FromStream.readFields mFlags mTNF typeLen idLen payloadLen stream).1 = none := by
  rw [FromStream.readFields, h, if_pos rfl]

theorem afterPayloadLength_mError (recHdr : Byte) (typeLen payloadLen : Nat)
    (stream : SpanStream) (h : stream.mError = true) :
    (FromStream.afterPayloadLength recHdr typeLen payloadLen stream).1 = none := by
  unfold FromStream.afterPayloadLength
  split
  · rfl
  · split
    · exact readFields_mError _ _ _ _ _ _ (SpanStream.readU8_mError _ h)
    · exact readFields_mError _ _ _ _ _ _ h

end ndef.Record
namespace ndef.Record

theorem readFields_ok (hdr : Byte) (typeLen idLen payloadLen : Nat) (data : List Byte)
    (p0 c : Nat) :
    (FromStream.readFields (hdr &&& compl8 NDEF_TNF_MASK) (hdr &&& NDEF_TNF_MASK) typeLen idLen
        payloadLen { mSpan := data, mPosition := p0 + c, mError := false }).1 =
      (parse.fields hdr typeLen idLen payloadLen (data.drop (p0 + c)) c).map Prod.fst ∧
    ∀ r n, parse.fields hdr typeLen idLen payloadLen (data.drop (p0 + c)) c = some (r, n) →
      (FromStream.readFields (hdr &&& compl8 NDEF_TNF_MASK) (hdr &&& NDEF_TNF_MASK) typeLen idLen
        payloadLen { mSpan := data, mPosition := p0 + c, mError := false }).2 =
        { mSpan := data, mPosition := p0 + n, mError := false } := by
  have hlen : ∀ k, (data.drop k).length = data.length - k := fun k => List.length_drop k data
  unfold FromStream.readFields parse.fields
  simp only [Bool.false_eq_true, if_false]
  by_cases h1 : typeLen ≤ (data.drop (p0 + c)).length
  · have R1 := SpanStream.Read_ok data (p0 + c) typeLen false h1
    by_cases h2 : idLen ≤ (data.drop (p0 + c + typeLen)).length
    · have R2 := SpanStream.Read_ok data (p0 + c + typeLen) idLen false h2
      by_cases h3 : payloadLen ≤ (data.drop (p0 + c + typeLen + idLen)).length
      · have R3 := SpanStream.Read_ok data (p0 + c + typeLen + idLen) payloadLen false h3
        have hnot : ¬ (data.drop (p0 + c)).length < typeLen + idLen + payloadLen := by
          rw [hlen] at h1 h2 h3 ⊢; omega
        have e1 : List.drop (p0 + c + typeLen) data =
            List.drop typeLen (List.drop (p0 + c) data) := by
          rw [List.drop_drop, Nat.add_comm]
        have e2 : List.drop (p0 + c + typeLen + idLen) data =
            List.drop (typeLen + idLen) (List.drop (p0 + c) data) := by
          rw [List.drop_drop]
          congr 1
          omega
        simp only [R1, R2, R3, if_neg hnot, Bool.false_eq_true, if_false, Option.map_some']
        refine ⟨?_, ?_⟩
        · rw [e1, e2]
          rfl
        · intro r n hrn
          have hn := congrArg Prod.snd (Option.some.inj hrn)
          dsimp only at hn
          rw [← hn]
          congr 1
          omega
      · have R3 := SpanStream.Read_fail data (p0 + c + typeLen + idLen) payloadLen false
          (by omega)
        have hlt : (data.drop (p0 + c)).length < typeLen + idLen + payloadLen := by
          rw [hlen] at h1 h2 h3 ⊢; omega
        simp only [R1, R2, R3, if_pos hlt, if_true, Option.map_none']
        exact ⟨trivial, fun r n h => by cases h⟩
    · have R2 := SpanStream.Read_fail data (p0 + c + typeLen) idLen false (by omega)
      have hlt : (data.drop (p0 + c)).length < typeLen + idLen + payloadLen := by
        rw [hlen] at h1 h2 ⊢; omega
      have he := SpanStream.Read_mError
        { mSpan := data, mPosition := p0 + c + typeLen, mError := true } payloadLen rfl
      simp only [R1, R2, he, if_pos hlt, if_true, Option.map_none']
      exact ⟨trivial, fun r n h => by cases h⟩
  · have R1 := SpanStream.Read_fail data (p0 + c) typeLen false (by omega)
    have hlt : (data.drop (p0 + c)).length < typeLen + idLen + payloadLen := by omega
    have he2 := SpanStream.Read_mError
      { mSpan := data, mPosition := p0 + c, mError := true } idLen rfl
    have he3 := SpanStream.Read_mError
      (SpanStream.Read { mSpan := data, mPosition := p0 + c, mError := true } idLen).2
      payloadLen he2
    simp only [R1, he3, if_pos hlt, if_true, Option.map_none']
    exact ⟨trivial, fun r n h => by cases h⟩

end ndef.Record
namespace ndef.Record

theorem afterPayloadLength_ok (hdr : Byte) (typeLen payloadLen : Nat) (data : List Byte)
    (p0 c : Nat) :
    (FromStream.afterPayloadLength hdr typeLen payloadLen
        { mSpan := data, mPosition := p0 + c, mError := false }).1 =
      (parse.idLength hdr typeLen payloadLen (data.drop (p0 + c)) c).map Prod.fst ∧
    ∀ r n, parse.idLength hdr typeLen payloadLen (data.drop (p0 + c)) c = some (r, n) →
      (FromStream.afterPayloadLength hdr typeLen payloadLen
        { mSpan := data, mPosition := p0 + c, mError := false }).2 =
        { mSpan := data, mPosition := p0 + n, mError := false } := by
  unfold FromStream.afterPayloadLength parse.idLength
  by_cases hbig : payloadLen > 2 * 1024 * 1024
  · rw [if_pos hbig, if_pos hbig]
    exact ⟨rfl, fun r n h => by cases h⟩
  · rw [if_neg hbig, if_neg hbig]
    by_cases hil : hdr &&& NDEF_IL ≠ 0
    · rw [if_pos hil, if_pos hil]
      cases hd : data.drop (p0 + c) with
      | nil =>
        rw [SpanStream.readU8_nil _ _ _ hd]
        dsimp only
        exact ⟨readFields_mError _ _ _ _ _ _ rfl, fun r n h => by cases h⟩
      | cons b l =>
        rw [SpanStream.readU8_cons _ _ _ _ _ hd]
        dsimp only
        have hl : l = data.drop (p0 + (c + 1)) := by
          rw [← Nat.add_assoc, SpanStream.drop_succ_of_drop_cons _ _ _ _ hd]
        rw [hl, Nat.add_assoc]
        exact readFields_ok hdr typeLen b.val payloadLen data p0 (c + 1)
    · rw [if_neg hil, if_neg hil]
      exact readFields_ok hdr typeLen 0 payloadLen data p0 c

theorem FromStream_mError (stream : SpanStream)
    (h : stream.readU8.2.readU8.2.mError = true) : (FromStream stream).1 = none := by
  rw [FromStream_eq]
  apply afterPayloadLength_mError
  split
  · exact SpanStream.readU8_mError _ h
  · exact SpanStream.readU32_mError _ h

theorem FromStream_ok (data : List Byte) (pos : Nat) :
    (FromStream { mSpan := data, mPosition := pos, mError := false }).1 =
      (parse (data.drop pos)).map Prod.fst ∧
    ∀ r n, parse (data.drop pos) = some (r, n) →
      (FromStream { mSpan := data, mPosition := pos, mError := false }).2 =
        { mSpan := data, mPosition := pos + n, mError := false } := by
  cases hd : data.drop pos with
  | nil =>
    refine ⟨?_, fun r n h => by cases h⟩
    apply FromStream_mError
    rw [SpanStream.readU8_nil _ _ _ hd]
    exact SpanStream.readU8_mError _ rfl
  | cons hdr l1 =>
    have hd1 : data.drop (pos + 1) = l1 := SpanStream.drop_succ_of_drop_cons _ _ _ _ hd
    cases l1 with
    | nil =>
      refine ⟨?_, fun r n h => by cases h⟩
      apply FromStream_mError
      rw [SpanStream.readU8_cons _ _ _ _ _ hd]
      dsimp only
      rw [SpanStream.readU8_nil _ _ _ hd1]
    | cons typeLen l2 =>
      have hd2 : data.drop (pos + 2) = l2 := SpanStream.drop_succ_of_drop_cons _ _ _ _ hd1
      have hr0 := SpanStream.readU8_cons data pos false hdr _ hd
      have hr1 := SpanStream.readU8_cons data (pos + 1) false typeLen _ hd1
      rw [FromStream_eq, hr0]
      dsimp only
      rw [hr1]
      dsimp only
      unfold parse
      dsimp only
      by_cases hsr : hdr &&& NDEF_SR ≠ 0
      · rw [if_pos hsr, if_pos hsr]
        cases l2 with
        | nil =>
          rw [SpanStream.readU8_nil _ _ _ hd2]
          dsimp only
          exact ⟨afterPayloadLength_mError _ _ _ _ rfl, fun r n h => by cases h⟩
        | cons b l3 =>
          have hd3 : data.drop (pos + 3) = l3 := SpanStream.drop_succ_of_drop_cons _ _ _ _ hd2
          rw [SpanStream.readU8_cons _ _ _ _ _ hd2]
          dsimp only
          rw [← hd3]
          exact afterPayloadLength_ok hdr typeLen.val b.val data pos 3
      · rw [if_neg hsr, if_neg hsr]
        by_cases h4 : l2.length < 4
        · rw [SpanStream.readU32_fail _ _ _ (by rw [hd2]; exact h4)]
          dsimp only
          refine ⟨?_, ?_⟩
          · rw [afterPayloadLength_mError _ _ _ _ rfl]
            match l2, h4 with
            | [], _ => rfl
            | [_], _ => rfl
            | [_, _], _ => rfl
            | [_, _, _], _ => rfl
            | _ :: _ :: _ :: _ :: _, h => simp at h; omega
          · intro r n h
            match l2, h4, h with
            | [], _, h => cases h
            | [_], _, h => cases h
            | [_, _], _, h => cases h
            | [_, _, _], _, h => cases h
            | _ :: _ :: _ :: _ :: _, h, _ => simp at h; omega
        · match l2, h4, hd2 with
          | b0 :: b1 :: b2 :: b3 :: l3, _, hd2 =>
            have hd6 : data.drop (pos + 6) = l3 :=
              SpanStream.drop_add_of_drop_eq data (pos + 2) 4 [b0, b1, b2, b3] l3 hd2 rfl
            rw [SpanStream.readU32_cons _ _ _ _ _ _ _ _ hd2]
            dsimp only
            rw [← hd6]
            exact afterPayloadLength_ok hdr typeLen.val _ data pos 6
          | [], h, _ => exact absurd (by simp) h
          | [_], h, _ => exact absurd (by simp) h
          | [_, _], h, _ => exact absurd (by simp) h
          | [_, _, _], h, _ => exact absurd (by simp) h

end ndef.Record

/-- **C29.** On a stream without error, `Record::FromStream` returns exactly the record
that the specification's reading order gives on the bytes from the stream position on:
the header byte (flags in the high 5 bits, type-name-format in the low 3 bits), the
type-length byte, the payload length (1 byte if the short-record flag is set, otherwise a
4-byte big-endian number), the ID-length byte only if the ID-length-present flag is set,
then that many type, ID and payload bytes. When there is such a record the stream has
advanced by the bytes of the record and carries no error; when the payload length
exceeds 2 MiB or the bytes run out there is no record. -/
theorem Record_FromStream_reads (stream : SpanStream) (h : stream.mError = false) :
    (ndef.Record.FromStream stream).1 =
      (ndef.Record.parse (stream.mSpan.drop stream.mPosition)).map Prod.fst ∧
    (∀ r n, ndef.Record.parse (stream.mSpan.drop stream.mPosition) = some (r, n) →
      (ndef.Record.FromStream stream).2 =
        { mSpan := stream.mSpan, mPosition := stream.mPosition + n, mError := false }) ∧
    (ndef.Record.parse (stream.mSpan.drop stream.mPosition) = none →
      (ndef.Record.FromStream stream).1 = none) := by
  obtain ⟨data, pos, e⟩ := stream
  dsimp only at h ⊢
  subst h
  obtain ⟨h1, h2⟩ := ndef.Record.FromStream_ok data pos
  refine ⟨h1, h2, ?_⟩
  intro hn
  rw [h1, hn]
  rfl

theorem Record_FromStream_reads_witness :
    (SpanStream.new exampleRecordBytes).mError = false ∧
    ((ndef.Record.FromStream (SpanStream.new exampleRecordBytes)).1 =
      (ndef.Record.parse ((SpanStream.new exampleRecordBytes).mSpan.drop
        (SpanStream.new exampleRecordBytes).mPosition)).map Prod.fst ∧
    (∀ r n, ndef.Record.parse ((SpanStream.new exampleRecordBytes).mSpan.drop
        (SpanStream.new exampleRecordBytes).mPosition) = some (r, n) →
      (ndef.Record.FromStream (SpanStream.new exampleRecordBytes)).2 =
        { mSpan := (SpanStream.new exampleRecordBytes).mSpan,
          mPosition := (SpanStream.new exampleRecordBytes).mPosition + n, mError := false }) ∧
    (ndef.Record.parse ((SpanStream.new exampleRecordBytes).mSpan.drop
        (SpanStream.new exampleRecordBytes).mPosition) = none →
      (ndef.Record.FromStream (SpanStream.new exampleRecordBytes)).1 = none)) :=
  ⟨rfl, Record_FromStream_reads (SpanStream.new exampleRecordBytes) rfl⟩

/-- The record of `exampleRecordBytes`: the ninth byte is not part of it. -/
theorem Record_parse_example :
    ndef.Record.parse exampleRecordBytes =
      some ({ mFlags := 0x18, mTNF := 0x05, mID := [0xbb], mType := [0xaa],
              mPayload := [0xcc, 0xdd] }, 8) := by
  decide

/-! ## TagV0: the classification of the blocks -/

namespace TagV0

theorem and_shift_iff_testBit : ∀ (x : Byte) (j : Fin 8),
    (x.val &&& (1 <<< j.val) ≠ 0) ↔ x.val.testBit j.val = true := by
  decide!

theorem lockBit_iff (d : List Byte) (b : Nat) :
    lockBit d b = true ↔
      if b < 16 then (d.getD (0x70 + b / 8) 0).val.testBit (b % 8) = true
      else (d.getD (0x7a + (b - 16) / 8) 0).val.testBit ((b - 16) % 8) = true := by
  have h := and_shift_iff_testBit (lockByteOf d b) ⟨b % 8, Nat.mod_lt _ (by decide)⟩
  dsimp only at h
  rw [lockBit, decide_eq_true_eq, h, lockByteOf]
  by_cases hb : b < 16
  · rw [if_pos hb, if_pos hb]
  · rw [if_neg hb, if_neg hb]
    have : (b - 16) % 8 = b % 8 := by omega
    rw [this]

theorem gather_eq_flatten (t : TagV0) (d : List Byte) (bs : List Nat) :
    gather t d bs =
      ((bs.filter (fun b => !t.IsBlockLocked b)).map (fun b => slice d (8 * b) 8)).flatten := by
  induction bs with
  | nil => rfl
  | cons b bs ih =>
    rw [gather, ih, List.filter_cons]
    cases hb : t.IsBlockLocked b with
    | true => simp
    | false => simp

end TagV0

/-- **C27.** `TagV0::ParseLockedArea` reads the lock bits least-significant bit first:
block `b` below 16 has its lock bit at bit `b mod 8` of dump byte `0x70 + b / 8`, block
`b` from 16 to 63 at bit `(b - 16) mod 8` of dump byte `0x7a + (b - 16) / 8`. A block is
in the locked map, with its 8 bytes of the dump, exactly when its bit is set and it is
not one of 0, 13, 14, 15; `IsBlockLocked` holds for the blocks of the locked map and for
0, 13, 14, 15, and the data area is the concatenation, in ascending block order, of the
other blocks. -/
theorem TagV0_lock_classification (d : List Byte) :
    (∀ b, b < 64 →
      ((TagV0.ParseLockedArea TagV0.new d).mLockedBlocks.contains b = true ↔
        (if b < 16 then (d.getD (0x70 + b / 8) 0).val.testBit (b % 8) = true
         else (d.getD (0x7a + (b - 16) / 8) 0).val.testBit ((b - 16) % 8) = true) ∧
        ¬ (b = 0 ∨ b = 13 ∨ b = 14 ∨ b = 15)) ∧
      (∀ v, (TagV0.ParseLockedArea TagV0.new d).mLockedBlocks b = some v → v = slice d (b * 8) 8) ∧
      ((TagV0.ParseLockedArea TagV0.new d).IsBlockLocked b = true ↔
        (TagV0.ParseLockedArea TagV0.new d).mLockedBlocks.contains b = true ∨
          (b = 0 ∨ b = 13 ∨ b = 14 ∨ b = 15))) ∧
    TagV0.dataAreaOf d =
      (((List.range 64).filter
        (fun b => !(TagV0.ParseLockedArea TagV0.new d).IsBlockLocked b)).map
        (fun b => slice d (8 * b) 8)).flatten := by
  refine ⟨?_, ?_⟩
  · intro b hb
    have hm := TagV0.ParseLockedArea_mLockedBlocks d b
    have hres := TagV0.IsBlockLockedOrReserved_iff b
    refine ⟨?_, ?_, ?_⟩
    · unfold BlockMap.contains
      rw [hm, ← TagV0.lockBit_iff]
      by_cases hl : TagV0.lockBit d b = true
      · by_cases hr : TagV0.IsBlockLockedOrReserved b = true
        · have hr' : ¬ (TagV0.IsBlockLockedOrReserved b = false) := by rw [hr]; decide
          rw [if_neg (fun h => hr' h.2.2)]
          simp only [Option.isSome_none, Bool.false_eq_true, false_iff, not_and, not_not]
          exact fun _ => hres.mp hr
        · have hr' : TagV0.IsBlockLockedOrReserved b = false := by simpa using hr
          rw [if_pos ⟨hb, hl, hr'⟩]
          simp only [Option.isSome_some, true_iff]
          exact ⟨hl, fun h => hr (hres.mpr h)⟩
      · rw [if_neg (fun h => hl h.2.1)]
        simp only [Option.isSome_none, Bool.false_eq_true, false_iff, not_and]
        exact fun h => absurd h hl
    · intro v hv
      rw [hm] at hv
      split at hv
      · exact (Option.some.inj hv).symm
      · cases hv
    · unfold TagV0.IsBlockLocked
      rw [Bool.or_eq_true, hres]
  · rw [TagV0.dataAreaOf, TagV0.ParseDataArea_eq_gather, TagV0.gather_eq_flatten]
    rfl

/-! ## TagV0: sizes -/

namespace TLV

/-- A decoded TLV value is shorter than the bytes it was decoded from. -/
theorem decodeL_value_lt : ∀ (l : List Byte) (ts : List TLV), decodeL l = some ts →
    ∀ t ∈ ts, t.mValue.length < l.length := by
  apply decodeL_induction
  · intro t ht
    cases ht
  · intro r ts _ ih t ht
    have := ih t ht
    simp only [List.length_cons]
    omega
  · intro r t ht
    rw [List.mem_singleton] at ht
    rw [ht]
    simp
  · intro tag hdr v rest ts' _ _ _ _ ih t ht
    rcases List.mem_cons.mp ht with h | h
    · rw [h]
      simp only [List.length_cons, List.length_append]
      omega
    · have := ih t h
      simp only [List.length_cons, List.length_append]
      omega

theorem FromBytes_value_lt (data : List Byte) (t : TLV) (ht : t ∈ FromBytes data) :
    t.mValue.length < data.length := by
  rw [FromBytes_eq_decodeL] at ht
  cases h : decodeL data with
  | none => rw [h] at ht; cases ht
  | some ts =>
    rw [h] at ht
    exact decodeL_value_lt data ts h t ht

end TLV

namespace ndef.Record

theorem parse_fields_payload (hdr : Byte) (typeLen idLen payloadLen : Nat) (l : List Byte)
    (c : Nat) (r : Record) (n : Nat)
    (h : parse.fields hdr typeLen idLen payloadLen l c = some (r, n)) :
    r.mPayload.length ≤ l.length := by
  unfold parse.fields at h
  split at h
  · cases h
  · have hr := congrArg Prod.fst (Option.some.inj h)
    dsimp only at hr
    rw [← hr]
    simp only [List.length_take, List.length_drop]
    omega

theorem parse_idLength_payload (hdr : Byte) (typeLen payloadLen : Nat) (l : List Byte)
    (c : Nat) (r : Record) (n : Nat)
    (h : parse.idLength hdr typeLen payloadLen l c = some (r, n)) :
    r.mPayload.length ≤ l.length := by
  unfold parse.idLength at h
  split at h
  · cases h
  · split at h
    · split at h
      · cases h
      · have := parse_fields_payload _ _ _ _ _ _ _ _ h
        simp only [List.length_cons]
        omega
    · exact parse_fields_payload _ _ _ _ _ _ _ _ h

theorem parse_payload (l : List Byte) (r : Record) (n : Nat) (h : parse l = some (r, n)) :
    r.mPayload.length + 3 ≤ l.length := by
  unfold parse at h
  split at h
  · split at h
    · split at h
      · have := parse_idLength_payload _ _ _ _ _ _ _ h
        simp only [List.length_cons]
        omega
      · cases h
    · split at h
      · have := parse_idLength_payload _ _ _ _ _ _ _ h
        simp only [List.length_cons]
        omega
      · cases h
  · cases h

end ndef.Record

namespace ndef.Message

theorem loop_payload (data : List Byte) : ∀ (fuel pos : Nat) (recs : List Record),
    (∀ r ∈ recs, r.mPayload.length + 3 ≤ data.length) →
    ∀ r ∈ FromBytes.loop fuel { mSpan := data, mPosition := pos, mError := false } recs,
      r.mPayload.length + 3 ≤ data.length := by
  intro fuel
  induction fuel with
  | zero => intro pos recs h; exact h
  | succ fuel ih =>
    intro pos recs h
    rw [FromBytes.loop]
    split
    · obtain ⟨h1, h2⟩ := Record.FromStream_ok data pos
      cases hp : Record.parse (data.drop pos) with
      | none =>
        rw [hp] at h1
        dsimp only
        rw [h1]
        exact h
      | some rn =>
        obtain ⟨rec, n⟩ := rn
        rw [hp] at h1
        have h2' := h2 rec n hp
        have hb := Record.parse_payload _ _ _ hp
        have hb' : rec.mPayload.length + 3 ≤ data.length := by
          have := List.length_drop pos data
          omega
        have hrecs : ∀ r ∈ recs ++ [rec], r.mPayload.length + 3 ≤ data.length := by
          intro r hr
          rcases List.mem_append.mp hr with hr | hr
          · exact h r hr
          · rw [List.mem_singleton.mp hr]; exact hb'
        dsimp only
        rw [h1]
        dsimp only [Option.map_some']
        split
        · exact hrecs
        · rw [h2']
          exact ih _ _ hrecs
    · exact h

theorem FromBytes_payload (data : List Byte) (m : Message) (h : FromBytes data = some m)
    (r : Record) (hr : r ∈ m.mRecords) : r.mPayload.length + 3 ≤ data.length := by
  unfold FromBytes at h
  dsimp only at h
  split at h
  · cases h
  · split at h
    · cases h
    · have hm := Option.some.inj h
      rw [← hm] at hr
      exact loop_payload data _ 0 [] (fun r hr => by cases hr) r hr

end ndef.Message
namespace TagV0

theorem length_gather_add (t : TagV0) (d : List Byte) (bs : List Nat) :
    (gather t d bs).length + 8 * (bs.filter (fun b => t.mLockedBlocks.contains b)).length ≤
      8 * bs.length := by
  induction bs with
  | nil => simp [gather]
  | cons b bs ih =>
    rw [gather, List.length_append, List.filter_cons, List.length_cons]
    cases hl : t.IsBlockLocked b with
    | false =>
      have hc : t.mLockedBlocks.contains b = false := by
        unfold IsBlockLocked at hl
        rw [Bool.or_eq_false_iff] at hl
        exact hl.1
      have hs : (slice d (8 * b) 8).length ≤ 8 := by simp [slice]
      simp only [hc, Bool.false_eq_true, not_false_eq_true, if_true, if_false]
      omega
    | true =>
      simp only [not_true_eq_false, if_false, List.length_nil]
      split
      · rw [List.length_cons]; omega
      · omega

theorem filterMap_entries (m : BlockMap) (g : Nat → Block) (l : List Nat)
    (h : ∀ k ∈ l, ∀ v, m k = some v → v = g k) :
    l.filterMap (fun k => (m k).map fun v => (k, v)) =
      (l.filter (fun k => m.contains k)).map (fun k => (k, g k)) := by
  induction l with
  | nil => rfl
  | cons k l ih =>
    have ih' := ih (fun k hk => h k (List.mem_cons_of_mem _ hk))
    rw [List.filterMap_cons, List.filter_cons]
    cases hm : m k with
    | none =>
      have hc : m.contains k = false := by unfold BlockMap.contains; rw [hm]; rfl
      simp only [Option.map_none', hc, Bool.false_eq_true, if_false]
      exact ih'
    | some v =>
      have hc : m.contains k = true := by unfold BlockMap.contains; rw [hm]; rfl
      have hv := h k (List.mem_cons_self _ _) v hm
      simp only [Option.map_some', hc, if_true, List.map_cons]
      rw [ih', hv]

/-- The entries of the locked map of a dump: the locked blocks in ascending order, each
with its eight bytes in the dump. -/
theorem entries_mLockedBlocks (d : List Byte) :
    (ParseLockedArea TagV0.new d).mLockedBlocks.entries =
      ((List.range 64).filter
        (fun b => (ParseLockedArea TagV0.new d).mLockedBlocks.contains b)).map
        (fun b => (b, slice d (b * 8) 8)) := by
  have hm := ParseLockedArea_mLockedBlocks d
  have hg : ∀ k ∈ List.range 256, ∀ v, (ParseLockedArea TagV0.new d).mLockedBlocks k = some v →
      v = slice d (k * 8) 8 := by
    intro k _ v hv
    rw [hm] at hv
    split at hv
    · exact (Option.some.inj hv).symm
    · cases hv
  have hsplit : List.range 256 = List.range 64 ++ (List.range 192).map (fun i => 64 + i) :=
    List.range_add 64 192
  have htail : ((List.range 192).map (fun i => 64 + i)).filter
      (fun b => (ParseLockedArea TagV0.new d).mLockedBlocks.contains b) = [] := by
    rw [List.filter_eq_nil_iff]
    intro k hk
    obtain ⟨i, -, rfl⟩ := List.mem_map.mp hk
    unfold BlockMap.contains
    rw [hm, if_neg (by omega)]
    simp
  rw [BlockMap.entries, filterMap_entries _ _ _ hg, hsplit, List.filter_append, htail,
    List.append_nil]

theorem appendLocked_closed (entries : List (Nat × Block)) :
    ∀ (pre rest : List Byte), (∀ e ∈ entries, e.2.length = 8) →
      8 * entries.length ≤ rest.length →
      appendLocked entries (pre ++ rest) pre.length =
        pre ++ (entries.map Prod.snd).flatten ++ rest.drop (8 * entries.length) := by
  induction entries with
  | nil =>
    intro pre rest _ _
    simp [appendLocked]
  | cons e es ih =>
    intro pre rest hlen hrest
    obtain ⟨k, v⟩ := e
    have hv : v.length = 8 := hlen (k, v) (List.mem_cons_self _ _)
    rw [List.length_cons] at hrest
    have hsplit : rest = rest.take 8 ++ rest.drop 8 := (List.take_append_drop 8 rest).symm
    have htake : (rest.take 8).length = 8 := by
      rw [List.length_take]; omega
    have hcopy : copyTo v (pre ++ rest) pre.length = (pre ++ v) ++ rest.drop 8 := by
      conv => lhs; rw [hsplit]
      rw [copyTo_mid pre _ _ v pre.length rfl (by rw [hv, htake]), List.append_assoc]
    have hpl : (pre ++ v).length = pre.length + 8 := by rw [List.length_append, hv]
    rw [appendLocked, hcopy, ← hpl,
      ih (pre ++ v) (rest.drop 8) (fun e he => hlen e (List.mem_cons_of_mem _ he))
        (by rw [List.length_drop]; omega)]
    have hk : 8 * ((k, v) :: es).length = 8 + 8 * es.length := by
      rw [List.length_cons]; omega
    simp only [List.map_cons, List.flatten_cons, List.append_assoc, List.drop_drop, hk]

theorem mem_findNdefTlv (ts : List TLV) (x : TLV) (h : findNdefTlv ts = some x) : x ∈ ts := by
  induction ts with
  | nil => cases h
  | cons t ts ih =>
    rw [findNdefTlv] at h
    split at h
    · rw [← Option.some.inj h]
      exact List.mem_cons_self _ _
    · exact List.mem_cons_of_mem _ (ih h)

theorem mem_findUnknownRecord (rs : List ndef.Record) (x : ndef.Record)
    (h : findUnknownRecord rs = some x) : x ∈ rs := by
  induction rs with
  | nil => cases h
  | cons r rs ih =>
    rw [findUnknownRecord] at h
    split at h
    · rw [← Option.some.inj h]
      exact List.mem_cons_self _ _
    · exact List.mem_cons_of_mem _ (ih h)

end TagV0
namespace TagV0

/-- The payload of the Unknown record and the locked blocks of an accepted dump fit into
the dump with room to spare: they come from disjoint blocks of its 512 bytes. -/
theorem FromBytes_sizes (d : List Byte) (t : TagV0) (h : FromBytes d = some t)
    (rec : ndef.Record) (hrec : findUnknownRecord t.mNdefMessage.mRecords = some rec) :
    rec.mPayload.length + 8 *
      ((List.range 64).filter (fun b => t.mLockedBlocks.contains b)).length + 8 ≤ 512 := by
  obtain ⟨-, ndefTlv, msg, rec', -, -, htlvs, -, hndef, hmsg, hmsgeq, hrec', -, hL, -⟩ :=
    FromBytes_some d t h
  rw [hmsgeq, hrec'] at hrec
  have hr : rec' = rec := Option.some.inj hrec
  subst hr
  have h1 := ndef.Message.FromBytes_payload _ _ hmsg rec' (mem_findUnknownRecord _ _ hrec')
  rw [htlvs] at hndef
  have h2 := TLV.FromBytes_value_lt _ _ (mem_findNdefTlv _ _ hndef)
  rw [List.length_drop] at h2
  have h3 := length_gather_add (ParseLockedArea TagV0.new d) d (List.range 64)
  rw [List.length_range] at h3
  have h4 : dataAreaOf d = gather (ParseLockedArea TagV0.new d) d (List.range 64) :=
    ParseDataArea_eq_gather _ _
  rw [← h4] at h3
  rw [hL]
  omega

end TagV0

/-- The canonical buffer of an accepted dump in closed form. -/
theorem TagV0.FromBytes_mData (d : List Byte) (t : TagV0)
    (h : TagV0.FromBytes d = some t) :
    ∃ rec, TagV0.findUnknownRecord t.mNdefMessage.mRecords = some rec ∧
      0 < rec.mPayload.length ∧
      rec.mPayload.length +
        8 * ((List.range 64).filter (fun b => t.mLockedBlocks.contains b)).length ≤ 540 ∧
      t.mData =
        rec.mPayload ++
        (((List.range 64).filter (fun b => t.mLockedBlocks.contains b)).map
          (fun b => slice d (b * 8) 8)).flatten ++
        zeros (540 - (rec.mPayload.length +
          8 * ((List.range 64).filter (fun b => t.mLockedBlocks.contains b)).length)) ∧
      (∀ b, b ∈ (List.range 64).filter (fun b => t.mLockedBlocks.contains b) →
        (slice d (b * 8) 8).length = 8) ∧
      t.mData.length = 540 ∧
      slice t.mData 0x20 4 = [0x4e, 0x4f, 0x46, 0x54] ∧
      t.mLockedBlocks = (TagV0.ParseLockedArea TagV0.new d).mLockedBlocks := by
  obtain ⟨hlen, ndefTlv, msg, rec, -, -, -, -, -, -, hmsgeq, hrec, hP, hL, -, -, hdata, hnoft⟩ :=
    TagV0.FromBytes_some d t h
  have hrec' : TagV0.findUnknownRecord t.mNdefMessage.mRecords = some rec := by
    rw [hmsgeq]; exact hrec
  have hsz := TagV0.FromBytes_sizes d t h rec hrec'
  have hblk : ∀ b, b ∈ (List.range 64).filter (fun b => t.mLockedBlocks.contains b) →
      (slice d (b * 8) 8).length = 8 := by
    intro b hb
    have hb64 : b < 64 := List.mem_range.mp (List.mem_filter.mp hb).1
    exact length_slice _ _ _ (by omega)
  have hent := TagV0.entries_mLockedBlocks d
  rw [← hL] at hent
  have hsnd : (t.mLockedBlocks.entries.map Prod.snd) =
      ((List.range 64).filter (fun b => t.mLockedBlocks.contains b)).map
        (fun b => slice d (b * 8) 8) := by
    rw [hent, List.map_map]
    rfl
  have hentlen : t.mLockedBlocks.entries.length =
      ((List.range 64).filter (fun b => t.mLockedBlocks.contains b)).length := by
    rw [hent, List.length_map]
  have hent8 : ∀ e ∈ t.mLockedBlocks.entries, e.2.length = 8 := by
    intro e he
    rw [hent] at he
    obtain ⟨b, hb, rfl⟩ := List.mem_map.mp he
    exact hblk b hb
  have hz : zeros 540 = [] ++ (zeros rec.mPayload.length ++ zeros (540 - rec.mPayload.length)) := by
    rw [List.nil_append, zeros, zeros, zeros, ← List.replicate_add]
    congr 1
    omega
  have hcopy : copyTo rec.mPayload (zeros 540) 0 =
      rec.mPayload ++ zeros (540 - rec.mPayload.length) := by
    rw [hz, copyTo_mid [] _ _ _ 0 rfl (by rw [length_zeros]), List.nil_append]
  have hdata' : t.mData = rec.mPayload ++ (t.mLockedBlocks.entries.map Prod.snd).flatten ++
      (zeros (540 - rec.mPayload.length)).drop (8 * t.mLockedBlocks.entries.length) := by
    rw [hdata, ← hL, hcopy]
    exact TagV0.appendLocked_closed _ _ _ hent8 (by rw [length_zeros, hentlen]; omega)
  have hdrop : (zeros (540 - rec.mPayload.length)).drop (8 * t.mLockedBlocks.entries.length) =
      zeros (540 - (rec.mPayload.length +
        8 * ((List.range 64).filter (fun b => t.mLockedBlocks.contains b)).length)) := by
    rw [zeros, List.drop_replicate, hentlen, zeros]
    congr 1
    omega
  have hfl : (((List.range 64).filter (fun b => t.mLockedBlocks.contains b)).map
      (fun b => slice d (b * 8) 8)).flatten.length =
      8 * ((List.range 64).filter (fun b => t.mLockedBlocks.contains b)).length := by
    generalize (List.range 64).filter (fun b => t.mLockedBlocks.contains b) = bs at hblk
    induction bs with
    | nil => rfl
    | cons b bs ih =>
      rw [List.map_cons, List.flatten_cons, List.length_append,
        hblk b (List.mem_cons_self _ _), ih (fun b hb => hblk b (List.mem_cons_of_mem _ hb)),
        List.length_cons]
      omega
  rw [hsnd, hdrop] at hdata'
  refine ⟨rec, hrec', Nat.pos_of_ne_zero hP, by omega, hdata', hblk, ?_, hnoft, hL⟩
  rw [hdata', List.length_append, List.length_append, hfl, length_zeros]
  omega

/-- **C24.** Whenever `TagV0::FromBytes` returns a tag, its canonical buffer is the
payload of the first record whose type-name-format is Unknown (`P` bytes, `P > 0`),
followed by the 8-byte contents in the dump of the `L` locked blocks in ascending block
order, followed by zero bytes up to 540 (`P + 8 L` does not exceed 540); the bytes at
offsets 0x20 to 0x23 are `NOFT`. The locked blocks are those of the locked map that
`ParseLockedArea` builds from the dump. -/
theorem TagV0_FromBytes_canonical_buffer (d : List Byte)
    (h : (TagV0.FromBytes d).isSome = true) :
    ∃ t rec, TagV0.FromBytes d = some t ∧
      TagV0.findUnknownRecord t.mNdefMessage.mRecords = some rec ∧
      0 < rec.mPayload.length ∧
      rec.mPayload.length +
        8 * ((List.range 64).filter (fun b => t.mLockedBlocks.contains b)).length ≤ 540 ∧
      t.mData =
        rec.mPayload ++
        (((List.range 64).filter (fun b => t.mLockedBlocks.contains b)).map
          (fun b => slice d (b * 8) 8)).flatten ++
        zeros (540 - (rec.mPayload.length +
          8 * ((List.range 64).filter (fun b => t.mLockedBlocks.contains b)).length)) ∧
      (∀ b, b ∈ (List.range 64).filter (fun b => t.mLockedBlocks.contains b) →
        (slice d (b * 8) 8).length = 8) ∧
      t.mData.length = 540 ∧
      slice t.mData 0x20 4 = [0x4e, 0x4f, 0x46, 0x54] ∧
      t.mLockedBlocks = (TagV0.ParseLockedArea TagV0.new d).mLockedBlocks := by
  cases hdec : TagV0.FromBytes d with
  | none => rw [hdec] at h; cases h
  | some t =>
    obtain ⟨rec, hrest⟩ := TagV0.FromBytes_mData d t hdec
    exact ⟨t, rec, rfl, hrest⟩

theorem TagV0_FromBytes_canonical_buffer_witness :
    (TagV0.FromBytes (exampleDumpV0 0x81 0)).isSome = true ∧
    (∃ t rec, TagV0.FromBytes (exampleDumpV0 0x81 0) = some t ∧
       TagV0.findUnknownRecord t.mNdefMessage.mRecords = some rec ∧
       0 < rec.mPayload.length ∧
       rec.mPayload.length +
         8 * ((List.range 64).filter (fun b => t.mLockedBlocks.contains b)).length ≤ 540 ∧
       t.mData =
         rec.mPayload ++
         (((List.range 64).filter (fun b => t.mLockedBlocks.contains b)).map
           (fun b => slice (exampleDumpV0 0x81 0) (b * 8) 8)).flatten ++
         zeros (540 - (rec.mPayload.length +
           8 * ((List.range 64).filter (fun b => t.mLockedBlocks.contains b)).length)) ∧
       (∀ b, b ∈ (List.range 64).filter (fun b => t.mLockedBlocks.contains b) →
         (slice (exampleDumpV0 0x81 0) (b * 8) 8).length = 8) ∧
       t.mData.length = 540 ∧
       slice t.mData 0x20 4 = [0x4e, 0x4f, 0x46, 0x54] ∧
       t.mLockedBlocks = (TagV0.ParseLockedArea TagV0.new (exampleDumpV0 0x81 0)).mLockedBlocks) :=
  ⟨by decide!,
    TagV0_FromBytes_canonical_buffer (exampleDumpV0 0x81 0)
      (by decide!)⟩

/-! ## TagV0: failing inputs of the encoder -/

/-- **C28 (failing input).** A 512-byte dump that `TagV0::FromBytes` accepts and in which
block 7, after the TERMINATOR, is free as well: the dump has 7 free blocks (a data area
of 56 bytes) but the data area `TagV0::ToBytes` rebuilds has 48 bytes, so the copy for
the seventh free block reads past its end (`none` in the model). -/
theorem TagV0_rebuilt_data_area_too_short :
    (exampleDumpV0 0x01 0).length = 512 ∧
    (TagV0.FromBytes (exampleDumpV0 0x01 0)).isSome = true ∧
    (TagV0.dataAreaOf (exampleDumpV0 0x01 0)).length = 8 * 7 ∧
    ((TagV0.FromBytes (exampleDumpV0 0x01 0)).bind TagV0.rebuiltDataArea).map List.length =
      some 48 ∧
    (TagV0.FromBytes (exampleDumpV0 0x01 0)).bind TagV0.ToBytes = none := by
  decide!

/-- **C25 (failing input).** A 512-byte dump that `TagV0::FromBytes` accepts and in which
the lock bit of block 14 is clear. `TagV0::ToBytes` of the unmodified tag leaves block 14
zero, so the lock bytes 0x70 and 0x71 are lost; decoding the result succeeds, but with 48
locked blocks instead of 54, and its canonical bytes from offset 36 on (the locked area)
are those of block 16 on instead of those of block 7 on. -/
theorem TagV0_edit_roundtrip_fails :
    exampleDumpUnlocked14.length = 512 ∧
    (TagV0.FromBytes exampleDumpUnlocked14).map (fun t => t.mLockedBlocks.entries.length) =
      some 54 ∧
    ((TagV0.FromBytes exampleDumpUnlocked14).bind TagV0.ToBytes).map (fun e => slice e 0x70 8) =
      some (zeros 8) ∧
    (((TagV0.FromBytes exampleDumpUnlocked14).bind TagV0.ToBytes).bind TagV0.FromBytes).map
      (fun t => t.mLockedBlocks.entries.length) = some 48 ∧
    (TagV0.FromBytes exampleDumpUnlocked14).map (fun t => slice t.mData 36 8) =
      some (List.replicate 8 0x22) ∧
    (((TagV0.FromBytes exampleDumpUnlocked14).bind TagV0.ToBytes).bind TagV0.FromBytes).map
      (fun t => slice t.mData 36 8) = some (List.replicate 8 0x44) := by
  decide!

/-! ## Layout: the regions inside the canonical buffer -/

/-- **C37.** For both tag versions the two 32-byte HMAC slots, the unfixed-infos region,
the locked-secret region, the UID field the KDF reads (16 bytes for version 0, 8 for
version 2) and the 32-byte key generation salt region are pairwise disjoint and lie
inside `[0, dataSize)`, `dataSize` is at most 540, and `dataSize - hmacOffset - d` does
not underflow for either domain (`d` is 0x20, or 0x21 for unfixed-infos on version 2):
the 32-bit differences the code forms are the plain differences. -/
theorem layout_regions_well_formed (L : Layout) (hL : L = TagV0.layout ∨ L = TagV2.layout) :
    L.GetDataSize ≤ 540 ∧
    -- every region lies inside [0, dataSize)
    L.GetUnfixedInfosHmacOffset + 0x20 ≤ L.GetDataSize ∧
    L.GetLockedSecretHmacOffset + 0x20 ≤ L.GetDataSize ∧
    L.GetUnfixedInfosOffset + L.GetUnfixedInfosSize ≤ L.GetDataSize ∧
    L.GetLockedSecretOffset + L.GetLockedSecretSize ≤ L.GetDataSize ∧
    L.GetUidOffset + (if L.GetVersion = 0 then 0x10 else 8) ≤ L.GetDataSize ∧
    L.GetKeyGenSaltOffset + 0x20 ≤ L.GetDataSize ∧
    -- the regions are pairwise disjoint: in ascending order each ends before the next
    L.GetUnfixedInfosHmacOffset + 0x20 ≤ L.GetUnfixedInfosOffset ∧
    L.GetUnfixedInfosOffset + L.GetUnfixedInfosSize ≤ L.GetLockedSecretHmacOffset ∧
    (L.GetVersion = 0 →
      L.GetLockedSecretHmacOffset + 0x20 ≤ L.GetLockedSecretOffset ∧
      L.GetLockedSecretOffset + L.GetLockedSecretSize ≤ L.GetUidOffset ∧
      L.GetUidOffset + 0x10 ≤ L.GetKeyGenSaltOffset) ∧
    (L.GetVersion = 2 →
      L.GetLockedSecretHmacOffset + 0x20 ≤ L.GetUidOffset ∧
      L.GetUidOffset + 8 ≤ L.GetLockedSecretOffset ∧
      L.GetLockedSecretOffset + L.GetLockedSecretSize ≤ L.GetKeyGenSaltOffset) ∧
    -- no underflow in the ranges the HMACs cover
    L.GetLockedSecretHmacOffset + 0x20 ≤ L.GetDataSize ∧
    L.GetUnfixedInfosHmacOffset + (if L.GetVersion = 0 then 0x20 else 0x21) ≤ L.GetDataSize ∧
    sub32 (sub32 L.GetDataSize L.GetLockedSecretHmacOffset) 0x20 =
      L.GetDataSize - L.GetLockedSecretHmacOffset - 0x20 ∧
    sub32 (sub32 L.GetDataSize L.GetUnfixedInfosHmacOffset)
        (if L.GetVersion = 0 then 0x20 else 0x21) =
      L.GetDataSize - L.GetUnfixedInfosHmacOffset - (if L.GetVersion = 0 then 0x20 else 0x21) ∧
    add32 L.GetLockedSecretHmacOffset 0x20 = L.GetLockedSecretHmacOffset + 0x20 ∧
    add32 L.GetUnfixedInfosHmacOffset (if L.GetVersion = 0 then 0x20 else 0x21) =
      L.GetUnfixedInfosHmacOffset + (if L.GetVersion = 0 then 0x20 else 0x21) := by
  rcases hL with h | h <;> subst h <;> decide

theorem layout_regions_well_formed_witness :
    (TagV2.layout = TagV0.layout ∨ TagV2.layout = TagV2.layout) ∧
    TagV2.layout.GetDataSize ≤ 540 ∧
    TagV2.layout.GetLockedSecretHmacOffset + 0x20 ≤ TagV2.layout.GetUidOffset :=
  ⟨Or.inr rfl,
    (layout_regions_well_formed TagV2.layout (Or.inr rfl)).1,
    ((layout_regions_well_formed TagV2.layout (Or.inr rfl)).2.2.2.2.2.2.2.2.2.2.1 rfl).1⟩

/-- **C38.** `EncryptTag` and `DecryptTag` are atomic on primitive failure: when the
AES-CTR call for the unfixed-infos region fails, or for a version-0 tag the call for the
locked-secret region, the operation returns false and the state, with every byte of the
canonical buffer and the is-ciphertext flag, is the one before. In general an operation
that returns false has changed nothing. -/
theorem EncryptTag_DecryptTag_atomic (P : Primitives) (te : TagEncryption)
    (hL : te.mTag.layout = TagV0.layout ∨ te.mTag.layout = TagV2.layout)
    (hlen : te.mTag.mData.length = 540) :
    ((P.aes_crypt_ctr te.mUnfixedInfosKey te.mUnfixedInfosNonce
          (slice te.mTag.mData te.mTag.layout.GetUnfixedInfosOffset
            te.mTag.layout.GetUnfixedInfosSize) = none ∨
        (te.mTag.layout.GetVersion = 0 ∧
          P.aes_crypt_ctr te.mLockedSecretKey te.mLockedSecretNonce
            (slice te.mTag.mData te.mTag.layout.GetLockedSecretOffset
              te.mTag.layout.GetLockedSecretSize) = none)) →
      TagEncryption.EncryptTag P te = (false, te) ∧
      TagEncryption.DecryptTag P te = (false, te)) ∧
    ((TagEncryption.EncryptTag P te).1 = false → (TagEncryption.EncryptTag P te).2 = te) ∧
    ((TagEncryption.DecryptTag P te).1 = false → (TagEncryption.DecryptTag P te).2 = te) := by
  have hfail : (TagEncryption.CryptTag P te).1 = false → (TagEncryption.CryptTag P te).2 = te := by
    intro h
    rcases hL with hL | hL
    · rw [TagEncryption.CryptTag_v0 P te hL hlen] at h ⊢
      split at h
      · cases h
      · rfl
    · rw [TagEncryption.CryptTag_v2 P te hL hlen] at h ⊢
      split at h
      · cases h
      · rfl
  have hE : (TagEncryption.EncryptTag P te).1 = false → (TagEncryption.EncryptTag P te).2 = te := by
    unfold TagEncryption.EncryptTag
    split
    · intro _; rfl
    · dsimp only
      split
      · rename_i hc
        intro _
        exact hfail hc
      · intro h; cases h
  have hD : (TagEncryption.DecryptTag P te).1 = false → (TagEncryption.DecryptTag P te).2 = te := by
    unfold TagEncryption.DecryptTag
    split
    · intro _; rfl
    · dsimp only
      split
      · rename_i hc
        intro _
        exact hfail hc
      · intro h; cases h
  refine ⟨?_, hE, hD⟩
  intro hprim
  have hc : (TagEncryption.CryptTag P te).1 = false := by
    rcases hL with hL | hL
    · rw [TagEncryption.CryptTag_v0 P te hL hlen]
      rw [hL] at hprim
      rcases hprim with h | ⟨-, h⟩
      · have h' : P.aes_crypt_ctr te.mUnfixedInfosKey te.mUnfixedInfosNonce
            (slice te.mTag.mData 0x28 0x120) = none := h
        rw [h']
        cases P.aes_crypt_ctr te.mLockedSecretKey te.mLockedSecretNonce
          (slice te.mTag.mData 0x168 0x30) <;> rfl
      · have h' : P.aes_crypt_ctr te.mLockedSecretKey te.mLockedSecretNonce
            (slice te.mTag.mData 0x168 0x30) = none := h
        rw [h']
    · rw [TagEncryption.CryptTag_v2 P te hL hlen]
      rw [hL] at hprim
      rcases hprim with h | ⟨hv, -⟩
      · have h' : P.aes_crypt_ctr te.mUnfixedInfosKey te.mUnfixedInfosNonce
            (slice te.mTag.mData 0x2c 0x188) = none := h
        rw [h']
      · cases hv
  have hE1 : (TagEncryption.EncryptTag P te).1 = false := by
    unfold TagEncryption.EncryptTag
    split
    · rfl
    · dsimp only
      rw [if_pos hc]
  have hD1 : (TagEncryption.DecryptTag P te).1 = false := by
    unfold TagEncryption.DecryptTag
    split
    · rfl
    · dsimp only
      rw [if_pos hc]
  exact ⟨Prod.ext hE1 (hE hE1), Prod.ext hD1 (hD hD1)⟩

theorem EncryptTag_DecryptTag_atomic_witness :
    ((exampleTagEncryption TagV0.layout).mTag.layout = TagV0.layout ∨ (exampleTagEncryption TagV0.layout).mTag.layout = TagV2.layout) ∧
    (exampleTagEncryption TagV0.layout).mTag.mData.length = 540 ∧
    (((failingPrimitives.aes_crypt_ctr (exampleTagEncryption TagV0.layout).mUnfixedInfosKey (exampleTagEncryption TagV0.layout).mUnfixedInfosNonce
           (slice (exampleTagEncryption TagV0.layout).mTag.mData (exampleTagEncryption TagV0.layout).mTag.layout.GetUnfixedInfosOffset
             (exampleTagEncryption TagV0.layout).mTag.layout.GetUnfixedInfosSize) = none ∨
         ((exampleTagEncryption TagV0.layout).mTag.layout.GetVersion = 0 ∧
           failingPrimitives.aes_crypt_ctr (exampleTagEncryption TagV0.layout).mLockedSecretKey (exampleTagEncryption TagV0.layout).mLockedSecretNonce
             (slice (exampleTagEncryption TagV0.layout).mTag.mData (exampleTagEncryption TagV0.layout).mTag.layout.GetLockedSecretOffset
               (exampleTagEncryption TagV0.layout).mTag.layout.GetLockedSecretSize) = none)) →
       TagEncryption.EncryptTag failingPrimitives (exampleTagEncryption TagV0.layout) = (false, (exampleTagEncryption TagV0.layout)) ∧
       TagEncryption.DecryptTag failingPrimitives (exampleTagEncryption TagV0.layout) = (false, (exampleTagEncryption TagV0.layout))) ∧
     ((TagEncryption.EncryptTag failingPrimitives (exampleTagEncryption TagV0.layout)).1 = false → (TagEncryption.EncryptTag failingPrimitives (exampleTagEncryption TagV0.layout)).2 = (exampleTagEncryption TagV0.layout)) ∧
     ((TagEncryption.DecryptTag failingPrimitives (exampleTagEncryption TagV0.layout)).1 = false → (TagEncryption.DecryptTag failingPrimitives (exampleTagEncryption TagV0.layout)).2 = (exampleTagEncryption TagV0.layout))) :=
  ⟨Or.inl rfl, by simp [exampleTagEncryption],
    EncryptTag_DecryptTag_atomic failingPrimitives (exampleTagEncryption TagV0.layout)
      (Or.inl rfl) (by simp [exampleTagEncryption])⟩

/-! ## The two HMACs, one after the other -/

/-- **C39.** For both tag versions the unfixed-infos HMAC slot lies before the range the
locked-secret HMAC covers, and the locked-secret HMAC slot lies inside the range the
unfixed-infos HMAC covers. When `UpdateLockedSecretHMAC` and then
`UpdateUnfixedInfosHMAC` succeed (which they only do on a cleartext tag), both
`ValidateLockedSecretHMAC` and `ValidateUnfixedInfosHMAC` return true afterwards. -/
theorem UpdateHMACs_in_order_validate (P : Primitives) (te te1 te2 : TagEncryption)
    (hL : te.mTag.layout = TagV0.layout ∨ te.mTag.layout = TagV2.layout)
    (hlen : te.mTag.mData.length = 540)
    (h1 : TagEncryption.UpdateLockedSecretHMAC P te = (true, te1))
    (h2 : TagEncryption.UpdateUnfixedInfosHMAC P te1 = (true, te2)) :
    -- the unfixed-infos slot is outside the range of the locked-secret HMAC
    te.mTag.layout.GetUnfixedInfosHmacOffset + 0x20 ≤
      te.mTag.layout.GetLockedSecretHmacOffset + 0x20 ∧
    -- the locked-secret slot is inside the range of the unfixed-infos HMAC
    te.mTag.layout.GetUnfixedInfosHmacOffset +
        (if te.mTag.layout.GetVersion = 0 then 0x20 else 0x21) ≤
      te.mTag.layout.GetLockedSecretHmacOffset ∧
    te.mTag.layout.GetLockedSecretHmacOffset + 0x20 ≤ te.mTag.layout.GetDataSize ∧
    te.mTag.mIsEncrypted = false ∧
    TagEncryption.ValidateLockedSecretHMAC P te2 = true ∧
    TagEncryption.ValidateUnfixedInfosHMAC P te2 = true := by
  have f1 : te.mTag.layout.GetUnfixedInfosHmacOffset + 0x21 ≤
      te.mTag.layout.GetLockedSecretHmacOffset := by
    rcases hL with h | h <;> rw [h] <;> decide
  have f2 : te.mTag.layout.GetLockedSecretHmacOffset + 0x20 ≤ te.mTag.layout.GetDataSize ∧
      te.mTag.layout.GetDataSize ≤ 540 := by
    rcases hL with h | h <;> rw [h] <;> decide
  have f3 : 0x20 ≤ (if te.mTag.layout.GetVersion = 0 then 0x20 else 0x21) ∧
      (if te.mTag.layout.GetVersion = 0 then 0x20 else 0x21) ≤ 0x21 := by
    split <;> decide
  have hclear : te.mTag.mIsEncrypted = false := by
    cases henc : te.mTag.mIsEncrypted with
    | false => rfl
    | true =>
      rw [TagEncryption.UpdateLockedSecretHMAC, Tag.IsEncrypted, henc, if_pos rfl] at h1
      cases h1
  -- the first update
  rw [TagEncryption.UpdateLockedSecretHMAC_eq P te hL hclear] at h1
  cases hm1 : P.md_hmac te.mLockedSecretDerivedHmacKey
      (slice te.mTag.mData (te.mTag.layout.GetLockedSecretHmacOffset + 0x20)
        (te.mTag.layout.GetDataSize - te.mTag.layout.GetLockedSecretHmacOffset - 0x20)) with
  | none => rw [hm1] at h1; cases h1
  | some mac1 =>
  rw [hm1] at h1
  have hl1 := P.md_hmac_length _ _ _ hm1
  have e1 : te1 = te.setData (copyTo mac1 te.mTag.mData te.mTag.layout.GetLockedSecretHmacOffset) :=
    (congrArg Prod.snd h1).symm
  have hd1 : te1.mTag.mData =
      copyTo mac1 te.mTag.mData te.mTag.layout.GetLockedSecretHmacOffset := by rw [e1]; rfl
  have hlay1 : te1.mTag.layout = te.mTag.layout := by rw [e1]; rfl
  have hclear1 : te1.mTag.mIsEncrypted = false := by rw [e1]; exact hclear
  have hkL1 : te1.mLockedSecretDerivedHmacKey = te.mLockedSecretDerivedHmacKey := by rw [e1]; rfl
  have hkU1 : te1.mUnfixedInfosDerivedHmacKey = te.mUnfixedInfosDerivedHmacKey := by rw [e1]; rfl
  have hL1 : te1.mTag.layout = TagV0.layout ∨ te1.mTag.layout = TagV2.layout := by
    rw [hlay1]; exact hL
  have hlen1 : te1.mTag.mData.length = 540 := by
    rw [hd1, length_copyTo _ _ _ (by omega), hlen]
  -- the second update
  rw [TagEncryption.UpdateUnfixedInfosHMAC_eq P te1 hL1 hclear1] at h2
  cases hm2 : P.md_hmac te1.mUnfixedInfosDerivedHmacKey
      (slice te1.mTag.mData
        (te1.mTag.layout.GetUnfixedInfosHmacOffset +
          (if te1.mTag.layout.GetVersion = 0 then 0x20 else 0x21))
        (te1.mTag.layout.GetDataSize - te1.mTag.layout.GetUnfixedInfosHmacOffset -
          (if te1.mTag.layout.GetVersion = 0 then 0x20 else 0x21))) with
  | none => rw [hm2] at h2; cases h2
  | some mac2 =>
  rw [hm2] at h2
  have hl2 := P.md_hmac_length _ _ _ hm2
  have e2 : te2 = te1.setData (copyTo mac2 te1.mTag.mData te1.mTag.layout.GetUnfixedInfosHmacOffset) :=
    (congrArg Prod.snd h2).symm
  have hd2 : te2.mTag.mData =
      copyTo mac2 te1.mTag.mData te1.mTag.layout.GetUnfixedInfosHmacOffset := by rw [e2]; rfl
  have hlay2 : te2.mTag.layout = te1.mTag.layout := by rw [e2]; rfl
  have hclear2 : te2.mTag.mIsEncrypted = false := by rw [e2]; exact hclear1
  have hkL2 : te2.mLockedSecretDerivedHmacKey = te1.mLockedSecretDerivedHmacKey := by rw [e2]; rfl
  have hkU2 : te2.mUnfixedInfosDerivedHmacKey = te1.mUnfixedInfosDerivedHmacKey := by rw [e2]; rfl
  have hL2 : te2.mTag.layout = TagV0.layout ∨ te2.mTag.layout = TagV2.layout := by
    rw [hlay2]; exact hL1
  rw [hlay1] at hm2 hd2
  rw [hkU1, hd1] at hm2
  refine ⟨by omega, by omega, f2.1, hclear, ?_, ?_⟩
  · rw [TagEncryption.ValidateLockedSecretHMAC_eq P te2 hL2 hclear2, hkL2, hkL1, hlay2, hlay1,
      hd2, hd1]
    rw [slice_copyTo_disjoint _ _ _ _ _ (by rw [length_copyTo _ _ _ (by omega)]; omega)
        (Or.inr (by omega)),
      slice_copyTo_disjoint _ _ _ _ _ (by omega) (Or.inr (by omega)), hm1]
    dsimp only
    rw [slice_copyTo_disjoint _ _ _ _ _ (by rw [length_copyTo _ _ _ (by omega)]; omega)
        (Or.inr (by omega)), ← hl1,
      slice_copyTo_self _ _ _ (by omega)]
    exact decide_eq_true rfl
  · rw [TagEncryption.ValidateUnfixedInfosHMAC_eq P te2 hL2 hclear2, hkU2, hkU1, hlay2, hlay1,
      hd2, hd1]
    rw [slice_copyTo_disjoint _ _ _ _ _ (by rw [length_copyTo _ _ _ (by omega)]; omega)
        (Or.inr (by omega)), hm2]
    dsimp only
    rw [← hl2, slice_copyTo_self _ _ _ (by rw [length_copyTo _ _ _ (by omega)]; omega)]
    exact decide_eq_true rfl

theorem UpdateHMACs_in_order_validate_witness :
    ((exampleTagEncryption TagV0.layout).mTag.layout = TagV0.layout ∨ (exampleTagEncryption TagV0.layout).mTag.layout = TagV2.layout) ∧
    (exampleTagEncryption TagV0.layout).mTag.mData.length = 540 ∧
    TagEncryption.UpdateLockedSecretHMAC toyPrimitives (exampleTagEncryption TagV0.layout) = (true, (TagEncryption.UpdateLockedSecretHMAC toyPrimitives (exampleTagEncryption TagV0.layout)).2) ∧
    TagEncryption.UpdateUnfixedInfosHMAC toyPrimitives (TagEncryption.UpdateLockedSecretHMAC toyPrimitives (exampleTagEncryption TagV0.layout)).2 = (true, (TagEncryption.UpdateUnfixedInfosHMAC toyPrimitives (TagEncryption.UpdateLockedSecretHMAC toyPrimitives (exampleTagEncryption TagV0.layout)).2).2) ∧
    (
     (exampleTagEncryption TagV0.layout).mTag.layout.GetUnfixedInfosHmacOffset + 0x20 ≤
       (exampleTagEncryption TagV0.layout).mTag.layout.GetLockedSecretHmacOffset + 0x20 ∧
     (exampleTagEncryption TagV0.layout).mTag.layout.GetUnfixedInfosHmacOffset +
         (if (exampleTagEncryption TagV0.layout).mTag.layout.GetVersion = 0 then 0x20 else 0x21) ≤
       (exampleTagEncryption TagV0.layout).mTag.layout.GetLockedSecretHmacOffset ∧
     (exampleTagEncryption TagV0.layout).mTag.layout.GetLockedSecretHmacOffset + 0x20 ≤ (exampleTagEncryption TagV0.layout).mTag.layout.GetDataSize ∧
     (exampleTagEncryption TagV0.layout).mTag.mIsEncrypted = false ∧
     TagEncryption.ValidateLockedSecretHMAC toyPrimitives (TagEncryption.UpdateUnfixedInfosHMAC toyPrimitives (TagEncryption.UpdateLockedSecretHMAC toyPrimitives (exampleTagEncryption TagV0.layout)).2).2 = true ∧
     TagEncryption.ValidateUnfixedInfosHMAC toyPrimitives (TagEncryption.UpdateUnfixedInfosHMAC toyPrimitives (TagEncryption.UpdateLockedSecretHMAC toyPrimitives (exampleTagEncryption TagV0.layout)).2).2 = true) :=
  ⟨Or.inl rfl, by simp [exampleTagEncryption], by decide!, by decide!,
    UpdateHMACs_in_order_validate toyPrimitives (exampleTagEncryption TagV0.layout) (TagEncryption.UpdateLockedSecretHMAC toyPrimitives (exampleTagEncryption TagV0.layout)).2 (TagEncryption.UpdateUnfixedInfosHMAC toyPrimitives
        (TagEncryption.UpdateLockedSecretHMAC toyPrimitives (exampleTagEncryption TagV0.layout)).2).2
      (Or.inl rfl) (by simp [exampleTagEncryption]) (by decide!) (by decide!)⟩

/-! ## Key derivation from ciphertext and from cleartext -/

namespace TagEncryption

theorem GenerateInternalKeys_eq_withBuffers (P : Primitives) (te : TagEncryption) :
    GenerateInternalKeys P te =
      GenerateInternalKeys.withBuffers P te (GenerateInternalKeys.lockedSecretBuffer te)
        (GenerateInternalKeys.unfixedInfosBuffer te) := by
  unfold GenerateInternalKeys GenerateInternalKeys.withBuffers
  rfl

theorem withBuffers_withBuffer (P : Primitives) (te : TagEncryption) (data : List Byte)
    (flag : Bool) (bL bU : Option (List Byte)) :
    GenerateInternalKeys.withBuffers P (te.withBuffer data flag) bL bU =
      ((GenerateInternalKeys.withBuffers P te bL bU).1,
        (GenerateInternalKeys.withBuffers P te bL bU).2.withBuffer data flag) := by
  unfold GenerateInternalKeys.withBuffers
  cases bL with
  | none => rfl
  | some b1 =>
    dsimp only
    have hk : (te.withBuffer data flag).mKeys = te.mKeys := rfl
    rw [hk]
    split
    · rfl
    · cases bU with
      | none => rfl
      | some b2 =>
        dsimp only
        split
        · rfl
        · rfl

theorem buffers_withBuffer (te : TagEncryption) (data : List Byte) (flag : Bool)
    (huid16 : slice data te.mTag.layout.GetUidOffset 0x10 =
      slice te.mTag.mData te.mTag.layout.GetUidOffset 0x10)
    (huid8 : slice data te.mTag.layout.GetUidOffset 8 =
      slice te.mTag.mData te.mTag.layout.GetUidOffset 8)
    (hseed : slice data te.mTag.layout.GetSeedOffset 2 =
      slice te.mTag.mData te.mTag.layout.GetSeedOffset 2) :
    GenerateInternalKeys.lockedSecretBuffer (te.withBuffer data flag) =
      GenerateInternalKeys.lockedSecretBuffer te ∧
    GenerateInternalKeys.unfixedInfosBuffer (te.withBuffer data flag) =
      GenerateInternalKeys.unfixedInfosBuffer te := by
  unfold GenerateInternalKeys.lockedSecretBuffer GenerateInternalKeys.unfixedInfosBuffer
    GenerateInternalKeys.fillUidAndSalt
  simp only [withBuffer, copy_n, huid16, huid8, hseed]
  exact ⟨trivial, trivial⟩

theorem GenerateKeyGenSalt_withBuffer (P : Primitives) (te : TagEncryption) (data : List Byte)
    (flag : Bool)
    (hsalt : slice data te.mTag.layout.GetKeyGenSaltOffset 0x20 =
      slice te.mTag.mData te.mTag.layout.GetKeyGenSaltOffset 0x20) :
    GenerateKeyGenSalt P (te.withBuffer data flag) =
      ((GenerateKeyGenSalt P te).1, (GenerateKeyGenSalt P te).2.withBuffer data flag) := by
  unfold GenerateKeyGenSalt
  simp only [withBuffer, Tag.GetData, hsalt]
  split <;> rfl

theorem InitializeInternalKeys_withBuffer (P : Primitives) (te : TagEncryption)
    (data : List Byte) (flag : Bool)
    (hsalt : slice data te.mTag.layout.GetKeyGenSaltOffset 0x20 =
      slice te.mTag.mData te.mTag.layout.GetKeyGenSaltOffset 0x20)
    (huid16 : slice data te.mTag.layout.GetUidOffset 0x10 =
      slice te.mTag.mData te.mTag.layout.GetUidOffset 0x10)
    (huid8 : slice data te.mTag.layout.GetUidOffset 8 =
      slice te.mTag.mData te.mTag.layout.GetUidOffset 8)
    (hseed : slice data te.mTag.layout.GetSeedOffset 2 =
      slice te.mTag.mData te.mTag.layout.GetSeedOffset 2) :
    InitializeInternalKeys P (te.withBuffer data flag) =
      ((InitializeInternalKeys P te).1, (InitializeInternalKeys P te).2.withBuffer data flag) := by
  have hf := (GenerateKeyGenSalt_fields P te).1
  have hb := buffers_withBuffer (GenerateKeyGenSalt P te).2 data flag
    (by rw [hf]; exact huid16) (by rw [hf]; exact huid8) (by rw [hf]; exact hseed)
  have hg : GenerateInternalKeys P ((GenerateKeyGenSalt P te).2.withBuffer data flag) =
      ((GenerateInternalKeys P (GenerateKeyGenSalt P te).2).1,
        (GenerateInternalKeys P (GenerateKeyGenSalt P te).2).2.withBuffer data flag) := by
    rw [GenerateInternalKeys_eq_withBuffers, GenerateInternalKeys_eq_withBuffers, hb.1, hb.2,
      withBuffers_withBuffer]
  unfold InitializeInternalKeys
  have hv : (te.withBuffer data flag).mTag.layout = te.mTag.layout := rfl
  rw [hv, GenerateKeyGenSalt_withBuffer P te data flag hsalt]
  split
  · rfl
  · dsimp only
    split
    · rfl
    · rw [hg]
      dsimp only
      split <;> rfl

end TagEncryption

/-- **C31.** For both tag versions the bytes `InitializeInternalKeys` reads from the
canonical buffer (the 2 seed bytes, the UID field and the 32-byte key generation salt
region) lie outside the regions `EncryptTag` and `DecryptTag` rewrite. So after a
successful `EncryptTag` or `DecryptTag`, `InitializeInternalKeys` returns the same
result and derives the same key generation salt and the same six session keys as
before it. -/
theorem InitializeInternalKeys_ciphertext_eq_cleartext (P : Primitives)
    (te te' : TagEncryption)
    (hL : te.mTag.layout = TagV0.layout ∨ te.mTag.layout = TagV2.layout)
    (hlen : te.mTag.mData.length = 540)
    (h : TagEncryption.EncryptTag P te = (true, te') ∨
      TagEncryption.DecryptTag P te = (true, te')) :
    -- the seed bytes lie before the unfixed-infos region, the UID field and the salt
    -- region after it
    te.mTag.layout.GetSeedOffset + 2 ≤ te.mTag.layout.GetUnfixedInfosOffset ∧
    te.mTag.layout.GetUnfixedInfosOffset + te.mTag.layout.GetUnfixedInfosSize ≤
      te.mTag.layout.GetUidOffset ∧
    te.mTag.layout.GetUidOffset + (if te.mTag.layout.GetVersion = 0 then 0x10 else 8) ≤
      te.mTag.layout.GetKeyGenSaltOffset ∧
    -- for version 0 the locked-secret region lies between the seed and the UID field
    (te.mTag.layout.GetVersion = 0 →
      te.mTag.layout.GetSeedOffset + 2 ≤ te.mTag.layout.GetLockedSecretOffset ∧
      te.mTag.layout.GetLockedSecretOffset + te.mTag.layout.GetLockedSecretSize ≤
        te.mTag.layout.GetUidOffset) ∧
    (TagEncryption.InitializeInternalKeys P te').1 =
      (TagEncryption.InitializeInternalKeys P te).1 ∧
    (TagEncryption.InitializeInternalKeys P te').2.mKeyGenSalt =
      (TagEncryption.InitializeInternalKeys P te).2.mKeyGenSalt ∧
    (TagEncryption.InitializeInternalKeys P te').2.mLockedSecretKey =
      (TagEncryption.InitializeInternalKeys P te).2.mLockedSecretKey ∧
    (TagEncryption.InitializeInternalKeys P te').2.mLockedSecretNonce =
      (TagEncryption.InitializeInternalKeys P te).2.mLockedSecretNonce ∧
    (TagEncryption.InitializeInternalKeys P te').2.mLockedSecretDerivedHmacKey =
      (TagEncryption.InitializeInternalKeys P te).2.mLockedSecretDerivedHmacKey ∧
    (TagEncryption.InitializeInternalKeys P te').2.mUnfixedInfosKey =
      (TagEncryption.InitializeInternalKeys P te).2.mUnfixedInfosKey ∧
    (TagEncryption.InitializeInternalKeys P te').2.mUnfixedInfosNonce =
      (TagEncryption.InitializeInternalKeys P te).2.mUnfixedInfosNonce ∧
    (TagEncryption.InitializeInternalKeys P te').2.mUnfixedInfosDerivedHmacKey =
      (TagEncryption.InitializeInternalKeys P te).2.mUnfixedInfosDerivedHmacKey := by
  obtain ⟨hc, hte'⟩ := TagEncryption.crypt_success P te te' h
  have hlayout : te.mTag.layout.GetSeedOffset + 2 ≤ te.mTag.layout.GetUnfixedInfosOffset ∧
      te.mTag.layout.GetUnfixedInfosOffset + te.mTag.layout.GetUnfixedInfosSize ≤
        te.mTag.layout.GetUidOffset ∧
      te.mTag.layout.GetUidOffset + (if te.mTag.layout.GetVersion = 0 then 0x10 else 8) ≤
        te.mTag.layout.GetKeyGenSaltOffset ∧
      (te.mTag.layout.GetVersion = 0 →
        te.mTag.layout.GetSeedOffset + 2 ≤ te.mTag.layout.GetLockedSecretOffset ∧
        te.mTag.layout.GetLockedSecretOffset + te.mTag.layout.GetLockedSecretSize ≤
          te.mTag.layout.GetUidOffset) := by
    rcases hL with hL | hL <;> rw [hL] <;> decide
  have key : ∃ data, te' = te.withBuffer data (!te.mTag.mIsEncrypted) ∧
      slice data te.mTag.layout.GetKeyGenSaltOffset 0x20 =
        slice te.mTag.mData te.mTag.layout.GetKeyGenSaltOffset 0x20 ∧
      slice data te.mTag.layout.GetUidOffset 0x10 =
        slice te.mTag.mData te.mTag.layout.GetUidOffset 0x10 ∧
      slice data te.mTag.layout.GetUidOffset 8 =
        slice te.mTag.mData te.mTag.layout.GetUidOffset 8 ∧
      slice data te.mTag.layout.GetSeedOffset 2 =
        slice te.mTag.mData te.mTag.layout.GetSeedOffset 2 := by
    rcases hL with hL | hL
    · rw [TagEncryption.CryptTag_v0 P te hL hlen] at hc hte'
      cases hy1 : P.aes_crypt_ctr te.mLockedSecretKey te.mLockedSecretNonce
          (slice te.mTag.mData 0x168 0x30) with
      | none => rw [hy1] at hc; cases hc
      | some y1 =>
        cases hy2 : P.aes_crypt_ctr te.mUnfixedInfosKey te.mUnfixedInfosNonce
            (slice te.mTag.mData 0x28 0x120) with
        | none => rw [hy1, hy2] at hc; cases hc
        | some y2 =>
          rw [hy1, hy2] at hte'
          have hl1 : y1.length = 0x30 := by
            rw [P.aes_crypt_ctr_length _ _ _ _ hy1]; exact length_slice _ _ _ (by omega)
          have hl2 : y2.length = 0x120 := by
            rw [P.aes_crypt_ctr_length _ _ _ _ hy2]; exact length_slice _ _ _ (by omega)
          have hlen1 : (copyTo y1 te.mTag.mData 0x168).length = 540 := by
            rw [length_copyTo _ _ _ (by omega), hlen]
          refine ⟨copyTo y2 (copyTo y1 te.mTag.mData 0x168) 0x28, hte', ?_⟩
          rw [hL]
          dsimp only [TagV0.layout]
          refine ⟨?_, ?_, ?_, ?_⟩ <;>
            rw [slice_copyTo_disjoint _ _ _ _ _ (by omega) (by omega),
              slice_copyTo_disjoint _ _ _ _ _ (by omega) (by omega)]
    · rw [TagEncryption.CryptTag_v2 P te hL hlen] at hc hte'
      cases hy2 : P.aes_crypt_ctr te.mUnfixedInfosKey te.mUnfixedInfosNonce
          (slice te.mTag.mData 0x2c 0x188) with
      | none => rw [hy2] at hc; cases hc
      | some y2 =>
        rw [hy2] at hte'
        have hl2 : y2.length = 0x188 := by
          rw [P.aes_crypt_ctr_length _ _ _ _ hy2]; exact length_slice _ _ _ (by omega)
        refine ⟨copyTo y2 te.mTag.mData 0x2c, hte', ?_⟩
        rw [hL]
        dsimp only [TagV2.layout]
        refine ⟨?_, ?_, ?_, ?_⟩ <;>
          rw [slice_copyTo_disjoint _ _ _ _ _ (by omega) (by omega)]
  obtain ⟨data, hd, hsalt, huid16, huid8, hseed⟩ := key
  have hI := TagEncryption.InitializeInternalKeys_withBuffer P te data (!te.mTag.mIsEncrypted)
    hsalt huid16 huid8 hseed
  rw [← hd] at hI
  rw [hI]
  exact ⟨hlayout.1, hlayout.2.1, hlayout.2.2.1, hlayout.2.2.2, rfl, rfl, rfl, rfl, rfl, rfl,
    rfl, rfl⟩

theorem InitializeInternalKeys_ciphertext_eq_cleartext_witness :
    ((exampleTagEncryption TagV0.layout).mTag.layout = TagV0.layout ∨ (exampleTagEncryption TagV0.layout).mTag.layout = TagV2.layout) ∧
    (exampleTagEncryption TagV0.layout).mTag.mData.length = 540 ∧
    (TagEncryption.EncryptTag toyPrimitives (exampleTagEncryption TagV0.layout) = (true, (TagEncryption.EncryptTag toyPrimitives (exampleTagEncryption TagV0.layout)).2) ∨
      TagEncryption.DecryptTag toyPrimitives (exampleTagEncryption TagV0.layout) = (true, (TagEncryption.EncryptTag toyPrimitives (exampleTagEncryption TagV0.layout)).2)) ∧
    (
     (exampleTagEncryption TagV0.layout).mTag.layout.GetSeedOffset + 2 ≤ (exampleTagEncryption TagV0.layout).mTag.layout.GetUnfixedInfosOffset ∧
     (exampleTagEncryption TagV0.layout).mTag.layout.GetUnfixedInfosOffset + (exampleTagEncryption TagV0.layout).mTag.layout.GetUnfixedInfosSize ≤
       (exampleTagEncryption TagV0.layout).mTag.layout.GetUidOffset ∧
     (exampleTagEncryption TagV0.layout).mTag.layout.GetUidOffset + (if (exampleTagEncryption TagV0.layout).mTag.layout.GetVersion = 0 then 0x10 else 8) ≤
       (exampleTagEncryption TagV0.layout).mTag.layout.GetKeyGenSaltOffset ∧
     ((exampleTagEncryption TagV0.layout).mTag.layout.GetVersion = 0 →
       (exampleTagEncryption TagV0.layout).mTag.layout.GetSeedOffset + 2 ≤ (exampleTagEncryption TagV0.layout).mTag.layout.GetLockedSecretOffset ∧
       (exampleTagEncryption TagV0.layout).mTag.layout.GetLockedSecretOffset + (exampleTagEncryption TagV0.layout).mTag.layout.GetLockedSecretSize ≤
         (exampleTagEncryption TagV0.layout).mTag.layout.GetUidOffset) ∧
     (TagEncryption.InitializeInternalKeys toyPrimitives (TagEncryption.EncryptTag toyPrimitives (exampleTagEncryption TagV0.layout)).2).1 =
       (TagEncryption.InitializeInternalKeys toyPrimitives (exampleTagEncryption TagV0.layout)).1 ∧
     (TagEncryption.InitializeInternalKeys toyPrimitives (TagEncryption.EncryptTag toyPrimitives (exampleTagEncryption TagV0.layout)).2).2.mKeyGenSalt =
       (TagEncryption.InitializeInternalKeys toyPrimitives (exampleTagEncryption TagV0.layout)).2.mKeyGenSalt ∧
     (TagEncryption.InitializeInternalKeys toyPrimitives (TagEncryption.EncryptTag toyPrimitives (exampleTagEncryption TagV0.layout)).2).2.mLockedSecretKey =
       (TagEncryption.InitializeInternalKeys toyPrimitives (exampleTagEncryption TagV0.layout)).2.mLockedSecretKey ∧
     (TagEncryption.InitializeInternalKeys toyPrimitives (TagEncryption.EncryptTag toyPrimitives (exampleTagEncryption TagV0.layout)).2).2.mLockedSecretNonce =
       (TagEncryption.InitializeInternalKeys toyPrimitives (exampleTagEncryption TagV0.layout)).2.mLockedSecretNonce ∧
     (TagEncryption.InitializeInternalKeys toyPrimitives (TagEncryption.EncryptTag toyPrimitives (exampleTagEncryption TagV0.layout)).2).2.mLockedSecretDerivedHmacKey =
       (TagEncryption.InitializeInternalKeys toyPrimitives (exampleTagEncryption TagV0.layout)).2.mLockedSecretDerivedHmacKey ∧
     (TagEncryption.InitializeInternalKeys toyPrimitives (TagEncryption.EncryptTag toyPrimitives (exampleTagEncryption TagV0.layout)).2).2.mUnfixedInfosKey =
       (TagEncryption.InitializeInternalKeys toyPrimitives (exampleTagEncryption TagV0.layout)).2.mUnfixedInfosKey ∧
     (TagEncryption.InitializeInternalKeys toyPrimitives (TagEncryption.EncryptTag toyPrimitives (exampleTagEncryption TagV0.layout)).2).2.mUnfixedInfosNonce =
       (TagEncryption.InitializeInternalKeys toyPrimitives (exampleTagEncryption TagV0.layout)).2.mUnfixedInfosNonce ∧
     (TagEncryption.InitializeInternalKeys toyPrimitives (TagEncryption.EncryptTag toyPrimitives (exampleTagEncryption TagV0.layout)).2).2.mUnfixedInfosDerivedHmacKey =
       (TagEncryption.InitializeInternalKeys toyPrimitives (exampleTagEncryption TagV0.layout)).2.mUnfixedInfosDerivedHmacKey) :=
  ⟨Or.inl rfl, by simp [exampleTagEncryption], Or.inl (by decide!),
    InitializeInternalKeys_ciphertext_eq_cleartext toyPrimitives (exampleTagEncryption TagV0.layout) (TagEncryption.EncryptTag toyPrimitives (exampleTagEncryption TagV0.layout)).2
      (Or.inl rfl) (by simp [exampleTagEncryption]) (Or.inl (by decide!))⟩

/-! ## The copies into the canonical buffer stay inside it -/

/-- **C32.** For every 512-byte dump on which `TagV0::FromBytes` reaches the copy into
the canonical buffer (the data area holds an NDEF TLV, its value parses as a message and
the message has a record whose type-name-format is Unknown), the payload size `P` of
that record and the number `L` of locked blocks satisfy `P + 8 L ≤ 540`: the payload
copy and the appended locked blocks, 8 bytes each, all land inside the 540-byte
canonical buffer, which keeps its length. -/
theorem TagV0_copies_fit_canonical_buffer (d : List Byte) (ndefTlv : TLV)
    (msg : ndef.Message) (rec : ndef.Record)
    (hlen : d.length = 512)
    (hndef : TagV0.findNdefTlv (TLV.FromBytes ((TagV0.dataAreaOf d).drop 4)) = some ndefTlv)
    (hmsg : ndef.Message.FromBytes ndefTlv.mValue = some msg)
    (hrec : TagV0.findUnknownRecord msg.mRecords = some rec) :
    rec.GetPayload.length +
      8 * (TagV0.ParseLockedArea TagV0.new d).mLockedBlocks.entries.length ≤ 540 ∧
    (∀ e ∈ (TagV0.ParseLockedArea TagV0.new d).mLockedBlocks.entries, e.2.length = 8) ∧
    (copyTo rec.GetPayload (TagV0.ParseLockedArea TagV0.new d).mData 0).length = 540 ∧
    TagV0.appendLocked (TagV0.ParseLockedArea TagV0.new d).mLockedBlocks.entries
        (copyTo rec.GetPayload (TagV0.ParseLockedArea TagV0.new d).mData 0)
        rec.GetPayload.length =
      rec.GetPayload ++
        ((TagV0.ParseLockedArea TagV0.new d).mLockedBlocks.entries.map Prod.snd).flatten ++
        zeros (540 - (rec.GetPayload.length +
          8 * (TagV0.ParseLockedArea TagV0.new d).mLockedBlocks.entries.length)) ∧
    (TagV0.appendLocked (TagV0.ParseLockedArea TagV0.new d).mLockedBlocks.entries
        (copyTo rec.GetPayload (TagV0.ParseLockedArea TagV0.new d).mData 0)
        rec.GetPayload.length).length = 540 := by
  have hdata0 : (TagV0.ParseLockedArea TagV0.new d).mData = zeros 540 := by
    have := congrArg Tag.mData (TagV0.ParseLockedArea_toTag d)
    exact this
  rw [hdata0]
  simp only [ndef.Record.GetPayload]
  have h1 := ndef.Message.FromBytes_payload _ _ hmsg rec (TagV0.mem_findUnknownRecord _ _ hrec)
  have h2 := TLV.FromBytes_value_lt _ _ (TagV0.mem_findNdefTlv _ _ hndef)
  rw [List.length_drop] at h2
  have h3 := TagV0.length_gather_add (TagV0.ParseLockedArea TagV0.new d) d (List.range 64)
  rw [List.length_range] at h3
  have h4 : TagV0.dataAreaOf d =
      TagV0.gather (TagV0.ParseLockedArea TagV0.new d) d (List.range 64) :=
    TagV0.ParseDataArea_eq_gather _ _
  rw [← h4] at h3
  have hent := TagV0.entries_mLockedBlocks d
  have hentlen : (TagV0.ParseLockedArea TagV0.new d).mLockedBlocks.entries.length =
      ((List.range 64).filter
        (fun b => (TagV0.ParseLockedArea TagV0.new d).mLockedBlocks.contains b)).length := by
    rw [hent, List.length_map]
  have hent8 : ∀ e ∈ (TagV0.ParseLockedArea TagV0.new d).mLockedBlocks.entries,
      e.2.length = 8 := by
    intro e he
    rw [hent] at he
    obtain ⟨b, hb, rfl⟩ := List.mem_map.mp he
    have hb64 : b < 64 := List.mem_range.mp (List.mem_filter.mp hb).1
    exact length_slice _ _ _ (by omega)
  generalize (TagV0.ParseLockedArea TagV0.new d).mLockedBlocks.entries = entries
    at hentlen hent8 ⊢
  have hsum : rec.mPayload.length + 8 * entries.length ≤ 540 := by omega
  have hz : zeros 540 =
      [] ++ (zeros rec.mPayload.length ++ zeros (540 - rec.mPayload.length)) := by
    rw [List.nil_append, zeros, zeros, zeros, ← List.replicate_add]
    congr 1
    omega
  have hcopy : copyTo rec.mPayload (zeros 540) 0 =
      rec.mPayload ++ zeros (540 - rec.mPayload.length) := by
    rw [hz, copyTo_mid [] _ _ _ 0 rfl (by rw [length_zeros]), List.nil_append]
  have happ : TagV0.appendLocked entries (copyTo rec.mPayload (zeros 540) 0)
      rec.mPayload.length =
      rec.mPayload ++ (entries.map Prod.snd).flatten ++
        zeros (540 - (rec.mPayload.length + 8 * entries.length)) := by
    rw [hcopy, TagV0.appendLocked_closed _ _ _ hent8 (by rw [length_zeros]; omega)]
    congr 1
    rw [zeros, List.drop_replicate, zeros]
    congr 1
    omega
  have hfl : (entries.map Prod.snd).flatten.length = 8 * entries.length := by
    clear happ hsum hentlen
    induction entries with
    | nil => rfl
    | cons e es ih =>
      rw [List.map_cons, List.flatten_cons, List.length_append,
        hent8 e (List.mem_cons_self _ _), ih (fun e he => hent8 e (List.mem_cons_of_mem _ he)),
        List.length_cons]
      omega
  refine ⟨hsum, hent8, ?_, happ, ?_⟩
  · rw [hcopy, List.length_append, length_zeros]
    omega
  · rw [happ, List.length_append, List.length_append, hfl, length_zeros]
    omega

theorem TagV0_copies_fit_canonical_buffer_witness :
    (exampleDumpV0 0x81 0).length = 512 ∧
    TagV0.findNdefTlv (TLV.FromBytes ((TagV0.dataAreaOf (exampleDumpV0 0x81 0)).drop 4)) = some (TLV.mk 3 ([0xd5, 0x00, 0x24] ++ List.replicate 32 0x11 ++ [0x4e, 0x4f, 0x46, 0x54])) ∧
    ndef.Message.FromBytes (TLV.mk 3 ([0xd5, 0x00, 0x24] ++ List.replicate 32 0x11 ++ [0x4e, 0x4f, 0x46, 0x54])).mValue = some (ndef.Message.mk [ndef.Record.mk 0xd0 5 [] [] (List.replicate 32 0x11 ++ [0x4e, 0x4f, 0x46, 0x54])]) ∧
    TagV0.findUnknownRecord (ndef.Message.mk [ndef.Record.mk 0xd0 5 [] [] (List.replicate 32 0x11 ++ [0x4e, 0x4f, 0x46, 0x54])]).mRecords = some (ndef.Record.mk 0xd0 5 [] [] (List.replicate 32 0x11 ++ [0x4e, 0x4f, 0x46, 0x54])) ∧
    ((ndef.Record.mk 0xd0 5 [] [] (List.replicate 32 0x11 ++ [0x4e, 0x4f, 0x46, 0x54])).GetPayload.length +
       8 * (TagV0.ParseLockedArea TagV0.new (exampleDumpV0 0x81 0)).mLockedBlocks.entries.length ≤ 540 ∧
     (∀ e ∈ (TagV0.ParseLockedArea TagV0.new (exampleDumpV0 0x81 0)).mLockedBlocks.entries, e.2.length = 8) ∧
     (copyTo (ndef.Record.mk 0xd0 5 [] [] (List.replicate 32 0x11 ++ [0x4e, 0x4f, 0x46, 0x54])).GetPayload (TagV0.ParseLockedArea TagV0.new (exampleDumpV0 0x81 0)).mData 0).length = 540 ∧
     TagV0.appendLocked (TagV0.ParseLockedArea TagV0.new (exampleDumpV0 0x81 0)).mLockedBlocks.entries
         (copyTo (ndef.Record.mk 0xd0 5 [] [] (List.replicate 32 0x11 ++ [0x4e, 0x4f, 0x46, 0x54])).GetPayload (TagV0.ParseLockedArea TagV0.new (exampleDumpV0 0x81 0)).mData 0)
         (ndef.Record.mk 0xd0 5 [] [] (List.replicate 32 0x11 ++ [0x4e, 0x4f, 0x46, 0x54])).GetPayload.length =
       (ndef.Record.mk 0xd0 5 [] [] (List.replicate 32 0x11 ++ [0x4e, 0x4f, 0x46, 0x54])).GetPayload ++
         ((TagV0.ParseLockedArea TagV0.new (exampleDumpV0 0x81 0)).mLockedBlocks.entries.map Prod.snd).flatten ++
         zeros (540 - ((ndef.Record.mk 0xd0 5 [] [] (List.replicate 32 0x11 ++ [0x4e, 0x4f, 0x46, 0x54])).GetPayload.length +
           8 * (TagV0.ParseLockedArea TagV0.new (exampleDumpV0 0x81 0)).mLockedBlocks.entries.length)) ∧
     (TagV0.appendLocked (TagV0.ParseLockedArea TagV0.new (exampleDumpV0 0x81 0)).mLockedBlocks.entries
         (copyTo (ndef.Record.mk 0xd0 5 [] [] (List.replicate 32 0x11 ++ [0x4e, 0x4f, 0x46, 0x54])).GetPayload (TagV0.ParseLockedArea TagV0.new (exampleDumpV0 0x81 0)).mData 0)
         (ndef.Record.mk 0xd0 5 [] [] (List.replicate 32 0x11 ++ [0x4e, 0x4f, 0x46, 0x54])).GetPayload.length).length = 540) :=
  ⟨by decide!, by decide!, by decide!, by decide!,
    TagV0_copies_fit_canonical_buffer (exampleDumpV0 0x81 0) (TLV.mk 3 ([0xd5, 0x00, 0x24] ++ List.replicate 32 0x11 ++ [0x4e, 0x4f, 0x46, 0x54])) (ndef.Message.mk [ndef.Record.mk 0xd0 5 [] [] (List.replicate 32 0x11 ++ [0x4e, 0x4f, 0x46, 0x54])]) (ndef.Record.mk 0xd0 5 [] [] (List.replicate 32 0x11 ++ [0x4e, 0x4f, 0x46, 0x54]))
      (by decide!) (by decide!) (by decide!) (by decide!)⟩

/-! ## Records: what a decoded record looks like and how it is written back -/

namespace ndef.Record

theorem u8_val (b : Byte) : u8 b.val = b := by
  apply Fin.ext
  show b.val % 256 = b.val
  exact Nat.mod_eq_of_lt b.isLt

theorem writeU32_bytes (b0 b1 b2 b3 : Byte) :
    writeU32 (b0.val * 16777216 + b1.val * 65536 + b2.val * 256 + b3.val) =
      [b0, b1, b2, b3] := by
  have h0 := b0.isLt
  have h1 := b1.isLt
  have h2 := b2.isLt
  have h3 := b3.isLt
  unfold writeU32 u8
  congr 1
  · apply Fin.ext
    show _ % 4294967296 / 16777216 % 256 = b0.val
    omega
  congr 1
  · apply Fin.ext
    show _ % 4294967296 / 65536 % 256 = b1.val
    omega
  congr 1
  · apply Fin.ext
    show _ % 4294967296 / 256 % 256 = b2.val
    omega
  congr 1
  apply Fin.ext
  show _ % 4294967296 % 256 = b3.val
  omega

/-- The flag bits of a header byte: masking the type-name-format off keeps them. -/
theorem flag_bits : ∀ hdr : Byte,
    ((hdr &&& 0xf8) &&& NDEF_SR ≠ 0 ↔ hdr &&& NDEF_SR ≠ 0) ∧
    ((hdr &&& 0xf8) &&& NDEF_IL ≠ 0 ↔ hdr &&& NDEF_IL ≠ 0) ∧
    ((hdr &&& 0xf8) &&& NDEF_ME ≠ 0 ↔ hdr &&& NDEF_ME ≠ 0) ∧
    ((hdr &&& 0xf8) &&& NDEF_MB ≠ 0 ↔ hdr &&& NDEF_MB ≠ 0) ∧
    ((((hdr &&& 0xf8) &&& compl8 (NDEF_MB ||| NDEF_ME)) |||
        ((hdr &&& 0xf8) &&& (NDEF_MB ||| NDEF_ME))) ||| (hdr &&& 0x07) = hdr) := by
  decide!

theorem parse_fields_spec (hdr : Byte) (typeLen idLen payloadLen : Nat) (l : List Byte)
    (c : Nat) (r : Record) (n : Nat)
    (h : parse.fields hdr typeLen idLen payloadLen l c = some (r, n)) :
    r.mFlags = hdr &&& 0xf8 ∧ r.mTNF = hdr &&& 0x07 ∧
    r.mType.length = typeLen ∧ r.mID.length = idLen ∧ r.mPayload.length = payloadLen ∧
    n = c + typeLen + idLen + payloadLen ∧ typeLen + idLen + payloadLen ≤ l.length ∧
    r.mType ++ r.mID ++ r.mPayload = l.take (typeLen + idLen + payloadLen) := by
  unfold parse.fields at h
  split at h
  · cases h
  · rename_i hlen
    have hr := congrArg Prod.fst (Option.some.inj h)
    have hn := congrArg Prod.snd (Option.some.inj h)
    dsimp only at hr hn
    rw [← hr, ← hn]
    dsimp only
    refine ⟨rfl, rfl, ?_, ?_, ?_, rfl, by omega, ?_⟩
    · rw [List.length_take]; omega
    · rw [List.length_take, List.length_drop]; omega
    · rw [List.length_take, List.length_drop]; omega
    · rw [List.take_add, List.take_add]

end ndef.Record

namespace ndef.Record

/-- The bytes `Record::ToBytes` writes, field by field. -/
theorem ToBytes_fields (r : Record) (flags : Byte) :
    r.ToBytes flags =
      (((r.mFlags &&& compl8 (NDEF_MB ||| NDEF_ME)) ||| flags) ||| r.mTNF) ::
        u8 r.mType.length ::
        ((if r.IsShort = true then [u8 r.mPayload.length] else writeU32 r.mPayload.length) ++
          ((if r.mFlags &&& NDEF_IL ≠ 0 then [u8 r.mID.length] else []) ++
            (r.mType ++ r.mID ++ r.mPayload))) := by
  unfold ToBytes
  dsimp only
  by_cases hs : r.IsShort = true <;> by_cases hi : r.mFlags &&& NDEF_IL ≠ 0
  · rw [if_pos hs, if_pos hs, if_pos hi, if_pos hi]
    simp only [List.append_assoc, List.cons_append, List.nil_append]
  · rw [if_pos hs, if_pos hs, if_neg hi, if_neg hi]
    simp only [List.append_assoc, List.cons_append, List.nil_append]
  · rw [if_neg hs, if_neg hs, if_pos hi, if_pos hi]
    simp only [List.append_assoc, List.cons_append, List.nil_append]
  · rw [if_neg hs, if_neg hs, if_neg hi, if_neg hi]
    simp only [List.append_assoc, List.cons_append, List.nil_append]

theorem parse_idLength_spec (hdr : Byte) (typeLen payloadLen : Nat) (l : List Byte)
    (c : Nat) (r : Record) (n : Nat)
    (h : parse.idLength hdr typeLen payloadLen l c = some (r, n)) :
    r.mFlags = hdr &&& 0xf8 ∧ r.mTNF = hdr &&& 0x07 ∧
    r.mType.length = typeLen ∧ r.mPayload.length = payloadLen ∧
    payloadLen ≤ 2 * 1024 * 1024 ∧
    (hdr &&& NDEF_IL = 0 → r.mID = []) ∧ r.mID.length ≤ 255 ∧
    c ≤ n ∧ n - c ≤ l.length ∧
    (if hdr &&& NDEF_IL ≠ 0 then [u8 r.mID.length] else []) ++
      (r.mType ++ r.mID ++ r.mPayload) = l.take (n - c) := by
  unfold parse.idLength at h
  split at h
  · cases h
  rename_i hbig
  split at h
  · rename_i hil
    split at h
    · cases h
    · rename_i idLen l'
      obtain ⟨hf, ht, hty, hid, hpl, hn, hlen, hcat⟩ := parse_fields_spec _ _ _ _ _ _ _ _ h
      have hidlt := idLen.isLt
      have hnc : n - c = (typeLen + idLen.val + payloadLen) + 1 := by omega
      refine ⟨hf, ht, hty, hpl, by omega, fun h0 => absurd h0 hil, by omega, by omega, ?_, ?_⟩
      · rw [List.length_cons]; omega
      · rw [if_pos hil, hnc, List.take_succ_cons, hcat, hid, u8_val]
        rfl
  · rename_i hil
    obtain ⟨hf, ht, hty, hid, hpl, hn, hlen, hcat⟩ := parse_fields_spec _ _ _ _ _ _ _ _ h
    have hnc : n - c = typeLen + 0 + payloadLen := by omega
    refine ⟨hf, ht, hty, hpl, by omega, fun _ => List.eq_nil_of_length_eq_zero hid, by omega,
      by omega, by omega, ?_⟩
    rw [if_neg hil, hnc, hcat]
    rfl

/-- A record that `parse` finds at the start of `l`: its flags and type-name-format are
those of the header byte, its field lengths fit their length fields, and
`Record::ToBytes` writes the bytes it was read from again, apart from the header byte,
which carries the MB and ME bits passed in. -/
theorem parse_spec (l : List Byte) (r : Record) (n : Nat) (h : parse l = some (r, n)) :
    ∃ hdr rest, l = hdr :: rest ∧
      r.mFlags = hdr &&& 0xf8 ∧ r.mTNF = hdr &&& 0x07 ∧
      (r.IsShort = true → r.mPayload.length ≤ 255) ∧
      r.mPayload.length ≤ 2 * 1024 * 1024 ∧
      (r.mFlags &&& NDEF_IL = 0 → r.mID = []) ∧ r.mID.length ≤ 255 ∧
      3 ≤ n ∧ n ≤ l.length ∧
      ∀ flags, r.ToBytes flags =
        (((r.mFlags &&& compl8 (NDEF_MB ||| NDEF_ME)) ||| flags) ||| r.mTNF) ::
          (l.take n).tail := by
  unfold parse at h
  split at h
  · rename_i hdr typeLen l1
    have hIL : r.mFlags = hdr &&& 0xf8 → r.mFlags &&& NDEF_IL = 0 → hdr &&& NDEF_IL = 0 := by
      intro hf h0
      rw [hf] at h0
      by_contra hne
      exact ((flag_bits hdr).2.1.mpr hne) h0
    split at h
    · rename_i hsr
      split at h
      · rename_i payloadLen l2
        obtain ⟨hf, ht, hty, hpl, hbig, hid0, hid, hcn, hlen, hcat⟩ :=
          parse_idLength_spec _ _ _ _ _ _ _ h
        have hplt := payloadLen.isLt
        have hshort : r.IsShort = true := by
          unfold IsShort
          rw [hf]
          exact decide_eq_true ((flag_bits hdr).1.mpr hsr)
        have hn3 : n = (n - 3) + 1 + 1 + 1 := by omega
        refine ⟨hdr, _, rfl, hf, ht, fun _ => by omega, by omega, fun h0 => hid0 (hIL hf h0),
          hid, by omega, ?_, ?_⟩
        · simp only [List.length_cons]; omega
        · intro flags
          rw [ToBytes_fields, hshort, if_pos rfl, hty, u8_val, hpl, u8_val, hn3,
            List.take_succ_cons, List.take_succ_cons, List.take_succ_cons, ← hcat, hf]
          have hcond : ((hdr &&& 0xf8) &&& NDEF_IL ≠ 0) = (hdr &&& NDEF_IL ≠ 0) :=
            propext (flag_bits hdr).2.1
          simp only [hcond]
          rfl
      · cases h
    · rename_i hsr
      split at h
      · rename_i b0 b1 b2 b3 l2
        obtain ⟨hf, ht, hty, hpl, hbig, hid0, hid, hcn, hlen, hcat⟩ :=
          parse_idLength_spec _ _ _ _ _ _ _ h
        have hshort : ¬ (r.IsShort = true) := by
          unfold IsShort
          rw [hf]
          intro hd
          exact hsr ((flag_bits hdr).1.mp (of_decide_eq_true hd))
        have hn6 : n = (n - 6) + 1 + 1 + 1 + 1 + 1 + 1 := by omega
        refine ⟨hdr, _, rfl, hf, ht, fun hs => absurd hs hshort, by omega,
          fun h0 => hid0 (hIL hf h0), hid, by omega, ?_, ?_⟩
        · simp only [List.length_cons]; omega
        · intro flags
          rw [ToBytes_fields, if_neg hshort, hty, u8_val, hpl, writeU32_bytes, hn6,
            List.take_succ_cons, List.take_succ_cons, List.take_succ_cons,
            List.take_succ_cons, List.take_succ_cons, List.take_succ_cons, ← hcat, hf]
          have hcond : ((hdr &&& 0xf8) &&& NDEF_IL ≠ 0) = (hdr &&& NDEF_IL ≠ 0) :=
            propext (flag_bits hdr).2.1
          simp only [hcond]
          rfl
      · cases h
  · cases h

end ndef.Record

namespace ndef.Record

theorem FromStream_some_parse (s : SpanStream) (r : Record) (h : (FromStream s).1 = some r) :
    ∃ n, parse (s.mSpan.drop s.mPosition) = some (r, n) := by
  obtain ⟨data, pos, e⟩ := s
  cases e with
  | true =>
    rw [FromStream_mError _ (SpanStream.readU8_mError _ (SpanStream.readU8_mError _ rfl))] at h
    cases h
  | false =>
    rw [(FromStream_ok data pos).1] at h
    cases hp : parse (data.drop pos) with
    | none => rw [hp] at h; cases h
    | some rn =>
      obtain ⟨r', n⟩ := rn
      rw [hp] at h
      have hr : r' = r := Option.some.inj h
      exact ⟨n, by rw [hr]⟩

theorem lengthsFit_FromStream (s : SpanStream) (r : Record) (h : (FromStream s).1 = some r) :
    r.lengthsFit ∧ r.mPayload.length ≤ 2 * 1024 * 1024 := by
  obtain ⟨n, hp⟩ := FromStream_some_parse s r h
  obtain ⟨hdr, rest, -, -, -, hs, hbig, hid, -⟩ := parse_spec _ _ _ hp
  exact ⟨⟨hs, hid⟩, hbig⟩

/-- What setting and clearing the SR and IL bits does to the two bits. -/
theorem set_clear_bits : ∀ f : Byte,
    ((f &&& compl8 NDEF_SR) &&& NDEF_SR = 0) ∧
    ((f &&& compl8 NDEF_IL) &&& NDEF_IL = 0) ∧
    ((f ||| NDEF_IL) &&& NDEF_IL ≠ 0) ∧
    ((f ||| NDEF_SR) &&& NDEF_IL = f &&& NDEF_IL) ∧
    ((f &&& compl8 NDEF_SR) &&& NDEF_IL = f &&& NDEF_IL) ∧
    ((f ||| NDEF_IL) &&& NDEF_SR = f &&& NDEF_SR) ∧
    ((f &&& compl8 NDEF_IL) &&& NDEF_SR = f &&& NDEF_SR) := by
  decide!

theorem lengthsFit_SetPayload (r : Record) (payload : List Byte) (h : r.lengthsFit) :
    (r.SetPayload payload).lengthsFit := by
  unfold SetPayload lengthsFit IsShort
  dsimp only
  by_cases hlt : payload.length < 0xff
  · rw [if_pos hlt]
    refine ⟨fun _ => by omega, fun h0 => h.2 ?_⟩
    rw [(set_clear_bits r.mFlags).2.2.2.1] at h0
    exact h0
  · rw [if_neg hlt]
    refine ⟨fun hs => ?_, fun h0 => h.2 ?_⟩
    · exact absurd (set_clear_bits r.mFlags).1 (of_decide_eq_true hs)
    · rw [(set_clear_bits r.mFlags).2.2.2.2.1] at h0
      exact h0

theorem lengthsFit_SetID (r : Record) (id : List Byte) (r' : Record) (h : r.lengthsFit)
    (hset : r.SetID id = some r') : r'.lengthsFit ∧ r'.mID.length ≤ 255 := by
  unfold SetID at hset
  split at hset
  · rename_i hlt
    have hr := Option.some.inj hset
    rw [← hr]
    unfold lengthsFit IsShort
    dsimp only
    by_cases hpos : id.length > 0
    · rw [if_pos hpos]
      refine ⟨⟨fun hs => h.1 ?_, fun h0 => absurd h0 (set_clear_bits r.mFlags).2.2.1⟩,
        by omega⟩
      rw [(set_clear_bits r.mFlags).2.2.2.2.2.1] at hs
      exact hs
    · rw [if_neg hpos]
      refine ⟨⟨fun hs => h.1 ?_, fun _ => List.eq_nil_of_length_eq_zero (by omega)⟩, by omega⟩
      rw [(set_clear_bits r.mFlags).2.2.2.2.2.2] at hs
      exact hs
  · cases hset

theorem payloadLengthField_ToBytes (r : Record) (flags : Byte) :
    payloadLengthField r (r.ToBytes flags) =
      if r.IsShort = true then r.mPayload.length % 256 else r.mPayload.length % 4294967296 := by
  rw [ToBytes_fields, payloadLengthField]
  by_cases hs : r.IsShort = true
  · rw [if_pos hs, if_pos hs, if_pos hs]
    rfl
  · rw [if_neg hs, if_neg hs, if_neg hs]
    unfold writeU32
    simp only [List.cons_append, List.getD_cons_succ, List.getD_cons_zero]
    show (r.mPayload.length % 4294967296 / 16777216) % 256 * 16777216 +
      (r.mPayload.length % 4294967296 / 65536) % 256 * 65536 +
      (r.mPayload.length % 4294967296 / 256) % 256 * 256 +
      (r.mPayload.length % 4294967296) % 256 = r.mPayload.length % 4294967296
    omega

end ndef.Record

/-! ## The loop of `Message::FromBytes` -/

namespace ndef.Message

theorem trace_fst : ∀ (fuel : Nat) (s : SpanStream) (recs : List Record),
    (FromBytes.trace fuel s recs).1 = FromBytes.loop fuel s recs := by
  intro fuel
  induction fuel with
  | zero => intro s recs; rfl
  | succ fuel ih =>
    intro s recs
    rw [FromBytes.trace, FromBytes.loop]
    by_cases hrem : s.GetRemaining > 0
    · rw [if_pos hrem, if_pos hrem]
      dsimp only
      cases hr : (Record.FromStream s).1 with
      | none => rfl
      | some rec =>
        dsimp only
        by_cases hc : rec.IsLast = true ∧ (Record.FromStream s).2.GetRemaining > 0
        · rw [if_pos hc, if_pos hc]
        · rw [if_neg hc, if_neg hc]
          exact ih _ _
    · rw [if_neg hrem, if_neg hrem]

/-- When the loop ends because a record failed to decode, the list of records is empty
or ends in a record without ME. -/
theorem trace_failed : ∀ (fuel : Nat) (s : SpanStream) (recs : List Record),
    (s.GetRemaining > 0 → ∀ l, recs.getLast? = some l → l.IsLast = false) →
    (FromBytes.trace fuel s recs).2.2 = true →
    ∀ l, (FromBytes.trace fuel s recs).1.getLast? = some l → l.IsLast = false := by
  intro fuel
  induction fuel with
  | zero => intro s recs _ h; cases h
  | succ fuel ih =>
    intro s recs hopen
    rw [FromBytes.trace]
    split
    · rename_i hrem
      dsimp only
      split
      · intro _
        exact hopen hrem
      · rename_i rec hrec
        split
        · intro h; cases h
        · rename_i hcont
          apply ih
          intro hrem' l hl
          rw [List.getLast?_append, List.getLast?_singleton] at hl
          have hl' : rec = l := by simpa using hl
          rw [← hl']
          by_contra hne
          exact hcont ⟨by simpa using hne, hrem'⟩
    · intro h; cases h

theorem FromBytes_none_of_failed (data : List Byte)
    (h : (FromBytes.trace (data.length + 1) (SpanStream.new data) []).2.2 = true) :
    FromBytes data = none := by
  have hopen := trace_failed (data.length + 1) (SpanStream.new data) []
    (fun _ l hl => by cases hl) h
  rw [trace_fst] at hopen
  unfold FromBytes
  dsimp only
  split
  · rfl
  · rename_i last hlast
    rw [hopen last hlast]
    rfl

/-- More fuel than the remaining bytes plus one changes nothing: every record read
takes at least three bytes. -/
theorem trace_fuel (data : List Byte) : ∀ (fuel1 fuel2 pos : Nat) (recs : List Record),
    data.length - pos + 1 ≤ fuel1 → data.length - pos + 1 ≤ fuel2 →
    FromBytes.trace fuel1 { mSpan := data, mPosition := pos, mError := false } recs =
      FromBytes.trace fuel2 { mSpan := data, mPosition := pos, mError := false } recs := by
  intro fuel1
  induction fuel1 with
  | zero => intro fuel2 pos recs h; omega
  | succ fuel1 ih =>
    intro fuel2 pos recs h1 h2
    cases fuel2 with
    | zero => omega
    | succ fuel2 =>
      rw [FromBytes.trace, FromBytes.trace]
      by_cases hrem : SpanStream.GetRemaining
          { mSpan := data, mPosition := pos, mError := false } > 0
      · rw [if_pos hrem, if_pos hrem]
        obtain ⟨hf1, hf2⟩ := Record.FromStream_ok data pos
        cases hp : Record.parse (data.drop pos) with
        | none =>
          rw [hp] at hf1
          dsimp only
          rw [hf1]
          rfl
        | some rn =>
          obtain ⟨rec, n⟩ := rn
          rw [hp] at hf1
          have hs := hf2 rec n hp
          obtain ⟨hdr, rest, -, -, -, -, -, -, -, hn3, hnle, -⟩ := Record.parse_spec _ _ _ hp
          rw [List.length_drop] at hnle
          dsimp only
          rw [hf1]
          dsimp only [Option.map_some']
          rw [hs]
          split
          · rfl
          · exact ih fuel2 (pos + n) _ (by omega) (by omega)
      · rw [if_neg hrem, if_neg hrem]

end ndef.Message

/-- **C33.** `Message::FromBytes` never returns a truncated message: when its loop ends
because `Record::FromStream` failed on a record, whether that record is the first one
or records were decoded before it, `FromBytes` returns no message. The records collected
before the failure are those of the loop of `FromBytes`, more fuel than the length of the
input plus one does not change how the loop ends, and a failure on the first record
alone already gives no message. -/
theorem Message_FromBytes_never_truncated (data : List Byte)
    (hfail : (ndef.Message.FromBytes.trace (data.length + 1) (SpanStream.new data) []).2.2 =
      true) :
    ndef.Message.FromBytes data = none ∧
    (ndef.Message.FromBytes.trace (data.length + 1) (SpanStream.new data) []).1 =
      ndef.Message.FromBytes.loop (data.length + 1) (SpanStream.new data) [] ∧
    (∀ fuel, data.length + 1 ≤ fuel →
      ndef.Message.FromBytes.trace fuel (SpanStream.new data) [] =
        ndef.Message.FromBytes.trace (data.length + 1) (SpanStream.new data) []) ∧
    ((ndef.Record.FromStream (SpanStream.new data)).1 = none →
      ndef.Message.FromBytes data = none) := by
  refine ⟨ndef.Message.FromBytes_none_of_failed data hfail, ndef.Message.trace_fst _ _ _,
    fun fuel hfuel => ndef.Message.trace_fuel data fuel (data.length + 1) 0 []
      (by omega) (by omega), fun hnone => ?_⟩
  have hnil : ndef.Message.FromBytes.loop (data.length + 1) (SpanStream.new data) [] = [] := by
    rw [ndef.Message.FromBytes.loop]
    split
    · dsimp only
      rw [hnone]
    · rfl
  unfold ndef.Message.FromBytes
  dsimp only
  rw [hnil]
  rfl


theorem Message_FromBytes_never_truncated_witness :
    (ndef.Message.FromBytes.trace (([0x15, 0x00, 0x00, 0x15] : List Byte).length + 1) (SpanStream.new ([0x15, 0x00, 0x00, 0x15] : List Byte)) []).2.2 =
      true ∧
    (ndef.Message.FromBytes ([0x15, 0x00, 0x00, 0x15] : List Byte) = none ∧
     (ndef.Message.FromBytes.trace (([0x15, 0x00, 0x00, 0x15] : List Byte).length + 1) (SpanStream.new ([0x15, 0x00, 0x00, 0x15] : List Byte)) []).1 =
       ndef.Message.FromBytes.loop (([0x15, 0x00, 0x00, 0x15] : List Byte).length + 1) (SpanStream.new ([0x15, 0x00, 0x00, 0x15] : List Byte)) [] ∧
     (∀ fuel, ([0x15, 0x00, 0x00, 0x15] : List Byte).length + 1 ≤ fuel →
       ndef.Message.FromBytes.trace fuel (SpanStream.new ([0x15, 0x00, 0x00, 0x15] : List Byte)) [] =
         ndef.Message.FromBytes.trace (([0x15, 0x00, 0x00, 0x15] : List Byte).length + 1) (SpanStream.new ([0x15, 0x00, 0x00, 0x15] : List Byte)) []) ∧
     ((ndef.Record.FromStream (SpanStream.new ([0x15, 0x00, 0x00, 0x15] : List Byte))).1 = none →
       ndef.Message.FromBytes ([0x15, 0x00, 0x00, 0x15] : List Byte) = none)) :=
  ⟨by decide,
    Message_FromBytes_never_truncated [0x15, 0x00, 0x00, 0x15]
      (by decide)⟩

/-! ## Re-encoding a decoded message -/

namespace ndef.Message

/-- The MB and ME bits of a flags byte as `Message::ToBytes` would pass them. -/
theorem boundary_bits : ∀ f : Byte,
    f &&& (NDEF_MB ||| NDEF_ME) =
      (if f &&& NDEF_ME ≠ 0 then (if f &&& NDEF_MB ≠ 0 then NDEF_MB else 0) ||| NDEF_ME
       else (if f &&& NDEF_MB ≠ 0 then NDEF_MB else 0)) := by
  decide!

/-- A list of records in which exactly the first carries MB and exactly the last
carries ME is written by `Message::ToBytes` with the bits each record already has. -/
theorem ToBytes_go_encodeAsStored : ∀ (rs : List Record) (i n : Nat), i + rs.length = n →
    (i = 0 → ∀ r, rs.head? = some r → r.mFlags &&& NDEF_MB ≠ 0) →
    (∀ r ∈ (if i = 0 then rs.tail else rs), r.mFlags &&& NDEF_MB = 0) →
    (∀ r ∈ rs.dropLast, r.IsLast = false) →
    (∀ l, rs.getLast? = some l → l.IsLast = true) →
    ToBytes.go n i rs = encodeAsStored rs := by
  intro rs
  induction rs with
  | nil => intro i n _ _ _ _ _; rfl
  | cons r rs ih =>
    intro i n hn hMB1 hMB2 hME1 hME2
    rw [ToBytes.go]
    have hflags : (if i = n - 1 then (if i = 0 then NDEF_MB else 0) ||| NDEF_ME
        else (if i = 0 then NDEF_MB else (0 : Byte))) = r.mFlags &&& (NDEF_MB ||| NDEF_ME) := by
      rw [boundary_bits]
      have hmb : (r.mFlags &&& NDEF_MB ≠ 0) ↔ i = 0 := by
        constructor
        · intro hne
          by_contra hi
          rw [if_neg hi] at hMB2
          exact hne (hMB2 r (List.mem_cons_self _ _))
        · intro hi
          exact hMB1 hi r rfl
      have hme : (r.mFlags &&& NDEF_ME ≠ 0) ↔ i = n - 1 := by
        rw [List.length_cons] at hn
        cases rs with
        | nil =>
          have hl := hME2 r rfl
          unfold Record.IsLast at hl
          constructor
          · intro _
            rw [List.length_nil] at hn
            omega
          · intro _
            exact of_decide_eq_true hl
        | cons r2 rs2 =>
          have hl := hME1 r (List.mem_cons_self _ _)
          unfold Record.IsLast at hl
          rw [List.length_cons] at hn
          constructor
          · intro hne
            exact absurd (decide_eq_true hne) (by rw [hl]; exact Bool.false_ne_true)
          · intro hi
            omega
      simp only [hmb, hme]
    rw [hflags]
    have hrest : ToBytes.go n (i + 1) rs = encodeAsStored rs := by
      apply ih (i + 1) n (by rw [List.length_cons] at hn; omega)
      · intro h0; omega
      · intro x hx
        rw [if_neg (by omega)] at hx
        by_cases hi : i = 0
        · rw [if_pos hi] at hMB2
          exact hMB2 x hx
        · rw [if_neg hi] at hMB2
          exact hMB2 x (List.mem_cons_of_mem _ hx)
      · intro x hx
        cases rs with
        | nil => cases hx
        | cons r2 rs2 => exact hME1 x (List.mem_cons_of_mem _ hx)
      · intro l hl
        cases rs with
        | nil => cases hl
        | cons r2 rs2 => exact hME2 l hl
    rw [hrest]
    rfl

/-- A record that `parse` finds at the start of `l`, written with the MB and ME bits of
its own flags, gives the bytes it was read from. -/
theorem parse_encodeAsStored (l : List Byte) (r : Record) (n : Nat)
    (h : Record.parse l = some (r, n)) :
    r.ToBytes (r.mFlags &&& (NDEF_MB ||| NDEF_ME)) = l.take n := by
  obtain ⟨hdr, rest, hl, hf, ht, -, -, -, -, hn3, -, hbytes⟩ := Record.parse_spec l r n h
  rw [hbytes, hl, hf, ht, (Record.flag_bits hdr).2.2.2.2]
  have hn : n = (n - 1) + 1 := by omega
  rw [hn, List.take_succ_cons]
  rfl

end ndef.Message

namespace ndef.Message

theorem encodeAsStored_cons (r : Record) (rs : List Record) :
    encodeAsStored (r :: rs) =
      r.ToBytes (r.mFlags &&& (NDEF_MB ||| NDEF_ME)) ++ encodeAsStored rs := rfl

/-- When the loop of `FromBytes` ends without a failed record, the records it added,
each written with the MB and ME bits it carries, are the bytes between the position it
started at and the position it ended at; only the last of them can carry ME. -/
theorem trace_bytes (data : List Byte) : ∀ (fuel pos : Nat) (recs : List Record),
    data.length - pos + 1 ≤ fuel → pos ≤ data.length →
    (FromBytes.trace fuel { mSpan := data, mPosition := pos, mError := false } recs).2.2 =
      false →
    ∃ new pos',
      FromBytes.trace fuel { mSpan := data, mPosition := pos, mError := false } recs =
        (recs ++ new, { mSpan := data, mPosition := pos', mError := false }, false) ∧
      pos ≤ pos' ∧ pos' ≤ data.length ∧
      encodeAsStored new = (data.drop pos).take (pos' - pos) ∧
      (∀ r ∈ new.dropLast, r.IsLast = false) ∧ (new ≠ [] → pos < data.length) := by
  intro fuel
  induction fuel with
  | zero => intro pos recs h; omega
  | succ fuel ih =>
    intro pos recs hfuel hpos hflag
    by_cases hrem : SpanStream.GetRemaining
        { mSpan := data, mPosition := pos, mError := false } > 0
    · have hlt : pos < data.length := by
        unfold SpanStream.GetRemaining at hrem
        dsimp only at hrem
        omega
      obtain ⟨hf1, hf2⟩ := Record.FromStream_ok data pos
      cases hp : Record.parse (data.drop pos) with
      | none =>
        rw [hp] at hf1
        have hT : FromBytes.trace (fuel + 1)
            { mSpan := data, mPosition := pos, mError := false } recs =
            (recs, (Record.FromStream { mSpan := data, mPosition := pos, mError := false }).2,
              true) := by
          rw [FromBytes.trace, if_pos hrem]
          dsimp only
          rw [hf1]
          rfl
        rw [hT] at hflag
        cases hflag
      | some rn =>
        obtain ⟨rec, n⟩ := rn
        rw [hp] at hf1
        have hs := hf2 rec n hp
        obtain ⟨hdr, rest, -, -, -, -, -, -, -, hn3, hnle, -⟩ := Record.parse_spec _ _ _ hp
        rw [List.length_drop] at hnle
        have henc := parse_encodeAsStored _ _ _ hp
        by_cases hc : rec.IsLast = true ∧ SpanStream.GetRemaining
            { mSpan := data, mPosition := pos + n, mError := false } > 0
        · have hT : FromBytes.trace (fuel + 1)
              { mSpan := data, mPosition := pos, mError := false } recs =
              (recs ++ [rec], { mSpan := data, mPosition := pos + n, mError := false },
                false) := by
            rw [FromBytes.trace, if_pos hrem]
            dsimp only
            rw [hf1]
            dsimp only [Option.map_some']
            rw [hs, if_pos hc]
          refine ⟨[rec], pos + n, hT, by omega, by omega, ?_, ?_, fun _ => hlt⟩
          · rw [encodeAsStored_cons, henc, Nat.add_sub_cancel_left]
            exact List.append_nil _
          · intro r hr
            cases hr
        · have hT : FromBytes.trace (fuel + 1)
              { mSpan := data, mPosition := pos, mError := false } recs =
              FromBytes.trace fuel { mSpan := data, mPosition := pos + n, mError := false }
                (recs ++ [rec]) := by
            rw [FromBytes.trace, if_pos hrem]
            dsimp only
            rw [hf1]
            dsimp only [Option.map_some']
            rw [hs, if_neg hc]
          rw [hT] at hflag ⊢
          obtain ⟨new, pos', hT', hle, hle', henc', hlast, hne⟩ :=
            ih (pos + n) (recs ++ [rec]) (by omega) (by omega) hflag
          refine ⟨rec :: new, pos', ?_, by omega, hle', ?_, ?_, fun _ => hlt⟩
          · rw [hT', List.append_assoc]
            rfl
          · rw [encodeAsStored_cons, henc, henc']
            have hk : pos' - pos = n + (pos' - (pos + n)) := by omega
            rw [hk, List.take_add, List.drop_drop]
          · intro r hr
            cases new with
            | nil => cases hr
            | cons r2 new2 =>
              have hlt' := hne (List.cons_ne_nil _ _)
              rw [List.dropLast_cons₂] at hr
              rcases List.mem_cons.mp hr with hr | hr
              · rw [hr]
                by_contra hne'
                apply hc
                refine ⟨by simpa using hne', ?_⟩
                unfold SpanStream.GetRemaining
                dsimp only
                omega
              · exact hlast r hr
    · have hT : FromBytes.trace (fuel + 1)
          { mSpan := data, mPosition := pos, mError := false } recs =
          (recs, { mSpan := data, mPosition := pos, mError := false }, false) := by
        rw [FromBytes.trace, if_neg hrem]
      refine ⟨[], pos, ?_, Nat.le_refl _, hpos, ?_, ?_, fun h => absurd rfl h⟩
      · rw [hT, List.append_nil]
      · rw [Nat.sub_self, List.take_zero]
        rfl
      · intro r hr
        cases hr

end ndef.Message

/-- **C34.** For every byte string `b` that `Message::FromBytes` accepts and in which
the first decoded record carries the message-begin bit of its header and no later
decoded record does, `Message::ToBytes` of the decoded message is the prefix of `b` that
the decoded records occupy: the loop of `FromBytes` ends without a failed record at a
position `n` of `b`, just after the record carrying message-end, and the re-encoding is
the first `n` bytes of `b`. -/
theorem Message_ToBytes_FromBytes_prefix (b : List Byte) (m : ndef.Message)
    (h : ndef.Message.FromBytes b = some m)
    (hMB1 : ∀ r, m.mRecords.head? = some r → r.mFlags &&& ndef.NDEF_MB ≠ 0)
    (hMB2 : ∀ r ∈ m.mRecords.tail, r.mFlags &&& ndef.NDEF_MB = 0) :
    ∃ n, ndef.Message.FromBytes.trace (b.length + 1) (SpanStream.new b) [] =
        (m.mRecords, { mSpan := b, mPosition := n, mError := false }, false) ∧
      n ≤ b.length ∧
      (∃ last, m.mRecords.getLast? = some last ∧ last.IsLast = true) ∧
      (∀ r ∈ m.mRecords.dropLast, r.IsLast = false) ∧
      m.ToBytes = b.take n := by
  have hflag : (ndef.Message.FromBytes.trace (b.length + 1) (SpanStream.new b) []).2.2 =
      false := by
    cases hf : (ndef.Message.FromBytes.trace (b.length + 1) (SpanStream.new b) []).2.2 with
    | false => rfl
    | true =>
      rw [ndef.Message.FromBytes_none_of_failed b hf] at h
      cases h
  obtain ⟨new, n, hT, -, hn, henc, hdrop, -⟩ :=
    ndef.Message.trace_bytes b (b.length + 1) 0 [] (by omega) (Nat.zero_le _) hflag
  have hloop : ndef.Message.FromBytes.loop (b.length + 1) (SpanStream.new b) [] = new := by
    rw [← ndef.Message.trace_fst]
    show (ndef.Message.FromBytes.trace (b.length + 1)
      { mSpan := b, mPosition := 0, mError := false } []).1 = new
    rw [hT]
    rfl
  unfold ndef.Message.FromBytes at h
  dsimp only at h
  rw [hloop] at h
  split at h
  · cases h
  · rename_i last hlast
    split at h
    · cases h
    · rename_i hIsLast
      have hm := Option.some.inj h
      subst hm
      dsimp only at hMB1 hMB2 ⊢
      have hl : last.IsLast = true := by simpa using hIsLast
      refine ⟨n, ?_, hn, ⟨last, hlast, hl⟩, hdrop, ?_⟩
      · show ndef.Message.FromBytes.trace (b.length + 1)
          { mSpan := b, mPosition := 0, mError := false } [] = _
        rw [hT]
        rfl
      · have hgo := ndef.Message.ToBytes_go_encodeAsStored new 0 new.length (Nat.zero_add _)
          (fun _ => hMB1) (by rw [if_pos rfl]; exact hMB2) hdrop
          (fun l hl' => by
            rw [hlast] at hl'
            rw [← Option.some.inj hl']
            exact hl)
        unfold ndef.Message.ToBytes
        dsimp only
        rw [hgo, henc]
        rfl

theorem Message_ToBytes_FromBytes_prefix_witness :
    ndef.Message.FromBytes [0x95, 0x00, 0x00, 0x55, 0x00, 0x00, 0xaa] =
      some { mRecords := [exampleRecord 0x90, exampleRecord 0x50] } ∧
    ndef.Message.ToBytes { mRecords := [exampleRecord 0x90, exampleRecord 0x50] } =
      [0x95, 0x00, 0x00, 0x55, 0x00, 0x00] ∧
    ∃ n, ndef.Message.FromBytes.trace
          (([0x95, 0x00, 0x00, 0x55, 0x00, 0x00, 0xaa] : List Byte).length + 1)
          (SpanStream.new [0x95, 0x00, 0x00, 0x55, 0x00, 0x00, 0xaa]) [] =
        ((ndef.Message.mk [exampleRecord 0x90, exampleRecord 0x50]).mRecords,
          { mSpan := [0x95, 0x00, 0x00, 0x55, 0x00, 0x00, 0xaa], mPosition := n,
            mError := false }, false) ∧
      n ≤ ([0x95, 0x00, 0x00, 0x55, 0x00, 0x00, 0xaa] : List Byte).length ∧
      (∃ last, (ndef.Message.mk [exampleRecord 0x90, exampleRecord 0x50]).mRecords.getLast? =
        some last ∧ last.IsLast = true) ∧
      (∀ r ∈ (ndef.Message.mk [exampleRecord 0x90, exampleRecord 0x50]).mRecords.dropLast,
        r.IsLast = false) ∧
      (ndef.Message.mk [exampleRecord 0x90, exampleRecord 0x50]).ToBytes =
        ([0x95, 0x00, 0x00, 0x55, 0x00, 0x00, 0xaa] : List Byte).take n :=
  ⟨by decide, by decide,
    Message_ToBytes_FromBytes_prefix [0x95, 0x00, 0x00, 0x55, 0x00, 0x00, 0xaa]
      { mRecords := [exampleRecord 0x90, exampleRecord 0x50] } (by decide)
      (fun r hr => by cases hr; decide) (by decide)⟩

/-! ## The version-2 remapping is a bijection -/

theorem TagV2.chunks_inverse_in :
    ∀ tail, (tail = 0xc ∨ tail = 0x14) → ∀ i, i < 0x208 + tail →
      (chunkSource (TagV2.chunksIn tail) i).bind (chunkSource (TagV2.chunksOut tail)) =
        some i := by
  intro tail h
  rcases h with h | h <;> subst h <;> decide!

theorem TagV2.chunksIn_uncovered :
    ∀ tail, (tail = 0xc ∨ tail = 0x14) → ∀ i, i < 540 → 0x208 + tail ≤ i →
      chunkSource (TagV2.chunksIn tail) i = none := by
  intro tail h
  rcases h with h | h <;> subst h <;> decide!

theorem TagV2.chunksIn_tiles :
    ∀ tail, (tail = 0xc ∨ tail = 0x14) →
      tilesRange (chunkSources (TagV2.chunksIn tail)) (0x208 + tail) = true ∧
      tilesRange (chunkDestinations (TagV2.chunksIn tail)) (0x208 + tail) = true := by
  intro tail h
  rcases h with h | h <;> subst h <;> decide!

/-- Decoding what `TagV2::ToBytes` writes gives the canonical buffer back, for a buffer
of 540 bytes that is zero beyond the dump size and has the magic at offset 0x28. -/
theorem TagV2.FromBytes_ToBytes_canonical (m : List Byte) (size : Nat) (e : Bool)
    (hsize : size = 0x214 ∨ size = 0x21c) (hlen : m.length = 540)
    (hzero : ∀ i, size ≤ i → i < 540 → m[i]? = some 0)
    (hmagic : m[0x28]? = some 0xa5) :
    TagV2.FromBytes
        (TagV2.ToBytes { mIsEncrypted := e, mData := m, mOriginalFileSize := size }) =
      some { mIsEncrypted := false, mData := m, mOriginalFileSize := size } := by
  rw [TagV2.ToBytes_eq _ hsize]
  dsimp only
  have htail : size - 0x208 = 0xc ∨ size - 0x208 = 0x14 := by omega
  have hvout : chunksValid m.length (zeros size).length (TagV2.chunksOut (size - 0x208)) =
      true := by
    rw [hlen, length_zeros]
    rcases hsize with h | h <;> rw [h] <;> decide
  obtain ⟨hOlen, hOget⟩ := applyChunks_spec m _ _ hvout
  rw [length_zeros] at hOlen
  generalize hraw : applyChunks m (TagV2.chunksOut (size - 0x208)) (zeros size) = raw
    at hOlen hOget
  have hmag : raw.getD 0x10 0 = 0xa5 := by
    rw [List.getD_eq_getElem?_getD, hOget 0x10]
    have hsrc : chunkSource (TagV2.chunksOut (size - 0x208)) 0x10 = some 0x28 := by
      rcases htail with h | h <;> rw [h] <;> decide
    rw [hsrc]
    dsimp only
    rw [hmagic]
    rfl
  rw [TagV2.FromBytes_eq raw (by omega) hmag, hOlen]
  have hvin : chunksValid raw.length (zeros 540).length (TagV2.chunksIn (size - 0x208)) =
      true := by
    rw [hOlen, length_zeros]
    rcases hsize with h | h <;> rw [h] <;> decide
  obtain ⟨hMlen, hMget⟩ := applyChunks_spec raw _ _ hvin
  rw [length_zeros] at hMlen
  have hdata : applyChunks raw (TagV2.chunksIn (size - 0x208)) (zeros 540) = m := by
    apply List.ext_getElem?
    intro i
    rw [hMget i]
    by_cases hi : i < 0x208 + (size - 0x208)
    · have key := TagV2.chunks_inverse_in _ htail i hi
      cases h1 : chunkSource (TagV2.chunksIn (size - 0x208)) i with
      | none => rw [h1] at key; cases key
      | some j =>
        rw [h1] at key
        simp only [Option.bind_some, Option.some_bind] at key
        simp only
        rw [hOget j, key]
    · by_cases hi2 : i < 540
      · rw [TagV2.chunksIn_uncovered _ htail i hi2 (by omega)]
        dsimp only
        rw [getElem?_zeros, if_pos hi2, hzero i (by omega) hi2]
      · have hnone : chunkSource (TagV2.chunksIn (size - 0x208)) i = none := by
          rcases htail with h | h <;> rw [h] <;>
            simp only [TagV2.chunksIn, chunkSource] <;>
            repeat (first | rw [if_neg (by omega)] | rfl)
        rw [hnone]
        dsimp only
        rw [getElem?_zeros, if_neg hi2, List.getElem?_eq_none (by omega)]
  rw [hdata]

/-- **C36.** The version-2 remapping is a bijection on the bytes it covers. For a tag
`t` that `TagV2::FromBytes` returns for a dump `d`, the canonical buffer is the result of
the ten copies, whose source ranges tile the dump and whose destination ranges tile the
canonical bytes `[0, 0x208 + 0xc)` or `[0, 0x208 + 0x14)`. So after any edit `b` of the
canonical bytes `[0, 0x208)` that keeps the byte at 0x28 equal to 0xA5,
`TagV2::FromBytes` of `TagV2::ToBytes` succeeds and returns the edited tag, with the
same canonical buffer. -/
theorem TagV2_remapping_bijection (d : List Byte) (t : TagV2) (b : List Byte)
    (h : TagV2.FromBytes d = some t) (hb : b.length = 0x208)
    (hmagic : b.getD 0x28 0 = 0xa5) :
    (d.length = 0x214 ∨ d.length = 0x21c) ∧
    t.mData = applyChunks d (TagV2.chunksIn (d.length - 0x208)) (zeros 540) ∧
    tilesRange (chunkSources (TagV2.chunksIn (d.length - 0x208))) d.length = true ∧
    tilesRange (chunkDestinations (TagV2.chunksIn (d.length - 0x208))) d.length = true ∧
    TagV2.FromBytes
        (TagV2.ToBytes
          { mIsEncrypted := t.mIsEncrypted, mData := b ++ t.mData.drop 0x208,
            mOriginalFileSize := t.mOriginalFileSize }) =
      some { mIsEncrypted := t.mIsEncrypted, mData := b ++ t.mData.drop 0x208,
             mOriginalFileSize := t.mOriginalFileSize } := by
  have hlen : d.length = 0x214 ∨ d.length = 0x21c := by
    by_contra hne
    rw [TagV2.FromBytes, if_pos (by
      simp only [TagV2.kTagSize0, TagV2.kTagSize1]; omega)] at h
    cases h
  have hmag : d.getD 0x10 0 = 0xa5 := by
    by_contra hne
    rw [TagV2.FromBytes, if_neg (by
      simp only [TagV2.kTagSize0, TagV2.kTagSize1]; omega),
      if_pos (show d.getD 0x10 0 ≠ TagV2.kTagMagic from hne)] at h
    cases h
  rw [TagV2.FromBytes_eq d hlen hmag] at h
  have ht := (Option.some.inj h).symm
  subst ht
  dsimp only
  have htail : d.length - 0x208 = 0xc ∨ d.length - 0x208 = 0x14 := by omega
  have hsum : 0x208 + (d.length - 0x208) = d.length := by omega
  have htiles := TagV2.chunksIn_tiles _ htail
  rw [hsum] at htiles
  have hvin : chunksValid d.length (zeros 540).length (TagV2.chunksIn (d.length - 0x208)) =
      true := by
    rw [length_zeros]
    rcases hlen with h | h <;> rw [h] <;> decide
  obtain ⟨hMlen, hMget⟩ := applyChunks_spec d _ _ hvin
  rw [length_zeros] at hMlen
  generalize applyChunks d (TagV2.chunksIn (d.length - 0x208)) (zeros 540) = M
    at hMlen hMget ⊢
  refine ⟨hlen, rfl, htiles.1, htiles.2, ?_⟩
  have hget : ∀ i, (b ++ M.drop 0x208)[i]? = if i < 0x208 then b[i]? else M[i]? := by
    intro i
    by_cases hi : i < 0x208
    · rw [if_pos hi, List.getElem?_append_left (by omega)]
    · have hi' : 0x208 + (i - 0x208) = i := by omega
      rw [if_neg hi, List.getElem?_append_right (by omega), List.getElem?_drop, hb, hi']
  apply TagV2.FromBytes_ToBytes_canonical _ _ _ hlen
  · rw [List.length_append, List.length_drop, hb, hMlen]
  · intro i hi hi2
    rw [hget i, if_neg (by omega), hMget i,
      TagV2.chunksIn_uncovered _ htail i hi2 (by omega)]
    dsimp only
    rw [getElem?_zeros, if_pos hi2]
  · rw [hget 0x28, if_pos (by decide)]
    rw [List.getD_eq_getElem?_getD] at hmagic
    cases hb28 : b[0x28]? with
    | none =>
      have := List.getElem?_eq_none_iff.mp hb28
      omega
    | some x =>
      rw [hb28] at hmagic
      rw [← hmagic]
      rfl

theorem TagV2_remapping_bijection_witness :
    TagV2.FromBytes exampleDumpV2 =
      some { mIsEncrypted := false, mData := exampleCanonicalV2, mOriginalFileSize := 0x214 } ∧
    exampleEditV2.length = 0x208 ∧ exampleEditV2.getD 0x28 0 = 0xa5 ∧
    TagV2.FromBytes
        (TagV2.ToBytes
          { mIsEncrypted := false, mData := exampleEditV2 ++ exampleCanonicalV2.drop 0x208,
            mOriginalFileSize := 0x214 }) =
      some { mIsEncrypted := false, mData := exampleEditV2 ++ exampleCanonicalV2.drop 0x208,
             mOriginalFileSize := 0x214 } :=
  ⟨by decide!, by decide!, by decide!,
    (TagV2_remapping_bijection exampleDumpV2
      { mIsEncrypted := false, mData := exampleCanonicalV2, mOriginalFileSize := 0x214 }
      exampleEditV2 (by decide!) (by decide!) (by decide!)).2.2.2.2⟩

namespace TagV0

/-- The behaviour of `TagV0::FromBytes` is undefined exactly on the 512-byte dumps whose
data area has fewer than 4 bytes. -/
theorem outcome_isUndefined (d : List Byte) :
    (FromBytes.outcome d).isUndefined = true ↔ d.length = 512 ∧ (dataAreaOf d).length < 4 := by
  have hda : dataAreaOf d = (ParseLockedArea TagV0.new d).ParseDataArea d := rfl
  rw [FromBytes.outcome]
  by_cases hlen : d.length ≠ kTagSize
  · rw [if_pos hlen]
    simp only [kTagSize] at hlen
    simp only [Outcome.isUndefined, Bool.false_eq_true, false_iff, not_and]
    intro h
    exact absurd h hlen
  · rw [if_neg hlen]
    simp only [kTagSize, ne_eq, not_not] at hlen
    dsimp only
    rw [← hda]
    by_cases h4 : (dataAreaOf d).length < 4
    · rw [if_pos h4]
      exact ⟨fun _ => ⟨hlen, h4⟩, fun _ => rfl⟩
    · rw [if_neg h4]
      constructor
      · intro h
        exfalso
        revert h
        repeat' split
        all_goals simp [Outcome.isUndefined]
      · intro h
        exact absurd h.2 h4

/-- A dump without a free block: the data area is empty and the behaviour of
`TagV0::FromBytes`, which copies its first 4 bytes, is undefined. -/
theorem outcome_no_free_block :
    exampleDumpNoFreeBlock.length = 512 ∧ dataAreaOf exampleDumpNoFreeBlock = [] ∧
    (FromBytes.outcome exampleDumpNoFreeBlock).isUndefined = true := by
  decide!

/-- A call that neither returns a tag nor has undefined behaviour returns no tag. -/
theorem outcome_rejected_of (d : List Byte) (h4 : 4 ≤ (dataAreaOf d).length)
    (hno : ∀ t, FromBytes.outcome d ≠ Outcome.tag t) :
    FromBytes.outcome d = Outcome.rejected ∧ FromBytes d = none := by
  unfold FromBytes
  cases ho : FromBytes.outcome d with
  | tag t => exact absurd ho (hno t)
  | rejected => exact ⟨rfl, rfl⟩
  | undefined =>
    have := (outcome_isUndefined d).mp (by rw [ho]; rfl)
    omega

end TagV0

/-- **C15.** The capability-container check passes exactly when byte 0 is 0xE1, the high
nibble of byte 1 is 1 and `8 * (byte 2 + 1)` is not below 512, and the last condition
fails exactly when byte 2 is below 0x3F. For every dump that has a capability container
(a data area of at least 4 bytes) whose bytes break one of the three conditions,
`TagV0::FromBytes` returns no tag: the outcome is the clean `return {}`. -/
theorem TagV0_capability_container_check (d : List Byte) (t : TagV0) (b : Byte) :
    (t.ValidateCapabilityContainer = true ↔
      ¬ (t.mCapabilityContainer.getD 0 0 ≠ 0xe1 ∨
         (t.mCapabilityContainer.getD 1 0).val / 16 ≠ 1 ∨
         8 * ((t.mCapabilityContainer.getD 2 0).val + 1) < 512)) ∧
    (8 * (b.val + 1) < 512 ↔ b.val < 0x3f) ∧
    (4 ≤ (TagV0.dataAreaOf d).length →
      ((TagV0.dataAreaOf d).getD 0 0 ≠ 0xe1 ∨
        ((TagV0.dataAreaOf d).getD 1 0).val / 16 ≠ 1 ∨
        ((TagV0.dataAreaOf d).getD 2 0).val < 0x3f) →
      TagV0.FromBytes.outcome d = TagV0.Outcome.rejected ∧ TagV0.FromBytes d = none) := by
  refine ⟨?_, by omega, ?_⟩
  · rw [TagV0.ValidateCapabilityContainer_iff]
    tauto
  · intro h4 hbad
    apply TagV0.outcome_rejected_of d h4
    intro tag hres
    obtain ⟨-, -, -, -, -, hcc, hval, -⟩ := TagV0.outcome_tag d tag hres
    rw [TagV0.ValidateCapabilityContainer_iff, hcc,
      TagV0.getD_capabilityContainer _ 0 (by omega),
      TagV0.getD_capabilityContainer _ 1 (by omega),
      TagV0.getD_capabilityContainer _ 2 (by omega)] at hval
    obtain ⟨h0, h1, h2⟩ := hval
    rcases hbad with h | h | h
    · exact h h0
    · exact h h1
    · omega

theorem TagV0_capability_container_check_witness :
    4 ≤ (TagV0.dataAreaOf (exampleDumpNoNdef.set 8 0xe0)).length ∧
    (TagV0.dataAreaOf (exampleDumpNoNdef.set 8 0xe0)).getD 0 0 ≠ 0xe1 ∧
    TagV0.FromBytes.outcome (exampleDumpNoNdef.set 8 0xe0) = TagV0.Outcome.rejected ∧
    TagV0.FromBytes (exampleDumpNoNdef.set 8 0xe0) = none :=
  ⟨by decide!, by decide!,
    (TagV0_capability_container_check (exampleDumpNoNdef.set 8 0xe0) TagV0.new 0).2.2
      (by decide!) (Or.inl (by decide!))⟩

/-- **C35 (amended).** Every record that `Record::FromStream` returns, and every record
obtained from such a record by `SetPayload` or `SetID`, satisfies the length invariant:
a short record has a payload of at most 255 bytes, and a record without the
ID-length-present flag has an empty ID. For a record with the invariant,
`Record::ToBytes` writes the payload length exactly into the one-byte field of a short
record, writes it exactly into the four-byte field of a long record whose payload is
shorter than `2^32` bytes (decoded payloads have at most 2 MiB), and writes no ID bytes
when it writes no ID-length byte. -/
theorem Record_lengths_fit_encode :
    -- the invariant holds for decoded records and is kept by the two setters
    (∀ (s : SpanStream) (r : ndef.Record), (ndef.Record.FromStream s).1 = some r →
      r.lengthsFit ∧ r.mPayload.length ≤ 2 * 1024 * 1024) ∧
    (∀ (r : ndef.Record) (payload : List Byte), r.lengthsFit →
      (r.SetPayload payload).lengthsFit) ∧
    (∀ (r r' : ndef.Record) (id : List Byte), r.lengthsFit → r.SetID id = some r' →
      r'.lengthsFit) ∧
    -- what `ToBytes` writes for a record with the invariant
    (∀ (r : ndef.Record) (flags : Byte), r.lengthsFit →
      (r.IsShort = true →
        ndef.Record.payloadLengthField r (r.ToBytes flags) = r.mPayload.length) ∧
      (r.IsShort = false → r.mPayload.length < 4294967296 →
        ndef.Record.payloadLengthField r (r.ToBytes flags) = r.mPayload.length) ∧
      (r.mFlags &&& ndef.NDEF_IL = 0 →
        r.ToBytes flags =
          (((r.mFlags &&& compl8 (ndef.NDEF_MB ||| ndef.NDEF_ME)) ||| flags) ||| r.mTNF) ::
            u8 r.mType.length ::
            ((if r.IsShort = true then [u8 r.mPayload.length]
              else writeU32 r.mPayload.length) ++ (r.mType ++ r.mPayload)))) ∧
    -- an example: the record decoded from `1D 01 02 01 AA BB CC DD EE`, given a payload
    -- of 300 bytes
    (∃ r0, (ndef.Record.FromStream (SpanStream.new exampleRecordBytes)).1 = some r0 ∧
      (r0.SetPayload (List.replicate 300 0x11)).IsShort = false ∧
      ndef.Record.payloadLengthField (r0.SetPayload (List.replicate 300 0x11))
        ((r0.SetPayload (List.replicate 300 0x11)).ToBytes 0) = 300) := by
  refine ⟨ndef.Record.lengthsFit_FromStream, ndef.Record.lengthsFit_SetPayload,
    fun r r' id h hset => (ndef.Record.lengthsFit_SetID r id r' h hset).1, ?_, ?_⟩
  · intro r flags h
    refine ⟨fun hs => ?_, fun hs hlt => ?_, fun h0 => ?_⟩
    · rw [ndef.Record.payloadLengthField_ToBytes, if_pos hs]
      have := h.1 hs
      omega
    · rw [ndef.Record.payloadLengthField_ToBytes, hs, if_neg Bool.false_ne_true]
      exact Nat.mod_eq_of_lt hlt
    · have hne : ¬ (r.mFlags &&& ndef.NDEF_IL ≠ 0) := fun hne => hne h0
      rw [ndef.Record.ToBytes_fields, if_neg hne, h.2 h0, List.nil_append, List.append_nil]
  · have hshort : (ndef.Record.SetPayload
        { mFlags := 0x18, mTNF := 5, mID := [0xbb], mType := [0xaa], mPayload := [0xcc, 0xdd] }
        (List.replicate 300 0x11)).IsShort = false := by
      unfold ndef.Record.SetPayload ndef.Record.IsShort
      dsimp only
      rw [List.length_replicate, if_neg (by decide)]
      decide
    have hp : (ndef.Record.SetPayload
        { mFlags := 0x18, mTNF := 5, mID := [0xbb], mType := [0xaa], mPayload := [0xcc, 0xdd] }
        (List.replicate 300 0x11)).mPayload = List.replicate 300 0x11 := rfl
    refine ⟨{ mFlags := 0x18, mTNF := 5, mID := [0xbb], mType := [0xaa],
              mPayload := [0xcc, 0xdd] }, by decide, hshort, ?_⟩
    rw [ndef.Record.payloadLengthField_ToBytes, hshort, if_neg Bool.false_ne_true, hp,
      List.length_replicate]

/-- **C35 (as stated, refuted).** `SetPayload` accepts a payload of any size and
`ToBytes` narrows its size to 32 bits: the record decoded from `15 00 00`, given a
payload of `2^32` bytes, satisfies the length invariant and is written with the
payload-length field 0, smaller than the payload that follows it. -/
theorem Record_payload_length_field_wraps :
    ∃ r0, (ndef.Record.FromStream (SpanStream.new [0x15, 0x00, 0x00])).1 = some r0 ∧
      (r0.SetPayload (List.replicate 4294967296 0)).lengthsFit ∧
      (r0.SetPayload (List.replicate 4294967296 0)).IsShort = false ∧
      (r0.SetPayload (List.replicate 4294967296 0)).mPayload.length = 4294967296 ∧
      ndef.Record.payloadLengthField (r0.SetPayload (List.replicate 4294967296 0))
        ((r0.SetPayload (List.replicate 4294967296 0)).ToBytes 0) = 0 := by
  have h0 : (ndef.Record.FromStream (SpanStream.new [0x15, 0x00, 0x00])).1 =
      some { mFlags := 0x10, mTNF := 5, mID := [], mType := [], mPayload := [] } := by
    decide
  refine ⟨_, h0, ?_⟩
  have hfit := ndef.Record.lengthsFit_SetPayload _ (List.replicate 4294967296 0)
    (ndef.Record.lengthsFit_FromStream _ _ h0).1
  have hlen : (List.replicate 4294967296 (0 : Byte)).length = 4294967296 :=
    List.length_replicate _ _
  have hshort : (ndef.Record.SetPayload
      { mFlags := 0x10, mTNF := 5, mID := [], mType := [], mPayload := [] }
      (List.replicate 4294967296 0)).IsShort = false := by
    unfold ndef.Record.SetPayload ndef.Record.IsShort
    dsimp only
    rw [hlen, if_neg (by decide)]
    decide
  refine ⟨hfit, hshort, hlen, ?_⟩
  have hp : (ndef.Record.SetPayload
      { mFlags := 0x10, mTNF := 5, mID := [], mType := [], mPayload := [] }
      (List.replicate 4294967296 0)).mPayload = List.replicate 4294967296 0 := rfl
  rw [ndef.Record.payloadLengthField_ToBytes, hshort, if_neg Bool.false_ne_true, hp, hlen]

namespace TLV

theorem decodeL_Frames_append (pre : List Byte) (ts : List TLV) (h : Frames pre ts) :
    ∀ rest, decodeL (pre ++ rest) = (decodeL rest).map (fun ts' => ts ++ ts') := by
  induction h with
  | nil =>
    intro rest
    rw [List.nil_append]
    cases hd : decodeL rest with
    | none => rfl
    | some x => rfl
  | null r ts _ ih =>
    intro rest
    rw [List.cons_append, decodeL_cons, if_pos rfl]
    exact ih rest
  | frame tag hdr v r ts hn ht hf _ ih =>
    intro rest
    have := decodeL_frame tag hdr v (r ++ rest) hn ht hf
    simp only [List.cons_append, List.append_assoc] at this ⊢
    rw [this, ih rest]
    cases hd : decodeL rest with
    | none => rfl
    | some x => rfl

theorem decodeL_Frames (l : List Byte) (ts : List TLV) (h : Frames l ts) :
    decodeL l = some ts := by
  have := decodeL_Frames_append l ts h []
  rw [List.append_nil, decodeL_nil] at this
  rw [this]
  simp

theorem decodeL_Frames_terminator (pre : List Byte) (ts : List TLV) (h : Frames pre ts)
    (rest : List Byte) :
    decodeL (pre ++ TAG_TERMINATOR :: rest) =
      some (ts ++ [{ mTag := TAG_TERMINATOR, mValue := [] }]) := by
  rw [decodeL_Frames_append pre ts h, decodeL_cons, if_neg (by decide), if_pos rfl]
  rfl

/-- A successful decode went through complete frames up to the end of the input, or up
to a TERMINATOR byte read as a tag. -/
theorem Frames_of_decodeL (l : List Byte) (ts : List TLV) (h : decodeL l = some ts) :
    (Frames l ts ∧ ∀ t ∈ ts, t.mTag ≠ TAG_TERMINATOR) ∨
    (∃ pre rest ts0, l = pre ++ TAG_TERMINATOR :: rest ∧ Frames pre ts0 ∧
      ts = ts0 ++ [{ mTag := TAG_TERMINATOR, mValue := [] }]) := by
  refine decodeL_induction (P := fun l ts =>
    (Frames l ts ∧ ∀ t ∈ ts, t.mTag ≠ TAG_TERMINATOR) ∨
    (∃ pre rest ts0, l = pre ++ TAG_TERMINATOR :: rest ∧ Frames pre ts0 ∧
      ts = ts0 ++ [{ mTag := TAG_TERMINATOR, mValue := [] }])) ?_ ?_ ?_ ?_ l ts h
  · exact Or.inl ⟨Frames.nil, fun t ht => by cases ht⟩
  · intro r ts _ ih
    rcases ih with ⟨hf, hno⟩ | ⟨pre, rest, ts0, he, hf, hts⟩
    · exact Or.inl ⟨Frames.null r ts hf, hno⟩
    · exact Or.inr ⟨TAG_NULL :: pre, rest, ts0, by rw [he]; rfl, Frames.null pre ts0 hf, hts⟩
  · intro r
    exact Or.inr ⟨[], r, [], rfl, Frames.nil, rfl⟩
  · intro tag hdr v rest ts' hn ht hlf _ ih
    rcases ih with ⟨hf, hno⟩ | ⟨pre, rest', ts0, he, hf, hts⟩
    · refine Or.inl ⟨Frames.frame tag hdr v rest ts' hn ht hlf hf, fun t htm => ?_⟩
      rcases List.mem_cons.mp htm with h1 | h1
      · rw [h1]; exact ht
      · exact hno t h1
    · refine Or.inr ⟨tag :: (hdr ++ v ++ pre), rest', { mTag := tag, mValue := v } :: ts0, ?_,
        Frames.frame tag hdr v pre ts0 hn ht hlf hf, by rw [hts]; rfl⟩
      rw [he]
      simp only [List.cons_append, List.append_assoc]

end TLV

/-- **C10.** For every input, the sequence `TLV::FromBytes` returns has no element with
the NULL tag, and a TERMINATOR element occurs in it only as the last element and with an
empty value. When it has a TERMINATOR element, the input is a sequence of complete
frames (NULL bytes and TLVs in either length form) followed by a TERMINATOR byte; and
whenever the input is such frames followed by a TERMINATOR byte, which is then the first
TERMINATOR byte read as a tag, the result is the TLVs of the frames and the TERMINATOR,
whatever bytes follow. An input that is complete frames and nothing else yields the TLVs
of the frames; the encodings of complete TLVs, none of them NULL or TERMINATOR, are such
an input. -/
theorem TLV_FromBytes_shape (data : List Byte) :
    (∀ t ∈ TLV.FromBytes data, t.mTag ≠ TLV.TAG_NULL) ∧
    (∀ pre t post, TLV.FromBytes data = pre ++ t :: post → t.mTag = TLV.TAG_TERMINATOR →
      post = [] ∧ t.mValue = []) ∧
    ((∃ t ∈ TLV.FromBytes data, t.mTag = TLV.TAG_TERMINATOR) →
      ∃ pre ts rest, data = pre ++ TLV.TAG_TERMINATOR :: rest ∧ TLV.Frames pre ts) ∧
    (∀ pre ts rest, data = pre ++ TLV.TAG_TERMINATOR :: rest → TLV.Frames pre ts →
      TLV.FromBytes data = ts ++ [{ mTag := TLV.TAG_TERMINATOR, mValue := [] }] ∧
      ∀ rest', TLV.FromBytes (pre ++ TLV.TAG_TERMINATOR :: rest') = TLV.FromBytes data) ∧
    (∀ ts, TLV.Frames data ts → TLV.FromBytes data = ts) ∧
    (∀ ts : List TLV, data = TLV.encodeAll ts →
      (∀ t ∈ ts, t.mTag ≠ TLV.TAG_NULL ∧ t.mTag ≠ TLV.TAG_TERMINATOR ∧
        t.mValue.length < 65536) →
      TLV.FromBytes data = ts) := by
  have h12 : (∀ t ∈ TLV.FromBytes data, t.mTag ≠ TLV.TAG_NULL) ∧
      (∀ pre t post, TLV.FromBytes data = pre ++ t :: post → t.mTag = TLV.TAG_TERMINATOR →
        post = [] ∧ t.mValue = []) := by
    rw [TLV.FromBytes_eq_decodeL]
    cases h : TLV.decodeL data with
    | none =>
      refine ⟨fun t ht => (by cases ht), fun pre t post he _ => ?_⟩
      cases pre <;> cases he
    | some ts0 => exact ⟨TLV.decodeL_no_null data ts0 h, TLV.decodeL_terminator_last data ts0 h⟩
  refine ⟨h12.1, h12.2, ?_, ?_, ?_, ?_⟩
  · rw [TLV.FromBytes_eq_decodeL]
    rintro ⟨t, ht, htt⟩
    cases h : TLV.decodeL data with
    | none => rw [h] at ht; cases ht
    | some ts0 =>
      rw [h] at ht
      rcases TLV.Frames_of_decodeL data ts0 h with ⟨_, hno⟩ | ⟨pre, rest, ts1, he, hf, _⟩
      · exact absurd htt (hno t ht)
      · exact ⟨pre, ts1, rest, he, hf⟩
  · intro pre ts rest he hf
    have key : ∀ r, TLV.FromBytes (pre ++ TLV.TAG_TERMINATOR :: r) =
        ts ++ [{ mTag := TLV.TAG_TERMINATOR, mValue := [] }] := by
      intro r
      rw [TLV.FromBytes_eq_decodeL, TLV.decodeL_Frames_terminator pre ts hf r]
      rfl
    rw [he]
    exact ⟨key rest, fun rest' => by rw [key rest', key rest]⟩
  · intro ts hf
    rw [TLV.FromBytes_eq_decodeL, TLV.decodeL_Frames data ts hf]
    rfl
  · intro ts hd hts
    have := TLV.decodeL_encodeAll ts (fun t ht => (hts t ht).1) (fun t ht => (hts t ht).2.2)
      (fun pre t post he htt => by
        have : t ∈ ts := by rw [he]; simp
        exact absurd htt (hts t this).2.1)
    rw [TLV.FromBytes_eq_decodeL, hd, this]
    rfl

/-- An input with NULL padding and a 3-byte length field for a 2-byte value, then a
TERMINATOR and one more byte. -/
theorem TLV_FromBytes_shape_witness :
    TLV.FromBytes [0x00, 0x01, 0xff, 0x00, 0x02, 0xaa, 0xbb, 0x00, 0xfe, 0x99] =
      [{ mTag := 0x01, mValue := [0xaa, 0xbb] }] ++
        [{ mTag := TLV.TAG_TERMINATOR, mValue := [] }] :=
  ((TLV_FromBytes_shape [0x00, 0x01, 0xff, 0x00, 0x02, 0xaa, 0xbb, 0x00, 0xfe, 0x99]).2.2.2.1
    [0x00, 0x01, 0xff, 0x00, 0x02, 0xaa, 0xbb, 0x00] [{ mTag := 0x01, mValue := [0xaa, 0xbb] }]
    [0x99] rfl
    (TLV.Frames.null _ _
      (TLV.Frames.frame 0x01 [0xff, 0x00, 0x02] [0xaa, 0xbb] [0x00] [] (by decide) (by decide)
        (Or.inr ⟨0x00, 0x02, rfl, rfl⟩) (TLV.Frames.null _ _ TLV.Frames.nil)))).1

/-! ## Encode after Decode on a canonical version-0 dump -/

namespace TLV

theorem decodeL_zeros (k : Nat) : decodeL (zeros k) = some [] := by
  induction k with
  | zero => exact decodeL_nil
  | succ k ih =>
    show decodeL (TAG_NULL :: zeros k) = some []
    rw [decodeL_cons, if_pos rfl]
    exact ih

/-- The canonical encodings of TLVs followed by zero bytes decode to the TLVs. -/
theorem decodeL_encodeAll_zeros (ts : List TLV) (k : Nat) :
    (∀ t ∈ ts, t.mTag ≠ TAG_NULL) → (∀ t ∈ ts, t.mValue.length < 65536) →
    (∀ pre t post, ts = pre ++ t :: post → t.mTag = TAG_TERMINATOR →
      post = [] ∧ t.mValue = []) →
    decodeL (encodeAll ts ++ zeros k) = some ts := by
  induction ts with
  | nil => intro _ _ _; exact decodeL_zeros k
  | cons t ts ih =>
    intro hnull hlen hterm
    have hn : t.mTag ≠ TAG_NULL := hnull t (List.mem_cons_self _ _)
    by_cases ht : t.mTag = TAG_TERMINATOR
    · obtain ⟨hpost, hval⟩ := hterm [] t ts rfl ht
      subst hpost
      rw [encodeAll, encodeAll, List.append_nil, ToBytes_null_or_terminator t (Or.inr ht),
        List.singleton_append, decodeL_cons, if_neg hn, if_pos ht]
      cases t with
      | mk tag v =>
        simp only at hval
        rw [hval]
    · rw [encodeAll, List.append_assoc,
        decodeL_ToBytes_append t _ hn ht (hlen t (List.mem_cons_self _ _)),
        ih (fun x hx => hnull x (List.mem_cons_of_mem _ hx))
          (fun x hx => hlen x (List.mem_cons_of_mem _ hx))
          (fun pre x post he hx => hterm (t :: pre) x post (by rw [he]; rfl) hx)]
      rfl

/-- A value is no longer than the encodings that contain it. -/
theorem length_value_le_encodeAll (ts : List TLV) :
    (∀ t ∈ ts, t.mTag ≠ TAG_NULL) →
    (∀ pre t post, ts = pre ++ t :: post → t.mTag = TAG_TERMINATOR →
      post = [] ∧ t.mValue = []) →
    ∀ t ∈ ts, t.mValue.length ≤ (encodeAll ts).length := by
  induction ts with
  | nil => intro _ _ t ht; cases ht
  | cons x ts ih =>
    intro hnull hterm t ht
    rw [encodeAll, List.length_append]
    rcases List.mem_cons.mp ht with h | h
    · rw [h]
      by_cases hx : x.mTag = TAG_TERMINATOR
      · rw [(hterm [] x ts rfl hx).2]
        exact Nat.zero_le _
      · have hn : x.mTag ≠ TAG_NULL := hnull x (List.mem_cons_self _ _)
        have hb : x.mValue.length ≤ (ToBytes x).length := by
          unfold ToBytes
          dsimp only
          rw [if_neg (by
            intro hor
            rcases hor with h1 | h1
            · exact hn h1
            · exact hx h1)]
          rw [List.length_append]
          omega
        omega
    · have := ih (fun y hy => hnull y (List.mem_cons_of_mem _ hy))
        (fun pre y post he hy => hterm (x :: pre) y post (by rw [he]; rfl) hy) t h
      omega

end TLV

namespace ndef.Message

/-- The re-encoding of a decoded message whose first record alone carries MB is the
part of the input up to the position where the loop of `FromBytes` ended. -/
theorem ToBytes_of_FromBytes (b : List Byte) (m : Message) (h : FromBytes b = some m)
    (hMB1 : ∀ r, m.mRecords.head? = some r → r.mFlags &&& NDEF_MB ≠ 0)
    (hMB2 : ∀ r ∈ m.mRecords.tail, r.mFlags &&& NDEF_MB = 0) :
    m.ToBytes = b.take
      (FromBytes.trace (b.length + 1) (SpanStream.new b) []).2.1.mPosition := by
  have hflag : (FromBytes.trace (b.length + 1) (SpanStream.new b) []).2.2 = false := by
    cases hf : (FromBytes.trace (b.length + 1) (SpanStream.new b) []).2.2 with
    | false => rfl
    | true =>
      rw [FromBytes_none_of_failed b hf] at h
      cases h
  obtain ⟨new, n, hT, -, hn, henc, hdrop, -⟩ :=
    trace_bytes b (b.length + 1) 0 [] (by omega) (Nat.zero_le _) hflag
  have hT' : FromBytes.trace (b.length + 1) (SpanStream.new b) [] =
      ([] ++ new, { mSpan := b, mPosition := n, mError := false }, false) := hT
  have hloop : FromBytes.loop (b.length + 1) (SpanStream.new b) [] = new := by
    rw [← trace_fst, hT']
    rfl
  rw [hT']
  dsimp only
  unfold FromBytes at h
  dsimp only at h
  rw [hloop] at h
  split at h
  · cases h
  · rename_i last hlast
    split at h
    · cases h
    · rename_i hIsLast
      have hm := Option.some.inj h
      subst hm
      dsimp only at hMB1 hMB2 ⊢
      have hl : last.IsLast = true := by simpa using hIsLast
      have hgo := ToBytes_go_encodeAsStored new 0 new.length (Nat.zero_add _)
        (fun _ => hMB1) (by rw [if_pos rfl]; exact hMB2) hdrop
        (fun l hl' => by
          rw [hlast] at hl'
          rw [← Option.some.inj hl']
          exact hl)
      unfold ToBytes
      dsimp only
      rw [hgo, henc]
      rfl

end ndef.Message

namespace TagV0

/-- What setting and clearing the SR bit does to flags that already have it set or
clear. -/
theorem short_bit_kept : ∀ f : Byte,
    (f &&& ndef.NDEF_SR ≠ 0 → f ||| ndef.NDEF_SR = f) ∧
    (¬ f &&& ndef.NDEF_SR ≠ 0 → f &&& compl8 ndef.NDEF_SR = f) := by
  decide!

/-- `SetPayload` with the payload a record already has leaves the record as it is when
the record is short exactly if that payload is shorter than 255 bytes. -/
theorem SetPayload_same (r : ndef.Record)
    (h : r.IsShort = true ↔ r.mPayload.length < 0xff) : r.SetPayload r.mPayload = r := by
  unfold ndef.Record.SetPayload
  unfold ndef.Record.IsShort at h
  by_cases hlt : r.mPayload.length < 0xff
  · rw [if_pos hlt, (short_bit_kept r.mFlags).1 (of_decide_eq_true (h.mpr hlt))]
  · rw [if_neg hlt, (short_bit_kept r.mFlags).2 (fun hne => hlt (h.mp (decide_eq_true hne)))]

theorem updatePayload_same (mData : List Byte) :
    ∀ (rs : List ndef.Record) (rec : ndef.Record), findUnknownRecord rs = some rec →
      slice mData 0 rec.mPayload.length = rec.mPayload →
      (rec.IsShort = true ↔ rec.mPayload.length < 0xff) →
      updatePayload mData rs = rs := by
  intro rs
  induction rs with
  | nil => intro rec h; cases h
  | cons r rs ih =>
    intro rec hfind hslice hsr
    rw [findUnknownRecord] at hfind
    rw [updatePayload]
    by_cases hu : r.GetTNF = ndef.NDEF_TNF_UNKNOWN
    · rw [if_pos hu] at hfind ⊢
      have hr : r = rec := Option.some.inj hfind
      subst hr
      rw [ndef.Record.GetPayload, hslice, SetPayload_same r hsr]
    · rw [if_neg hu] at hfind ⊢
      rw [ih rec hfind hslice hsr]

theorem updateNdefTlv_same :
    ∀ (ts : List TLV) (x : TLV), findNdefTlv ts = some x → x.mValue.length < 0x10000 →
      updateNdefTlv x.mValue ts = some ts := by
  intro ts
  induction ts with
  | nil => intro x h; cases h
  | cons t ts ih =>
    intro x hfind hlen
    rw [findNdefTlv] at hfind
    rw [updateNdefTlv]
    by_cases ht : t.mTag = TLV.TAG_NDEF
    · rw [if_pos ht] at hfind ⊢
      have hx : t = x := Option.some.inj hfind
      subst hx
      rw [TLV.SetValue, if_pos hlen]
      rfl
    · rw [if_neg ht] at hfind ⊢
      rw [ih x hfind hlen]
      rfl

/-- The data area of a 512-byte dump is made of whole blocks. -/
theorem length_gather_mod (t : TagV0) (d : List Byte) (hd : d.length = 512) :
    ∀ bs : List Nat, (∀ b ∈ bs, b < 64) → (gather t d bs).length % 8 = 0 := by
  intro bs
  induction bs with
  | nil => intro _; rfl
  | cons b bs ih =>
    intro hb
    have ih' := ih (fun x hx => hb x (List.mem_cons_of_mem _ hx))
    have hb64 := hb b (List.mem_cons_self _ _)
    rw [gather, List.length_append]
    split
    · rw [length_slice _ _ _ (by omega)]
      omega
    · rw [List.length_nil]
      omega

theorem length_dataAreaOf_mod (d : List Byte) (hd : d.length = 512) :
    (dataAreaOf d).length % 8 = 0 := by
  have h : dataAreaOf d = gather (ParseLockedArea TagV0.new d) d (List.range 64) :=
    ParseDataArea_eq_gather _ _
  rw [h]
  exact length_gather_mod _ d hd _ (fun b hb => List.mem_range.mp hb)

end TagV0

/-- **C2 (amended).** `TagV0::ToBytes` of the decoded, unmodified tag is the dump, byte
for byte, for every 512-byte version-0 dump that `TagV0::FromBytes` accepts and that is
canonical in these respects: the lock bits of blocks 0, 13, 14 and 15 are set; the data
area is the capability container, then the encodings `TLV::ToBytes` gives to a list of
TLVs (none NULL, a TERMINATOR only last and with an empty value), then
fewer than 8 zero bytes; the NDEF message decoded from the value of the first NDEF TLV
carries message-begin on its first record only and its records fill that value; and the
Unknown record is a short record exactly when its payload is shorter than 255 bytes. -/
theorem TagV0_FromBytes_ToBytes_canonical (d cc : List Byte) (ts : List TLV) (k : Nat)
    (ndefTlv : TLV) (msg : ndef.Message)
    (hacc : (TagV0.FromBytes d).isSome = true)
    (hres : (d.getD 0x70 0).val &&& 0x01 ≠ 0 ∧ (d.getD 0x71 0).val &&& 0x20 ≠ 0 ∧
      (d.getD 0x71 0).val &&& 0x40 ≠ 0 ∧ (d.getD 0x71 0).val &&& 0x80 ≠ 0)
    (hda : TagV0.dataAreaOf d = cc ++ TLV.encodeAll ts ++ zeros k)
    (hcc : cc.length = 4) (hk : k < 8)
    (hnull : ∀ t ∈ ts, t.mTag ≠ TLV.TAG_NULL)
    (hterm : ∀ pre t post, ts = pre ++ t :: post → t.mTag = TLV.TAG_TERMINATOR →
      post = [] ∧ t.mValue = [])
    (hndef : TagV0.findNdefTlv ts = some ndefTlv)
    (hmsg : ndef.Message.FromBytes ndefTlv.mValue = some msg)
    (hMB1 : ∀ r, msg.mRecords.head? = some r → r.mFlags &&& ndef.NDEF_MB ≠ 0)
    (hMB2 : ∀ r ∈ msg.mRecords.tail, r.mFlags &&& ndef.NDEF_MB = 0)
    (hfill : (ndef.Message.FromBytes.trace (ndefTlv.mValue.length + 1)
      (SpanStream.new ndefTlv.mValue) []).2.1.mPosition = ndefTlv.mValue.length)
    (hSR : ∀ rec, TagV0.findUnknownRecord msg.mRecords = some rec →
      (rec.IsShort = true ↔ rec.mPayload.length < 0xff)) :
    (TagV0.FromBytes d).bind TagV0.ToBytes = some d := by
  cases hdec : TagV0.FromBytes d with
  | none => rw [hdec] at hacc; cases hacc
  | some t =>
    show TagV0.ToBytes t = some d
    apply TagV0.ToBytes_FromBytes_of_canonical d t hdec hres
    obtain ⟨hlen512, ndefTlv', msg', rec, hcc', -, htlvs, -, hndef', hmsg', hmsgeq, hrec, -⟩ :=
      TagV0.FromBytes_some d t hdec
    -- every value is shorter than the dump
    have hlen : ∀ t ∈ ts, t.mValue.length < 65536 := by
      intro x hx
      have h1 := TLV.length_value_le_encodeAll ts hnull hterm x hx
      have h2 := TagV0.length_gather_add (TagV0.ParseLockedArea TagV0.new d) d (List.range 64)
      rw [List.length_range] at h2
      have h3 : TagV0.dataAreaOf d =
          TagV0.gather (TagV0.ParseLockedArea TagV0.new d) d (List.range 64) :=
        TagV0.ParseDataArea_eq_gather _ _
      rw [← h3, hda, List.length_append, List.length_append] at h2
      omega
    -- the TLVs and the capability container of the decoded tag
    have hdrop : (TagV0.dataAreaOf d).drop 4 = TLV.encodeAll ts ++ zeros k := by
      rw [hda, List.append_assoc, List.drop_left' hcc]
    have hTLVs : t.mTLVs = ts := by
      rw [htlvs, hdrop, TLV.FromBytes_eq_decodeL,
        TLV.decodeL_encodeAll_zeros ts k hnull hlen hterm]
      rfl
    have hCC : t.mCapabilityContainer = cc := by
      rw [hcc', hda, copy_n]
      have hs : slice (cc ++ TLV.encodeAll ts ++ zeros k) 0 4 = cc := by
        unfold slice
        rw [List.drop_zero, List.append_assoc, List.take_left' hcc]
      rw [hs]
      exact copyTo_zero_full cc (zeros 4) (by rw [length_zeros, hcc])
    -- the NDEF TLV, the message and the Unknown record
    rw [hTLVs, hndef] at hndef'
    have hnd : ndefTlv' = ndefTlv := (Option.some.inj hndef').symm
    subst hnd
    rw [hmsg] at hmsg'
    have hm : msg' = msg := (Option.some.inj hmsg').symm
    subst hm
    obtain ⟨rec', hrec', -, -, hdata, -⟩ := TagV0.FromBytes_mData d t hdec
    rw [hmsgeq, hrec] at hrec'
    have hr : rec' = rec := (Option.some.inj hrec').symm
    subst hr
    have hslice : slice t.mData 0 rec'.mPayload.length = rec'.mPayload := by
      rw [hdata]
      unfold slice
      rw [List.drop_zero, List.append_assoc, List.take_left' rfl]
    -- the re-encoded message and TLVs are the ones decoded
    have hupd : TagV0.updatePayload t.mData t.mNdefMessage.mRecords = msg'.mRecords := by
      rw [hmsgeq]
      exact TagV0.updatePayload_same t.mData _ rec' hrec hslice (hSR rec' hrec)
    have hval : ndef.Message.ToBytes { mRecords := msg'.mRecords } = ndefTlv'.mValue := by
      have h1 := ndef.Message.ToBytes_of_FromBytes ndefTlv'.mValue msg' hmsg hMB1 hMB2
      rw [hfill, List.take_length] at h1
      exact h1
    have hvlen : ndefTlv'.mValue.length < 0x10000 :=
      hlen ndefTlv' (TagV0.mem_findNdefTlv _ _ hndef)
    unfold TagV0.rebuiltDataArea
    rw [hupd, hval, hTLVs, TagV0.updateNdefTlv_same ts ndefTlv' hndef hvlen, hCC]
    show some (TagV0.packDataArea cc ts) = some (TagV0.dataAreaOf d)
    congr 1
    have hmod := TagV0.length_dataAreaOf_mod d hlen512
    have hl : (TagV0.dataAreaOf d).length = (cc ++ TLV.encodeAll ts).length + k := by
      rw [hda, List.length_append, length_zeros]
    unfold TagV0.packDataArea
    dsimp only
    rw [hda]
    have hpad : ((cc ++ TLV.encodeAll ts).length + 7) / 8 * 8 - (cc ++ TLV.encodeAll ts).length =
        k := by omega
    rw [hpad]

/-- Witness for the amended C2: the dump `exampleDumpV0 0x81 0`, whose data area is the
capability container, an NDEF TLV with one short record of 36 payload bytes, a
TERMINATOR and two zero bytes. -/
theorem TagV0_FromBytes_ToBytes_canonical_witness :
    TagV0.dataAreaOf (exampleDumpV0 0x81 0) =
      [0xe1, 0x10, 0x3f, 0x00] ++
      TLV.encodeAll [exampleNdefTlvV0, TLV.mk TLV.TAG_TERMINATOR []] ++ zeros 2 ∧
    ndef.Message.FromBytes exampleNdefTlvV0.mValue = some (ndef.Message.mk [exampleRecordV0]) ∧
    (TagV0.FromBytes (exampleDumpV0 0x81 0)).bind TagV0.ToBytes = some (exampleDumpV0 0x81 0) :=
  ⟨by decide!, by decide!,
    TagV0_FromBytes_ToBytes_canonical (exampleDumpV0 0x81 0) [0xe1, 0x10, 0x3f, 0x00]
      [exampleNdefTlvV0, TLV.mk TLV.TAG_TERMINATOR []] 2 exampleNdefTlvV0
      (ndef.Message.mk [exampleRecordV0])
      (by decide!) (by decide!) (by decide!) rfl (by decide) (by decide!)
      (by
        intro pre t post he ht
        rcases pre with _ | ⟨a, _ | ⟨b, pre⟩⟩
        · simp only [List.nil_append, List.cons.injEq] at he
          rw [← he.1] at ht
          exact absurd ht (by decide)
        · simp only [List.cons_append, List.nil_append, List.cons.injEq] at he
          exact ⟨he.2.2.symm, by rw [← he.2.1]⟩
        · simp at he)
      (by decide!) (by decide!)
      (fun r hr => by
        have h := Option.some.inj hr
        rw [← h]
        decide)
      (by decide!)
      (by decide!)
      (fun rec hrec => by
        have h0 : TagV0.findUnknownRecord (ndef.Message.mk [exampleRecordV0]).mRecords =
            some exampleRecordV0 := by decide!
        rw [h0] at hrec
        rw [← Option.some.inj hrec]
        decide!)⟩

/-- A canonical dump apart from its Unknown record, which is a short record with a
payload of 255 bytes: `TagV0::FromBytes` accepts it, `SetPayload` clears the
short-record flag of a payload that is not shorter than 255 bytes, and `TagV0::ToBytes`
writes the record in the long form, so the NDEF TLV (from offset 0x0c of the dump) comes
back three bytes longer and the dump is not restored. -/
theorem TagV0_short_record_255_not_restored :
    exampleDumpShort255.length = 512 ∧
    TagV0.dataAreaOf exampleDumpShort255 = exampleDataAreaShort255 ∧
    (TagV0.FromBytes exampleDumpShort255).isSome = true ∧
    slice exampleDumpShort255 0x0c 7 = [0x03, 0xff, 0x01, 0x02, 0xd5, 0x00, 0xff] ∧
    ((TagV0.FromBytes exampleDumpShort255).bind TagV0.ToBytes).map (fun e => slice e 0x0c 10) =
      some [0x03, 0xff, 0x01, 0x05, 0xc5, 0x00, 0x00, 0x00, 0x00, 0xff] ∧
    (TagV0.FromBytes exampleDumpShort255).bind TagV0.ToBytes ≠ some exampleDumpShort255 := by
  decide!

end Ntag
